import Mathlib

/-!
# Rucbase storage and execution core: a shallow embedding

The record manager (`RmFileHandle`, `RmScan`), the LRU replacer and the
four executors (sequential scan, nested-loop join, projection, update) are
transcribed from the C++ sources as pure state-passing functions.  C++ `int` values are unbounded `Int` (signed
overflow is undefined behaviour in the source and is not modelled); sizes
(`size_t`) are `Nat`.  A thrown exception is an `Except.error`; a mutator
returns its result together with the file state it leaves behind, since the
source mutates the handle in place even on the paths that throw later.
-/

namespace Rucbase

/-! ## Definitions: record manager -/

/-- One `char` of a record buffer. -/
abbrev Byte := Nat

/-- Record identifier `Rid{page_no, slot_no}` (both C++ `int`). -/
structure Rid where
  page_no : Int
  slot_no : Int
deriving DecidableEq, Repr

/-- An owned record buffer `RmRecord{size, data}`. -/
structure RmRecord where
  size : Nat
  data : List Byte
deriving DecidableEq, Repr

/-- The exceptions thrown by the record manager. -/
inductive RmError where
  | PageNotExistError (page_no : Int)
  | RecordNotFoundError (page_no : Int) (slot_no : Int)
  | InternalError (msg : String)
deriving DecidableEq, Repr

/-- Modelled from the spec: `RM_FIRST_RECORD_PAGE` (declared in the missing `rm_defs.h`);
the spec positions a fresh scanner "at or after page 0, slot 0". -/
def RM_FIRST_RECORD_PAGE : Int := 0

/-- Modelled from the spec: the file header `RmFileHdr` (declared in the missing
`rm_defs.h`): record size, records per page, bitmap size, page count, free-list head. -/
structure RmFileHdr where
  record_size : Nat
  num_pages : Int
  num_records_per_page : Int
  first_free_page_no : Int
  bitmap_size : Nat

/-- Modelled from the spec: the page header `RmPageHdr` (declared in the missing
`rm_defs.h`): link to the next free page and the occupied-slot count. -/
structure RmPageHdr where
  next_free_page_no : Int
  num_records : Int
deriving DecidableEq, Repr

/-- Modelled from the spec: the contents of one data page as seen through `RmPageHandle`
(missing `rm_file_handle.h`): the page header, the occupancy bitmap (one bit per slot
number) and the slot array (the bytes stored at each slot number). -/
structure RmPage where
  page_hdr : RmPageHdr
  bitmap : Int → Bool
  slots : Int → List Byte

/-- The handle state: the in-memory file header `file_hdr_` and the pages reachable
through `buffer_pool_manager_` for this file descriptor (page number to page contents). -/
structure RmFileHandle where
  file_hdr_ : RmFileHdr
  pages : Nat → Option RmPage

/-- A page handle: the page number of the pinned page and its contents. Writes made
through the handle are stored back with `RmFileHandle.put_page`. -/
structure RmPageHandle where
  page_no : Int
  page : RmPage

/-- `memcpy(dst, src, n)`: the first `n` bytes of `dst` are replaced by those of `src`. -/
def memcpy (dst src : List Byte) (n : Nat) : List Byte :=
  src.take n ++ dst.drop n

/-- Modelled from the spec: `Bitmap::is_set` of the missing `bitmap.h`. -/
def Bitmap.is_set (bm : Int → Bool) (pos : Int) : Bool := bm pos

/-- Modelled from the spec: `Bitmap::set` of the missing `bitmap.h`. -/
def Bitmap.set (bm : Int → Bool) (pos : Int) : Int → Bool :=
  fun i => if i = pos then true else bm i

/-- Modelled from the spec: `Bitmap::reset` of the missing `bitmap.h`. -/
def Bitmap.reset (bm : Int → Bool) (pos : Int) : Int → Bool :=
  fun i => if i = pos then false else bm i

/-- Modelled from the spec: the bit search of the missing `bitmap.h`, examining the `k`
positions `i, i+1, ...`; yields the first position whose bit equals `bit`, or `none`. -/
def Bitmap.search (bit : Bool) (bm : Int → Bool) : Nat → Int → Option Int
  | 0, _ => none
  | k + 1, i => if bm i = bit then some i else Bitmap.search bit bm k (i + 1)

/-- Modelled from the spec: `Bitmap::next_bit` of the missing `bitmap.h`: the first
position strictly after `curr` and below `max_n` whose bit equals `bit`; `max_n` when there
is none (`RmScan::next` tests the result against `num_records_per_page`). -/
def Bitmap.next_bit (bit : Bool) (bm : Int → Bool) (max_n : Int) (curr : Int) : Int :=
  match Bitmap.search bit bm (max_n - (curr + 1)).toNat (curr + 1) with
  | some i => i
  | none => max_n

/-- Modelled from the spec: `Bitmap::first_bit` of the missing `bitmap.h`: the
lowest-numbered position below `max_n` whose bit equals `bit`; `-1` when there is none
(`insert_record` tests the result against `-1` to raise its invariant violation). -/
def Bitmap.first_bit (bit : Bool) (bm : Int → Bool) (max_n : Int) : Int :=
  match Bitmap.search bit bm max_n.toNat 0 with
  | some i => i
  | none => -1

/-- `RmPageHandle::get_slot`: the bytes of slot `slot_no`. -/
def RmPageHandle.get_slot (ph : RmPageHandle) (slot_no : Int) : List Byte :=
  ph.page.slots slot_no

/-- `BufferPoolManager::fetch_page` for this file: the page, or `nullptr` (`none`).
No page has a negative number. -/
def RmFileHandle.fetch_page (fh : RmFileHandle) (page_no : Int) : Option RmPage :=
  if page_no < 0 then none else fh.pages page_no.toNat

/-- Store the contents written through a page handle back into the file. -/
def RmFileHandle.put_page (fh : RmFileHandle) (page_no : Int) (pg : RmPage) : RmFileHandle :=
  { fh with pages := fun k => if k = page_no.toNat then some pg else fh.pages k }

/-- `RmFileHandle::fetch_page_handle`. -/
def RmFileHandle.fetch_page_handle (fh : RmFileHandle) (page_no : Int) :
    Except RmError RmPageHandle :=
  if page_no ≥ fh.file_hdr_.num_pages then
    .error (.PageNotExistError page_no)
  else
    match fh.fetch_page page_no with
    | none => .error (.PageNotExistError page_no)
    | some page => .ok ⟨page_no, page⟩

/-- `RmFileHandle::get_record`: `none` is the `nullptr` returned for an unset slot. -/
def RmFileHandle.get_record (fh : RmFileHandle) (rid : Rid) :
    Except RmError (Option RmRecord) :=
  match fh.fetch_page_handle rid.page_no with
  | .error e => .error e
  | .ok page_handle =>
    if !Bitmap.is_set page_handle.page.bitmap rid.slot_no then
      .ok none
    else
      let record_pos := page_handle.get_slot rid.slot_no
      let data := memcpy (List.replicate fh.file_hdr_.record_size 0) record_pos
        fh.file_hdr_.record_size
      .ok (some ⟨fh.file_hdr_.record_size, data⟩)

/-- `BufferPoolManager::new_page` for this file: a zeroed page with the requested number,
or `nullptr` (`none`) when the number is negative. -/
def RmFileHandle.new_page (fh : RmFileHandle) (page_no : Int) : Option RmPage :=
  if page_no < 0 then none
  else some ⟨⟨0, 0⟩, fun _ => false, fun _ => List.replicate fh.file_hdr_.record_size 0⟩

/-- `RmFileHandle::create_new_page_handle`. -/
def RmFileHandle.create_new_page_handle (fh : RmFileHandle) :
    Except RmError RmPageHandle × RmFileHandle :=
  let new_page_no := fh.file_hdr_.num_pages
  match fh.new_page new_page_no with
  | none => (.error (.InternalError "Failed to create new page"), fh)
  | some page =>
    let page1 : RmPage :=
      { page with
        page_hdr := ⟨fh.file_hdr_.first_free_page_no, 0⟩
        bitmap := fun _ => false }
    let fh1 := fh.put_page new_page_no page1
    let fh2 : RmFileHandle :=
      { fh1 with
        file_hdr_ :=
          { fh1.file_hdr_ with
            first_free_page_no := fh.file_hdr_.num_pages
            num_pages := fh.file_hdr_.num_pages + 1 } }
    (.ok ⟨new_page_no, page1⟩, fh2)

/-- `RmFileHandle::create_page_handle`. -/
def RmFileHandle.create_page_handle (fh : RmFileHandle) :
    Except RmError RmPageHandle × RmFileHandle :=
  if fh.file_hdr_.first_free_page_no = -1 then
    fh.create_new_page_handle
  else
    (fh.fetch_page_handle fh.file_hdr_.first_free_page_no, fh)

/-- `RmFileHandle::insert_record(char* buf, Context*)`. -/
def RmFileHandle.insert_record (fh : RmFileHandle) (buf : List Byte) :
    Except RmError Rid × RmFileHandle :=
  match fh.create_page_handle with
  | (.error e, fh1) => (.error e, fh1)
  | (.ok page_handle, fh1) =>
    let free_slot_no :=
      Bitmap.first_bit false page_handle.page.bitmap fh1.file_hdr_.num_records_per_page
    if free_slot_no = -1 then
      (.error (.InternalError "No free slot found in page"), fh1)
    else
      let slot := page_handle.get_slot free_slot_no
      let page1 : RmPage :=
        { page_hdr :=
            { page_handle.page.page_hdr with
              num_records := page_handle.page.page_hdr.num_records + 1 }
          bitmap := Bitmap.set page_handle.page.bitmap free_slot_no
          slots := fun i =>
            if i = free_slot_no then memcpy slot buf fh1.file_hdr_.record_size
            else page_handle.page.slots i }
      let fh2 := fh1.put_page page_handle.page_no page1
      let fh3 : RmFileHandle :=
        if page1.page_hdr.num_records = fh2.file_hdr_.num_records_per_page then
          { fh2 with
            file_hdr_ :=
              { fh2.file_hdr_ with first_free_page_no := page1.page_hdr.next_free_page_no } }
        else fh2
      (.ok ⟨page_handle.page_no, free_slot_no⟩, fh3)

/-- `RmFileHandle::release_page_handle`: the page (already modified by the caller) is
linked at the head of the free-page list. -/
def RmFileHandle.release_page_handle (fh : RmFileHandle) (page_handle : RmPageHandle) :
    RmFileHandle :=
  let page1 : RmPage :=
    { page_handle.page with
      page_hdr :=
        { page_handle.page.page_hdr with
          next_free_page_no := fh.file_hdr_.first_free_page_no } }
  let fh1 := fh.put_page page_handle.page_no page1
  { fh1 with file_hdr_ := { fh1.file_hdr_ with first_free_page_no := page_handle.page_no } }

/-- `RmFileHandle::delete_record`. -/
def RmFileHandle.delete_record (fh : RmFileHandle) (rid : Rid) :
    Except RmError Unit × RmFileHandle :=
  match fh.fetch_page_handle rid.page_no with
  | .error e => (.error e, fh)
  | .ok page_handle =>
    if !Bitmap.is_set page_handle.page.bitmap rid.slot_no then
      (.error (.RecordNotFoundError rid.page_no rid.slot_no), fh)
    else
      let page1 : RmPage :=
        { page_handle.page with
          page_hdr :=
            { page_handle.page.page_hdr with
              num_records := page_handle.page.page_hdr.num_records - 1 }
          bitmap := Bitmap.reset page_handle.page.bitmap rid.slot_no }
      let fh1 := fh.put_page page_handle.page_no page1
      if page1.page_hdr.num_records = fh1.file_hdr_.num_records_per_page - 1 then
        (.ok (), fh1.release_page_handle ⟨page_handle.page_no, page1⟩)
      else
        (.ok (), fh1)

/-- `RmFileHandle::update_record`. -/
def RmFileHandle.update_record (fh : RmFileHandle) (rid : Rid) (buf : List Byte) :
    Except RmError Unit × RmFileHandle :=
  match fh.fetch_page_handle rid.page_no with
  | .error e => (.error e, fh)
  | .ok page_handle =>
    if !Bitmap.is_set page_handle.page.bitmap rid.slot_no then
      (.error (.RecordNotFoundError rid.page_no rid.slot_no), fh)
    else
      let slot := page_handle.get_slot rid.slot_no
      let page1 : RmPage :=
        { page_handle.page with
          slots := fun i =>
            if i = rid.slot_no then memcpy slot buf fh.file_hdr_.record_size
            else page_handle.page.slots i }
      (.ok (), fh.put_page page_handle.page_no page1)

/-! ## Definitions: table scanner -/

/-- `RmScan`: the scanned file (held by `const` pointer, never modified) and the cursor. -/
structure RmScan where
  file_handle_ : RmFileHandle
  rid_ : Rid

/-- The `while` loop of `RmScan::next`, unrolled at most `fuel` times; `none` means the
fuel ran out before the loop returned. -/
def RmScan.next_loop : Nat → RmScan → Option (Except RmError RmScan)
  | 0, _ => none
  | fuel + 1, s =>
    if s.rid_.page_no < s.file_handle_.file_hdr_.num_pages then
      match s.file_handle_.fetch_page_handle s.rid_.page_no with
      | .error e => some (.error e)
      | .ok page_handle =>
        let slot_no := Bitmap.next_bit true page_handle.page.bitmap
          s.file_handle_.file_hdr_.num_records_per_page s.rid_.slot_no
        if slot_no < s.file_handle_.file_hdr_.num_records_per_page then
          some (.ok { s with rid_ := ⟨s.rid_.page_no, slot_no⟩ })
        else
          RmScan.next_loop fuel { s with rid_ := ⟨s.rid_.page_no + 1, -1⟩ }
    else
      some (.ok s)

/-- `RmScan::next`: every iteration that does not return moves to the next page, so one
more iteration than the number of pages left is allowed. -/
def RmScan.next (s : RmScan) : Option (Except RmError RmScan) :=
  RmScan.next_loop ((s.file_handle_.file_hdr_.num_pages - s.rid_.page_no).toNat + 1) s

/-- The constructor `RmScan::RmScan`. -/
def RmScan.new (file_handle : RmFileHandle) : Option (Except RmError RmScan) :=
  RmScan.next ⟨file_handle, ⟨RM_FIRST_RECORD_PAGE, -1⟩⟩

/-- `RmScan::is_end`. -/
def RmScan.is_end (s : RmScan) : Bool :=
  decide (s.rid_.page_no ≥ s.file_handle_.file_hdr_.num_pages)

/-- `RmScan::rid`. -/
def RmScan.rid (s : RmScan) : Rid := s.rid_

/-- Calling `next()` until `is_end()`, collecting `rid()` before each call; at most `fuel`
Rids are collected and `none` means the fuel ran out before `is_end()` held. -/
def RmScan.collect : Nat → RmScan → Option (Except RmError (List Rid))
  | 0, _ => none
  | fuel + 1, s =>
    if s.is_end then some (.ok [])
    else
      match s.next with
      | none => none
      | some (.error e) => some (.error e)
      | some (.ok s1) =>
        match RmScan.collect fuel s1 with
        | none => none
        | some (.error e) => some (.error e)
        | some (.ok rest) => some (.ok (s.rid :: rest))

/-- Construct a scanner over `fh` and drive it to the end. -/
def scan_rids (fuel : Nat) (fh : RmFileHandle) : Option (Except RmError (List Rid)) :=
  match RmScan.new fh with
  | none => none
  | some (.error e) => some (.error e)
  | some (.ok s) => RmScan.collect fuel s

/-- The slots `i, i+1, ..., i+k-1` of a bitmap whose bit is set, ascending. -/
def setSlots (bm : Int → Bool) : Nat → Int → List Int
  | 0, _ => []
  | k + 1, i => if bm i then i :: setSlots bm k (i + 1) else setSlots bm k (i + 1)

/-- The occupied Rids of page `p` with slot number at least `i`, ascending (none when the
page is missing). -/
def pageRidsFrom (fh : RmFileHandle) (p : Nat) (i : Int) : List Rid :=
  match fh.pages p with
  | none => []
  | some pg =>
    (setSlots pg.bitmap (fh.file_hdr_.num_records_per_page - i).toNat i).map
      (fun s => (⟨(p : Int), s⟩ : Rid))

/-- The occupied Rids of the pages `p, p+1, ..., p+d-1`, page-major. -/
def ridsOfPages (fh : RmFileHandle) : Nat → Nat → List Rid
  | 0, _ => []
  | d + 1, p => pageRidsFrom fh p 0 ++ ridsOfPages fh d (p + 1)

/-- The occupied Rids strictly after slot `c` of page `p`, through the `d` pages from
`p` on (what a scanner positioned at `(p, c)` has still to visit). -/
def ridsAfter (fh : RmFileHandle) : Nat → Nat → Int → List Rid
  | 0, _, _ => []
  | d + 1, p, c => pageRidsFrom fh p (c + 1) ++ ridsOfPages fh d (p + 1)

/-- Every occupied Rid of the file: page ascending, then slot ascending. -/
def occupiedRids (fh : RmFileHandle) : List Rid :=
  ridsOfPages fh fh.file_hdr_.num_pages.toNat 0

/-- The Rid `rid` addresses an occupied slot of an existing page of the file. -/
def RmFileHandle.occupied (fh : RmFileHandle) (rid : Rid) : Prop :=
  0 ≤ rid.page_no ∧ rid.page_no < fh.file_hdr_.num_pages ∧
  0 ≤ rid.slot_no ∧ rid.slot_no < fh.file_hdr_.num_records_per_page ∧
  ∃ pg, fh.pages rid.page_no.toNat = some pg ∧ pg.bitmap rid.slot_no = true

/-- Page-then-slot order on Rids. -/
def Rid.lt (a b : Rid) : Prop :=
  a.page_no < b.page_no ∨ (a.page_no = b.page_no ∧ a.slot_no < b.slot_no)

/-- Every page number below the header's page count is present in the file. -/
def RmFileHandle.pagesPresent (fh : RmFileHandle) : Prop :=
  ∀ p : Nat, (p : Int) < fh.file_hdr_.num_pages → (fh.pages p).isSome = true

/-- A one-page-per-bitmap file for examples: page `k` carries the `k`-th bitmap of `bms`
(given as its list of bits, slot 0 first), `n` slots per page, empty free list. -/
def fileOfBitmaps (n : Int) (bms : List (List Bool)) : RmFileHandle :=
  { file_hdr_ := ⟨4, bms.length, n, -1, 1⟩
    pages := fun k =>
      match bms.get? k with
      | none => none
      | some bits =>
        some ⟨⟨-1, (bits.filter id).length⟩,
          fun i => if i < 0 then false else bits.getD i.toNat false,
          fun _ => [0, 0, 0, 0]⟩ }

/-! ## Definitions: LRU replacer -/

/-- `frame_id_t` (a 32-bit `int` in the source). -/
abbrev frame_id_t := Int

/-- `LRUReplacer`: `LRUlist_` with the front of the `std::list` at the head, `LRUhash_`
from frame id to list iterator, and `max_size_`.  A list iterator is represented by the
frame id held in the node it points to (nodes are never modified in place and iterators
of a `std::list` stay valid until their own node is erased). -/
structure LRUReplacer where
  LRUlist_ : List frame_id_t
  LRUhash_ : frame_id_t → Option frame_id_t
  max_size_ : Nat

/-- The constructor `LRUReplacer::LRUReplacer(num_pages)`. -/
def LRUReplacer.new (num_pages : Nat) : LRUReplacer :=
  ⟨[], fun _ => none, num_pages⟩

/-- `LRUReplacer::Size`. -/
def LRUReplacer.Size (r : LRUReplacer) : Nat := r.LRUlist_.length

/-- `LRUhash_.erase(key)`. -/
def LRUReplacer.hash_erase (h : frame_id_t → Option frame_id_t) (key : frame_id_t) :
    frame_id_t → Option frame_id_t :=
  fun k => if k = key then none else h k

/-- `LRUReplacer::victim`: `none` is the result `false` (with `*frame_id` untouched),
`some f` is the result `true` with `*frame_id = f`. -/
def LRUReplacer.victim (r : LRUReplacer) : Option frame_id_t × LRUReplacer :=
  match r.LRUlist_.getLast? with
  | none => (none, r)
  | some frame_id =>
    (some frame_id,
      { r with
        LRUlist_ := r.LRUlist_.dropLast
        LRUhash_ := LRUReplacer.hash_erase r.LRUhash_ frame_id })

/-- `LRUReplacer::pin`. -/
def LRUReplacer.pin (r : LRUReplacer) (frame_id : frame_id_t) : LRUReplacer :=
  match r.LRUhash_ frame_id with
  | some it =>
    { r with
      LRUlist_ := r.LRUlist_.erase it
      LRUhash_ := LRUReplacer.hash_erase r.LRUhash_ frame_id }
  | none => r

/-- The `while (Size() > max_size_)` loop of `LRUReplacer::unpin`, unrolled at most `fuel`
times; `none` means the fuel ran out before the loop exited. -/
def LRUReplacer.unpin_loop : Nat → LRUReplacer → Option LRUReplacer
  | 0, _ => none
  | fuel + 1, r =>
    if r.Size > r.max_size_ then
      match r.LRUlist_.getLast? with
      | none => none
      | some victim_id =>
        LRUReplacer.unpin_loop fuel
          { r with
            LRUlist_ := r.LRUlist_.dropLast
            LRUhash_ := LRUReplacer.hash_erase r.LRUhash_ victim_id }
    else some r

/-- `LRUReplacer::unpin`: every iteration of the loop shortens the list, so one more
iteration than the length of the list is allowed. -/
def LRUReplacer.unpin (r : LRUReplacer) (frame_id : frame_id_t) : Option LRUReplacer :=
  if (r.LRUhash_ frame_id).isNone then
    let r1 : LRUReplacer :=
      { r with
        LRUlist_ := frame_id :: r.LRUlist_
        LRUhash_ := fun k => if k = frame_id then some frame_id else r.LRUhash_ k }
    LRUReplacer.unpin_loop (r1.Size + 1) r1
  else some r

/-- The representation invariant of the replacer: no frame occurs twice in the list, and
the map holds exactly the frames of the list, each key mapped to its own node. -/
def LRUReplacer.Inv (r : LRUReplacer) : Prop :=
  r.LRUlist_.Nodup ∧
  (∀ k, k ∈ r.LRUlist_ → r.LRUhash_ k = some k) ∧
  (∀ k it, r.LRUhash_ k = some it → it = k ∧ k ∈ r.LRUlist_)

/-- One call on the replacer. -/
inductive ReplacerOp where
  | pin (frame_id : frame_id_t)
  | unpin (frame_id : frame_id_t)
  | victim
deriving DecidableEq, Repr

/-- Run a sequence of calls; the results of the `victim()` calls are collected in call
order. `none` only if some `unpin` ran out of fuel. -/
def LRUReplacer.run : List ReplacerOp → LRUReplacer →
    Option (List (Option frame_id_t) × LRUReplacer)
  | [], r => some ([], r)
  | .pin f :: ops, r => LRUReplacer.run ops (r.pin f)
  | .unpin f :: ops, r =>
    match r.unpin f with
    | none => none
    | some r1 => LRUReplacer.run ops r1
  | .victim :: ops, r =>
    match LRUReplacer.run ops r.victim.2 with
    | none => none
    | some (vs, r1) => some (r.victim.1 :: vs, r1)

/-! ## Definitions: executors -/

/-- Modelled from the spec: the declared column types (`ColType` of the missing `defs.h`). -/
inductive ColType where
  | TYPE_INT
  | TYPE_FLOAT
  | TYPE_STRING
deriving DecidableEq, Repr

/-- Modelled from the spec: a column reference `TabCol{tab_name, col_name}`. -/
structure TabCol where
  tab_name : String
  col_name : String
deriving DecidableEq, Repr

/-- Modelled from the spec: `ColMeta`: name, declared type, byte length and byte offset
within a record. -/
structure ColMeta where
  tab_name : String
  name : String
  type : ColType
  len : Nat
  offset : Nat
deriving DecidableEq, Repr

/-- Modelled from the spec: the comparison operators `{=, ≠, <, >, ≤, ≥}` (`CompOp`). -/
inductive CompOp where
  | OP_EQ
  | OP_NE
  | OP_LT
  | OP_GT
  | OP_LE
  | OP_GE
deriving DecidableEq, Repr

/-- Modelled from the spec: a literal `Value`: its declared type, its payload and the
fixed-width encoding `raw` once it has been produced (`nullptr` before). -/
structure Value where
  type : ColType
  int_val : Int
  str_val : List Byte
  raw : Option RmRecord
deriving DecidableEq, Repr

/-- Modelled from the spec: `Condition`: a left column, an operator and a right operand
that is a literal (`is_rhs_val`) or another column. -/
structure Condition where
  lhs_col : TabCol
  op : CompOp
  is_rhs_val : Bool
  rhs_col : TabCol
  rhs_val : Value
deriving DecidableEq, Repr

/-- The exceptions thrown by the executors. -/
inductive ExecError where
  | IncompatibleTypeError (lhs : ColType) (rhs : ColType)
  | ColumnNotFoundError (name : String)
  | InternalError (msg : String)
  | StringOverflowError
deriving DecidableEq, Repr

/-- The helpers the executors call whose definitions are in headers outside the sources at
hand: `ix_compare(a, b, type, len)` of `ix_index_handle.h` (the type-aware three-way
comparison of two encodings, given as the bytes from each pointer on) and
`Value::init_raw(len)` of `defs.h` (the fixed-width encoding of a literal, which may throw). -/
structure ExecEnv where
  ix_compare : List Byte → List Byte → ColType → Nat → Int
  init_raw : Value → Nat → Except ExecError RmRecord

/-- Modelled from the spec: `AbstractExecutor::get_col` of the missing
`executor_abstract.h`: the first column of `rec_cols` with the target's table and column
name; an unknown column is a column-not-found error. -/
def get_col (rec_cols : List ColMeta) (target : TabCol) : Except ExecError ColMeta :=
  match rec_cols.find? (fun col => col.tab_name = target.tab_name ∧ col.name = target.col_name) with
  | some col => .ok col
  | none => .error (.ColumnNotFoundError (target.tab_name ++ "." ++ target.col_name))

/-- `memcpy(dst + off, src, n)`: `n` bytes of `src` are written into `dst` at offset `off`. -/
def memcpy_at (dst : List Byte) (off : Nat) (src : List Byte) (n : Nat) : List Byte :=
  dst.take off ++ memcpy (dst.drop off) src n

/-- Modelled from the spec: a finite child executor under the shared iterator contract of
`AbstractExecutor` (missing `executor_abstract.h`): it yields the tuples `rows` in order,
`pos` is the cursor, `len` is `tupleLen()` and `cols` is `cols()`. -/
structure ChildExecutor where
  rows : List RmRecord
  pos : Nat
  len : Nat
  cols : List ColMeta
deriving DecidableEq, Repr

/-- `beginTuple()` of a child: position at the first tuple. -/
def ChildExecutor.beginTuple (c : ChildExecutor) : ChildExecutor := { c with pos := 0 }

/-- `nextTuple()` of a child: move past the current tuple. -/
def ChildExecutor.nextTuple (c : ChildExecutor) : ChildExecutor := { c with pos := c.pos + 1 }

/-- `is_end()` of a child. -/
def ChildExecutor.is_end (c : ChildExecutor) : Bool := decide (c.rows.length ≤ c.pos)

/-- `Next()` of a child: a copy of the current tuple, `nullptr` at the end. -/
def ChildExecutor.Next (c : ChildExecutor) : Option RmRecord := c.rows.get? c.pos

/-- `NestedLoopJoinExecutor`. -/
structure NestedLoopJoinExecutor where
  left_ : ChildExecutor
  right_ : ChildExecutor
  len_ : Nat
  cols_ : List ColMeta
  fed_conds_ : List Condition
  isend : Bool
deriving DecidableEq, Repr

/-- The constructor of `NestedLoopJoinExecutor`. -/
def NestedLoopJoinExecutor.new (left right : ChildExecutor) (conds : List Condition) :
    NestedLoopJoinExecutor :=
  let right_cols := right.cols.map (fun col => { col with offset := col.offset + left.len })
  { left_ := left
    right_ := right
    len_ := left.len + right.len
    cols_ := left.cols ++ right_cols
    fed_conds_ := conds
    isend := false }

/-- The final `switch (cond.op)` of `eval_cond` on the result of `ix_compare`; its
`default` branch cannot be taken, `CompOp` having exactly these six enumerators. -/
def eval_op (op : CompOp) (cmp_result : Int) : Bool :=
  match op with
  | .OP_EQ => decide (cmp_result = 0)
  | .OP_NE => decide (cmp_result ≠ 0)
  | .OP_LT => decide (cmp_result < 0)
  | .OP_GT => decide (cmp_result > 0)
  | .OP_LE => decide (cmp_result ≤ 0)
  | .OP_GE => decide (cmp_result ≥ 0)

/-- `NestedLoopJoinExecutor::eval_cond`; `left_len` is `left_->tupleLen()`. -/
def NestedLoopJoinExecutor.eval_cond (env : ExecEnv) (left_len : Nat)
    (lhs_rec rhs_rec : RmRecord) (cond : Condition) (rec_cols : List ColMeta) :
    Except ExecError Bool :=
  match get_col rec_cols cond.lhs_col with
  | .error e => .error e
  | .ok lhs_col_it =>
    let lhs_type := lhs_col_it.type
    let lhs_len := lhs_col_it.len
    let lhs_data :=
      if lhs_col_it.offset < left_len then lhs_rec.data.drop lhs_col_it.offset
      else rhs_rec.data.drop (lhs_col_it.offset - left_len)
    let rhs : Except ExecError (List Byte × ColType) :=
      if cond.is_rhs_val then
        match cond.rhs_val.raw with
        | some raw => .ok (raw.data, cond.rhs_val.type)
        | none =>
          match env.init_raw cond.rhs_val lhs_len with
          | .error e => .error e
          | .ok raw => .ok (raw.data, cond.rhs_val.type)
      else
        match get_col rec_cols cond.rhs_col with
        | .error e => .error e
        | .ok rhs_col_it =>
          if rhs_col_it.offset < left_len then
            .ok (lhs_rec.data.drop rhs_col_it.offset, rhs_col_it.type)
          else
            .ok (rhs_rec.data.drop (rhs_col_it.offset - left_len), rhs_col_it.type)
    match rhs with
    | .error e => .error e
    | .ok (rhs_data, rhs_type) =>
      if lhs_type ≠ rhs_type then
        .error (.IncompatibleTypeError lhs_type rhs_type)
      else
        let cmp_result := env.ix_compare lhs_data rhs_data lhs_type lhs_len
        .ok (eval_op cond.op cmp_result)

/-- `NestedLoopJoinExecutor::eval_conds`: `std::all_of`, which stops at the first condition
that is false (and at the first that throws). -/
def NestedLoopJoinExecutor.eval_conds (env : ExecEnv) (left_len : Nat)
    (lhs_rec rhs_rec : RmRecord) : List Condition → List ColMeta → Except ExecError Bool
  | [], _ => .ok true
  | cond :: conds, rec_cols =>
    match NestedLoopJoinExecutor.eval_cond env left_len lhs_rec rhs_rec cond rec_cols with
    | .error e => .error e
    | .ok false => .ok false
    | .ok true => NestedLoopJoinExecutor.eval_conds env left_len lhs_rec rhs_rec conds rec_cols

/-- The `while` loop of `findNextValidPair`, unrolled at most `fuel` times; `none` means
the fuel ran out before the loop returned. -/
def NestedLoopJoinExecutor.findNextValidPair_loop (env : ExecEnv) :
    Nat → NestedLoopJoinExecutor → Option (Except ExecError NestedLoopJoinExecutor)
  | 0, _ => none
  | fuel + 1, j =>
    if !j.left_.is_end && !j.right_.is_end then
      match j.left_.Next, j.right_.Next with
      | some left_record, some right_record =>
        match NestedLoopJoinExecutor.eval_conds env j.left_.len left_record right_record
            j.fed_conds_ j.cols_ with
        | .error e => some (.error e)
        | .ok true => some (.ok j)
        | .ok false =>
          if !j.right_.is_end then
            let right1 := j.right_.nextTuple
            if right1.is_end then
              let left1 := j.left_.nextTuple
              if !left1.is_end then
                NestedLoopJoinExecutor.findNextValidPair_loop env fuel
                  { j with left_ := left1, right_ := right1.beginTuple }
              else
                NestedLoopJoinExecutor.findNextValidPair_loop env fuel
                  { j with left_ := left1, right_ := right1 }
            else
              NestedLoopJoinExecutor.findNextValidPair_loop env fuel { j with right_ := right1 }
          else
            let left1 := j.left_.nextTuple
            if !left1.is_end then
              NestedLoopJoinExecutor.findNextValidPair_loop env fuel
                { j with left_ := left1, right_ := j.right_.beginTuple }
            else
              NestedLoopJoinExecutor.findNextValidPair_loop env fuel { j with left_ := left1 }
      | _, _ => some (.ok { j with isend := true })
    else
      some (.ok { j with isend := true })

/-- `findNextValidPair`: every iteration that does not return moves to a later pair of the
left-major enumeration, so one more iteration than the number of pairs is allowed. -/
def NestedLoopJoinExecutor.findNextValidPair (env : ExecEnv) (j : NestedLoopJoinExecutor) :
    Option (Except ExecError NestedLoopJoinExecutor) :=
  NestedLoopJoinExecutor.findNextValidPair_loop env
    (j.left_.rows.length * j.right_.rows.length + 1) j

/-- `NestedLoopJoinExecutor::beginTuple`. -/
def NestedLoopJoinExecutor.beginTuple (env : ExecEnv) (j : NestedLoopJoinExecutor) :
    Option (Except ExecError NestedLoopJoinExecutor) :=
  let left1 := j.left_.beginTuple
  let right1 := j.right_.beginTuple
  let j1 : NestedLoopJoinExecutor :=
    { j with left_ := left1, right_ := right1, isend := left1.is_end || right1.is_end }
  if !j1.isend then j1.findNextValidPair env else some (.ok j1)

/-- `NestedLoopJoinExecutor::nextTuple`. -/
def NestedLoopJoinExecutor.nextTuple (env : ExecEnv) (j : NestedLoopJoinExecutor) :
    Option (Except ExecError NestedLoopJoinExecutor) :=
  let advance_left (j0 : NestedLoopJoinExecutor) :
      Option (Except ExecError NestedLoopJoinExecutor) :=
    let left1 := j0.left_.nextTuple
    if !left1.is_end then
      NestedLoopJoinExecutor.findNextValidPair env
        { j0 with left_ := left1, right_ := j0.right_.beginTuple }
    else
      some (.ok { j0 with left_ := left1, isend := true })
  if !j.right_.is_end then
    let j1 : NestedLoopJoinExecutor := { j with right_ := j.right_.nextTuple }
    if !j1.right_.is_end then j1.findNextValidPair env else advance_left j1
  else advance_left j

/-- `NestedLoopJoinExecutor::Next`: the record (or `nullptr`) and the executor, whose
`isend` the call may set. -/
def NestedLoopJoinExecutor.Next (j : NestedLoopJoinExecutor) :
    Option RmRecord × NestedLoopJoinExecutor :=
  if j.isend then (none, j)
  else
    match j.left_.Next, j.right_.Next with
    | some left_record, some right_record =>
      let result0 := List.replicate j.len_ 0
      let result1 := memcpy_at result0 0 left_record.data j.left_.len
      let result2 := memcpy_at result1 j.left_.len right_record.data j.right_.len
      (some ⟨j.len_, result2⟩, j)
    | _, _ => (none, { j with isend := true })

/-- `NestedLoopJoinExecutor::is_end`. -/
def NestedLoopJoinExecutor.is_end (j : NestedLoopJoinExecutor) : Bool := j.isend

/-- Modelled from the spec: the top-level pull loop (§5) after `open`: while not `done`,
`materialize` then `advance`; the materialized results are collected. At most `fuel`
results are collected and `none` means the fuel ran out before `done` held. -/
def NestedLoopJoinExecutor.drain (env : ExecEnv) :
    Nat → NestedLoopJoinExecutor → Option (Except ExecError (List (Option RmRecord)))
  | 0, _ => none
  | fuel + 1, j =>
    if j.is_end then some (.ok [])
    else
      match j.Next with
      | (rec, j1) =>
        match j1.nextTuple env with
        | none => none
        | some (.error e) => some (.error e)
        | some (.ok j2) =>
          match NestedLoopJoinExecutor.drain env fuel j2 with
          | none => none
          | some (.error e) => some (.error e)
          | some (.ok rest) => some (.ok (rec :: rest))

/-- Modelled from the spec: the whole pull loop (§5): `open`, then `materialize`/`advance`
until `done`. -/
def NestedLoopJoinExecutor.execute (env : ExecEnv) (fuel : Nat) (j : NestedLoopJoinExecutor) :
    Option (Except ExecError (List (Option RmRecord))) :=
  match j.beginTuple env with
  | none => none
  | some (.error e) => some (.error e)
  | some (.ok j1) => NestedLoopJoinExecutor.drain env fuel j1

/-- The pairs `(l, r)` with `l` among `ls` and `r` among `rs` on which `p` holds, in
left-major order. -/
def joinPairs (p : RmRecord → RmRecord → Bool) (ls rs : List RmRecord) :
    List (RmRecord × RmRecord) :=
  match ls with
  | [] => []
  | l :: ls1 => ((rs.filter (fun r => p l r)).map (fun r => (l, r))) ++ joinPairs p ls1 rs

/-- The pair `(l, r)` satisfies every join condition of `j`. -/
def NestedLoopJoinExecutor.satisfies (env : ExecEnv) (j : NestedLoopJoinExecutor)
    (l r : RmRecord) : Bool :=
  match NestedLoopJoinExecutor.eval_conds env j.left_.len l r j.fed_conds_ j.cols_ with
  | .ok true => true
  | _ => false

/-- The join executor over `left` and `right` with the children positioned at `i` and `k`
and the end flag `b`. -/
def joinState (left right : ChildExecutor) (conds : List Condition) (i k : Nat) (b : Bool) :
    NestedLoopJoinExecutor :=
  { NestedLoopJoinExecutor.new left right conds with
    left_ := { left with pos := i }
    right_ := { right with pos := k }
    isend := b }

/-- The pairs of `joinPairs p ls rs` from the `i`-th left tuple and the `k`-th right tuple
on (what a join positioned there has still to yield). -/
def pairsFrom (p : RmRecord → RmRecord → Bool) (ls rs : List RmRecord) (i k : Nat) :
    List (RmRecord × RmRecord) :=
  match ls.get? i with
  | none => []
  | some l => ((rs.drop k).filter (fun r => p l r)).map (fun r => (l, r)) ++
      joinPairs p (ls.drop (i + 1)) rs

/-- The record a join of record length `len` yields for the pair `(l, r)`: the left bytes
followed by the right bytes. -/
def joinOut (len : Nat) (lr : RmRecord × RmRecord) : Option RmRecord :=
  some ⟨len, lr.1.data ++ lr.2.data⟩

/-- Modelled from the spec: the little-endian two's-complement value of the first `len`
bytes, for "numeric types compare as signed numbers of their declared width". -/
def decode_int (data : List Byte) (len : Nat) : Int :=
  let u : Nat := (data.take len).foldr (fun (b acc : Nat) => b % 256 + 256 * acc) 0
  if u < 2 ^ (8 * len - 1) then (u : Int) else (u : Int) - 2 ^ (8 * len)

/-- Modelled from the spec: byte-by-byte lexicographic three-way comparison of the first
`len` bytes, for fixed-length character types. -/
def compare_bytes : List Byte → List Byte → Nat → Int
  | _, _, 0 => 0
  | [], [], _ + 1 => 0
  | [], _ :: _, _ + 1 => -1
  | _ :: _, [], _ + 1 => 1
  | a :: as, b :: bs, k + 1 =>
    if a < b then -1 else if a > b then 1 else compare_bytes as bs k

/-- Modelled from the spec: `ix_compare` of the missing `ix_index_handle.h` on integer and
character columns (floating-point columns are not modelled and compare as equal). -/
def spec_ix_compare (a b : List Byte) (type : ColType) (len : Nat) : Int :=
  match type with
  | .TYPE_INT =>
    if decode_int a len < decode_int b len then -1
    else if decode_int a len > decode_int b len then 1 else 0
  | .TYPE_FLOAT => 0
  | .TYPE_STRING => compare_bytes a b len

/-- The environment used by the examples: `spec_ix_compare`, and literals that are always
pre-encoded (`init_raw` is never reached). -/
def specEnv : ExecEnv :=
  { ix_compare := spec_ix_compare
    init_raw := fun _ _ => .error (.InternalError "init_raw") }

/-- Little-endian encoding of a small non-negative integer in 4 bytes. -/
def enc4 (n : Nat) : List Byte := [n % 256, n / 256 % 256, n / 65536 % 256, n / 16777216 % 256]

/-- The example table `T(a:int, b:int)` with rows `(1,10)` and `(2,20)`, under the name `tab`. -/
def exampleT (tab : String) : ChildExecutor :=
  { rows := [⟨8, enc4 1 ++ enc4 10⟩, ⟨8, enc4 2 ++ enc4 20⟩]
    pos := 0
    len := 8
    cols := [⟨tab, "a", .TYPE_INT, 4, 0⟩, ⟨tab, "b", .TYPE_INT, 4, 4⟩] }

/-- The example join `NestedLoopJoin(T as L, T as R, L.a = R.a)`. -/
def exampleJoin : NestedLoopJoinExecutor :=
  NestedLoopJoinExecutor.new (exampleT "L") (exampleT "R")
    [⟨⟨"L", "a"⟩, .OP_EQ, false, ⟨"R", "a"⟩, ⟨.TYPE_INT, 0, [], none⟩⟩]

/-! ## Definitions: sequential scan executor -/

/-- Any exception that can leave an executor working on a heap file: one thrown by the
record manager or one thrown by the executor itself. -/
inductive DbError where
  | storage (e : RmError)
  | exec (e : ExecError)
deriving DecidableEq, Repr

/-- `SeqScanExecutor`: the conditions, the table's file handle and columns (what the
constructor obtains from the catalog), the record length, the current Rid and the
table iterator `scan_` (`nullptr` until `beginTuple`). -/
structure SeqScanExecutor where
  conds_ : List Condition
  fh_ : RmFileHandle
  cols_ : List ColMeta
  len_ : Nat
  fed_conds_ : List Condition
  rid_ : Rid
  scan_ : Option RmScan

/-- The constructor of `SeqScanExecutor`, given the file handle and the columns of the
table; `len_` is `cols_.back().offset + cols_.back().len`. The current Rid is
indeterminate until `beginTuple` sets it. -/
def SeqScanExecutor.new (fh : RmFileHandle) (cols : List ColMeta) (conds : List Condition) :
    SeqScanExecutor :=
  { conds_ := conds
    fh_ := fh
    cols_ := cols
    len_ := match cols.getLast? with
      | some col => col.offset + col.len
      | none => 0
    fed_conds_ := conds
    rid_ := ⟨0, 0⟩
    scan_ := none }

/-- The `std::find_if` of `SeqScanExecutor::eval_cond`: the first column whose name is the
operand's column name (the table name is not compared). -/
def SeqScanExecutor.find_col (rec_cols : List ColMeta) (target : TabCol) :
    Except ExecError ColMeta :=
  match rec_cols.find? (fun col_meta => col_meta.name = target.col_name) with
  | some col => .ok col
  | none => .error (.ColumnNotFoundError (target.tab_name ++ "." ++ target.col_name))

/-- `SeqScanExecutor::eval_cond`. The record pointer may be null (`none`); the source
dereferences it right after the left column is found, which the model reports as an
internal error (no path from an occupied Rid reaches it). -/
def SeqScanExecutor.eval_cond (env : ExecEnv) (rec : Option RmRecord) (cond : Condition)
    (rec_cols : List ColMeta) : Except ExecError Bool :=
  match SeqScanExecutor.find_col rec_cols cond.lhs_col with
  | .error e => .error e
  | .ok lhs_col_it =>
    match rec with
    | none => .error (.InternalError "null record")
    | some rec =>
      let lhs_data := rec.data.drop lhs_col_it.offset
      let lhs_type := lhs_col_it.type
      let lhs_len := lhs_col_it.len
      let rhs : Except ExecError (List Byte × ColType) :=
        if cond.is_rhs_val then
          match cond.rhs_val.raw with
          | some raw => .ok (raw.data, cond.rhs_val.type)
          | none =>
            match env.init_raw cond.rhs_val lhs_len with
            | .error e => .error e
            | .ok raw => .ok (raw.data, cond.rhs_val.type)
        else
          match SeqScanExecutor.find_col rec_cols cond.rhs_col with
          | .error e => .error e
          | .ok rhs_col_it => .ok (rec.data.drop rhs_col_it.offset, rhs_col_it.type)
      match rhs with
      | .error e => .error e
      | .ok (rhs_data, rhs_type) =>
        if lhs_type ≠ rhs_type then
          .error (.IncompatibleTypeError lhs_type rhs_type)
        else
          let cmp_result := env.ix_compare lhs_data rhs_data lhs_type lhs_len
          .ok (eval_op cond.op cmp_result)

/-- `SeqScanExecutor::eval_conds`: `std::all_of`, which stops at the first condition that
is false (and at the first that throws). -/
def SeqScanExecutor.eval_conds (env : ExecEnv) (rec : Option RmRecord) :
    List Condition → List ColMeta → Except ExecError Bool
  | [], _ => .ok true
  | cond :: conds, rec_cols =>
    match SeqScanExecutor.eval_cond env rec cond rec_cols with
    | .error e => .error e
    | .ok false => .ok false
    | .ok true => SeqScanExecutor.eval_conds env rec conds rec_cols

/-- The `while (!scan_->is_end())` loop shared by `beginTuple` and `nextTuple` (the two
loops are the same text), run on the iterator `scan` and unrolled at most `fuel` times;
`none` means the fuel ran out before the loop returned. -/
def SeqScanExecutor.scan_loop (env : ExecEnv) :
    Nat → SeqScanExecutor → RmScan → Option (Except DbError SeqScanExecutor)
  | 0, _, _ => none
  | fuel + 1, ex, scan =>
    if !scan.is_end then
      let rid := scan.rid
      match ex.fh_.get_record rid with
      | .error e => some (.error (.storage e))
      | .ok record =>
        match SeqScanExecutor.eval_conds env record ex.fed_conds_ ex.cols_ with
        | .error e => some (.error (.exec e))
        | .ok true => some (.ok { ex with rid_ := rid, scan_ := some scan })
        | .ok false =>
          match scan.next with
          | none => none
          | some (.error e) => some (.error (.storage e))
          | some (.ok scan1) => SeqScanExecutor.scan_loop env fuel { ex with rid_ := rid } scan1
    else
      some (.ok { ex with scan_ := some scan })

/-- The fuel given to `scan_loop`: every iteration that does not return moves the iterator
to the next occupied Rid, so one more iteration than there are occupied Rids is allowed. -/
def SeqScanExecutor.loop_fuel (ex : SeqScanExecutor) : Nat :=
  (occupiedRids ex.fh_).length + 1

/-- `SeqScanExecutor::beginTuple`. -/
def SeqScanExecutor.beginTuple (env : ExecEnv) (ex : SeqScanExecutor) :
    Option (Except DbError SeqScanExecutor) :=
  match RmScan.new ex.fh_ with
  | none => none
  | some (.error e) => some (.error (.storage e))
  | some (.ok scan) => SeqScanExecutor.scan_loop env ex.loop_fuel ex scan

/-- `SeqScanExecutor::nextTuple`. -/
def SeqScanExecutor.nextTuple (env : ExecEnv) (ex : SeqScanExecutor) :
    Option (Except DbError SeqScanExecutor) :=
  match ex.scan_ with
  | none => some (.ok ex)
  | some scan =>
    match scan.next with
    | none => none
    | some (.error e) => some (.error (.storage e))
    | some (.ok scan1) => SeqScanExecutor.scan_loop env ex.loop_fuel ex scan1

/-- `SeqScanExecutor::is_end`. -/
def SeqScanExecutor.is_end (ex : SeqScanExecutor) : Bool :=
  match ex.scan_ with
  | none => true
  | some scan => scan.is_end

/-- `SeqScanExecutor::Next`. -/
def SeqScanExecutor.Next (ex : SeqScanExecutor) : Except DbError (Option RmRecord) :=
  if ex.is_end then .ok none
  else
    match ex.fh_.get_record ex.rid_ with
    | .error e => .error (.storage e)
    | .ok record => .ok record

/-- Modelled from the spec: the top-level pull loop (§5) after `open`: while not `done`,
`materialize` then `advance`; the materialized results are collected. At most `fuel`
results are collected and `none` means the fuel ran out before `done` held. -/
def SeqScanExecutor.drain (env : ExecEnv) :
    Nat → SeqScanExecutor → Option (Except DbError (List (Option RmRecord)))
  | 0, _ => none
  | fuel + 1, ex =>
    if ex.is_end then some (.ok [])
    else
      match ex.Next with
      | .error e => some (.error e)
      | .ok rec =>
        match ex.nextTuple env with
        | none => none
        | some (.error e) => some (.error e)
        | some (.ok ex1) =>
          match SeqScanExecutor.drain env fuel ex1 with
          | none => none
          | some (.error e) => some (.error e)
          | some (.ok rest) => some (.ok (rec :: rest))

/-- Modelled from the spec: the whole pull loop (§5): `open`, then `materialize`/`advance`
until `done`. -/
def SeqScanExecutor.execute (env : ExecEnv) (fuel : Nat) (ex : SeqScanExecutor) :
    Option (Except DbError (List (Option RmRecord))) :=
  match ex.beginTuple env with
  | none => none
  | some (.error e) => some (.error e)
  | some (.ok ex1) => SeqScanExecutor.drain env fuel ex1

/-- Modelled from the spec: `open` followed by `k` calls of `advance`. -/
def SeqScanExecutor.advanced (env : ExecEnv) (ex : SeqScanExecutor) :
    Nat → Option (Except DbError SeqScanExecutor)
  | 0 => ex.beginTuple env
  | k + 1 =>
    match SeqScanExecutor.advanced env ex k with
    | none => none
    | some (.error e) => some (.error e)
    | some (.ok ex1) => ex1.nextTuple env

/-- The record `get_record` returns for `rid` (`nullptr` when it returns none or throws). -/
def recordAt (fh : RmFileHandle) (rid : Rid) : Option RmRecord :=
  match fh.get_record rid with
  | .ok record => record
  | .error _ => none

/-- The record stored at `rid` satisfies every condition of the scan. -/
def SeqScanExecutor.satisfies (env : ExecEnv) (ex : SeqScanExecutor) (rid : Rid) : Bool :=
  match SeqScanExecutor.eval_conds env (recordAt ex.fh_ rid) ex.fed_conds_ ex.cols_ with
  | .ok true => true
  | _ => false

/-- The scanner `s` over `fh` has exactly the Rids `rest` still to visit, the first of
them being its current position (`rest` is a final segment of `occupiedRids fh`). -/
def ScanAt (fh : RmFileHandle) (s : RmScan) (rest : List Rid) : Prop :=
  s.file_handle_ = fh ∧ (∃ pre, occupiedRids fh = pre ++ rest) ∧
    match rest with
    | [] => s.is_end = true
    | rid :: more =>
      s.rid_ = rid ∧ ∃ p : Nat, rid.page_no = (p : Int) ∧ (p : Int) < fh.file_hdr_.num_pages ∧
        more = ridsAfter fh (fh.file_hdr_.num_pages - p).toNat p rid.slot_no

/-- An example table for the scan: one page of four 4-byte slots holding the integers
1, 2 and 3 in slots 0, 2 and 3 (slot 1 is free), with the single column `a`. -/
def exampleScanFile : RmFileHandle :=
  { file_hdr_ := ⟨4, 1, 4, 0, 1⟩
    pages := fun k =>
      if k = 0 then
        some ⟨⟨-1, 3⟩, fun i => decide (i = 0 ∨ i = 2 ∨ i = 3),
          fun i => if i = 0 then enc4 1 else if i = 2 then enc4 2 else
            if i = 3 then enc4 3 else [0, 0, 0, 0]⟩
      else none }

/-- The columns of the example table: `a : int` at offset 0. -/
def exampleScanCols : List ColMeta := [⟨"t", "a", .TYPE_INT, 4, 0⟩]

/-- The literal `n` as a pre-encoded integer value. -/
def intValue (n : Nat) : Value := ⟨.TYPE_INT, n, [], some ⟨4, enc4 n⟩⟩

/-- The literal `s` as a pre-encoded character value. -/
def strValue (s : List Byte) : Value := ⟨.TYPE_STRING, 0, s, some ⟨s.length, s⟩⟩

/-- The executor `ex1` is a later state of `ex0` (same file, columns and conditions) whose
iterator has exactly the Rids `rest` still to visit, and whose current Rid is the first of
them, if any. -/
def SeqScanExecutor.At (ex0 ex1 : SeqScanExecutor) (rest : List Rid) : Prop :=
  ex1.fh_ = ex0.fh_ ∧ ex1.cols_ = ex0.cols_ ∧ ex1.fed_conds_ = ex0.fed_conds_ ∧
    ∃ scan, ex1.scan_ = some scan ∧ ScanAt ex0.fh_ scan rest ∧
      ∀ rid more, rest = rid :: more → ex1.rid_ = rid

/-- The declared types of the two operands of `cond` over the columns `rec_cols`, when
both operands can be resolved the way `SeqScanExecutor::eval_cond` resolves them: the left
column is found, and the right operand is a literal with an encoding (present, or produced
by `init_raw`) or a column that is found. -/
def SeqScanExecutor.operand_types (env : ExecEnv) (rec_cols : List ColMeta) (cond : Condition) :
    Option (ColType × ColType) :=
  match SeqScanExecutor.find_col rec_cols cond.lhs_col with
  | .error _ => none
  | .ok lhs_col =>
    if cond.is_rhs_val then
      match cond.rhs_val.raw with
      | some _ => some (lhs_col.type, cond.rhs_val.type)
      | none =>
        match env.init_raw cond.rhs_val lhs_col.len with
        | .ok _ => some (lhs_col.type, cond.rhs_val.type)
        | .error _ => none
    else
      match SeqScanExecutor.find_col rec_cols cond.rhs_col with
      | .ok rhs_col => some (lhs_col.type, rhs_col.type)
      | .error _ => none

/-- The example condition `a >= 2` on an integer literal. -/
def condGeInt2 : Condition := ⟨⟨"t", "a"⟩, .OP_GE, true, ⟨"", ""⟩, intValue 2⟩

/-- The example condition `a >= 5` on an integer literal. -/
def condGeInt5 : Condition := ⟨⟨"t", "a"⟩, .OP_GE, true, ⟨"", ""⟩, intValue 5⟩

/-- The example condition `a >= 'x'`: an integer column against a character literal. -/
def condGeStr : Condition := ⟨⟨"t", "a"⟩, .OP_GE, true, ⟨"", ""⟩, strValue [120]⟩

/-! ## Definitions: projection executor -/

/-- `ProjectionExecutor`. -/
structure ProjectionExecutor where
  prev_ : ChildExecutor
  cols_ : List ColMeta
  len_ : Nat
  sel_idxs_ : List Nat
deriving DecidableEq, Repr

/-- Modelled from the spec: the position `pos - rec_cols.begin()` of the iterator that
`AbstractExecutor::get_col` (missing `executor_abstract.h`) returns for `target`. -/
def get_col_idx (rec_cols : List ColMeta) (target : TabCol) : Nat :=
  rec_cols.findIdx (fun col => col.tab_name = target.tab_name ∧ col.name = target.col_name)

/-- The `for (auto &sel_col : sel_cols)` loop of the constructor of `ProjectionExecutor`,
threading `curr_offset`, `sel_idxs_` and `cols_`. -/
def ProjectionExecutor.build (prev_cols : List ColMeta) :
    List TabCol → Nat → List Nat → List ColMeta →
      Except ExecError (Nat × List Nat × List ColMeta)
  | [], curr_offset, sel_idxs, cols => .ok (curr_offset, sel_idxs, cols)
  | sel_col :: rest, curr_offset, sel_idxs, cols =>
    match get_col prev_cols sel_col with
    | .error e => .error e
    | .ok pos =>
      let col : ColMeta := { pos with offset := curr_offset }
      ProjectionExecutor.build prev_cols rest (curr_offset + col.len)
        (sel_idxs ++ [get_col_idx prev_cols sel_col]) (cols ++ [col])

/-- The constructor of `ProjectionExecutor`; it throws when a requested column is not in
the child's schema. -/
def ProjectionExecutor.new (prev : ChildExecutor) (sel_cols : List TabCol) :
    Except ExecError ProjectionExecutor :=
  match ProjectionExecutor.build prev.cols sel_cols 0 [] [] with
  | .error e => .error e
  | .ok (curr_offset, sel_idxs, cols) =>
    .ok { prev_ := prev, cols_ := cols, len_ := curr_offset, sel_idxs_ := sel_idxs }

/-- `ProjectionExecutor::beginTuple`. -/
def ProjectionExecutor.beginTuple (ex : ProjectionExecutor) : ProjectionExecutor :=
  { ex with prev_ := ex.prev_.beginTuple }

/-- `ProjectionExecutor::nextTuple`. -/
def ProjectionExecutor.nextTuple (ex : ProjectionExecutor) : ProjectionExecutor :=
  { ex with prev_ := ex.prev_.nextTuple }

/-- `ProjectionExecutor::is_end`. -/
def ProjectionExecutor.is_end (ex : ProjectionExecutor) : Bool := ex.prev_.is_end

/-- The `for (i < sel_idxs_.size())` loop of `ProjectionExecutor::Next`, over `sel_idxs_[i]`
and `cols_[i]` in step. An index outside `prev_cols` (undefined in the source, and never
produced by the constructor) copies nothing. -/
def ProjectionExecutor.copy_loop (prev_cols : List ColMeta) (child_data : List Byte) :
    List Nat → List ColMeta → List Byte → List Byte
  | child_col_idx :: idxs, result_col :: cols, result =>
    match prev_cols.get? child_col_idx with
    | some child_col =>
      ProjectionExecutor.copy_loop prev_cols child_data idxs cols
        (memcpy_at result result_col.offset (child_data.drop child_col.offset) child_col.len)
    | none => ProjectionExecutor.copy_loop prev_cols child_data idxs cols result
  | _, _, result => result

/-- `ProjectionExecutor::Next`. -/
def ProjectionExecutor.Next (ex : ProjectionExecutor) : Option RmRecord :=
  let result := List.replicate ex.len_ 0
  match ex.prev_.Next with
  | none => none
  | some child_record =>
    some ⟨ex.len_,
      ProjectionExecutor.copy_loop ex.prev_.cols child_record.data ex.sel_idxs_ ex.cols_ result⟩

/-- The child columns that the requested columns `sel_cols` resolve to, in request order. -/
def selectedCols (prev_cols : List ColMeta) (sel_cols : List TabCol) : List ColMeta :=
  sel_cols.filterMap (fun k =>
    match get_col prev_cols k with
    | .ok col => some col
    | .error _ => none)

/-- The bytes of column `col` in a record: `[offset, offset + len)`. -/
def colBytes (data : List Byte) (col : ColMeta) : List Byte :=
  (data.drop col.offset).take col.len

/-- The total byte length of a list of columns. -/
def colsLen (cols : List ColMeta) : Nat := (cols.map (fun c => c.len)).sum

/-- The columns `cols` laid out without gaps from offset `off` on. -/
def packCols : Nat → List ColMeta → List ColMeta
  | _, [] => []
  | off, c :: cs => { c with offset := off } :: packCols (off + c.len) cs

/-- The example child for the projection: schema `(c1 : int, c2 : char(2), c3 : int)` and
one tuple `(1, "AB", 9)`. -/
def exampleProjChild : ChildExecutor :=
  { rows := [⟨10, enc4 1 ++ [65, 66] ++ enc4 9⟩]
    pos := 0
    len := 10
    cols := [⟨"t", "c1", .TYPE_INT, 4, 0⟩, ⟨"t", "c2", .TYPE_STRING, 2, 4⟩,
      ⟨"t", "c3", .TYPE_INT, 4, 6⟩] }

/-! ## Definitions: update executor -/

/-- Modelled from the spec: `IndexMeta` (missing `sm_meta.h`): the ordered key columns,
their number and the total key length. -/
structure IndexMeta where
  tab_name : String
  col_tot_len : Nat
  col_num : Nat
  cols : List ColMeta
deriving DecidableEq, Repr

/-- Modelled from the spec: `TabMeta` (missing `sm_meta.h`): the table's columns and its
declared indexes. -/
structure TabMeta where
  name : String
  cols : List ColMeta
  indexes : List IndexMeta
deriving DecidableEq, Repr

/-- Modelled from the spec: `SetClause`: a column reference and a replacement literal. -/
structure SetClause where
  lhs : TabCol
  rhs : Value
deriving DecidableEq, Repr

/-- Modelled from the spec: `TabMeta::get_col(col_name)` of the missing `sm_meta.h`: the
first column with that name; an unknown column is a column-not-found error. -/
def TabMeta.get_col (tab : TabMeta) (col_name : String) : Except ExecError ColMeta :=
  match tab.cols.find? (fun col => col.name = col_name) with
  | some col => .ok col
  | none => .error (.ColumnNotFoundError col_name)

/-- Modelled from the spec: the state of one secondary index behind its handle
(`IxIndexHandle`, out of scope): the Rid each key resolves to, if any. -/
structure IxIndexHandle where
  entries : List Byte → Option Rid

/-- Modelled from the spec: `insertEntry(key, rid)`: the key now resolves to `rid`. -/
def IxIndexHandle.insert_entry (ih : IxIndexHandle) (key : List Byte) (rid : Rid) :
    IxIndexHandle :=
  ⟨fun k => if k = key then some rid else ih.entries k⟩

/-- Modelled from the spec: `deleteEntry(key)`: the key now resolves to nothing. -/
def IxIndexHandle.delete_entry (ih : IxIndexHandle) (key : List Byte) : IxIndexHandle :=
  ⟨fun k => if k = key then none else ih.entries k⟩

/-- Modelled from the spec: an index lookup of `key`. -/
def IxIndexHandle.lookup (ih : IxIndexHandle) (key : List Byte) : Option Rid :=
  ih.entries key

/-- Modelled from the spec: `IxManager::get_index_name(tab_name, index.cols)`: within one
table, the name of an index is determined by the names of its key columns. -/
def get_index_name (cols : List ColMeta) : List String := cols.map (fun col => col.name)

/-- `UpdateExecutor`: the table metadata, the file handle, the target Rids, the set
clauses and the open index handles `sm_manager_->ihs_` by index name. -/
structure UpdateExecutor where
  tab_ : TabMeta
  conds_ : List Condition
  fh_ : RmFileHandle
  rids_ : List Rid
  set_clauses_ : List SetClause
  ihs_ : List String → IxIndexHandle

/-- The `for (auto& set_clause : set_clauses_)` loop of `UpdateExecutor::Next` on the
working copy `new_record`. -/
def UpdateExecutor.apply_set_clauses (env : ExecEnv) (tab : TabMeta) :
    List SetClause → List Byte → Except ExecError (List Byte)
  | [], new_record => .ok new_record
  | set_clause :: rest, new_record =>
    match tab.get_col set_clause.lhs.col_name with
    | .error e => .error e
    | .ok col_meta =>
      if col_meta.type ≠ set_clause.rhs.type then
        .error (.IncompatibleTypeError col_meta.type set_clause.rhs.type)
      else
        let new_val : Value := { set_clause.rhs with raw := none }
        match env.init_raw new_val col_meta.len with
        | .error e => .error e
        | .ok raw =>
          UpdateExecutor.apply_set_clauses env tab rest
            (memcpy_at new_record col_meta.offset raw.data col_meta.len)

/-- The `for (j < index.col_num)` loop that builds an index key from a record: column
`j`'s bytes are copied to the running offset. -/
def UpdateExecutor.key_loop (data : List Byte) : List ColMeta → Nat → List Byte → List Byte
  | [], _, key => key
  | col :: cols, offset, key =>
    UpdateExecutor.key_loop data cols (offset + col.len)
      (memcpy_at key offset (data.drop col.offset) col.len)

/-- The key of `index` for the record bytes `data`: a buffer of `col_tot_len` bytes filled
by `key_loop` over the first `col_num` key columns. -/
def UpdateExecutor.index_key (index : IndexMeta) (data : List Byte) : List Byte :=
  UpdateExecutor.key_loop data (index.cols.take index.col_num) 0
    (List.replicate index.col_tot_len 0)

/-- The `for (i < tab_.indexes.size())` loop of `UpdateExecutor::Next`: for each index, in
declaration order, `delete_entry(old_key)` and then `insert_entry(new_key, rid)`. -/
def UpdateExecutor.update_indexes (old_data new_data : List Byte) (rid : Rid) :
    List IndexMeta → (List String → IxIndexHandle) → (List String → IxIndexHandle)
  | [], ihs => ihs
  | index :: rest, ihs =>
    let name := get_index_name index.cols
    let ih := ihs name
    let old_key := UpdateExecutor.index_key index old_data
    let new_key := UpdateExecutor.index_key index new_data
    let ih1 := (ih.delete_entry old_key).insert_entry new_key rid
    UpdateExecutor.update_indexes old_data new_data rid rest
      (fun n => if n = name then ih1 else ihs n)

/-- The body of the `for (auto& rid : rids_)` loop of `UpdateExecutor::Next`. A null
`old_record` (unset slot) is dereferenced by the source; the model reports it as an
internal error. -/
def UpdateExecutor.update_one (env : ExecEnv) (ex : UpdateExecutor) (rid : Rid) :
    Except DbError Unit × UpdateExecutor :=
  match ex.fh_.get_record rid with
  | .error e => (.error (.storage e), ex)
  | .ok none => (.error (.exec (.InternalError "null record")), ex)
  | .ok (some old_record) =>
    let new_record0 := memcpy (List.replicate ex.fh_.file_hdr_.record_size 0) old_record.data
      ex.fh_.file_hdr_.record_size
    match UpdateExecutor.apply_set_clauses env ex.tab_ ex.set_clauses_ new_record0 with
    | .error e => (.error (.exec e), ex)
    | .ok new_record =>
      let ihs1 := UpdateExecutor.update_indexes old_record.data new_record rid
        ex.tab_.indexes ex.ihs_
      match ex.fh_.update_record rid new_record with
      | (.error e, fh1) => (.error (.storage e), { ex with fh_ := fh1, ihs_ := ihs1 })
      | (.ok _, fh1) => (.ok (), { ex with fh_ := fh1, ihs_ := ihs1 })

/-- The `for (auto& rid : rids_)` loop of `UpdateExecutor::Next`; an exception ends it,
leaving the effects of the iterations already done. -/
def UpdateExecutor.Next_loop (env : ExecEnv) :
    List Rid → UpdateExecutor → Except DbError Unit × UpdateExecutor
  | [], ex => (.ok (), ex)
  | rid :: rids, ex =>
    match UpdateExecutor.update_one env ex rid with
    | (.error e, ex1) => (.error e, ex1)
    | (.ok _, ex1) => UpdateExecutor.Next_loop env rids ex1

/-- `UpdateExecutor::Next`: it returns `nullptr` (`none`) after the loop. -/
def UpdateExecutor.Next (env : ExecEnv) (ex : UpdateExecutor) :
    Except DbError (Option RmRecord) × UpdateExecutor :=
  match UpdateExecutor.Next_loop env ex.rids_ ex with
  | (.error e, ex1) => (.error e, ex1)
  | (.ok _, ex1) => (.ok none, ex1)

/-- Modelled from the spec: `Value::init_raw(len)` on integer and character literals: an
integer is encoded in `len` little-endian bytes, a string is padded with zero bytes to
`len` and overflows when longer (floating-point literals are not modelled). -/
def spec_init_raw (v : Value) (len : Nat) : Except ExecError RmRecord :=
  match v.type with
  | .TYPE_INT =>
    .ok ⟨len, (List.range len).map (fun i => (v.int_val % 2 ^ (8 * len) / 2 ^ (8 * i) % 256).toNat)⟩
  | .TYPE_FLOAT => .error (.InternalError "float")
  | .TYPE_STRING =>
    if len < v.str_val.length then .error .StringOverflowError
    else .ok ⟨len, v.str_val ++ List.replicate (len - v.str_val.length) 0⟩

/-- The environment used by the update examples: `spec_ix_compare` and `spec_init_raw`. -/
def updEnv : ExecEnv := { ix_compare := spec_ix_compare, init_raw := spec_init_raw }

/-- The index on column `a` of the example table. -/
def exampleIndexA : IndexMeta := ⟨"t", 4, 1, exampleScanCols⟩

/-- The example table metadata: column `a : int`, indexed. -/
def exampleTab : TabMeta := ⟨"t", exampleScanCols, [exampleIndexA]⟩

/-- The index on `a` of the example table, in step with its three rows 1, 2, 3. -/
def exampleIhs : List String → IxIndexHandle :=
  fun _ => ⟨fun k => if k = enc4 1 then some ⟨0, 0⟩ else if k = enc4 2 then some ⟨0, 2⟩
    else if k = enc4 3 then some ⟨0, 3⟩ else none⟩

/-- The example update `SET a = 99` on the target Rids `rids`. -/
def exampleUpdate (rids : List Rid) : UpdateExecutor :=
  { tab_ := exampleTab, conds_ := [], fh_ := exampleScanFile, rids_ := rids,
    set_clauses_ := [⟨⟨"t", "a"⟩, ⟨.TYPE_INT, 99, [], none⟩⟩], ihs_ := exampleIhs }

/-- What `apply_set_clauses` does for one clause when it does not throw: the target column
and the encoding written into it (`none` when the column is unknown, the declared types
differ, or `init_raw` throws). -/
def resolveClause (env : ExecEnv) (tab : TabMeta) (sc : SetClause) :
    Option (ColMeta × List Byte) :=
  match tab.get_col sc.lhs.col_name with
  | .error _ => none
  | .ok col =>
    if col.type ≠ sc.rhs.type then none
    else
      match env.init_raw { sc.rhs with raw := none } col.len with
      | .error _ => none
      | .ok raw => some (col, raw.data)

/-- The working copy after the writes `ws` (column, encoding), applied in order. -/
def writeCols (ws : List (ColMeta × List Byte)) (d : List Byte) : List Byte :=
  ws.foldl (fun d w => memcpy_at d w.1.offset w.2 w.1.len) d

/-- The file `fh1` has the header of `fh`, the same pages, and on every page the same page
header (record count, next-free link) and the same occupancy bitmap. -/
def SameLayout (fh fh1 : RmFileHandle) : Prop :=
  fh1.file_hdr_ = fh.file_hdr_ ∧
    ∀ k, (fh.pages k = none → fh1.pages k = none) ∧
      ∀ pg, fh.pages k = some pg →
        ∃ pg1, fh1.pages k = some pg1 ∧ pg1.page_hdr = pg.page_hdr ∧ pg1.bitmap = pg.bitmap

/-- The example update with its clause replaced by `SET a = 'x'` on the integer column. -/
def exampleBadUpdate : UpdateExecutor :=
  { exampleUpdate [⟨0, 0⟩] with set_clauses_ := [⟨⟨"t", "a"⟩, strValue [120]⟩] }

/-- The example update with the two clauses `SET zz = 5, SET a = 'x'`: the first names a
column the table does not have, the second assigns a character literal to the integer
column `a`. -/
def exampleUnknownColumnUpdate : UpdateExecutor :=
  { exampleUpdate [⟨0, 0⟩] with
    set_clauses_ := [⟨⟨"t", "zz"⟩, ⟨.TYPE_INT, 5, [], none⟩⟩, ⟨⟨"t", "a"⟩, strValue [120]⟩] }

/-- The example update `SET a = 2` on the two target Rids (0,0) (where `a = 1`) and (0,2)
(where `a = 2` already). -/
def exampleCollidingUpdate : UpdateExecutor :=
  { exampleUpdate [⟨0, 0⟩, ⟨0, 2⟩] with
    set_clauses_ := [⟨⟨"t", "a"⟩, ⟨.TYPE_INT, 2, [], none⟩⟩] }

/-! ## Definitions: heap file histories and invariants -/

/-- Modelled from the spec: a newly created heap file (`RmManager::create_file` is not part
of the sources): the header carries the record size, the page capacity and the bitmap
size, there is no data page yet and the free-page list is empty (sentinel `-1`). -/
def RmFileHandle.create (record_size : Nat) (num_records_per_page : Int) (bitmap_size : Nat) :
    RmFileHandle :=
  { file_hdr_ := ⟨record_size, 0, num_records_per_page, -1, bitmap_size⟩
    pages := fun _ => none }

/-- One call on the heap file. -/
inductive RmOp where
  | insert (buf : List Byte)
  | delete (rid : Rid)
  | update (rid : Rid) (buf : List Byte)
deriving DecidableEq, Repr

/-- The file state a call leaves behind, whether it returned or threw. -/
def RmFileHandle.step (fh : RmFileHandle) : RmOp → RmFileHandle
  | .insert buf => (fh.insert_record buf).2
  | .delete rid => (fh.delete_record rid).2
  | .update rid buf => (fh.update_record rid buf).2

/-- The Rids inserted and not deleted since, after one more call: a returning insert adds
the Rid it returned, a returning delete removes its Rid, every other call changes
nothing. -/
def RmFileHandle.stepLive (fh : RmFileHandle) (live : List Rid) : RmOp → List Rid
  | .insert buf =>
    match (fh.insert_record buf).1 with
    | .ok rid => rid :: live
    | .error _ => live
  | .delete rid =>
    match (fh.delete_record rid).1 with
    | .ok _ => live.filter (fun r => r ≠ rid)
    | .error _ => live
  | .update _ _ => live

/-- The file after a sequence of calls. -/
def RmFileHandle.run : List RmOp → RmFileHandle → RmFileHandle
  | [], fh => fh
  | op :: ops, fh => RmFileHandle.run ops (fh.step op)

/-- The Rids inserted and not deleted since, after a sequence of calls starting from the
file `fh` with live Rids `live`. -/
def RmFileHandle.runLive : List RmOp → RmFileHandle → List Rid → List Rid
  | [], _, live => live
  | op :: ops, fh, live => RmFileHandle.runLive ops (fh.step op) (fh.stepLive live op)

/-- The population count of a page bitmap: the number of set bits among the slots
`0 .. num_records_per_page - 1`. -/
def Bitmap.count (bm : Int → Bool) (num_records_per_page : Int) : Nat :=
  (setSlots bm num_records_per_page.toNat 0).length

/-- The chain of page numbers that starts at `start` and follows the pages'
`next_free_page_no` links to the sentinel `-1`, visiting at most `fuel` pages; `none` when
the fuel runs out or a link leads to a missing page. -/
def RmFileHandle.free_chain (fh : RmFileHandle) : Nat → Int → Option (List Int)
  | 0, _ => none
  | fuel + 1, start =>
    if start = -1 then some []
    else
      match fh.fetch_page start with
      | none => none
      | some pg =>
        match RmFileHandle.free_chain fh fuel pg.page_hdr.next_free_page_no with
        | none => none
        | some rest => some (start :: rest)

/-- The free-page list of the file: the chain from the header's `first_free_page_no`; a
chain without repetition visits at most `num_pages` pages. -/
def RmFileHandle.free_list (fh : RmFileHandle) : Option (List Int) :=
  fh.free_chain (fh.file_hdr_.num_pages.toNat + 1) fh.file_hdr_.first_free_page_no

/-- The list `chain` is the chain of `next_free_page_no` links from `start` to the
sentinel `-1`. -/
def RmFileHandle.IsChain (fh : RmFileHandle) : Int → List Int → Prop
  | start, [] => start = -1
  | start, p :: rest =>
    start = p ∧ p ≠ -1 ∧
      ∃ pg, fh.fetch_page p = some pg ∧ RmFileHandle.IsChain fh pg.page_hdr.next_free_page_no rest

/-- The page invariants: the page count is not negative, exactly the pages below the page
count exist, and on every page `num_records` is the population count of the bitmap, whose
set bits all lie among the slots of the page. -/
def RmFileHandle.PagesOk (fh : RmFileHandle) : Prop :=
  0 ≤ fh.file_hdr_.num_pages ∧
  (∀ p : Nat, (fh.pages p).isSome = true ↔ (p : Int) < fh.file_hdr_.num_pages) ∧
  ∀ (p : Nat) (pg : RmPage), fh.pages p = some pg →
    pg.page_hdr.num_records = (Bitmap.count pg.bitmap fh.file_hdr_.num_records_per_page : Int) ∧
    ∀ i, pg.bitmap i = true → 0 ≤ i ∧ i < fh.file_hdr_.num_records_per_page

/-- The free-list invariant for the chain `chain`: it is the chain from the header's
`first_free_page_no`, it has no repeated page, and it holds exactly the pages whose
`num_records` is below the page capacity. -/
def RmFileHandle.FreeOk (fh : RmFileHandle) (chain : List Int) : Prop :=
  fh.IsChain fh.file_hdr_.first_free_page_no chain ∧ chain.Nodup ∧
  ∀ p : Int, p ∈ chain ↔
    0 ≤ p ∧ p < fh.file_hdr_.num_pages ∧
      ∃ pg, fh.pages p.toNat = some pg ∧
        pg.page_hdr.num_records < fh.file_hdr_.num_records_per_page

/-- Page `p` of the file has an unset bit among its slots. -/
def RmFileHandle.hasFreeSlot (fh : RmFileHandle) (p : Int) : Prop :=
  0 ≤ p ∧ p < fh.file_hdr_.num_pages ∧
    ∃ pg, fh.pages p.toNat = some pg ∧
      ∃ i, 0 ≤ i ∧ i < fh.file_hdr_.num_records_per_page ∧ pg.bitmap i = false

/-- Slot `i` of page `p` has its bit set. -/
def RmFileHandle.bitAt (fh : RmFileHandle) (p : Nat) (i : Int) : Prop :=
  ∃ pg, fh.pages p = some pg ∧ pg.bitmap i = true

/-- An example history on a file with two slots per page: three inserts fill page 0 and
open page 1, then the record at (0,0) is deleted. -/
def exampleHistory : List RmOp :=
  [.insert [1, 0, 0, 0], .insert [2, 0, 0, 0], .insert [3, 0, 0, 0], .delete ⟨0, 0⟩]

/-! ## Definitions: update executor with its effect log -/

/-- One effect of `UpdateExecutor::Next` on the heap file or on an index handle, in the
order of the calls `get_record`, `delete_entry`, `insert_entry`, `update_record`. -/
inductive UpdateEffect where
  | heap_read (rid : Rid)
  | index_delete (index_name : List String) (key : List Byte)
  | index_insert (index_name : List String) (key : List Byte) (rid : Rid)
  | heap_update (rid : Rid) (data : List Byte)
deriving DecidableEq, Repr

/-- The index loop of `UpdateExecutor::Next` (as `update_indexes`) with every
`delete_entry` and `insert_entry` call appended to the log when it is made. -/
def UpdateExecutor.update_indexes_logged (old_data new_data : List Byte) (rid : Rid) :
    List IndexMeta → (List String → IxIndexHandle) → List UpdateEffect →
      (List String → IxIndexHandle) × List UpdateEffect
  | [], ihs, log => (ihs, log)
  | index :: rest, ihs, log =>
    let name := get_index_name index.cols
    let ih := ihs name
    let old_key := UpdateExecutor.index_key index old_data
    let new_key := UpdateExecutor.index_key index new_data
    let ih0 := ih.delete_entry old_key
    let log0 := log ++ [UpdateEffect.index_delete name old_key]
    let ih1 := ih0.insert_entry new_key rid
    let log1 := log0 ++ [UpdateEffect.index_insert name new_key rid]
    UpdateExecutor.update_indexes_logged old_data new_data rid rest
      (fun n => if n = name then ih1 else ihs n) log1

/-- The body of the `for (auto& rid : rids_)` loop (as `update_one`) with the calls on the
heap file and on the index handles appended to the log when they are made. -/
def UpdateExecutor.update_one_logged (env : ExecEnv) (ex : UpdateExecutor) (rid : Rid)
    (log : List UpdateEffect) : Except DbError Unit × UpdateExecutor × List UpdateEffect :=
  let log0 := log ++ [UpdateEffect.heap_read rid]
  match ex.fh_.get_record rid with
  | .error e => (.error (.storage e), ex, log0)
  | .ok none => (.error (.exec (.InternalError "null record")), ex, log0)
  | .ok (some old_record) =>
    let new_record0 := memcpy (List.replicate ex.fh_.file_hdr_.record_size 0) old_record.data
      ex.fh_.file_hdr_.record_size
    match UpdateExecutor.apply_set_clauses env ex.tab_ ex.set_clauses_ new_record0 with
    | .error e => (.error (.exec e), ex, log0)
    | .ok new_record =>
      let r := UpdateExecutor.update_indexes_logged old_record.data new_record rid
        ex.tab_.indexes ex.ihs_ log0
      let log2 := r.2 ++ [UpdateEffect.heap_update rid new_record]
      match ex.fh_.update_record rid new_record with
      | (.error e, fh1) => (.error (.storage e), { ex with fh_ := fh1, ihs_ := r.1 }, log2)
      | (.ok _, fh1) => (.ok (), { ex with fh_ := fh1, ihs_ := r.1 }, log2)

/-- The loop over the target Rids (as `Next_loop`) with the effect log. -/
def UpdateExecutor.Next_loop_logged (env : ExecEnv) :
    List Rid → UpdateExecutor → List UpdateEffect →
      Except DbError Unit × UpdateExecutor × List UpdateEffect
  | [], ex, log => (.ok (), ex, log)
  | rid :: rids, ex, log =>
    match UpdateExecutor.update_one_logged env ex rid log with
    | (.error e, ex1, log1) => (.error e, ex1, log1)
    | (.ok _, ex1, log1) => UpdateExecutor.Next_loop_logged env rids ex1 log1

/-- `UpdateExecutor::Next` (as `Next`) with the effect log, which starts empty. -/
def UpdateExecutor.Next_logged (env : ExecEnv) (ex : UpdateExecutor) :
    Except DbError (Option RmRecord) × UpdateExecutor × List UpdateEffect :=
  match UpdateExecutor.Next_loop_logged env ex.rids_ ex [] with
  | (.error e, ex1, log) => (.error e, ex1, log)
  | (.ok _, ex1, log) => (.ok none, ex1, log)

/-- The effects the specification prescribes for one target Rid with pre-image `old_data`
and post-image `new_data`: one heap read, then per index in declaration order the delete of
the pre-image key followed by the insert of the post-image key, then one heap update. -/
def updateEffects (tab : TabMeta) (rid : Rid) (old_data new_data : List Byte) :
    List UpdateEffect :=
  [UpdateEffect.heap_read rid] ++
    tab.indexes.flatMap (fun index =>
      [UpdateEffect.index_delete (get_index_name index.cols)
          (UpdateExecutor.index_key index old_data),
        UpdateEffect.index_insert (get_index_name index.cols)
          (UpdateExecutor.index_key index new_data) rid]) ++
    [UpdateEffect.heap_update rid new_data]

/-- The update `ex` can process the Rids `rids`: every set clause is applicable (known
column, matching type, encodable value) with an encoding of the column's width inside the
record, and every Rid of `rids` holds a live record of the file's record size. -/
def UpdateExecutor.Ready (env : ExecEnv) (ex : UpdateExecutor) (rids : List Rid) : Prop :=
  (∀ sc ∈ ex.set_clauses_, ∃ w, resolveClause env ex.tab_ sc = some w) ∧
  (∀ w ∈ ex.set_clauses_.filterMap (resolveClause env ex.tab_),
    w.2.length = w.1.len ∧ w.1.offset + w.1.len ≤ ex.fh_.file_hdr_.record_size) ∧
  ∀ rid ∈ rids, ∃ old, ex.fh_.get_record rid = .ok (some old) ∧
    old.data.length = ex.fh_.file_hdr_.record_size

/-- The post-image of the record bytes `d` under the set clauses of `ex`. -/
def UpdateExecutor.post (env : ExecEnv) (ex : UpdateExecutor) (d : List Byte) : List Byte :=
  writeCols (ex.set_clauses_.filterMap (resolveClause env ex.tab_)) d

/-- The columns of the second example table: `a : int` at offset 0 and `b : int` at
offset 4. -/
def exampleColsAB : List ColMeta := [⟨"t", "a", .TYPE_INT, 4, 0⟩, ⟨"t", "b", .TYPE_INT, 4, 4⟩]

/-- The second example table `T(a:int, b:int)`: one full page of two 8-byte slots holding
the rows (1,10) and (2,20). -/
def exampleFileAB : RmFileHandle :=
  { file_hdr_ := ⟨8, 1, 2, -1, 1⟩
    pages := fun k =>
      if k = 0 then
        some ⟨⟨-1, 2⟩, fun i => decide (i = 0 ∨ i = 1),
          fun i => if i = 0 then enc4 1 ++ enc4 10 else if i = 1 then enc4 2 ++ enc4 20
            else List.replicate 8 0⟩
      else none }

/-- The index on `(a, b)` of the second example table. -/
def exampleIndexAB : IndexMeta := ⟨"t", 8, 2, exampleColsAB⟩

/-- The index on `(a, b)`, in step with the two rows of the second example table. -/
def exampleIhsAB : List String → IxIndexHandle :=
  fun _ => ⟨fun k => if k = enc4 1 ++ enc4 10 then some ⟨0, 0⟩
    else if k = enc4 2 ++ enc4 20 then some ⟨0, 1⟩ else none⟩

/-- The example update `SET a = 99` on both rows of the second example table. -/
def exampleUpdateAB : UpdateExecutor :=
  { tab_ := ⟨"t", exampleColsAB, [exampleIndexAB]⟩, conds_ := [], fh_ := exampleFileAB,
    rids_ := [⟨0, 0⟩, ⟨0, 1⟩],
    set_clauses_ := [⟨⟨"t", "a"⟩, ⟨.TYPE_INT, 99, [], none⟩⟩], ihs_ := exampleIhsAB }

/-! ## Definitions: what the specification asks of a condition -/

/-- Modelled from the spec: the outcome of the three-way comparison of the left operand
with the right operand, read off the sign of the comparison result: the left operand sorts
before the right one, equals it, or sorts after it. -/
def spec_cmp_outcome (c : Int) : Ordering :=
  if c < 0 then .lt else if c = 0 then .eq else .gt

/-- Modelled from the spec: the comparison outcomes each operator of `{=, ≠, <, >, ≤, ≥}`
accepts. -/
def spec_op_accepts : CompOp → Ordering → Bool
  | .OP_EQ, .eq => true
  | .OP_NE, .lt => true
  | .OP_NE, .gt => true
  | .OP_LT, .lt => true
  | .OP_GT, .gt => true
  | .OP_LE, .lt => true
  | .OP_LE, .eq => true
  | .OP_GE, .eq => true
  | .OP_GE, .gt => true
  | _, _ => false

/-- Modelled from the spec: the fixed-width encoding of the literal `v` for a column of
`width` bytes: the encoding the literal carries or, when it carries none yet, the one
`init_raw` produces. -/
def spec_literal_encoding (env : ExecEnv) (v : Value) (width : Nat) : Option (List Byte) :=
  match v.raw with
  | some raw => some raw.data
  | none =>
    match env.init_raw v width with
    | .ok raw => some raw.data
    | .error _ => none

/-- Modelled from the spec (SeqScan, predicate evaluation): the record `rec` over the
schema `cols` satisfies the condition `cond`: the left column is in the schema; the right
operand is the literal's encoding of the left column's width, or another column of the
schema; both operands have the same declared type; and the operator accepts the outcome of
comparing the left operand's encoding with the right operand's by the type-aware ordering
(`ix_compare` reads each encoding from the operand's offset on). -/
def spec_scan_cond (env : ExecEnv) (cols : List ColMeta) (rec : RmRecord) (cond : Condition) :
    Bool :=
  match cols.find? (fun c => c.name = cond.lhs_col.col_name) with
  | none => false
  | some lcol =>
    let right : Option (List Byte × ColType) :=
      if cond.is_rhs_val then
        (spec_literal_encoding env cond.rhs_val lcol.len).map (fun b => (b, cond.rhs_val.type))
      else
        (cols.find? (fun c => c.name = cond.rhs_col.col_name)).map
          (fun rcol => (rec.data.drop rcol.offset, rcol.type))
    match right with
    | none => false
    | some (rbytes, rtype) =>
      decide (lcol.type = rtype) &&
        spec_op_accepts cond.op
          (spec_cmp_outcome
            (env.ix_compare (rec.data.drop lcol.offset) rbytes lcol.type lcol.len))

/-- Modelled from the spec (SeqScan): the record read at a Rid, if any, satisfies every
condition of `conds` (the conjunction; every record does when `conds` is empty). -/
def spec_scan_conds (env : ExecEnv) (cols : List ColMeta) (conds : List Condition)
    (rec : Option RmRecord) : Bool :=
  match rec with
  | none => false
  | some rec => conds.all (fun cond => spec_scan_cond env cols rec cond)

/-- Modelled from the spec (NestedLoopJoin): the schema of the join of two children: the
left child's columns followed by the right child's columns, each offset shifted by the left
child's record length. -/
def spec_join_schema (left right : ChildExecutor) : List ColMeta :=
  left.cols ++ right.cols.map (fun col => { col with offset := col.offset + left.len })

/-- Modelled from the spec (NestedLoopJoin): the bytes of the operand column `col` of the
joined schema in the pair `(l, r)`: a column whose offset is below the left child's record
length `left_len` is read in the left tuple at its offset, any other column in the right
tuple at its offset less `left_len`. -/
def spec_join_operand (left_len : Nat) (l r : RmRecord) (col : ColMeta) : List Byte :=
  if col.offset < left_len then l.data.drop col.offset else r.data.drop (col.offset - left_len)

/-- Modelled from the spec (NestedLoopJoin, condition evaluation): the pair `(l, r)`
satisfies the condition `cond` over the joined schema `cols`: the left column is in the
schema (by table and column name); the right operand is the literal's encoding of the left
column's width, or another column of the schema; both operands have the same declared
type; and the operator accepts the outcome of comparing the two encodings by the type-aware
ordering. -/
def spec_join_cond (env : ExecEnv) (cols : List ColMeta) (left_len : Nat) (l r : RmRecord)
    (cond : Condition) : Bool :=
  match cols.find? (fun c => c.tab_name = cond.lhs_col.tab_name ∧ c.name = cond.lhs_col.col_name)
    with
  | none => false
  | some lcol =>
    let right : Option (List Byte × ColType) :=
      if cond.is_rhs_val then
        (spec_literal_encoding env cond.rhs_val lcol.len).map (fun b => (b, cond.rhs_val.type))
      else
        (cols.find? (fun c => c.tab_name = cond.rhs_col.tab_name ∧
            c.name = cond.rhs_col.col_name)).map
          (fun rcol => (spec_join_operand left_len l r rcol, rcol.type))
    match right with
    | none => false
    | some (rbytes, rtype) =>
      decide (lcol.type = rtype) &&
        spec_op_accepts cond.op
          (spec_cmp_outcome
            (env.ix_compare (spec_join_operand left_len l r lcol) rbytes lcol.type lcol.len))

/-! ## Lemmas: bitmap search and page handles -/

theorem Bitmap.search_some (bit : Bool) (bm : Int → Bool) (k : Nat) (i j : Int)
    (h : Bitmap.search bit bm k i = some j) :
    i ≤ j ∧ j < i + k ∧ bm j = bit ∧ ∀ m, i ≤ m → m < j → bm m ≠ bit := by
  induction k generalizing i with
  | zero => simp [Bitmap.search] at h
  | succ k ih =>
    unfold Bitmap.search at h
    by_cases hb : bm i = bit
    · simp [hb] at h
      subst h
      refine ⟨le_refl _, by push_cast; omega, hb, ?_⟩
      intro m h1 h2
      omega
    · simp [hb] at h
      obtain ⟨h1, h2, h3, h4⟩ := ih (i + 1) h
      refine ⟨by omega, by push_cast; omega, h3, ?_⟩
      intro m hm1 hm2
      by_cases hmi : m = i
      · subst hmi
        exact hb
      · exact h4 m (by omega) hm2

theorem Bitmap.search_none (bit : Bool) (bm : Int → Bool) (k : Nat) (i : Int)
    (h : Bitmap.search bit bm k i = none) :
    ∀ m, i ≤ m → m < i + k → bm m ≠ bit := by
  induction k generalizing i with
  | zero =>
    intro m h1 h2
    simp at h2
    omega
  | succ k ih =>
    unfold Bitmap.search at h
    by_cases hb : bm i = bit
    · simp [hb] at h
    · simp [hb] at h
      intro m h1 h2
      by_cases hmi : m = i
      · subst hmi
        exact hb
      · exact ih (i + 1) h m (by omega) (by push_cast at h2; omega)

theorem Bitmap.search_eq_some (bit : Bool) (bm : Int → Bool) (k : Nat) (i j : Int)
    (h1 : i ≤ j) (h2 : j < i + k) (h3 : bm j = bit)
    (h4 : ∀ m, i ≤ m → m < j → bm m ≠ bit) :
    Bitmap.search bit bm k i = some j := by
  cases h : Bitmap.search bit bm k i with
  | none => exact absurd h3 (Bitmap.search_none bit bm k i h j h1 h2)
  | some j1 =>
    obtain ⟨a1, a2, a3, a4⟩ := Bitmap.search_some bit bm k i j1 h
    rcases lt_trichotomy j1 j with hlt | heq | hgt
    · exact absurd a3 (h4 j1 a1 hlt)
    · rw [heq]
    · exact absurd h3 (a4 j h1 hgt)

theorem RmFileHandle.fetch_page_handle_ok (fh : RmFileHandle) (p : Int) (ph : RmPageHandle)
    (h : fh.fetch_page_handle p = .ok ph) :
    ph.page_no = p ∧ 0 ≤ p ∧ p < fh.file_hdr_.num_pages ∧
      fh.pages p.toNat = some ph.page := by
  unfold RmFileHandle.fetch_page_handle at h
  by_cases h1 : p ≥ fh.file_hdr_.num_pages
  · simp [h1] at h
  · simp only [h1, if_false] at h
    unfold RmFileHandle.fetch_page at h
    by_cases h2 : p < 0
    · simp [h2] at h
    · simp only [h2, if_false] at h
      cases hpg : fh.pages p.toNat with
      | none => simp [hpg] at h
      | some pg =>
        simp only [hpg, Except.ok.injEq] at h
        subst h
        exact ⟨rfl, by omega, by omega, rfl⟩

theorem RmFileHandle.fetch_page_handle_eq_ok (fh : RmFileHandle) (p : Int) (pg : RmPage)
    (h0 : 0 ≤ p) (h1 : p < fh.file_hdr_.num_pages) (h2 : fh.pages p.toNat = some pg) :
    fh.fetch_page_handle p = .ok ⟨p, pg⟩ := by
  unfold RmFileHandle.fetch_page_handle RmFileHandle.fetch_page
  have h3 : ¬ p ≥ fh.file_hdr_.num_pages := by omega
  have h4 : ¬ p < 0 := by omega
  simp [h3, h4, h2]

theorem memcpy_read_back (old b : List Byte) (n : Nat) (hb : b.length = n) :
    memcpy (List.replicate n 0) (memcpy old b n) n = b := by
  unfold memcpy
  subst hb
  simp

theorem RmFileHandle.create_page_handle_ok (fh fh1 : RmFileHandle) (ph : RmPageHandle)
    (h : fh.create_page_handle = (.ok ph, fh1)) :
    0 ≤ ph.page_no ∧ ph.page_no < fh1.file_hdr_.num_pages ∧
      fh1.file_hdr_.record_size = fh.file_hdr_.record_size ∧
      fh1.file_hdr_.num_records_per_page = fh.file_hdr_.num_records_per_page := by
  unfold RmFileHandle.create_page_handle at h
  by_cases hf : fh.file_hdr_.first_free_page_no = -1
  · simp only [hf, if_true] at h
    unfold RmFileHandle.create_new_page_handle RmFileHandle.new_page at h
    by_cases hn : fh.file_hdr_.num_pages < 0
    · simp [hn] at h
    · simp only [hn, if_false, Prod.mk.injEq, Except.ok.injEq] at h
      obtain ⟨h1, h2⟩ := h
      subst h1 h2
      simp [RmFileHandle.put_page]
      omega
  · simp only [hf, if_false, Prod.mk.injEq] at h
    obtain ⟨h1, h2⟩ := h
    subst h2
    obtain ⟨a, b, c, _⟩ := fh.fetch_page_handle_ok _ ph h1
    rw [a]
    exact ⟨b, c, rfl, rfl⟩

theorem RmFileHandle.get_record_of_page (fh : RmFileHandle) (rid : Rid) (pg : RmPage)
    (h0 : 0 ≤ rid.page_no) (h1 : rid.page_no < fh.file_hdr_.num_pages)
    (h2 : fh.pages rid.page_no.toNat = some pg) :
    fh.get_record rid =
      if pg.bitmap rid.slot_no = true then
        .ok (some ⟨fh.file_hdr_.record_size,
          memcpy (List.replicate fh.file_hdr_.record_size 0) (pg.slots rid.slot_no)
            fh.file_hdr_.record_size⟩)
      else .ok none := by
  unfold RmFileHandle.get_record
  rw [fh.fetch_page_handle_eq_ok rid.page_no pg h0 h1 h2]
  cases hbit : pg.bitmap rid.slot_no <;>
    simp [Bitmap.is_set, RmPageHandle.get_slot, hbit]

theorem RmFileHandle.insert_record_page (fh : RmFileHandle) (b : List Byte) (rid : Rid)
    (hins : (fh.insert_record b).1 = .ok rid) :
    ∃ pg old, 0 ≤ rid.page_no ∧
      rid.page_no < (fh.insert_record b).2.file_hdr_.num_pages ∧
      (fh.insert_record b).2.pages rid.page_no.toNat = some pg ∧
      pg.bitmap rid.slot_no = true ∧
      pg.slots rid.slot_no = memcpy old b fh.file_hdr_.record_size ∧
      (fh.insert_record b).2.file_hdr_.record_size = fh.file_hdr_.record_size := by
  unfold RmFileHandle.insert_record at hins ⊢
  rcases hc : fh.create_page_handle with ⟨res, fh1⟩
  cases res with
  | error e => simp [hc] at hins
  | ok ph =>
    obtain ⟨h0, h1, h2, _⟩ := fh.create_page_handle_ok fh1 ph hc
    simp only [hc] at hins ⊢
    generalize Bitmap.first_bit false ph.page.bitmap
        fh1.file_hdr_.num_records_per_page = slot at hins ⊢
    by_cases hfree : slot = -1
    · simp [hfree] at hins
    · simp only [hfree, if_false, Except.ok.injEq] at hins ⊢
      subst hins
      refine ⟨?pg, ph.get_slot slot, h0, ?h1, ?h2, ?h3, ?h4, ?h5⟩
      case h2 =>
        split_ifs
        · exact if_pos rfl
        · exact if_pos rfl
      case h1 => split_ifs <;> simpa [RmFileHandle.put_page] using h1
      case h3 => simp [Bitmap.set]
      case h4 => simp [h2]
      case h5 => split_ifs <;> simpa [RmFileHandle.put_page] using h2

/-! ## Record manager: insert, delete, update, get -/

/-- C1: if `insert_record(b)` succeeds with `rid` for a buffer `b` of `record_size` bytes,
then `get_record(rid)` on the resulting file returns a record of size `record_size` whose
bytes are exactly `b`. -/
theorem insert_then_get (fh : RmFileHandle) (b : List Byte) (rid : Rid)
    (hb : b.length = fh.file_hdr_.record_size)
    (hins : (fh.insert_record b).1 = .ok rid) :
    (fh.insert_record b).2.get_record rid = .ok (some ⟨fh.file_hdr_.record_size, b⟩) := by
  obtain ⟨pg, old, h0, h1, h2, h3, h4, h5⟩ := fh.insert_record_page b rid hins
  rw [RmFileHandle.get_record_of_page _ rid pg h0 h1 h2, if_pos h3, h4, h5,
    memcpy_read_back old b _ hb]

/-- C1 at a concrete file: two full-enough pages, empty free list, a 4-byte record. -/
theorem insert_then_get_witness :
    ((fileOfBitmaps 4 [[true, false, true, true], [false, true]]).insert_record
        [1, 2, 3, 4]).2.get_record ⟨2, 0⟩ = .ok (some ⟨4, [1, 2, 3, 4]⟩) :=
  insert_then_get (fileOfBitmaps 4 [[true, false, true, true], [false, true]]) [1, 2, 3, 4]
    ⟨2, 0⟩ rfl rfl

theorem RmFileHandle.delete_record_ok (fh : RmFileHandle) (rid : Rid)
    (hdel : (fh.delete_record rid).1 = .ok ()) :
    ∃ pg pg1, 0 ≤ rid.page_no ∧ rid.page_no < fh.file_hdr_.num_pages ∧
      fh.pages rid.page_no.toNat = some pg ∧ pg.bitmap rid.slot_no = true ∧
      (fh.delete_record rid).2.file_hdr_.num_pages = fh.file_hdr_.num_pages ∧
      (fh.delete_record rid).2.pages rid.page_no.toNat = some pg1 ∧
      pg1.bitmap = Bitmap.reset pg.bitmap rid.slot_no := by
  unfold RmFileHandle.delete_record at hdel ⊢
  cases hf : fh.fetch_page_handle rid.page_no with
  | error e => simp [hf] at hdel
  | ok ph =>
    obtain ⟨a, b, c, d⟩ := fh.fetch_page_handle_ok _ ph hf
    simp only [hf] at hdel ⊢
    cases hbit : ph.page.bitmap rid.slot_no with
    | false => simp [Bitmap.is_set, hbit] at hdel
    | true =>
      simp only [Bitmap.is_set, hbit, Bool.not_true, Bool.false_eq_true, if_false]
      rw [a]
      split_ifs
      · exact ⟨ph.page, _, b, c, d, hbit, rfl, if_pos rfl, rfl⟩
      · exact ⟨ph.page, _, b, c, d, hbit, rfl, if_pos rfl, rfl⟩

/-- C2: after a successful `delete_record(rid)`, a second `delete_record(rid)` and every
`update_record(rid, buf)` throw `RecordNotFoundError` and leave the file unchanged, and
`get_record(rid)` returns the no-value result `nullptr`. -/
theorem delete_then_not_found (fh : RmFileHandle) (rid : Rid)
    (hdel : (fh.delete_record rid).1 = .ok ()) :
    (fh.delete_record rid).2.delete_record rid =
        (.error (.RecordNotFoundError rid.page_no rid.slot_no), (fh.delete_record rid).2) ∧
      (∀ buf, (fh.delete_record rid).2.update_record rid buf =
        (.error (.RecordNotFoundError rid.page_no rid.slot_no), (fh.delete_record rid).2)) ∧
      (fh.delete_record rid).2.get_record rid = .ok none := by
  obtain ⟨pg, pg1, h0, h1, _, _, h4, h5, h6⟩ := fh.delete_record_ok rid hdel
  have hfetch := RmFileHandle.fetch_page_handle_eq_ok (fh.delete_record rid).2 rid.page_no pg1
    h0 (by rw [h4]; exact h1) h5
  have hbit : pg1.bitmap rid.slot_no = false := by simp [h6, Bitmap.reset]
  refine ⟨?_, ?_, ?_⟩
  · generalize (fh.delete_record rid).2 = fh1 at hfetch ⊢
    unfold RmFileHandle.delete_record
    simp [hfetch, Bitmap.is_set, hbit]
  · intro buf
    generalize (fh.delete_record rid).2 = fh1 at hfetch ⊢
    unfold RmFileHandle.update_record
    simp [hfetch, Bitmap.is_set, hbit]
  · generalize (fh.delete_record rid).2 = fh1 at hfetch ⊢
    unfold RmFileHandle.get_record
    simp [hfetch, Bitmap.is_set, hbit]

/-- C2 at a concrete file: Rid (0,2) of a page with bitmap `[1,0,1,1]` is deleted. -/
theorem delete_then_not_found_witness :
    ((fileOfBitmaps 4 [[true, false, true, true]]).delete_record ⟨0, 2⟩).2.get_record ⟨0, 2⟩
      = .ok none :=
  (delete_then_not_found (fileOfBitmaps 4 [[true, false, true, true]]) ⟨0, 2⟩ rfl).2.2

/-- C3: when the free-page list is empty (`first_free_page_no = -1`), `insert_record`
allocates a new page: the returned Rid is (page count before the insert, slot 0) and the
page count afterwards is one larger. The file has at least one slot per page and a
non-negative page count. -/
theorem insert_allocates_new_page (fh : RmFileHandle) (buf : List Byte)
    (hfree : fh.file_hdr_.first_free_page_no = -1)
    (hn : 0 < fh.file_hdr_.num_records_per_page)
    (hp : 0 ≤ fh.file_hdr_.num_pages) :
    (fh.insert_record buf).1 = .ok ⟨fh.file_hdr_.num_pages, 0⟩ ∧
      (fh.insert_record buf).2.file_hdr_.num_pages = fh.file_hdr_.num_pages + 1 := by
  have hp1 : ¬ fh.file_hdr_.num_pages < 0 := by omega
  have hs : Bitmap.first_bit false (fun _ => false) fh.file_hdr_.num_records_per_page = 0 := by
    unfold Bitmap.first_bit
    rw [Bitmap.search_eq_some false (fun _ => false) _ 0 0 (le_refl _) (by omega) rfl
      (by intro m a b; omega)]
  unfold RmFileHandle.insert_record RmFileHandle.create_page_handle
    RmFileHandle.create_new_page_handle RmFileHandle.new_page
  simp only [hfree, hp1, if_true, if_false]
  simp only [RmFileHandle.put_page, hs]
  constructor
  · simp
  · split_ifs <;> simp

/-- C3 at a concrete file: one page of four slots, all occupied, empty free list. -/
theorem insert_allocates_new_page_witness :
    ((fileOfBitmaps 4 [[true, true, true, true]]).insert_record [9, 9, 9, 9]).1
        = .ok ⟨1, 0⟩ ∧
      ((fileOfBitmaps 4 [[true, true, true, true]]).insert_record
        [9, 9, 9, 9]).2.file_hdr_.num_pages = 1 + 1 :=
  insert_allocates_new_page (fileOfBitmaps 4 [[true, true, true, true]]) [9, 9, 9, 9]
    rfl (by decide) (by decide)

/-- C4: if `rid` is a live Rid of a full page (every slot bit set and `num_records` equal
to the page capacity, as the page invariant demands), then `delete_record(rid)` succeeds
and the following `insert_record` returns the same `rid` (same page, its only free slot)
without allocating a page, whatever the free-page list held before. -/
theorem delete_then_insert_reuses_page (fh : RmFileHandle) (rid : Rid) (buf : List Byte)
    (pg : RmPage)
    (hp0 : 0 ≤ rid.page_no) (hp1 : rid.page_no < fh.file_hdr_.num_pages)
    (hpg : fh.pages rid.page_no.toNat = some pg)
    (hs0 : 0 ≤ rid.slot_no) (hs1 : rid.slot_no < fh.file_hdr_.num_records_per_page)
    (hfull : ∀ i, 0 ≤ i → i < fh.file_hdr_.num_records_per_page → pg.bitmap i = true)
    (hcnt : pg.page_hdr.num_records = fh.file_hdr_.num_records_per_page) :
    (fh.delete_record rid).1 = .ok () ∧
      ((fh.delete_record rid).2.insert_record buf).1 = .ok rid ∧
      ((fh.delete_record rid).2.insert_record buf).2.file_hdr_.num_pages
        = fh.file_hdr_.num_pages := by
  have hfetch := fh.fetch_page_handle_eq_ok rid.page_no pg hp0 hp1 hpg
  have hbit : pg.bitmap rid.slot_no = true := hfull _ hs0 hs1
  have hne : rid.page_no ≠ -1 := by omega
  have hsearch : Bitmap.first_bit false (Bitmap.reset pg.bitmap rid.slot_no)
      fh.file_hdr_.num_records_per_page = rid.slot_no := by
    unfold Bitmap.first_bit
    rw [Bitmap.search_eq_some false _ _ 0 rid.slot_no hs0 (by omega) (by simp [Bitmap.reset])]
    intro m a b
    have hm : m ≠ rid.slot_no := by omega
    simp [Bitmap.reset, hm, hfull m a (by omega)]
  have hdel : fh.delete_record rid =
      (.ok (), { file_hdr_ := { fh.file_hdr_ with first_free_page_no := rid.page_no }
                 pages := fun k => if k = rid.page_no.toNat then
                    some ⟨⟨fh.file_hdr_.first_free_page_no, pg.page_hdr.num_records - 1⟩,
                      Bitmap.reset pg.bitmap rid.slot_no, pg.slots⟩
                  else fh.pages k }) := by
    unfold RmFileHandle.delete_record
    simp only [hfetch, Bitmap.is_set, hbit, Bool.not_true, Bool.false_eq_true, if_false]
    simp only [RmFileHandle.put_page, hcnt, if_true, RmFileHandle.release_page_handle,
      Prod.mk.injEq, true_and]
    congr 1
    funext k
    by_cases hk : k = rid.page_no.toNat <;> simp [hk]
  have key : ∀ (fh1 : RmFileHandle) (pg1 : RmPage),
      fh1.file_hdr_.num_pages = fh.file_hdr_.num_pages →
      fh1.file_hdr_.num_records_per_page = fh.file_hdr_.num_records_per_page →
      fh1.file_hdr_.first_free_page_no = rid.page_no →
      fh1.pages rid.page_no.toNat = some pg1 →
      pg1.bitmap = Bitmap.reset pg.bitmap rid.slot_no →
      (fh1.insert_record buf).1 = .ok rid ∧
        (fh1.insert_record buf).2.file_hdr_.num_pages = fh.file_hdr_.num_pages := by
    intro fh1 pg1 a1 a2 a3 a4 a5
    have hslot : rid.slot_no ≠ -1 := by omega
    unfold RmFileHandle.insert_record RmFileHandle.create_page_handle
    simp only [a3, hne, if_false]
    rw [RmFileHandle.fetch_page_handle_eq_ok fh1 rid.page_no pg1 hp0 (by omega) a4]
    simp only [a5, a2, hsearch, hslot, if_false]
    constructor
    · trivial
    · split_ifs <;> simpa [RmFileHandle.put_page] using a1
  rw [hdel]
  exact ⟨rfl, key _ _ rfl rfl rfl (if_pos rfl) rfl⟩

/-- C4 at a concrete file: page 0 is full, page 1 has free slots and heads the free list. -/
theorem delete_then_insert_reuses_page_witness :
    ((fileOfBitmaps 2 [[true, true], [false, true]]).delete_record ⟨0, 1⟩).1 = .ok () ∧
      (((fileOfBitmaps 2 [[true, true], [false, true]]).delete_record ⟨0, 1⟩).2.insert_record
        [7, 7, 7, 7]).1 = .ok ⟨0, 1⟩ ∧
      (((fileOfBitmaps 2 [[true, true], [false, true]]).delete_record ⟨0, 1⟩).2.insert_record
        [7, 7, 7, 7]).2.file_hdr_.num_pages = 2 :=
  delete_then_insert_reuses_page (fileOfBitmaps 2 [[true, true], [false, true]]) ⟨0, 1⟩
    [7, 7, 7, 7] ⟨⟨-1, 2⟩, fun i => if i < 0 then false else [true, true].getD i.toNat false,
      fun _ => [0, 0, 0, 0]⟩
    (by decide) (by decide) rfl (by decide) (by decide)
    (by
      intro i h0 h1
      have h2 : i = 0 ∨ i = 1 := by
        simp only [fileOfBitmaps] at h1
        omega
      rcases h2 with h | h <;> subst h <;> rfl)
    rfl

/-! ## Table scanner -/

theorem setSlots_search (bm : Int → Bool) (k : Nat) (i : Int) :
    setSlots bm k i =
      match Bitmap.search true bm k i with
      | none => []
      | some j => j :: setSlots bm (k - (j - i).toNat - 1) (j + 1) := by
  induction k generalizing i with
  | zero => simp [setSlots, Bitmap.search]
  | succ k ih =>
    rw [setSlots, Bitmap.search]
    by_cases hb : bm i = true
    · simp [hb]
    · simp only [hb, if_false, Bool.false_eq_true]
      rw [ih (i + 1)]
      cases hs : Bitmap.search true bm k (i + 1) with
      | none => rfl
      | some j =>
        obtain ⟨h1, _, _, _⟩ := Bitmap.search_some true bm k (i + 1) j hs
        simp only
        have e : k - (j - (i + 1)).toNat - 1 = k + 1 - (j - i).toNat - 1 := by omega
        rw [e]

theorem mem_setSlots (bm : Int → Bool) (k : Nat) (i j : Int) :
    j ∈ setSlots bm k i ↔ i ≤ j ∧ j < i + k ∧ bm j = true := by
  induction k generalizing i with
  | zero =>
    simp only [setSlots, List.not_mem_nil, false_iff]
    intro ⟨h1, h2, _⟩
    simp at h2
    omega
  | succ k ih =>
    unfold setSlots
    by_cases hb : bm i = true
    · simp only [hb, if_true, List.mem_cons, ih]
      constructor
      · rintro (h | ⟨h1, h2, h3⟩)
        · subst h
          exact ⟨le_refl _, by push_cast; omega, hb⟩
        · exact ⟨by omega, by push_cast; omega, h3⟩
      · rintro ⟨h1, h2, h3⟩
        by_cases hji : j = i
        · exact Or.inl hji
        · exact Or.inr ⟨by omega, by push_cast at h2; omega, h3⟩
    · simp only [hb, if_false, Bool.false_eq_true, ih]
      constructor
      · rintro ⟨h1, h2, h3⟩
        exact ⟨by omega, by push_cast; omega, h3⟩
      · rintro ⟨h1, h2, h3⟩
        have hji : j ≠ i := by
          intro h
          subst h
          exact hb h3
        exact ⟨by omega, by push_cast at h2; omega, h3⟩

theorem setSlots_sorted (bm : Int → Bool) (k : Nat) (i : Int) :
    (setSlots bm k i).Pairwise (fun a b => a < b) := by
  induction k generalizing i with
  | zero => simp [setSlots]
  | succ k ih =>
    unfold setSlots
    by_cases hb : bm i = true
    · simp only [hb, if_true, List.pairwise_cons]
      refine ⟨?_, ih (i + 1)⟩
      intro j hj
      have := (mem_setSlots bm k (i + 1) j).1 hj
      omega
    · simp only [hb, if_false, Bool.false_eq_true]
      exact ih (i + 1)

theorem ridsOfPages_eq_ridsAfter (fh : RmFileHandle) (d p : Nat) :
    ridsOfPages fh d p = ridsAfter fh d p (-1) := by
  cases d <;> simp [ridsOfPages, ridsAfter]

theorem pageRidsFrom_step (fh : RmFileHandle) (p : Nat) (c : Int) (pg : RmPage)
    (hpg : fh.pages p = some pg) :
    pageRidsFrom fh p (c + 1) =
      match Bitmap.search true pg.bitmap
          (fh.file_hdr_.num_records_per_page - (c + 1)).toNat (c + 1) with
      | none => []
      | some j => ⟨(p : Int), j⟩ :: pageRidsFrom fh p (j + 1) := by
  unfold pageRidsFrom
  simp only [hpg]
  rw [setSlots_search]
  cases hs : Bitmap.search true pg.bitmap
      (fh.file_hdr_.num_records_per_page - (c + 1)).toNat (c + 1) with
  | none => rfl
  | some j =>
    obtain ⟨h1, h2, _, _⟩ := Bitmap.search_some true _ _ _ j hs
    have e : (fh.file_hdr_.num_records_per_page - (c + 1)).toNat - (j - (c + 1)).toNat - 1
        = (fh.file_hdr_.num_records_per_page - (j + 1)).toNat := by omega
    simp only [List.map_cons, e]

theorem RmScan.next_loop_spec (fh : RmFileHandle) (hpres : fh.pagesPresent) :
    ∀ (d fuel p : Nat) (c : Int), d < fuel → d = (fh.file_hdr_.num_pages - p).toNat →
      (ridsAfter fh d p c = [] →
        ∃ s1, RmScan.next_loop fuel ⟨fh, ⟨p, c⟩⟩ = some (.ok s1) ∧ s1.is_end = true ∧
          s1.file_handle_ = fh) ∧
      (∀ rid rest, ridsAfter fh d p c = rid :: rest →
        ∃ (p1 : Nat) (c1 : Int), rid = ⟨(p1 : Int), c1⟩ ∧
          RmScan.next_loop fuel ⟨fh, ⟨p, c⟩⟩ = some (.ok ⟨fh, rid⟩) ∧
          (p1 : Int) < fh.file_hdr_.num_pages ∧
          rest = ridsAfter fh (fh.file_hdr_.num_pages - p1).toNat p1 c1) := by
  intro d
  induction d with
  | zero =>
    intro fuel p c hf hd
    obtain ⟨f, rfl⟩ : ∃ f, fuel = f + 1 := ⟨fuel - 1, by omega⟩
    have hge : ¬ ((p : Int) < fh.file_hdr_.num_pages) := by omega
    constructor
    · intro _
      refine ⟨⟨fh, ⟨p, c⟩⟩, ?_, ?_, rfl⟩
      · simp [RmScan.next_loop, hge]
      · simp only [RmScan.is_end, decide_eq_true_eq]
        omega
    · intro rid rest h
      simp [ridsAfter] at h
  | succ d ih =>
    intro fuel p c hf hd
    obtain ⟨f, rfl⟩ : ∃ f, fuel = f + 1 := ⟨fuel - 1, by omega⟩
    have hlt : (p : Int) < fh.file_hdr_.num_pages := by omega
    obtain ⟨pg, hpg⟩ := Option.isSome_iff_exists.1 (hpres p hlt)
    have hfetch := fh.fetch_page_handle_eq_ok p pg (by omega) hlt (by simpa using hpg)
    have hloop : RmScan.next_loop (f + 1) ⟨fh, ⟨p, c⟩⟩ =
        match Bitmap.search true pg.bitmap
            (fh.file_hdr_.num_records_per_page - (c + 1)).toNat (c + 1) with
        | some j => some (.ok ⟨fh, ⟨p, j⟩⟩)
        | none => RmScan.next_loop f ⟨fh, ⟨(p : Int) + 1, -1⟩⟩ := by
      rw [RmScan.next_loop]
      simp only [hlt, if_true, hfetch, Bitmap.next_bit]
      cases hs : Bitmap.search true pg.bitmap
          (fh.file_hdr_.num_records_per_page - (c + 1)).toNat (c + 1) with
      | none => simp
      | some j =>
        obtain ⟨h1, h2, _, _⟩ := Bitmap.search_some true _ _ _ j hs
        have hj : j < fh.file_hdr_.num_records_per_page := by omega
        simp [hj]
    have hrem : ridsAfter fh (d + 1) p c =
        match Bitmap.search true pg.bitmap
            (fh.file_hdr_.num_records_per_page - (c + 1)).toNat (c + 1) with
        | some j => ⟨(p : Int), j⟩ :: ridsAfter fh (d + 1) p j
        | none => ridsAfter fh d (p + 1) (-1) := by
      rw [ridsAfter, pageRidsFrom_step fh p c pg hpg]
      cases hs : Bitmap.search true pg.bitmap
          (fh.file_hdr_.num_records_per_page - (c + 1)).toNat (c + 1) with
      | none => simp [ridsOfPages_eq_ridsAfter]
      | some j => simp [ridsAfter]
    rw [hloop, hrem]
    cases hs : Bitmap.search true pg.bitmap
        (fh.file_hdr_.num_records_per_page - (c + 1)).toNat (c + 1) with
    | none =>
      have := ih f (p + 1) (-1) (by omega) (by push_cast; omega)
      simpa using this
    | some j =>
      constructor
      · intro h
        simp at h
      · intro rid rest h
        simp only [List.cons.injEq] at h
        obtain ⟨h1, h2⟩ := h
        subst h1 h2
        exact ⟨p, j, rfl, rfl, hlt, by rw [← hd]⟩

theorem RmScan.collect_spec (fh : RmFileHandle) (hpres : fh.pagesPresent) :
    ∀ (fuel p : Nat) (c : Int), (p : Int) < fh.file_hdr_.num_pages →
      (ridsAfter fh (fh.file_hdr_.num_pages - p).toNat p c).length + 2 ≤ fuel →
      RmScan.collect fuel ⟨fh, ⟨p, c⟩⟩ =
        some (.ok (⟨p, c⟩ :: ridsAfter fh (fh.file_hdr_.num_pages - p).toNat p c)) := by
  intro fuel
  induction fuel with
  | zero =>
    intro p c _ h
    omega
  | succ f ih =>
    intro p c hlt hlen
    have hend : (RmScan.is_end ⟨fh, ⟨p, c⟩⟩) = false := by
      simp only [RmScan.is_end, decide_eq_false_iff_not]
      omega
    obtain ⟨hnil, hcons⟩ := RmScan.next_loop_spec fh hpres
      (fh.file_hdr_.num_pages - p).toNat ((fh.file_hdr_.num_pages - p).toNat + 1) p c
      (by omega) rfl
    rw [RmScan.collect]
    simp only [hend, Bool.false_eq_true, if_false, RmScan.next, RmScan.rid]
    cases hr : ridsAfter fh (fh.file_hdr_.num_pages - p).toNat p c with
    | nil =>
      obtain ⟨s1, h1, h2, _⟩ := hnil hr
      obtain ⟨g, rfl⟩ : ∃ g, f = g + 1 := ⟨f - 1, by rw [hr] at hlen; simp at hlen; omega⟩
      rw [h1]
      simp [RmScan.collect, h2]
    | cons rid rest =>
      obtain ⟨p1, c1, e1, h1, h2, h3⟩ := hcons rid rest hr
      subst e1
      have := ih p1 c1 h2 (by rw [← h3]; rw [hr] at hlen; simp at hlen; omega)
      rw [h1]
      simp [this, h3]

theorem scan_rids_eq (fh : RmFileHandle) (hpres : fh.pagesPresent) (fuel : Nat)
    (hfuel : (occupiedRids fh).length < fuel) :
    scan_rids fuel fh = some (.ok (occupiedRids fh)) := by
  obtain ⟨hnil, hcons⟩ := RmScan.next_loop_spec fh hpres
    (fh.file_hdr_.num_pages - (0 : Nat)).toNat ((fh.file_hdr_.num_pages - (0 : Nat)).toNat + 1)
    0 (-1) (by omega) rfl
  have e0 : (fh.file_hdr_.num_pages - ((0 : Nat) : Int)).toNat = fh.file_hdr_.num_pages.toNat := by
    simp
  rw [e0] at hnil hcons
  have hocc : occupiedRids fh = ridsAfter fh fh.file_hdr_.num_pages.toNat 0 (-1) := by
    rw [occupiedRids, ridsOfPages_eq_ridsAfter]
  rw [hocc] at hfuel ⊢
  have hnew : RmScan.new fh =
      RmScan.next_loop (fh.file_hdr_.num_pages.toNat + 1) ⟨fh, ⟨((0 : Nat) : Int), -1⟩⟩ := by
    simp [RmScan.new, RmScan.next, RM_FIRST_RECORD_PAGE]
  unfold scan_rids
  rw [hnew]
  cases hr : ridsAfter fh fh.file_hdr_.num_pages.toNat 0 (-1) with
  | nil =>
    obtain ⟨s1, h1, h2, _⟩ := hnil hr
    obtain ⟨g, rfl⟩ : ∃ g, fuel = g + 1 := ⟨fuel - 1, by omega⟩
    rw [h1]
    simp [RmScan.collect, h2]
  | cons rid rest =>
    obtain ⟨p1, c1, e1, h1, h2, h3⟩ := hcons rid rest hr
    subst e1
    have := RmScan.collect_spec fh hpres fuel p1 c1 h2
      (by rw [← h3]; rw [hr] at hfuel; simp at hfuel; omega)
    rw [h1]
    simp [this, h3]

theorem mem_pageRidsFrom (fh : RmFileHandle) (p : Nat) (rid : Rid) :
    rid ∈ pageRidsFrom fh p 0 ↔
      rid.page_no = p ∧ 0 ≤ rid.slot_no ∧ rid.slot_no < fh.file_hdr_.num_records_per_page ∧
        ∃ pg, fh.pages p = some pg ∧ pg.bitmap rid.slot_no = true := by
  unfold pageRidsFrom
  cases hpg : fh.pages p with
  | none => simp
  | some pg =>
    simp only [List.mem_map, mem_setSlots, Option.some.injEq, exists_eq_left']
    constructor
    · rintro ⟨j, ⟨h1, h2, h3⟩, rfl⟩
      exact ⟨rfl, h1, by simp only; omega, h3⟩
    · rintro ⟨h1, h2, h3, h4⟩
      refine ⟨rid.slot_no, ⟨h2, by omega, h4⟩, ?_⟩
      cases rid
      simp only at h1
      rw [h1]

theorem mem_ridsOfPages (fh : RmFileHandle) (d p : Nat) (rid : Rid) :
    rid ∈ ridsOfPages fh d p ↔
      ∃ q : Nat, p ≤ q ∧ q < p + d ∧ rid.page_no = q ∧ 0 ≤ rid.slot_no ∧
        rid.slot_no < fh.file_hdr_.num_records_per_page ∧
        ∃ pg, fh.pages q = some pg ∧ pg.bitmap rid.slot_no = true := by
  induction d generalizing p with
  | zero =>
    simp only [ridsOfPages, List.not_mem_nil, false_iff]
    rintro ⟨q, h1, h2, _⟩
    omega
  | succ d ih =>
    simp only [ridsOfPages, List.mem_append, mem_pageRidsFrom, ih]
    constructor
    · rintro (⟨h1, h2, h3, h4⟩ | ⟨q, h1, h2, h3⟩)
      · exact ⟨p, le_refl _, by omega, h1, h2, h3, h4⟩
      · exact ⟨q, by omega, by omega, h3⟩
    · rintro ⟨q, h1, h2, h3, h4⟩
      by_cases hq : q = p
      · subst hq
        exact Or.inl ⟨h3, h4⟩
      · exact Or.inr ⟨q, by omega, by omega, h3, h4⟩

theorem ridsOfPages_sorted (fh : RmFileHandle) (d p : Nat) :
    (ridsOfPages fh d p).Pairwise Rid.lt := by
  induction d generalizing p with
  | zero => simp [ridsOfPages]
  | succ d ih =>
    simp only [ridsOfPages, List.pairwise_append]
    refine ⟨?_, ih (p + 1), ?_⟩
    · unfold pageRidsFrom
      cases fh.pages p with
      | none => simp
      | some pg =>
        simp only [List.pairwise_map]
        exact (setSlots_sorted pg.bitmap _ 0).imp (fun h => Or.inr ⟨rfl, h⟩)
    · intro a ha b hb
      obtain ⟨h1, _⟩ := (mem_pageRidsFrom fh p a).1 ha
      obtain ⟨q, h2, _, h3, _⟩ := (mem_ridsOfPages fh d (p + 1) b).1 hb
      exact Or.inl (by omega)

theorem mem_occupiedRids (fh : RmFileHandle) (rid : Rid) :
    rid ∈ occupiedRids fh ↔ fh.occupied rid := by
  unfold occupiedRids RmFileHandle.occupied
  rw [mem_ridsOfPages]
  constructor
  · rintro ⟨q, _, h2, h3, h4, h5, h6⟩
    refine ⟨by omega, by omega, h4, h5, ?_⟩
    have e : rid.page_no.toNat = q := by omega
    rw [e]
    exact h6
  · rintro ⟨h1, h2, h3, h4, h5⟩
    exact ⟨rid.page_no.toNat, Nat.zero_le _, by omega, by omega, h3, h4, h5⟩

/-- C5: over a file whose pages below the page count are all present, constructing an
`RmScan` and calling `next()` until `is_end()` visits exactly the list `occupiedRids`:
the Rids of existing pages whose slot is in range and whose bit is set, each once, in
strictly increasing page-then-slot order. With bitmap `[1,0,1,1]` on page 0 and `[0,1]` on
page 1 the visit is (0,0), (0,2), (0,3), (1,1). -/
theorem scan_visits_occupied_in_order (fh : RmFileHandle) (fuel : Nat)
    (hpres : fh.pagesPresent) (hfuel : (occupiedRids fh).length < fuel) :
    scan_rids fuel fh = some (.ok (occupiedRids fh)) ∧
      (∀ rid, rid ∈ occupiedRids fh ↔ fh.occupied rid) ∧
      (occupiedRids fh).Pairwise Rid.lt ∧
      (occupiedRids fh).Nodup ∧
      scan_rids 5 (fileOfBitmaps 4 [[true, false, true, true], [false, true]])
        = some (.ok [⟨0, 0⟩, ⟨0, 2⟩, ⟨0, 3⟩, ⟨1, 1⟩]) := by
  refine ⟨scan_rids_eq fh hpres fuel hfuel, mem_occupiedRids fh,
    ridsOfPages_sorted fh _ 0, ?_, rfl⟩
  refine (ridsOfPages_sorted fh _ 0).imp ?_
  intro a b h hab
  subst hab
  rcases h with h | ⟨_, h⟩ <;> omega

/-- C5 at the file with bitmaps `[1,0,1,1]` and `[0,1]`: the scan of that file is its
list of occupied Rids. -/
theorem scan_visits_occupied_in_order_witness :
    scan_rids 5 (fileOfBitmaps 4 [[true, false, true, true], [false, true]])
      = some (.ok (occupiedRids (fileOfBitmaps 4 [[true, false, true, true], [false, true]]))) :=
  (scan_visits_occupied_in_order (fileOfBitmaps 4 [[true, false, true, true], [false, true]]) 5
    (by
      intro p hp
      have h2 : p = 0 ∨ p = 1 := by
        simp only [fileOfBitmaps, List.length_cons, List.length_nil] at hp
        omega
      rcases h2 with h | h <;> subst h <;> rfl)
    (by decide)).1

/-! ## LRU replacer -/

theorem LRUReplacer.unpin_loop_spec :
    ∀ (fuel : Nat) (r : LRUReplacer), r.LRUlist_.length < fuel →
      ∃ r1, LRUReplacer.unpin_loop fuel r = some r1 ∧
        r1.LRUlist_ = r.LRUlist_.take r.max_size_ ∧ r1.max_size_ = r.max_size_ ∧
        ∀ k, r1.LRUhash_ k =
          if k ∈ r.LRUlist_.drop r.max_size_ then none else r.LRUhash_ k := by
  intro fuel
  induction fuel with
  | zero =>
    intro r h
    omega
  | succ fuel ih =>
    intro r hlen
    rw [LRUReplacer.unpin_loop]
    by_cases hgt : r.Size > r.max_size_
    · simp only [hgt, if_true]
      have hgt1 : r.LRUlist_.length > r.max_size_ := hgt
      have hne : r.LRUlist_ ≠ [] := by
        intro h
        rw [h] at hgt1
        simp at hgt1
      obtain ⟨v, hv⟩ : ∃ v, r.LRUlist_.getLast? = some v := by
        cases h : r.LRUlist_.getLast? with
        | none => exact absurd (List.getLast?_eq_none_iff.1 h) hne
        | some v => exact ⟨v, rfl⟩
      have hsplit : r.LRUlist_.dropLast ++ [v] = r.LRUlist_ :=
        List.dropLast_append_getLast? v (by simp [hv])
      have hdl : r.LRUlist_.dropLast.length = r.LRUlist_.length - 1 := List.length_dropLast _
      simp only [hv]
      obtain ⟨r1, h1, h2, h3, h4⟩ := ih
        { r with
          LRUlist_ := r.LRUlist_.dropLast
          LRUhash_ := LRUReplacer.hash_erase r.LRUhash_ v } (by simp only; omega)
      refine ⟨r1, h1, ?_, h3, ?_⟩
      · rw [h2]
        simp only
        conv_rhs => rw [← hsplit]
        rw [List.take_append_of_le_length (by omega)]
      · intro k
        rw [h4 k]
        simp only
        conv_rhs => rw [← hsplit]
        rw [List.drop_append_of_le_length (by omega)]
        simp only [List.mem_append, List.mem_singleton, LRUReplacer.hash_erase]
        by_cases hk1 : k ∈ r.LRUlist_.dropLast.drop r.max_size_
        · simp [hk1]
        · by_cases hk2 : k = v <;> simp [hk1, hk2]
    · simp only [hgt, if_false]
      have hle : r.LRUlist_.length ≤ r.max_size_ := by
        simp only [LRUReplacer.Size] at hgt
        omega
      refine ⟨r, rfl, (List.take_of_length_le hle).symm, rfl, ?_⟩
      intro k
      simp [List.drop_eq_nil_of_le hle]

theorem LRUReplacer.unpin_untracked_spec (r : LRUReplacer) (f : frame_id_t)
    (hun : r.LRUhash_ f = none) :
    ∃ r1, r.unpin f = some r1 ∧
      r1.LRUlist_ = (f :: r.LRUlist_).take r.max_size_ ∧ r1.max_size_ = r.max_size_ ∧
      ∀ k, r1.LRUhash_ k =
        if k ∈ (f :: r.LRUlist_).drop r.max_size_ then none
        else if k = f then some f else r.LRUhash_ k := by
  unfold LRUReplacer.unpin
  simp only [hun, Option.isNone_none, if_true]
  exact LRUReplacer.unpin_loop_spec _ _ (by simp [LRUReplacer.Size])

theorem LRUReplacer.unpin_total (r : LRUReplacer) (f : frame_id_t) :
    ∃ r1, r.unpin f = some r1 ∧ r1.max_size_ = r.max_size_ ∧
      (∀ k, k ∈ r1.LRUlist_ → k = f ∨ k ∈ r.LRUlist_) ∧
      (r.Size ≤ r.max_size_ → r1.Size ≤ r1.max_size_) := by
  cases hf : r.LRUhash_ f with
  | none =>
    obtain ⟨r1, h1, h2, h3, _⟩ := r.unpin_untracked_spec f hf
    refine ⟨r1, h1, h3, ?_, ?_⟩
    · intro k hk
      rw [h2] at hk
      simpa using List.mem_of_mem_take hk
    · intro _
      simp only [LRUReplacer.Size, h2, h3, List.length_take]
      omega
  | some it =>
    refine ⟨r, ?_, rfl, fun k hk => Or.inr hk, fun h => h⟩
    simp [LRUReplacer.unpin, hf]

theorem LRUReplacer.unpin_room (r : LRUReplacer) (f : frame_id_t)
    (hun : r.LRUhash_ f = none) (hroom : r.LRUlist_.length < r.max_size_) :
    r.unpin f = some
      { r with
        LRUlist_ := f :: r.LRUlist_
        LRUhash_ := fun k => if k = f then some f else r.LRUhash_ k } := by
  obtain ⟨r1, h1, h2, h3, h4⟩ := r.unpin_untracked_spec f hun
  rw [h1]
  have hle : (f :: r.LRUlist_).length ≤ r.max_size_ := by
    simp only [List.length_cons]
    omega
  rw [List.take_of_length_le hle] at h2
  have h5 : r1.LRUhash_ = fun k => if k = f then some f else r.LRUhash_ k := by
    funext k
    rw [h4 k, List.drop_eq_nil_of_le hle]
    simp
  cases r1
  simp only at h2 h3 h5
  subst h2 h3 h5
  rfl

theorem LRUReplacer.run_total (ops : List ReplacerOp) :
    ∀ r : LRUReplacer, r.Size ≤ r.max_size_ →
      ∃ vs r1, LRUReplacer.run ops r = some (vs, r1) ∧ r1.max_size_ = r.max_size_ ∧
        r1.Size ≤ r1.max_size_ := by
  induction ops with
  | nil =>
    intro r h
    exact ⟨[], r, rfl, rfl, h⟩
  | cons op ops ih =>
    intro r h
    cases op with
    | pin f =>
      have hp : (r.pin f).Size ≤ (r.pin f).max_size_ ∧ (r.pin f).max_size_ = r.max_size_ := by
        unfold LRUReplacer.pin
        cases r.LRUhash_ f with
        | none => exact ⟨h, rfl⟩
        | some it =>
          refine ⟨?_, rfl⟩
          simp only [LRUReplacer.Size] at h ⊢
          exact le_trans (List.length_erase_le it r.LRUlist_) h
      obtain ⟨vs, r1, h1, h2, h3⟩ := ih (r.pin f) hp.1
      exact ⟨vs, r1, by rw [LRUReplacer.run, h1], by rw [h2, hp.2], h3⟩
    | unpin f =>
      obtain ⟨r0, e0, e1, _, e3⟩ := r.unpin_total f
      obtain ⟨vs, r1, h1, h2, h3⟩ := ih r0 (e3 h)
      exact ⟨vs, r1, by rw [LRUReplacer.run, e0]; exact h1, by rw [h2, e1], h3⟩
    | victim =>
      have hv : r.victim.2.Size ≤ r.victim.2.max_size_ ∧ r.victim.2.max_size_ = r.max_size_ := by
        unfold LRUReplacer.victim
        cases r.LRUlist_.getLast? with
        | none => exact ⟨h, rfl⟩
        | some v =>
          refine ⟨?_, rfl⟩
          simp only [LRUReplacer.Size, List.length_dropLast] at h ⊢
          omega
      obtain ⟨vs, r1, h1, h2, h3⟩ := ih r.victim.2 hv.1
      exact ⟨r.victim.1 :: vs, r1, by rw [LRUReplacer.run, h1], by rw [h2, hv.2], h3⟩

theorem LRUReplacer.run_never_victim (f : frame_id_t) (ops : List ReplacerOp) :
    ∀ r : LRUReplacer, f ∉ r.LRUlist_ → (∀ op ∈ ops, op ≠ ReplacerOp.unpin f) →
      ∃ vs r1, LRUReplacer.run ops r = some (vs, r1) ∧ some f ∉ vs := by
  induction ops with
  | nil =>
    intro r _ _
    exact ⟨[], r, rfl, by simp⟩
  | cons op ops ih =>
    intro r hf hops
    have hrest : ∀ op1 ∈ ops, op1 ≠ ReplacerOp.unpin f :=
      fun op1 h => hops op1 (List.mem_cons_of_mem _ h)
    cases op with
    | pin g =>
      have hp : f ∉ (r.pin g).LRUlist_ := by
        unfold LRUReplacer.pin
        cases r.LRUhash_ g with
        | none => exact hf
        | some it => exact fun h => hf (List.mem_of_mem_erase h)
      obtain ⟨vs, r1, h1, h2⟩ := ih (r.pin g) hp hrest
      exact ⟨vs, r1, by rw [LRUReplacer.run, h1], h2⟩
    | unpin g =>
      have hg : g ≠ f := by
        intro h
        exact hops (ReplacerOp.unpin g) (List.mem_cons_self _ _) (by rw [h])
      obtain ⟨r0, e0, _, e2, _⟩ := r.unpin_total g
      have hf0 : f ∉ r0.LRUlist_ := by
        intro h
        rcases e2 f h with h1 | h1
        · exact hg h1.symm
        · exact hf h1
      obtain ⟨vs, r1, h1, h2⟩ := ih r0 hf0 hrest
      exact ⟨vs, r1, by rw [LRUReplacer.run, e0]; exact h1, h2⟩
    | victim =>
      have hv : f ∉ r.victim.2.LRUlist_ ∧ r.victim.1 ≠ some f := by
        unfold LRUReplacer.victim
        cases hl : r.LRUlist_.getLast? with
        | none => exact ⟨hf, by simp⟩
        | some v =>
          refine ⟨fun h => hf (List.mem_of_mem_dropLast h), ?_⟩
          intro h
          simp only [Option.some.injEq] at h
          subst h
          exact hf (List.mem_of_getLast?_eq_some hl)
      obtain ⟨vs, r1, h1, h2⟩ := ih r.victim.2 hv.1 hrest
      refine ⟨r.victim.1 :: vs, r1, by rw [LRUReplacer.run, h1], ?_⟩
      simp only [List.mem_cons, not_or]
      exact ⟨fun h => hv.2 h.symm, h2⟩

theorem LRUReplacer.inv_new (c : Nat) : (LRUReplacer.new c).Inv :=
  ⟨List.nodup_nil, fun _ h => absurd h (List.not_mem_nil _),
    fun _ _ h => by simp [LRUReplacer.new] at h⟩

theorem LRUReplacer.inv_pin (r : LRUReplacer) (f : frame_id_t) (hinv : r.Inv) :
    (r.pin f).Inv := by
  obtain ⟨hnd, hin, hout⟩ := hinv
  unfold LRUReplacer.pin
  cases hf : r.LRUhash_ f with
  | none => exact ⟨hnd, hin, hout⟩
  | some it =>
    obtain ⟨hit, _⟩ := hout f it hf
    rw [hit]
    refine ⟨hnd.erase f, ?_, ?_⟩
    · intro k hk
      have hkf : k ≠ f := fun e => by
        rw [e] at hk
        exact (List.Nodup.not_mem_erase hnd) hk
      simp only [LRUReplacer.hash_erase, hkf, if_false]
      exact hin k (List.mem_of_mem_erase hk)
    · intro k it1 hk
      simp only [LRUReplacer.hash_erase] at hk
      by_cases hkf : k = f
      · simp [hkf] at hk
      · simp only [hkf, if_false] at hk
        obtain ⟨h1, h2⟩ := hout k it1 hk
        exact ⟨h1, (List.mem_erase_of_ne hkf).2 h2⟩

theorem LRUReplacer.inv_victim (r : LRUReplacer) (hinv : r.Inv) : r.victim.2.Inv := by
  obtain ⟨hnd, hin, hout⟩ := hinv
  unfold LRUReplacer.victim
  cases hl : r.LRUlist_.getLast? with
  | none => exact ⟨hnd, hin, hout⟩
  | some v =>
    have hsplit : r.LRUlist_.dropLast ++ [v] = r.LRUlist_ :=
      List.dropLast_append_getLast? v (by simp [hl])
    have hnd1 : (r.LRUlist_.dropLast ++ [v]).Nodup := by
      rw [hsplit]
      exact hnd
    have hv : v ∉ r.LRUlist_.dropLast := by
      intro h
      exact (List.nodup_append.1 hnd1).2.2 h (List.mem_singleton_self v)
    refine ⟨(List.nodup_append.1 hnd1).1, ?_, ?_⟩
    · intro k hk
      have hkv : k ≠ v := fun e => hv (e ▸ hk)
      simp only [LRUReplacer.hash_erase, hkv, if_false]
      exact hin k (List.mem_of_mem_dropLast hk)
    · intro k it1 hk
      simp only [LRUReplacer.hash_erase] at hk
      by_cases hkv : k = v
      · simp [hkv] at hk
      · simp only [hkv, if_false] at hk
        obtain ⟨h1, h2⟩ := hout k it1 hk
        refine ⟨h1, ?_⟩
        rw [← hsplit] at h2
        simp only [List.mem_append, List.mem_singleton] at h2
        rcases h2 with h2 | h2
        · exact h2
        · exact absurd h2 hkv

theorem LRUReplacer.inv_unpin (r : LRUReplacer) (f : frame_id_t) (hinv : r.Inv) :
    ∃ r1, r.unpin f = some r1 ∧ r1.Inv := by
  obtain ⟨hnd, hin, hout⟩ := hinv
  cases hf : r.LRUhash_ f with
  | some it => exact ⟨r, by simp [LRUReplacer.unpin, hf], hnd, hin, hout⟩
  | none =>
    have hnot : f ∉ r.LRUlist_ := by
      intro h
      rw [hin f h] at hf
      simp at hf
    obtain ⟨r1, h1, h2, _, h4⟩ := r.unpin_untracked_spec f hf
    have hnd1 : (f :: r.LRUlist_).Nodup := List.nodup_cons.2 ⟨hnot, hnd⟩
    have hsplit := List.take_append_drop r.max_size_ (f :: r.LRUlist_)
    rw [← hsplit] at hnd1
    obtain ⟨n1, n2, n3⟩ := List.nodup_append.1 hnd1
    refine ⟨r1, h1, ?_, ?_, ?_⟩
    · rw [h2]
      exact n1
    · intro k hk
      rw [h2] at hk
      have hk2 : k ∉ (f :: r.LRUlist_).drop r.max_size_ := fun h => n3 hk h
      rw [h4 k]
      simp only [hk2, if_false]
      by_cases hkf : k = f
      · simp [hkf]
      · simp only [hkf, if_false]
        have := List.mem_of_mem_take hk
        simp only [List.mem_cons, hkf, false_or] at this
        exact hin k this
    · intro k it1 hk
      rw [h4 k] at hk
      by_cases hk2 : k ∈ (f :: r.LRUlist_).drop r.max_size_
      · simp [hk2] at hk
      · simp only [hk2, if_false] at hk
        have hmem : k ∈ f :: r.LRUlist_ → k ∈ r1.LRUlist_ := by
          intro h
          rw [← hsplit] at h
          rw [h2]
          simp only [List.mem_append] at h
          rcases h with h | h
          · exact h
          · exact absurd h hk2
        by_cases hkf : k = f
        · simp only [hkf, if_true, Option.some.injEq] at hk
          rw [hkf]
          exact ⟨hk.symm, hkf ▸ hmem (by simp [hkf])⟩
        · simp only [hkf, if_false] at hk
          obtain ⟨a1, a2⟩ := hout k it1 hk
          exact ⟨a1, hmem (List.mem_cons_of_mem _ a2)⟩

theorem LRUReplacer.run_inv (ops : List ReplacerOp) :
    ∀ r : LRUReplacer, r.Inv → ∃ vs r1, LRUReplacer.run ops r = some (vs, r1) ∧ r1.Inv := by
  induction ops with
  | nil =>
    intro r h
    exact ⟨[], r, rfl, h⟩
  | cons op ops ih =>
    intro r h
    cases op with
    | pin f =>
      obtain ⟨vs, r1, h1, h2⟩ := ih (r.pin f) (r.inv_pin f h)
      exact ⟨vs, r1, by rw [LRUReplacer.run, h1], h2⟩
    | unpin f =>
      obtain ⟨r0, e0, e1⟩ := r.inv_unpin f h
      obtain ⟨vs, r1, h1, h2⟩ := ih r0 e1
      exact ⟨vs, r1, by rw [LRUReplacer.run, e0]; exact h1, h2⟩
    | victim =>
      obtain ⟨vs, r1, h1, h2⟩ := ih r.victim.2 (r.inv_victim h)
      exact ⟨r.victim.1 :: vs, r1, by rw [LRUReplacer.run, h1], h2⟩

/-- C6: `victim()` on a replacer whose list is empty reports no candidate and changes
nothing; on a list `front ++ [f]` it returns the tail entry `f`, and the state afterwards
is the same list without its tail (`front`, order kept) and the same map without key `f`.
After `unpin(1)`, `unpin(2)`, `unpin(3)` on an empty replacer of capacity at least 3, four
`victim()` calls return 1, 2, 3 and then no candidate. -/
theorem victim_returns_tail (r : LRUReplacer) :
    (r.LRUlist_ = [] → r.victim = (none, r)) ∧
      (∀ front f, r.LRUlist_ = front ++ [f] →
        r.victim = (some f,
          { r with LRUlist_ := front, LRUhash_ := LRUReplacer.hash_erase r.LRUhash_ f })) ∧
      (∀ c, 3 ≤ c →
        (LRUReplacer.run
          [.unpin 1, .unpin 2, .unpin 3, .victim, .victim, .victim, .victim]
          (LRUReplacer.new c)).map Prod.fst = some [some 1, some 2, some 3, none]) := by
  refine ⟨?_, ?_, ?_⟩
  · intro h
    simp [LRUReplacer.victim, h]
  · intro front f h
    simp [LRUReplacer.victim, h]
  · intro c hc
    have e1 : (LRUReplacer.new c).unpin 1 =
        some ⟨[1], fun k => if k = 1 then some 1 else none, c⟩ :=
      LRUReplacer.unpin_room (LRUReplacer.new c) 1 rfl
        (by simp only [LRUReplacer.new, List.length_nil]; omega)
    have e2 : LRUReplacer.unpin ⟨[1], fun k => if k = 1 then some 1 else none, c⟩ 2 =
        some ⟨[2, 1], fun k => if k = 2 then some 2 else if k = 1 then some 1 else none, c⟩ :=
      LRUReplacer.unpin_room ⟨[1], fun k => if k = 1 then some 1 else none, c⟩ 2 rfl
        (by simp only [List.length_cons, List.length_nil]; omega)
    have e3 : LRUReplacer.unpin
        ⟨[2, 1], fun k => if k = 2 then some 2 else if k = 1 then some 1 else none, c⟩ 3 =
        some ⟨[3, 2, 1], fun k => if k = 3 then some 3 else
          if k = 2 then some 2 else if k = 1 then some 1 else none, c⟩ :=
      LRUReplacer.unpin_room
        ⟨[2, 1], fun k => if k = 2 then some 2 else if k = 1 then some 1 else none, c⟩ 3 rfl
        (by simp only [List.length_cons, List.length_nil]; omega)
    simp only [LRUReplacer.run]
    rw [e1]
    simp only
    rw [e2]
    simp only
    rw [e3]
    simp [LRUReplacer.victim]

/-- C6 at the replacer with list `[3, 2, 1]` (front first): the victim is 1. -/
theorem victim_returns_tail_witness :
    (LRUReplacer.victim ⟨[3, 2, 1], fun k => some k, 3⟩).1 = some 1 :=
  congrArg Prod.fst
    ((victim_returns_tail ⟨[3, 2, 1], fun k => some k, 3⟩).2.1 [3, 2] 1 rfl)

/-- C7 as stated fails on a replacer of capacity 0: after `unpin(7)` twice on the empty
replacer the list holds no entry for frame 7. -/
theorem unpin_twice_capacity_zero :
    ((LRUReplacer.new 0).unpin 7).bind
      (fun r1 => (r1.unpin 7).map (fun r2 => r2.LRUlist_.count 7)) = some 0 := by
  rfl

/-- C7, amended: on a replacer that satisfies the representation invariant and has
capacity at least 1, `unpin(f)` twice in a row leaves exactly one entry for `f` in the
list, registered in the map; the second call changes nothing. -/
theorem unpin_twice_one_entry (r : LRUReplacer) (f : frame_id_t)
    (hinv : r.Inv) (hcap : 1 ≤ r.max_size_) :
    ∃ r1, r.unpin f = some r1 ∧ r1.unpin f = some r1 ∧
      r1.LRUlist_.count f = 1 ∧ r1.LRUhash_ f = some f := by
  obtain ⟨hnd, hin, hout⟩ := hinv
  cases hf : r.LRUhash_ f with
  | some it =>
    obtain ⟨hit, hmem⟩ := hout f it hf
    rw [hit] at hf
    have hu : r.unpin f = some r := by simp [LRUReplacer.unpin, hf]
    exact ⟨r, hu, hu, List.count_eq_one_of_mem hnd hmem, hf⟩
  | none =>
    have hnot : f ∉ r.LRUlist_ := by
      intro h
      rw [hin f h] at hf
      simp at hf
    obtain ⟨r1, h1, h2, h3, h4⟩ := r.unpin_untracked_spec f hf
    obtain ⟨m, hm⟩ : ∃ m, r.max_size_ = m + 1 := ⟨r.max_size_ - 1, by omega⟩
    rw [hm] at h2 h4
    simp only [List.take_succ_cons, List.drop_succ_cons] at h2 h4
    have hh : r1.LRUhash_ f = some f := by
      rw [h4 f]
      have : f ∉ List.drop m r.LRUlist_ := fun h => hnot (List.mem_of_mem_drop h)
      simp [this]
    refine ⟨r1, h1, ?_, ?_, hh⟩
    · simp [LRUReplacer.unpin, hh]
    · rw [h2, List.count_cons_self]
      have : f ∉ List.take m r.LRUlist_ := fun h => hnot (List.mem_of_mem_take h)
      simp [List.count_eq_zero_of_not_mem this]

/-- C7 (amended) at the empty replacer of capacity 2. -/
theorem unpin_twice_one_entry_witness :
    ∃ r1, (LRUReplacer.new 2).unpin 7 = some r1 ∧ r1.unpin 7 = some r1 ∧
      r1.LRUlist_.count 7 = 1 ∧ r1.LRUhash_ 7 = some 7 :=
  unpin_twice_one_entry (LRUReplacer.new 2) 7 (LRUReplacer.inv_new 2) (by decide)

/-- C8: on a replacer that satisfies the representation invariant, `pin(f)` is a no-op when
`f` is absent, and otherwise removes `f` alone: the list afterwards is the old list without
`f` (other frames and their order kept) and only key `f` leaves the map. After `pin(f)`, in
every sequence of calls without `unpin(f)`, no `victim()` call returns `f`; this holds in
particular after any sequence of calls `ops1` on a freshly constructed replacer. -/
theorem pin_removes_frame (r : LRUReplacer) (f : frame_id_t) (hinv : r.Inv) :
    (r.LRUhash_ f = none → r.pin f = r) ∧
      (r.pin f).LRUlist_ = r.LRUlist_.filter (fun k => k ≠ f) ∧
      (r.pin f).LRUhash_ f = none ∧
      (∀ k, k ≠ f → (r.pin f).LRUhash_ k = r.LRUhash_ k) ∧
      (r.pin f).max_size_ = r.max_size_ ∧
      (∀ ops : List ReplacerOp, (∀ op ∈ ops, op ≠ ReplacerOp.unpin f) →
        ∃ vs r1, LRUReplacer.run ops (r.pin f) = some (vs, r1) ∧ some f ∉ vs) ∧
      (∀ (c : Nat) (ops1 ops2 : List ReplacerOp), (∀ op ∈ ops2, op ≠ ReplacerOp.unpin f) →
        ∃ vs1 r1 vs2 r2, LRUReplacer.run ops1 (LRUReplacer.new c) = some (vs1, r1) ∧
          LRUReplacer.run ops2 (r1.pin f) = some (vs2, r2) ∧ some f ∉ vs2) := by
  have hpin : ∀ r0 : LRUReplacer, r0.Inv → f ∉ (r0.pin f).LRUlist_ := by
    intro r0 h0
    obtain ⟨hnd, hin, hout⟩ := h0
    unfold LRUReplacer.pin
    cases hf : r0.LRUhash_ f with
    | none =>
      intro h
      rw [hin f h] at hf
      simp at hf
    | some it =>
      obtain ⟨hit, _⟩ := hout f it hf
      rw [hit]
      exact List.Nodup.not_mem_erase hnd
  have hreach : ∀ (c : Nat) (ops1 ops2 : List ReplacerOp),
      (∀ op ∈ ops2, op ≠ ReplacerOp.unpin f) →
      ∃ vs1 r1 vs2 r2, LRUReplacer.run ops1 (LRUReplacer.new c) = some (vs1, r1) ∧
        LRUReplacer.run ops2 (r1.pin f) = some (vs2, r2) ∧ some f ∉ vs2 := by
    intro c ops1 ops2 hops
    obtain ⟨vs1, r1, e1, i1⟩ := LRUReplacer.run_inv ops1 (LRUReplacer.new c)
      (LRUReplacer.inv_new c)
    obtain ⟨vs2, r2, e2, n2⟩ := LRUReplacer.run_never_victim f ops2 (r1.pin f)
      (hpin r1 i1) hops
    exact ⟨vs1, r1, vs2, r2, e1, e2, n2⟩
  obtain ⟨hnd, hin, hout⟩ := hinv
  have hlist : (r.pin f).LRUlist_ = r.LRUlist_.filter (fun k => k ≠ f) := by
    unfold LRUReplacer.pin
    cases hf : r.LRUhash_ f with
    | none =>
      have hnot : f ∉ r.LRUlist_ := by
        intro h
        rw [hin f h] at hf
        simp at hf
      simp only
      rw [List.filter_eq_self.2]
      intro a ha
      simp only [ne_eq, decide_not, Bool.not_eq_true', decide_eq_false_iff_not]
      intro h
      subst h
      exact hnot ha
    | some it =>
      obtain ⟨hit, _⟩ := hout f it hf
      rw [hit]
      simp only
      rw [hnd.erase_eq_filter]
      congr 1
      funext k
      by_cases hk : k = f <;> simp [hk]
  have hnot : f ∉ (r.pin f).LRUlist_ := by
    rw [hlist]
    simp
  refine ⟨?_, hlist, ?_, ?_, ?_, ?_, hreach⟩
  · intro hf
    simp [LRUReplacer.pin, hf]
  · unfold LRUReplacer.pin
    cases hf : r.LRUhash_ f with
    | none => exact hf
    | some it => simp [LRUReplacer.hash_erase]
  · intro k hk
    unfold LRUReplacer.pin
    cases hf : r.LRUhash_ f with
    | none => rfl
    | some it => simp [LRUReplacer.hash_erase, hk]
  · unfold LRUReplacer.pin
    cases r.LRUhash_ f <;> rfl
  · intro ops hops
    exact LRUReplacer.run_never_victim f ops (r.pin f) hnot hops

/-- C8 at the replacer with list `[3, 2, 1]`: after `pin(1)` the next victim is 2. -/
theorem pin_removes_frame_witness :
    (LRUReplacer.pin ⟨[3, 2, 1], fun k => if k = 1 ∨ k = 2 ∨ k = 3 then some k else none, 3⟩
      1).LRUlist_ = [3, 2, 1].filter (fun k => k ≠ 1) :=
  (pin_removes_frame ⟨[3, 2, 1], fun k => if k = 1 ∨ k = 2 ∨ k = 3 then some k else none, 3⟩ 1
    ⟨by decide,
      by
        intro k hk
        simp only [List.mem_cons, List.mem_singleton, List.not_mem_nil, or_false] at hk
        rcases hk with h | h | h <;> subst h <;> rfl,
      by
        intro k it h
        by_cases hk : k = 1 ∨ k = 2 ∨ k = 3
        · simp only [hk, if_true, Option.some.injEq] at h
          refine ⟨h.symm, ?_⟩
          simp only [List.mem_cons, List.mem_singleton, List.not_mem_nil, or_false]
          tauto
        · simp [hk] at h⟩).2.1

/-- C9: `unpin(f)` of an untracked frame puts `f` at the front and then drops tail entries
while the list is longer than `max_size_`: the list afterwards is the first `max_size_`
entries of `f :: list`, of length exactly `max_size_` if `f :: list` exceeded it and equal
to `f :: list` otherwise. Hence every state reachable from the empty replacer by `pin`,
`unpin` and `victim` calls tracks at most `max_size_` frames. -/
theorem unpin_enforces_capacity (r : LRUReplacer) (f : frame_id_t)
    (hun : r.LRUhash_ f = none) :
    (∃ r1, r.unpin f = some r1 ∧
      r1.LRUlist_ = (f :: r.LRUlist_).take r.max_size_ ∧
      r1.max_size_ = r.max_size_ ∧
      (r.max_size_ < (f :: r.LRUlist_).length → r1.Size = r.max_size_) ∧
      ((f :: r.LRUlist_).length ≤ r.max_size_ → r1.LRUlist_ = f :: r.LRUlist_)) ∧
    (∀ (ops : List ReplacerOp) (c : Nat),
      ∃ vs r2, LRUReplacer.run ops (LRUReplacer.new c) = some (vs, r2) ∧
        r2.max_size_ = c ∧ r2.Size ≤ c) := by
  constructor
  · obtain ⟨r1, h1, h2, h3, _⟩ := r.unpin_untracked_spec f hun
    refine ⟨r1, h1, h2, h3, ?_, ?_⟩
    · intro h
      simp only [LRUReplacer.Size, h2, List.length_take]
      omega
    · intro h
      rw [h2, List.take_of_length_le h]
  · intro ops c
    obtain ⟨vs, r2, h1, h2, h3⟩ := LRUReplacer.run_total ops (LRUReplacer.new c)
      (by simp [LRUReplacer.new, LRUReplacer.Size])
    refine ⟨vs, r2, h1, h2, ?_⟩
    rw [h2] at h3
    exact h3

/-- C9 at a full replacer of capacity 2 with list `[2, 1]`: `unpin(3)` leaves `[3, 2]`. -/
theorem unpin_enforces_capacity_witness :
    ∃ r1, (LRUReplacer.unpin ⟨[2, 1], fun k => if k = 1 ∨ k = 2 then some k else none, 2⟩ 3)
        = some r1 ∧ r1.LRUlist_ = [3, 2] ∧ r1.Size = 2 := by
  obtain ⟨r1, h1, h2, _, h4, _⟩ :=
    (unpin_enforces_capacity ⟨[2, 1], fun k => if k = 1 ∨ k = 2 then some k else none, 2⟩ 3
      rfl).1
  exact ⟨r1, h1, h2, h4 (by decide)⟩

/-! ## Nested-loop join -/

theorem joinPairs_nil_right (p : RmRecord → RmRecord → Bool) (ls : List RmRecord) :
    joinPairs p ls [] = [] := by
  induction ls with
  | nil => rfl
  | cons l ls ih => simp [joinPairs, ih]

theorem joinPairs_eq_product_filter (p : RmRecord → RmRecord → Bool) (ls rs : List RmRecord) :
    joinPairs p ls rs = (List.product ls rs).filter (fun lr => p lr.1 lr.2) := by
  induction ls with
  | nil => rfl
  | cons l ls ih =>
    simp only [joinPairs, ih, List.product, List.flatMap_cons, List.filter_append,
      List.filter_map]
    rfl

theorem pairsFrom_zero (p : RmRecord → RmRecord → Bool) (ls rs : List RmRecord) (i : Nat) :
    pairsFrom p ls rs i 0 = joinPairs p (ls.drop i) rs := by
  unfold pairsFrom
  cases h : ls.get? i with
  | none =>
    have hlen : ls.length ≤ i := by
      simpa using List.get?_eq_none.1 h
    rw [List.drop_eq_nil_of_le hlen]
    rfl
  | some l =>
    have hlt : i < ls.length := by
      by_contra hc
      have : ls.get? i = none := List.get?_eq_none.2 (by omega)
      rw [this] at h
      simp at h
    have hd : ls.drop i = l :: ls.drop (i + 1) := by
      rw [List.drop_eq_getElem_cons hlt]
      congr 1
      have := List.get?_eq_get hlt
      rw [this] at h
      simpa using h
    rw [hd, joinPairs]
    simp

theorem pairsFrom_right_end (p : RmRecord → RmRecord → Bool) (ls rs : List RmRecord)
    (i k : Nat) (hk : rs.length ≤ k) :
    pairsFrom p ls rs i k = joinPairs p (ls.drop (i + 1)) rs := by
  unfold pairsFrom
  cases h : ls.get? i with
  | none =>
    have hlen : ls.length ≤ i := by
      simpa using List.get?_eq_none.1 h
    have h2 : ls.drop (i + 1) = [] := List.drop_eq_nil_of_le (by omega)
    simp [h2, joinPairs]
  | some l => simp [List.drop_eq_nil_of_le hk]

theorem pairsFrom_step (p : RmRecord → RmRecord → Bool) (ls rs : List RmRecord)
    (i k : Nat) (l r : RmRecord) (hl : ls.get? i = some l) (hr : rs.get? k = some r) :
    pairsFrom p ls rs i k =
      if p l r then (l, r) :: pairsFrom p ls rs i (k + 1) else pairsFrom p ls rs i (k + 1) := by
  have hlt : k < rs.length := by
    by_contra hc
    have : rs.get? k = none := List.get?_eq_none.2 (by omega)
    rw [this] at hr
    simp at hr
  have hd : rs.drop k = r :: rs.drop (k + 1) := by
    rw [List.drop_eq_getElem_cons hlt]
    congr 1
    have := List.get?_eq_get hlt
    rw [this] at hr
    simpa using hr
  unfold pairsFrom
  simp only [hl, hd, List.filter_cons]
  by_cases hp : p l r = true <;> simp [hp]

theorem join_record_bytes (l r : List Byte) (ll rl : Nat) (hl : l.length = ll)
    (hr : r.length = rl) :
    memcpy_at (memcpy_at (List.replicate (ll + rl) 0) 0 l ll) ll r rl = l ++ r := by
  subst hl hr
  simp [memcpy_at, memcpy]

theorem findNextValidPair_loop_done (env : ExecEnv) (left right : ChildExecutor)
    (conds : List Condition) (fuel i k : Nat) (b : Bool) (hi : left.rows.length ≤ i) :
    NestedLoopJoinExecutor.findNextValidPair_loop env (fuel + 1)
      (joinState left right conds i k b) = some (.ok (joinState left right conds i k true)) := by
  simp [NestedLoopJoinExecutor.findNextValidPair_loop, joinState, ChildExecutor.is_end, hi]

theorem findNextValidPair_loop_step (env : ExecEnv) (left right : ChildExecutor)
    (conds : List Condition) (fuel i k : Nat) (b : Bool) (l r : RmRecord)
    (hl : left.rows.get? i = some l) (hr : right.rows.get? k = some r) :
    NestedLoopJoinExecutor.findNextValidPair_loop env (fuel + 1)
      (joinState left right conds i k b) =
      match NestedLoopJoinExecutor.eval_conds env left.len l r conds
          (NestedLoopJoinExecutor.new left right conds).cols_ with
      | .error e => some (.error e)
      | .ok true => some (.ok (joinState left right conds i k b))
      | .ok false =>
        if right.rows.length ≤ k + 1 then
          if i + 1 < left.rows.length then
            NestedLoopJoinExecutor.findNextValidPair_loop env fuel
              (joinState left right conds (i + 1) 0 b)
          else
            NestedLoopJoinExecutor.findNextValidPair_loop env fuel
              (joinState left right conds (i + 1) (k + 1) b)
        else
          NestedLoopJoinExecutor.findNextValidPair_loop env fuel
            (joinState left right conds i (k + 1) b) := by
  have hi : i < left.rows.length := by
    by_contra hc
    have : left.rows.get? i = none := List.get?_eq_none.2 (by omega)
    rw [this] at hl
    simp at hl
  have hk : k < right.rows.length := by
    by_contra hc
    have : right.rows.get? k = none := List.get?_eq_none.2 (by omega)
    rw [this] at hr
    simp at hr
  have hi1 : ¬ left.rows.length ≤ i := by omega
  have hk1 : ¬ right.rows.length ≤ k := by omega
  rw [NestedLoopJoinExecutor.findNextValidPair_loop]
  simp only [joinState, NestedLoopJoinExecutor.new, ChildExecutor.is_end, ChildExecutor.Next,
    ChildExecutor.nextTuple, ChildExecutor.beginTuple, hl, hr, hi1, hk1, decide_False,
    Bool.not_false, Bool.and_self, if_true]
  cases NestedLoopJoinExecutor.eval_conds env left.len l r conds
      (left.cols ++ List.map (fun col => { col with offset := col.offset + left.len })
        right.cols) with
  | error e => rfl
  | ok v =>
    cases v with
    | true => rfl
    | false =>
      simp only
      by_cases h1 : right.rows.length ≤ k + 1
      · by_cases h2 : i + 1 < left.rows.length
        · have h3 : ¬ left.rows.length ≤ i + 1 := by omega
          simp [h1, h2, h3]
        · have h3 : left.rows.length ≤ i + 1 := by omega
          simp [h1, h2, h3]
      · simp [h1]

theorem get?_some_of_lt (xs : List RmRecord) (i : Nat) (h : i < xs.length) :
    ∃ x, xs.get? i = some x ∧ x ∈ xs :=
  ⟨xs.get ⟨i, h⟩, List.get?_eq_get h, List.get_mem xs i h⟩

theorem findNextValidPair_loop_spec (env : ExecEnv) (left right : ChildExecutor)
    (conds : List Condition)
    (hok : ∀ l ∈ left.rows, ∀ r ∈ right.rows, ∃ v,
      NestedLoopJoinExecutor.eval_conds env left.len l r conds
        (NestedLoopJoinExecutor.new left right conds).cols_ = .ok v) :
    ∀ (fuel i k : Nat) (b : Bool), i < left.rows.length → k < right.rows.length →
      (left.rows.length - i) * right.rows.length < fuel + k →
      (pairsFrom ((NestedLoopJoinExecutor.new left right conds).satisfies env)
          left.rows right.rows i k = [] →
        ∃ i1 k1, NestedLoopJoinExecutor.findNextValidPair_loop env fuel
          (joinState left right conds i k b) = some (.ok (joinState left right conds i1 k1 true))) ∧
      (∀ l r rest, pairsFrom ((NestedLoopJoinExecutor.new left right conds).satisfies env)
          left.rows right.rows i k = (l, r) :: rest →
        ∃ i1 k1, NestedLoopJoinExecutor.findNextValidPair_loop env fuel
            (joinState left right conds i k b) = some (.ok (joinState left right conds i1 k1 b)) ∧
          left.rows.get? i1 = some l ∧ right.rows.get? k1 = some r ∧
          rest = pairsFrom ((NestedLoopJoinExecutor.new left right conds).satisfies env)
            left.rows right.rows i1 (k1 + 1)) := by
  intro fuel
  induction fuel with
  | zero =>
    intro i k b hi hk hm
    exfalso
    have h1 : 1 ≤ left.rows.length - i := by omega
    have h2 : 1 * right.rows.length ≤ (left.rows.length - i) * right.rows.length :=
      Nat.mul_le_mul_right _ h1
    omega
  | succ fuel ih =>
    intro i k b hi hk hm
    obtain ⟨l, hl, hlmem⟩ := get?_some_of_lt left.rows i hi
    obtain ⟨r, hr, hrmem⟩ := get?_some_of_lt right.rows k hk
    obtain ⟨v, hv⟩ := hok l hlmem r hrmem
    have hsplit : (left.rows.length - i) * right.rows.length
        = (left.rows.length - (i + 1)) * right.rows.length + right.rows.length := by
      have e : left.rows.length - i = (left.rows.length - (i + 1)) + 1 := by omega
      rw [e, Nat.succ_mul]
    rw [findNextValidPair_loop_step env left right conds fuel i k b l r hl hr, hv,
      pairsFrom_step _ left.rows right.rows i k l r hl hr]
    have hsat : (NestedLoopJoinExecutor.new left right conds).satisfies env l r = v := by
      have hlen : (NestedLoopJoinExecutor.new left right conds).left_.len = left.len := rfl
      have hc : (NestedLoopJoinExecutor.new left right conds).fed_conds_ = conds := rfl
      unfold NestedLoopJoinExecutor.satisfies
      rw [hlen, hc, hv]
      cases v <;> rfl
    rw [hsat]
    cases v with
    | true =>
      simp only [if_true]
      constructor
      · intro h
        simp at h
      · intro l1 r1 rest h
        simp only [List.cons.injEq, Prod.mk.injEq] at h
        obtain ⟨⟨h1, h2⟩, h3⟩ := h
        subst h1 h2 h3
        exact ⟨i, k, rfl, hl, hr, rfl⟩
    | false =>
      simp only [Bool.false_eq_true, if_false]
      by_cases h1 : right.rows.length ≤ k + 1
      · simp only [h1, if_true]
        rw [pairsFrom_right_end _ _ _ i (k + 1) h1]
        by_cases h2 : i + 1 < left.rows.length
        · simp only [h2, if_true]
          rw [← pairsFrom_zero]
          exact ih (i + 1) 0 b h2 (by omega) (by omega)
        · simp only [h2, if_false]
          have h3 : left.rows.drop (i + 1) = [] := List.drop_eq_nil_of_le (by omega)
          obtain ⟨g, rfl⟩ : ∃ g, fuel = g + 1 := ⟨fuel - 1, by omega⟩
          rw [h3, findNextValidPair_loop_done env left right conds g (i + 1) (k + 1) b (by omega)]
          constructor
          · intro _
            exact ⟨i + 1, k + 1, rfl⟩
          · intro l1 r1 rest h
            simp [joinPairs] at h
      · simp only [h1, if_false]
        exact ih i (k + 1) b hi (by omega) (by omega)

theorem nextTuple_spec (env : ExecEnv) (left right : ChildExecutor)
    (conds : List Condition)
    (hok : ∀ l ∈ left.rows, ∀ r ∈ right.rows, ∃ v,
      NestedLoopJoinExecutor.eval_conds env left.len l r conds
        (NestedLoopJoinExecutor.new left right conds).cols_ = .ok v)
    (i k : Nat) (hi : i < left.rows.length) (hk : k < right.rows.length) :
    (pairsFrom ((NestedLoopJoinExecutor.new left right conds).satisfies env)
        left.rows right.rows i (k + 1) = [] →
      ∃ i1 k1, NestedLoopJoinExecutor.nextTuple env (joinState left right conds i k false)
        = some (.ok (joinState left right conds i1 k1 true))) ∧
    (∀ l r rest, pairsFrom ((NestedLoopJoinExecutor.new left right conds).satisfies env)
        left.rows right.rows i (k + 1) = (l, r) :: rest →
      ∃ i1 k1, NestedLoopJoinExecutor.nextTuple env (joinState left right conds i k false)
          = some (.ok (joinState left right conds i1 k1 false)) ∧
        left.rows.get? i1 = some l ∧ right.rows.get? k1 = some r ∧
        rest = pairsFrom ((NestedLoopJoinExecutor.new left right conds).satisfies env)
          left.rows right.rows i1 (k1 + 1)) := by
  have hk1 : ¬ right.rows.length ≤ k := by omega
  have hbound : (left.rows.length - i) * right.rows.length
      ≤ left.rows.length * right.rows.length :=
    Nat.mul_le_mul_right _ (Nat.sub_le _ _)
  have hbound1 : (left.rows.length - (i + 1)) * right.rows.length
      ≤ left.rows.length * right.rows.length :=
    Nat.mul_le_mul_right _ (Nat.sub_le _ _)
  by_cases h1 : k + 1 < right.rows.length
  · have h2 : ¬ right.rows.length ≤ k + 1 := by omega
    have e : NestedLoopJoinExecutor.nextTuple env (joinState left right conds i k false) =
        NestedLoopJoinExecutor.findNextValidPair_loop env
          (left.rows.length * right.rows.length + 1)
          (joinState left right conds i (k + 1) false) := by
      simp [NestedLoopJoinExecutor.nextTuple, NestedLoopJoinExecutor.findNextValidPair,
        joinState, ChildExecutor.is_end, ChildExecutor.nextTuple, hk1, h2]
    rw [e]
    exact findNextValidPair_loop_spec env left right conds hok _ i (k + 1) false hi h1
      (by omega)
  · have h2 : right.rows.length ≤ k + 1 := by omega
    rw [pairsFrom_right_end _ _ _ i (k + 1) h2]
    by_cases h3 : i + 1 < left.rows.length
    · have h4 : ¬ left.rows.length ≤ i + 1 := by omega
      have e : NestedLoopJoinExecutor.nextTuple env (joinState left right conds i k false) =
          NestedLoopJoinExecutor.findNextValidPair_loop env
            (left.rows.length * right.rows.length + 1)
            (joinState left right conds (i + 1) 0 false) := by
        simp [NestedLoopJoinExecutor.nextTuple, NestedLoopJoinExecutor.findNextValidPair,
          joinState, ChildExecutor.is_end, ChildExecutor.nextTuple, ChildExecutor.beginTuple,
          hk1, h2, h4]
      rw [e, ← pairsFrom_zero]
      exact findNextValidPair_loop_spec env left right conds hok _ (i + 1) 0 false h3
        (by omega) (by omega)
    · have h4 : left.rows.length ≤ i + 1 := by omega
      have e : NestedLoopJoinExecutor.nextTuple env (joinState left right conds i k false) =
          some (.ok (joinState left right conds (i + 1) (k + 1) true)) := by
        simp [NestedLoopJoinExecutor.nextTuple, joinState, ChildExecutor.is_end,
          ChildExecutor.nextTuple, hk1, h2, h4]
      have h5 : left.rows.drop (i + 1) = [] := List.drop_eq_nil_of_le h4
      rw [e, h5]
      constructor
      · intro _
        exact ⟨i + 1, k + 1, rfl⟩
      · intro l r rest h
        simp [joinPairs] at h

theorem drain_done (env : ExecEnv) (left right : ChildExecutor) (conds : List Condition)
    (fuel i k : Nat) :
    NestedLoopJoinExecutor.drain env (fuel + 1) (joinState left right conds i k true)
      = some (.ok []) := by
  simp [NestedLoopJoinExecutor.drain, NestedLoopJoinExecutor.is_end, joinState]

theorem drain_spec (env : ExecEnv) (left right : ChildExecutor) (conds : List Condition)
    (hll : ∀ l ∈ left.rows, l.data.length = left.len)
    (hrl : ∀ r ∈ right.rows, r.data.length = right.len)
    (hok : ∀ l ∈ left.rows, ∀ r ∈ right.rows, ∃ v,
      NestedLoopJoinExecutor.eval_conds env left.len l r conds
        (NestedLoopJoinExecutor.new left right conds).cols_ = .ok v) :
    ∀ (fuel i k : Nat) (l r : RmRecord),
      left.rows.get? i = some l → right.rows.get? k = some r →
      (pairsFrom ((NestedLoopJoinExecutor.new left right conds).satisfies env)
        left.rows right.rows i (k + 1)).length + 2 ≤ fuel →
      NestedLoopJoinExecutor.drain env fuel (joinState left right conds i k false) =
        some (.ok (joinOut (left.len + right.len) (l, r) ::
          (pairsFrom ((NestedLoopJoinExecutor.new left right conds).satisfies env)
            left.rows right.rows i (k + 1)).map (joinOut (left.len + right.len)))) := by
  intro fuel
  induction fuel with
  | zero =>
    intro i k l r _ _ h
    omega
  | succ fuel ih =>
    intro i k l r hl hr hlen
    have hi : i < left.rows.length := by
      by_contra hc
      have : left.rows.get? i = none := List.get?_eq_none.2 (by omega)
      rw [this] at hl
      simp at hl
    have hk : k < right.rows.length := by
      by_contra hc
      have : right.rows.get? k = none := List.get?_eq_none.2 (by omega)
      rw [this] at hr
      simp at hr
    have hlm : l ∈ left.rows := List.get?_mem hl
    have hrm : r ∈ right.rows := List.get?_mem hr
    have hnext : NestedLoopJoinExecutor.Next (joinState left right conds i k false) =
        (joinOut (left.len + right.len) (l, r), joinState left right conds i k false) := by
      unfold NestedLoopJoinExecutor.Next
      simp only [joinState, NestedLoopJoinExecutor.new, ChildExecutor.Next, hl, hr,
        Bool.false_eq_true, if_false, joinOut,
        join_record_bytes l.data r.data left.len right.len (hll l hlm) (hrl r hrm)]
    obtain ⟨hnil, hcons⟩ := nextTuple_spec env left right conds hok i k hi hk
    rw [NestedLoopJoinExecutor.drain]
    have hend : (joinState left right conds i k false).is_end = false := rfl
    simp only [hend, Bool.false_eq_true, if_false, hnext]
    cases hp : pairsFrom ((NestedLoopJoinExecutor.new left right conds).satisfies env)
        left.rows right.rows i (k + 1) with
    | nil =>
      obtain ⟨i1, k1, e⟩ := hnil hp
      obtain ⟨g, rfl⟩ : ∃ g, fuel = g + 1 := ⟨fuel - 1, by rw [hp] at hlen; simp at hlen; omega⟩
      rw [e]
      simp [drain_done]
    | cons lr rest =>
      obtain ⟨l1, r1⟩ := lr
      obtain ⟨i1, k1, e, a1, a2, a3⟩ := hcons l1 r1 rest hp
      have := ih i1 k1 l1 r1 a1 a2 (by rw [← a3]; rw [hp] at hlen; simp at hlen; omega)
      rw [e]
      simp [this, a3]

theorem beginTuple_eq (env : ExecEnv) (left right : ChildExecutor) (conds : List Condition) :
    NestedLoopJoinExecutor.beginTuple env (NestedLoopJoinExecutor.new left right conds) =
      if left.rows.length = 0 ∨ right.rows.length = 0 then
        some (.ok (joinState left right conds 0 0 true))
      else
        NestedLoopJoinExecutor.findNextValidPair_loop env
          (left.rows.length * right.rows.length + 1) (joinState left right conds 0 0 false) := by
  by_cases h : left.rows.length = 0 ∨ right.rows.length = 0
  · rw [if_pos h]
    rcases h with h | h <;>
      simp [NestedLoopJoinExecutor.beginTuple, NestedLoopJoinExecutor.new, joinState,
        ChildExecutor.beginTuple, ChildExecutor.is_end, h]
  · rw [if_neg h]
    have h1 : left.rows.length ≠ 0 := fun e => h (Or.inl e)
    have h2 : right.rows.length ≠ 0 := fun e => h (Or.inr e)
    simp [NestedLoopJoinExecutor.beginTuple, NestedLoopJoinExecutor.new, joinState,
      ChildExecutor.beginTuple, ChildExecutor.is_end, NestedLoopJoinExecutor.findNextValidPair,
      h1, h2]

theorem eval_op_eq_spec (op : CompOp) (c : Int) :
    eval_op op c = spec_op_accepts op (spec_cmp_outcome c) := by
  unfold spec_cmp_outcome
  by_cases h1 : c < 0
  · have h2 : c ≠ 0 := by omega
    have h3 : ¬ c > 0 := by omega
    have h4 : c ≤ 0 := by omega
    have h5 : ¬ c ≥ 0 := by omega
    cases op <;> simp [eval_op, spec_op_accepts, h1, h2, h3, h4, h5]
  · by_cases h2 : c = 0
    · subst h2
      cases op <;> simp [eval_op, spec_op_accepts]
    · have h3 : c > 0 := by omega
      have h4 : ¬ c ≤ 0 := by omega
      have h5 : c ≥ 0 := by omega
      cases op <;> simp [eval_op, spec_op_accepts, h1, h2, h3, h4, h5]

theorem NestedLoopJoinExecutor.eval_cond_true_iff (env : ExecEnv) (left_len : Nat)
    (l r : RmRecord) (cond : Condition) (cols : List ColMeta) :
    NestedLoopJoinExecutor.eval_cond env left_len l r cond cols = .ok true ↔
      spec_join_cond env cols left_len l r cond = true := by
  unfold NestedLoopJoinExecutor.eval_cond spec_join_cond get_col spec_literal_encoding spec_join_operand
  cases hl : cols.find? (fun c => c.tab_name = cond.lhs_col.tab_name ∧
      c.name = cond.lhs_col.col_name) with
  | none => simp
  | some lcol =>
    simp only []
    by_cases hv : cond.is_rhs_val = true
    · simp only [hv, if_true]
      cases hraw : cond.rhs_val.raw with
      | some raw =>
        by_cases hty : lcol.type = cond.rhs_val.type
        · simp [hty, eval_op_eq_spec]
        · simp [hty]
      | none =>
        cases hi : env.init_raw cond.rhs_val lcol.len with
        | error e => simp
        | ok raw =>
          by_cases hty : lcol.type = cond.rhs_val.type
          · simp [hty, eval_op_eq_spec]
          · simp [hty]
    · simp only [hv, if_false, Bool.false_eq_true]
      cases hr : cols.find? (fun c => c.tab_name = cond.rhs_col.tab_name ∧
          c.name = cond.rhs_col.col_name) with
      | none => simp
      | some rcol =>
        by_cases hty : lcol.type = rcol.type
        · by_cases ho : rcol.offset < left_len
          · simp [hty, ho, eval_op_eq_spec]
          · simp [hty, ho, eval_op_eq_spec]
        · by_cases ho : rcol.offset < left_len
          · simp [hty, ho]
          · simp [hty, ho]

theorem NestedLoopJoinExecutor.eval_conds_true_iff (env : ExecEnv) (left_len : Nat)
    (l r : RmRecord) (cols : List ColMeta) (conds : List Condition) :
    NestedLoopJoinExecutor.eval_conds env left_len l r conds cols = .ok true ↔
      ∀ cond ∈ conds, NestedLoopJoinExecutor.eval_cond env left_len l r cond cols = .ok true := by
  induction conds with
  | nil => simp [NestedLoopJoinExecutor.eval_conds]
  | cons c conds ih =>
    rw [NestedLoopJoinExecutor.eval_conds, List.forall_mem_cons, ← ih]
    cases hc : NestedLoopJoinExecutor.eval_cond env left_len l r c cols with
    | error e => simp
    | ok v => cases v <;> simp

theorem NestedLoopJoinExecutor.satisfies_eq_all (env : ExecEnv) (j : NestedLoopJoinExecutor)
    (l r : RmRecord) :
    j.satisfies env l r
      = j.fed_conds_.all (fun cond => spec_join_cond env j.cols_ j.left_.len l r cond) := by
  have h := NestedLoopJoinExecutor.eval_conds_true_iff env j.left_.len l r j.cols_ j.fed_conds_
  rw [Bool.eq_iff_iff, List.all_eq_true]
  unfold NestedLoopJoinExecutor.satisfies
  constructor
  · intro hs cond hcond
    have he : NestedLoopJoinExecutor.eval_conds env j.left_.len l r j.fed_conds_ j.cols_
        = .ok true := by
      cases hv : NestedLoopJoinExecutor.eval_conds env j.left_.len l r j.fed_conds_ j.cols_ with
      | error e => simp [hv] at hs
      | ok v => cases v <;> simp [hv] at hs ⊢
    exact (NestedLoopJoinExecutor.eval_cond_true_iff env _ l r cond _).1 (h.1 he cond hcond)
  · intro hall
    rw [h.2 (fun cond hcond =>
      (NestedLoopJoinExecutor.eval_cond_true_iff env _ l r cond _).2 (hall cond hcond))]

/-- C10: for finite children whose tuples have the children's record lengths, and join
conditions whose evaluation throws on no pair, `beginTuple` followed by `Next`/`nextTuple`
until `is_end` yields exactly the records `l ++ r` (left bytes, then right bytes) of the
pairs `(l, r)` of the left-major product of the children's tuples that satisfy every
condition of the list, as the specification defines it (`spec_join_cond` for each condition
of `conds`: operands resolved in the joined schema, same declared type, the operator
accepting the outcome of the type-aware comparison), in that order, each once, and is at the
end right after the last one; the executor's own test of a pair, `satisfies`, is that
conjunction. For `T = {(1,10), (2,20)}` the join of `T` as `L` with `T` as `R` on
`L.a = R.a` yields `(1,10,1,10)` and `(2,20,2,20)`. -/
theorem nested_loop_join_yields (env : ExecEnv) (left right : ChildExecutor)
    (conds : List Condition) (fuel : Nat)
    (hll : ∀ l ∈ left.rows, l.data.length = left.len)
    (hrl : ∀ r ∈ right.rows, r.data.length = right.len)
    (hok : ∀ l ∈ left.rows, ∀ r ∈ right.rows, ∃ v,
      NestedLoopJoinExecutor.eval_conds env left.len l r conds
        (NestedLoopJoinExecutor.new left right conds).cols_ = .ok v)
    (hfuel : (joinPairs ((NestedLoopJoinExecutor.new left right conds).satisfies env)
      left.rows right.rows).length < fuel) :
    NestedLoopJoinExecutor.execute env fuel (NestedLoopJoinExecutor.new left right conds) =
        some (.ok (((List.product left.rows right.rows).filter
          (fun lr => conds.all (fun cond =>
            spec_join_cond env (spec_join_schema left right) left.len lr.1 lr.2 cond))).map
              (joinOut (left.len + right.len)))) ∧
      (∀ l r, (NestedLoopJoinExecutor.new left right conds).satisfies env l r =
        conds.all (fun cond => spec_join_cond env (spec_join_schema left right) left.len l r cond)) ∧
      NestedLoopJoinExecutor.execute env fuel (NestedLoopJoinExecutor.new left right conds) =
        some (.ok ((joinPairs ((NestedLoopJoinExecutor.new left right conds).satisfies env)
          left.rows right.rows).map (joinOut (left.len + right.len)))) ∧
      joinPairs ((NestedLoopJoinExecutor.new left right conds).satisfies env)
          left.rows right.rows =
        (List.product left.rows right.rows).filter
          (fun lr => (NestedLoopJoinExecutor.new left right conds).satisfies env lr.1 lr.2) ∧
      NestedLoopJoinExecutor.execute specEnv 3 exampleJoin =
        some (.ok [some ⟨16, enc4 1 ++ enc4 10 ++ (enc4 1 ++ enc4 10)⟩,
          some ⟨16, enc4 2 ++ enc4 20 ++ (enc4 2 ++ enc4 20)⟩]) := by
  have hsat : ∀ l r, (NestedLoopJoinExecutor.new left right conds).satisfies env l r =
      conds.all (fun cond => spec_join_cond env (spec_join_schema left right) left.len l r cond) :=
    fun l r => NestedLoopJoinExecutor.satisfies_eq_all env
      (NestedLoopJoinExecutor.new left right conds) l r
  have hmain : NestedLoopJoinExecutor.execute env fuel
      (NestedLoopJoinExecutor.new left right conds) =
      some (.ok ((joinPairs ((NestedLoopJoinExecutor.new left right conds).satisfies env)
        left.rows right.rows).map (joinOut (left.len + right.len)))) := by
    obtain ⟨g, rfl⟩ : ∃ g, fuel = g + 1 := ⟨fuel - 1, by omega⟩
    unfold NestedLoopJoinExecutor.execute
    rw [beginTuple_eq]
    by_cases h : left.rows.length = 0 ∨ right.rows.length = 0
    · rw [if_pos h]
      simp only [drain_done]
      rcases h with h | h
      · rw [List.length_eq_zero.1 h]
        rfl
      · rw [List.length_eq_zero.1 h, joinPairs_nil_right]
        rfl
    · rw [if_neg h]
      have h1 : 0 < left.rows.length := by omega
      have h2 : 0 < right.rows.length := by omega
      obtain ⟨hnil, hcons⟩ := findNextValidPair_loop_spec env left right conds hok
        (left.rows.length * right.rows.length + 1) 0 0 false h1 h2 (by simp)
      rw [pairsFrom_zero, List.drop_zero] at hnil hcons
      cases hp : joinPairs ((NestedLoopJoinExecutor.new left right conds).satisfies env)
          left.rows right.rows with
      | nil =>
        obtain ⟨i1, k1, e⟩ := hnil hp
        rw [e]
        simp [drain_done]
      | cons lr rest =>
        obtain ⟨l1, r1⟩ := lr
        obtain ⟨i1, k1, e, a1, a2, a3⟩ := hcons l1 r1 rest hp
        have := drain_spec env left right conds hll hrl hok (g + 1) i1 k1 l1 r1 a1 a2
          (by rw [← a3]; rw [hp] at hfuel; simp at hfuel; omega)
        rw [e]
        simp [this, a3]
  refine ⟨?_, hsat, hmain, joinPairs_eq_product_filter _ _ _, by rfl⟩
  rw [hmain, joinPairs_eq_product_filter]
  congr 3
  exact List.filter_congr (fun lr _ => hsat lr.1 lr.2)

/-- C10 at the example join: its run is the list of the concatenations of the left-major
pairs that satisfy `L.a = R.a`, which are `(1,10,1,10)` and `(2,20,2,20)`. -/
theorem nested_loop_join_yields_witness :
    NestedLoopJoinExecutor.execute specEnv 3 exampleJoin =
        some (.ok (((List.product (exampleT "L").rows (exampleT "R").rows).filter
          (fun lr => [Condition.mk ⟨"L", "a"⟩ .OP_EQ false ⟨"R", "a"⟩
              ⟨.TYPE_INT, 0, [], none⟩].all (fun cond =>
            spec_join_cond specEnv (spec_join_schema (exampleT "L") (exampleT "R")) (exampleT "L").len
              lr.1 lr.2 cond))).map (joinOut ((exampleT "L").len + (exampleT "R").len)))) ∧
      ((List.product (exampleT "L").rows (exampleT "R").rows).filter
          (fun lr => [Condition.mk ⟨"L", "a"⟩ .OP_EQ false ⟨"R", "a"⟩
              ⟨.TYPE_INT, 0, [], none⟩].all (fun cond =>
            spec_join_cond specEnv (spec_join_schema (exampleT "L") (exampleT "R")) (exampleT "L").len
              lr.1 lr.2 cond))).map (joinOut ((exampleT "L").len + (exampleT "R").len))
        = [some ⟨16, enc4 1 ++ enc4 10 ++ (enc4 1 ++ enc4 10)⟩,
          some ⟨16, enc4 2 ++ enc4 20 ++ (enc4 2 ++ enc4 20)⟩] :=
  ⟨(nested_loop_join_yields specEnv (exampleT "L") (exampleT "R")
    [⟨⟨"L", "a"⟩, .OP_EQ, false, ⟨"R", "a"⟩, ⟨.TYPE_INT, 0, [], none⟩⟩] 3
    (by decide) (by decide)
    (by
      intro l hl r hr
      simp only [exampleT, List.mem_cons, List.mem_singleton, List.not_mem_nil, or_false]
        at hl hr
      rcases hl with h | h <;> rcases hr with h1 | h1 <;> subst h <;> subst h1
      · exact ⟨true, rfl⟩
      · exact ⟨false, rfl⟩
      · exact ⟨false, rfl⟩
      · exact ⟨true, rfl⟩)
    (by decide)).1, by rfl⟩

/-! ## Record manager: update, insert into a free page, missing pages -/

theorem RmFileHandle.update_record_ok (fh : RmFileHandle) (rid : Rid) (b : List Byte)
    (pg : RmPage)
    (hp0 : 0 ≤ rid.page_no) (hp1 : rid.page_no < fh.file_hdr_.num_pages)
    (hpg : fh.pages rid.page_no.toNat = some pg) (hbit : pg.bitmap rid.slot_no = true) :
    fh.update_record rid b =
      (.ok (),
        { file_hdr_ := fh.file_hdr_
          pages := fun k =>
            if k = rid.page_no.toNat then
              some
                { page_hdr := pg.page_hdr
                  bitmap := pg.bitmap
                  slots := fun i =>
                    if i = rid.slot_no then
                      memcpy (pg.slots rid.slot_no) b fh.file_hdr_.record_size
                    else pg.slots i }
            else fh.pages k }) := by
  unfold RmFileHandle.update_record
  rw [fh.fetch_page_handle_eq_ok rid.page_no pg hp0 hp1 hpg]
  simp [Bitmap.is_set, hbit, RmFileHandle.put_page, RmPageHandle.get_slot]

/-- C15: `update_record(rid, b)` on a live Rid with a buffer of `record_size` bytes
succeeds, `get_record(rid)` then returns exactly `b`, and nothing else changes: the file
header (page count, free-list head), every other page, and on the Rid's own page the page
header (record count, next-free link), the bitmap and every other slot. -/
theorem update_in_place (fh : RmFileHandle) (rid : Rid) (b : List Byte) (pg : RmPage)
    (hp0 : 0 ≤ rid.page_no) (hp1 : rid.page_no < fh.file_hdr_.num_pages)
    (hpg : fh.pages rid.page_no.toNat = some pg) (hbit : pg.bitmap rid.slot_no = true)
    (hb : b.length = fh.file_hdr_.record_size) :
    (fh.update_record rid b).1 = .ok () ∧
      (fh.update_record rid b).2.get_record rid
        = .ok (some ⟨fh.file_hdr_.record_size, b⟩) ∧
      (fh.update_record rid b).2.file_hdr_ = fh.file_hdr_ ∧
      (∀ k, k ≠ rid.page_no.toNat → (fh.update_record rid b).2.pages k = fh.pages k) ∧
      ∃ pg1, (fh.update_record rid b).2.pages rid.page_no.toNat = some pg1 ∧
        pg1.page_hdr = pg.page_hdr ∧ pg1.bitmap = pg.bitmap ∧
        ∀ s, s ≠ rid.slot_no → pg1.slots s = pg.slots s := by
  have hget : ∀ (fh1 : RmFileHandle) (pg1 : RmPage), fh1.file_hdr_ = fh.file_hdr_ →
      fh1.pages rid.page_no.toNat = some pg1 → pg1.bitmap rid.slot_no = true →
      pg1.slots rid.slot_no = memcpy (pg.slots rid.slot_no) b fh.file_hdr_.record_size →
      fh1.get_record rid = .ok (some ⟨fh.file_hdr_.record_size, b⟩) := by
    intro fh1 pg1 a1 a2 a3 a4
    rw [RmFileHandle.get_record_of_page fh1 rid pg1 hp0 (by rw [a1]; exact hp1) a2, if_pos a3,
      a4, a1, memcpy_read_back _ b _ hb]
  rw [fh.update_record_ok rid b pg hp0 hp1 hpg hbit]
  refine ⟨rfl, hget _ _ rfl (if_pos rfl) hbit (if_pos rfl), rfl, ?_,
    ⟨_, if_pos rfl, rfl, rfl, ?_⟩⟩
  · intro k hk
    simp [hk]
  · intro s hs
    simp [hs]

/-- C15 at a concrete file: slot (0,2) of a page with bitmap `[1,0,1,1]` is overwritten. -/
theorem update_in_place_witness :
    ((fileOfBitmaps 4 [[true, false, true, true]]).update_record ⟨0, 2⟩ [5, 6, 7, 8]).2.get_record
      ⟨0, 2⟩ = .ok (some ⟨4, [5, 6, 7, 8]⟩) :=
  (update_in_place (fileOfBitmaps 4 [[true, false, true, true]]) ⟨0, 2⟩ [5, 6, 7, 8]
    ⟨⟨-1, 3⟩, fun i => if i < 0 then false else [true, false, true, true].getD i.toNat false,
      fun _ => [0, 0, 0, 0]⟩
    (by decide) (by decide) rfl rfl rfl).2.1

/-- C17: when `rid.page_no` is not the number of an existing page (it is negative, at or
beyond the page count, or the buffer pool has no such page), `get_record`, `delete_record`
and `update_record` each throw `PageNotExistError` and leave the file as it was. -/
theorem missing_page_fails (fh : RmFileHandle) (rid : Rid) (buf : List Byte)
    (hout : rid.page_no < 0 ∨ fh.file_hdr_.num_pages ≤ rid.page_no ∨
      fh.pages rid.page_no.toNat = none) :
    fh.get_record rid = .error (.PageNotExistError rid.page_no) ∧
      fh.delete_record rid = (.error (.PageNotExistError rid.page_no), fh) ∧
      fh.update_record rid buf = (.error (.PageNotExistError rid.page_no), fh) := by
  have hfetch : fh.fetch_page_handle rid.page_no = .error (.PageNotExistError rid.page_no) := by
    unfold RmFileHandle.fetch_page_handle RmFileHandle.fetch_page
    by_cases h1 : rid.page_no ≥ fh.file_hdr_.num_pages
    · simp [h1]
    · by_cases h2 : rid.page_no < 0
      · simp [h1, h2]
      · have h3 : fh.pages rid.page_no.toNat = none := by
          rcases hout with h | h | h
          · exact absurd h h2
          · exact absurd h h1
          · exact h
        simp [h1, h2, h3]
  refine ⟨?_, ?_, ?_⟩
  · simp [RmFileHandle.get_record, hfetch]
  · simp [RmFileHandle.delete_record, hfetch]
  · simp [RmFileHandle.update_record, hfetch]

/-- C17 at a concrete file of one page: page 5 does not exist. -/
theorem missing_page_fails_witness :
    (fileOfBitmaps 4 [[true, false, true, true]]).get_record ⟨5, 0⟩
      = .error (.PageNotExistError 5) :=
  (missing_page_fails (fileOfBitmaps 4 [[true, false, true, true]]) ⟨5, 0⟩ []
    (Or.inr (Or.inl (by decide)))).1

/-- C16: when the free-page list is non-empty, its head page exists and `s` is the
lowest-numbered slot of that page whose bit is unset, `insert_record` returns the Rid
(head page, `s`), writes the buffer into slot `s`, sets exactly bit `s`, adds one to that
page's record count and changes no other slot, page or header field; the free-list head
becomes the page's next-free link if the count thereby reaches the page capacity, and is
unchanged otherwise. -/
theorem insert_into_free_page (fh : RmFileHandle) (buf : List Byte) (pg : RmPage) (s : Int)
    (hp0 : 0 ≤ fh.file_hdr_.first_free_page_no)
    (hp1 : fh.file_hdr_.first_free_page_no < fh.file_hdr_.num_pages)
    (hpg : fh.pages fh.file_hdr_.first_free_page_no.toNat = some pg)
    (hs0 : 0 ≤ s) (hs1 : s < fh.file_hdr_.num_records_per_page)
    (hsfree : pg.bitmap s = false)
    (hlow : ∀ m, 0 ≤ m → m < s → pg.bitmap m = true) :
    (fh.insert_record buf).1 = .ok ⟨fh.file_hdr_.first_free_page_no, s⟩ ∧
      (∃ pg1, (fh.insert_record buf).2.pages fh.file_hdr_.first_free_page_no.toNat = some pg1 ∧
        (∀ i, pg1.bitmap i = if i = s then true else pg.bitmap i) ∧
        pg1.page_hdr.num_records = pg.page_hdr.num_records + 1 ∧
        pg1.page_hdr.next_free_page_no = pg.page_hdr.next_free_page_no ∧
        pg1.slots s = memcpy (pg.slots s) buf fh.file_hdr_.record_size ∧
        ∀ i, i ≠ s → pg1.slots i = pg.slots i) ∧
      (∀ k, k ≠ fh.file_hdr_.first_free_page_no.toNat →
        (fh.insert_record buf).2.pages k = fh.pages k) ∧
      (fh.insert_record buf).2.file_hdr_.num_pages = fh.file_hdr_.num_pages ∧
      (fh.insert_record buf).2.file_hdr_.num_records_per_page
        = fh.file_hdr_.num_records_per_page ∧
      (fh.insert_record buf).2.file_hdr_.record_size = fh.file_hdr_.record_size ∧
      (fh.insert_record buf).2.file_hdr_.first_free_page_no =
        if pg.page_hdr.num_records + 1 = fh.file_hdr_.num_records_per_page then
          pg.page_hdr.next_free_page_no
        else fh.file_hdr_.first_free_page_no := by
  have hne : fh.file_hdr_.first_free_page_no ≠ -1 := by omega
  have hsearch : Bitmap.first_bit false pg.bitmap fh.file_hdr_.num_records_per_page = s := by
    unfold Bitmap.first_bit
    rw [Bitmap.search_eq_some false _ _ 0 s hs0 (by omega) hsfree]
    intro m a b
    simp [hlow m a b]
  have hs : s ≠ -1 := by omega
  unfold RmFileHandle.insert_record RmFileHandle.create_page_handle
  simp only [hne, if_false]
  rw [fh.fetch_page_handle_eq_ok _ pg hp0 hp1 hpg]
  simp only [hsearch, hs, if_false, RmPageHandle.get_slot, RmFileHandle.put_page]
  refine ⟨trivial, ?_, ?_, ?_, ?_, ?_, ?_⟩
  · split_ifs
    · exact ⟨_, if_pos rfl, fun i => rfl, rfl, rfl, if_pos rfl, fun i hi => if_neg hi⟩
    · exact ⟨_, if_pos rfl, fun i => rfl, rfl, rfl, if_pos rfl, fun i hi => if_neg hi⟩
  · intro k hk
    split_ifs <;> simp [hk]
  · split_ifs <;> rfl
  · split_ifs <;> rfl
  · split_ifs <;> rfl
  · split_ifs <;> rfl

/-- C16 at a concrete file: page 0 with bitmap `[1,0]` heads the free list; the insert
goes to slot 1 and fills the page, so the list becomes empty again. -/
theorem insert_into_free_page_witness :
    (RmFileHandle.insert_record
        { fileOfBitmaps 2 [[true, false]] with
          file_hdr_ := ⟨4, 1, 2, 0, 1⟩ } [1, 2, 3, 4]).1 = .ok ⟨0, 1⟩ :=
  (insert_into_free_page
    { fileOfBitmaps 2 [[true, false]] with file_hdr_ := ⟨4, 1, 2, 0, 1⟩ } [1, 2, 3, 4]
    ⟨⟨-1, 1⟩, fun i => if i < 0 then false else [true, false].getD i.toNat false,
      fun _ => [0, 0, 0, 0]⟩ 1
    (by decide) (by decide) rfl (by decide) (by decide) rfl
    (by
      intro m h0 h1
      have : m = 0 := by omega
      subst this
      rfl)).1

/-- C20: the schema of a `NestedLoopJoinExecutor` is the left child's columns, unchanged
and in order, followed by the right child's columns in order with `offset` increased by
the left child's `tupleLen()`; its record length is the sum of the children's; and when
both children are positioned at tuples of their record lengths, `Next()` returns a record
of that length whose bytes `[0, leftLen)` are the left tuple and whose bytes
`[leftLen, leftLen + rightLen)` are the right tuple. -/
theorem join_schema_and_layout (left right : ChildExecutor) (conds : List Condition)
    (l r : RmRecord) (hl : left.Next = some l) (hr : right.Next = some r)
    (hll : l.data.length = left.len) (hrl : r.data.length = right.len) :
    (NestedLoopJoinExecutor.new left right conds).cols_.length
        = left.cols.length + right.cols.length ∧
      (∀ i, i < left.cols.length →
        (NestedLoopJoinExecutor.new left right conds).cols_.get? i = left.cols.get? i) ∧
      (∀ i col, right.cols.get? i = some col →
        (NestedLoopJoinExecutor.new left right conds).cols_.get? (left.cols.length + i)
          = some { col with offset := col.offset + left.len }) ∧
      (NestedLoopJoinExecutor.new left right conds).len_ = left.len + right.len ∧
      ∃ out, (NestedLoopJoinExecutor.new left right conds).Next.1 = some out ∧
        out.size = left.len + right.len ∧
        out.data.length = left.len + right.len ∧
        out.data.take left.len = l.data ∧
        (out.data.drop left.len).take right.len = r.data := by
  refine ⟨by simp [NestedLoopJoinExecutor.new], ?_, ?_, rfl, ?_⟩
  · intro i hi
    simp only [NestedLoopJoinExecutor.new, List.get?_eq_getElem?]
    exact List.getElem?_append_left hi
  · intro i col hcol
    simp only [NestedLoopJoinExecutor.new, List.get?_eq_getElem?] at hcol ⊢
    rw [List.getElem?_append_right (Nat.le_add_right _ _)]
    simp [hcol]
  · refine ⟨⟨left.len + right.len, l.data ++ r.data⟩, ?_, rfl, by simp [hll, hrl], ?_, ?_⟩
    · unfold NestedLoopJoinExecutor.Next
      simp only [NestedLoopJoinExecutor.new, hl, hr, Bool.false_eq_true, if_false,
        join_record_bytes l.data r.data left.len right.len hll hrl]
    · simp [← hll]
    · simp [← hll, ← hrl]

/-- C20 at the example join of `T` with itself, positioned at the first tuples. -/
theorem join_schema_and_layout_witness :
    exampleJoin.cols_.length = 2 + 2 ∧ exampleJoin.len_ = 8 + 8 :=
  ⟨(join_schema_and_layout (exampleT "L") (exampleT "R")
      [⟨⟨"L", "a"⟩, .OP_EQ, false, ⟨"R", "a"⟩, ⟨.TYPE_INT, 0, [], none⟩⟩]
      ⟨8, enc4 1 ++ enc4 10⟩ ⟨8, enc4 1 ++ enc4 10⟩ rfl rfl rfl rfl).1,
    (join_schema_and_layout (exampleT "L") (exampleT "R")
      [⟨⟨"L", "a"⟩, .OP_EQ, false, ⟨"R", "a"⟩, ⟨.TYPE_INT, 0, [], none⟩⟩]
      ⟨8, enc4 1 ++ enc4 10⟩ ⟨8, enc4 1 ++ enc4 10⟩ rfl rfl rfl rfl).2.2.2.1⟩

/-! ## Sequential scan -/

theorem scanAt_new (fh : RmFileHandle) (hpres : fh.pagesPresent) :
    ∃ s, RmScan.new fh = some (.ok s) ∧ ScanAt fh s (occupiedRids fh) := by
  obtain ⟨hnil, hcons⟩ := RmScan.next_loop_spec fh hpres
    (fh.file_hdr_.num_pages - (0 : Nat)).toNat ((fh.file_hdr_.num_pages - (0 : Nat)).toNat + 1)
    0 (-1) (by omega) rfl
  have e0 : (fh.file_hdr_.num_pages - ((0 : Nat) : Int)).toNat = fh.file_hdr_.num_pages.toNat := by
    simp
  rw [e0] at hnil hcons
  have hocc : occupiedRids fh = ridsAfter fh fh.file_hdr_.num_pages.toNat 0 (-1) := by
    rw [occupiedRids, ridsOfPages_eq_ridsAfter]
  have hnew : RmScan.new fh =
      RmScan.next_loop (fh.file_hdr_.num_pages.toNat + 1) ⟨fh, ⟨((0 : Nat) : Int), -1⟩⟩ := by
    simp [RmScan.new, RmScan.next, RM_FIRST_RECORD_PAGE]
  rw [hnew, hocc]
  cases hr : ridsAfter fh fh.file_hdr_.num_pages.toNat 0 (-1) with
  | nil =>
    obtain ⟨s1, h1, h2, h3⟩ := hnil hr
    exact ⟨s1, h1, h3, ⟨[], by rw [hocc, hr]; rfl⟩, h2⟩
  | cons rid rest =>
    obtain ⟨p1, c1, e1, h1, h2, h3⟩ := hcons rid rest hr
    refine ⟨⟨fh, rid⟩, h1, rfl, ⟨[], by rw [hocc, hr]; rfl⟩, rfl, p1, ?_, h2, ?_⟩
    · rw [e1]
    · rw [e1]
      exact h3

theorem scanAt_next (fh : RmFileHandle) (hpres : fh.pagesPresent) (s : RmScan) (rid : Rid)
    (more : List Rid) (h : ScanAt fh s (rid :: more)) :
    s.is_end = false ∧ s.rid = rid ∧ ∃ s1, s.next = some (.ok s1) ∧ ScanAt fh s1 more := by
  obtain ⟨hfh, ⟨pre, hpre⟩, hrid, p, hp, hlt, hmore⟩ := h
  obtain ⟨sfh, srid⟩ := s
  simp only at hfh hrid
  subst hfh hrid
  obtain ⟨pn, c⟩ := srid
  simp only at hp hmore
  subst hp
  have hsuf : ∃ pre1, occupiedRids sfh = pre1 ++ more := ⟨pre ++ [⟨(p : Int), c⟩], by simp [hpre]⟩
  refine ⟨?_, rfl, ?_⟩
  · simp only [RmScan.is_end, decide_eq_false_iff_not]
    omega
  · obtain ⟨hnil, hcons⟩ := RmScan.next_loop_spec sfh hpres
      (sfh.file_hdr_.num_pages - p).toNat ((sfh.file_hdr_.num_pages - p).toNat + 1) p c
      (by omega) rfl
    rw [← hmore] at hnil hcons
    unfold RmScan.next
    cases more with
    | nil =>
      obtain ⟨s1, h1, h2, h3⟩ := hnil rfl
      exact ⟨s1, h1, h3, hsuf, h2⟩
    | cons rid1 more1 =>
      obtain ⟨p1, c1, e1, h1, h2, h3⟩ := hcons rid1 more1 rfl
      refine ⟨⟨sfh, rid1⟩, h1, rfl, hsuf, rfl, p1, ?_, h2, ?_⟩
      · rw [e1]
      · rw [e1]
        exact h3

theorem scanAt_nil (fh : RmFileHandle) (s : RmScan) (h : ScanAt fh s []) :
    s.is_end = true ∧ s.next = some (.ok s) := by
  obtain ⟨_, _, hend⟩ := h
  refine ⟨hend, ?_⟩
  have hge : ¬ s.rid_.page_no < s.file_handle_.file_hdr_.num_pages := by
    simp only [RmScan.is_end, decide_eq_true_eq] at hend
    omega
  simp [RmScan.next, RmScan.next_loop, hge]

theorem scanAt_mem (fh : RmFileHandle) (s : RmScan) (rest : List Rid) (h : ScanAt fh s rest)
    (rid : Rid) (hrid : rid ∈ rest) : rid ∈ occupiedRids fh := by
  obtain ⟨_, ⟨pre, hpre⟩, _⟩ := h
  rw [hpre]
  exact List.mem_append_right _ hrid

theorem get_record_occupied (fh : RmFileHandle) (rid : Rid) (h : rid ∈ occupiedRids fh) :
    ∃ rec, fh.get_record rid = .ok (some rec) ∧ rec.size = fh.file_hdr_.record_size := by
  obtain ⟨h0, h1, _, _, pg, hpg, hbit⟩ := (mem_occupiedRids fh rid).1 h
  rw [RmFileHandle.get_record_of_page fh rid pg h0 h1 hpg, if_pos hbit]
  exact ⟨_, rfl, rfl⟩

theorem filter_dropWhile_not (p : Rid → Bool) (l : List Rid) :
    l.filter p =
      match l.dropWhile (fun x => !p x) with
      | [] => []
      | x :: m => x :: m.filter p := by
  induction l with
  | nil => rfl
  | cons a l ih =>
    by_cases ha : p a = true
    · simp [List.filter_cons, List.dropWhile_cons, ha]
    · simp only [Bool.not_eq_true] at ha
      simp only [List.filter_cons, List.dropWhile_cons, ha, Bool.not_false, if_true,
        Bool.false_eq_true, if_false]
      exact ih

theorem head_dropWhile_not (p : Rid → Bool) (l : List Rid) (x : Rid) (m : List Rid)
    (h : l.dropWhile (fun x => !p x) = x :: m) : p x = true := by
  induction l with
  | nil => simp at h
  | cons a l ih =>
    by_cases ha : p a = true
    · simp only [List.dropWhile_cons, ha, Bool.not_true, Bool.false_eq_true, if_false,
        List.cons.injEq] at h
      rw [← h.1]
      exact ha
    · simp only [Bool.not_eq_true] at ha
      simp only [List.dropWhile_cons, ha, Bool.not_false, if_true] at h
      exact ih h

theorem SeqScanExecutor.scan_loop_spec (env : ExecEnv) (ex : SeqScanExecutor)
    (hpres : ex.fh_.pagesPresent)
    (hok : ∀ rid ∈ occupiedRids ex.fh_, ∃ v,
      SeqScanExecutor.eval_conds env (recordAt ex.fh_ rid) ex.fed_conds_ ex.cols_ = .ok v) :
    ∀ (rest : List Rid) (fuel : Nat) (scan : RmScan) (ex1 : SeqScanExecutor),
      ex1.fh_ = ex.fh_ → ex1.cols_ = ex.cols_ → ex1.fed_conds_ = ex.fed_conds_ →
      ScanAt ex.fh_ scan rest → rest.length < fuel →
      ∃ ex2, SeqScanExecutor.scan_loop env fuel ex1 scan = some (.ok ex2) ∧
        SeqScanExecutor.At ex ex2 (rest.dropWhile (fun rid => !ex.satisfies env rid)) := by
  intro rest
  induction rest with
  | nil =>
    intro fuel scan ex1 a1 a2 a3 hat hfuel
    obtain ⟨f, rfl⟩ : ∃ f, fuel = f + 1 := ⟨fuel - 1, by simp at hfuel; omega⟩
    obtain ⟨hend, _⟩ := scanAt_nil ex.fh_ scan hat
    refine ⟨{ ex1 with scan_ := some scan }, ?_, a1, a2, a3, scan, rfl, hat, ?_⟩
    · simp [SeqScanExecutor.scan_loop, hend]
    · intro rid more h
      simp at h
  | cons rid more ih =>
    intro fuel scan ex1 a1 a2 a3 hat hfuel
    obtain ⟨f, rfl⟩ : ∃ f, fuel = f + 1 := ⟨fuel - 1, by simp at hfuel; omega⟩
    obtain ⟨hend, hrid, s1, hnext, hat1⟩ := scanAt_next ex.fh_ hpres scan rid more hat
    have hmem : rid ∈ occupiedRids ex.fh_ :=
      scanAt_mem ex.fh_ scan _ hat rid (List.mem_cons_self _ _)
    obtain ⟨rec, hrec, _⟩ := get_record_occupied ex.fh_ rid hmem
    obtain ⟨v, hv⟩ := hok rid hmem
    have hrat : recordAt ex.fh_ rid = some rec := by simp [recordAt, hrec]
    have hsat : ex.satisfies env rid = v := by
      unfold SeqScanExecutor.satisfies
      rw [hv]
      cases v <;> rfl
    rw [hrat] at hv
    have hrec1 : ex1.fh_.get_record rid = .ok (some rec) := by rw [a1]; exact hrec
    have hv1 : SeqScanExecutor.eval_conds env (some rec) ex1.fed_conds_ ex1.cols_ = .ok v := by
      rw [a2, a3]
      exact hv
    rw [SeqScanExecutor.scan_loop]
    simp only [hend, Bool.not_false, if_true, hrid, hrec1, hv1, hnext]
    cases v with
    | true =>
      refine ⟨_, rfl, a1, a2, a3, scan, rfl, ?_, ?_⟩
      · simp only [List.dropWhile_cons, hsat, Bool.not_true, Bool.false_eq_true, if_false]
        exact hat
      · intro rid1 more1 h
        simp only [List.dropWhile_cons, hsat, Bool.not_true, Bool.false_eq_true, if_false,
          List.cons.injEq] at h
        exact h.1
    | false =>
      simp only [List.dropWhile_cons, hsat, Bool.not_false, if_true]
      exact ih f s1 { ex1 with rid_ := rid } a1 a2 a3 hat1 (by simp at hfuel; omega)

theorem filter_dropWhile_eq (p : Rid → Bool) (l : List Rid) :
    (l.dropWhile (fun x => !p x)).filter p = l.filter p := by
  induction l with
  | nil => rfl
  | cons a l ih =>
    by_cases ha : p a = true
    · simp [List.dropWhile_cons, ha]
    · simp only [Bool.not_eq_true] at ha
      simp only [List.dropWhile_cons, ha, Bool.not_false, if_true, List.filter_cons,
        Bool.false_eq_true, if_false]
      exact ih

theorem SeqScanExecutor.beginTuple_spec (env : ExecEnv) (ex : SeqScanExecutor)
    (hpres : ex.fh_.pagesPresent)
    (hok : ∀ rid ∈ occupiedRids ex.fh_, ∃ v,
      SeqScanExecutor.eval_conds env (recordAt ex.fh_ rid) ex.fed_conds_ ex.cols_ = .ok v) :
    ∃ ex2, ex.beginTuple env = some (.ok ex2) ∧
      SeqScanExecutor.At ex ex2
        ((occupiedRids ex.fh_).dropWhile (fun rid => !ex.satisfies env rid)) := by
  obtain ⟨s, hnew, hat⟩ := scanAt_new ex.fh_ hpres
  unfold SeqScanExecutor.beginTuple
  rw [hnew]
  exact SeqScanExecutor.scan_loop_spec env ex hpres hok _ _ s ex rfl rfl rfl hat
    (by simp [SeqScanExecutor.loop_fuel])

theorem SeqScanExecutor.scan_nextTuple_spec (env : ExecEnv) (ex : SeqScanExecutor)
    (hpres : ex.fh_.pagesPresent)
    (hok : ∀ rid ∈ occupiedRids ex.fh_, ∃ v,
      SeqScanExecutor.eval_conds env (recordAt ex.fh_ rid) ex.fed_conds_ ex.cols_ = .ok v)
    (ex1 : SeqScanExecutor) (rest : List Rid) (hat : SeqScanExecutor.At ex ex1 rest) :
    ∃ ex2, ex1.nextTuple env = some (.ok ex2) ∧
      SeqScanExecutor.At ex ex2 (rest.tail.dropWhile (fun rid => !ex.satisfies env rid)) := by
  obtain ⟨a1, a2, a3, scan, hscan, hsat, _⟩ := hat
  have hlen : rest.length ≤ (occupiedRids ex.fh_).length := by
    obtain ⟨_, ⟨pre, hpre⟩, _⟩ := hsat
    rw [hpre, List.length_append]
    omega
  have hfuel : rest.tail.length < ex1.loop_fuel := by
    simp only [SeqScanExecutor.loop_fuel, a1, List.length_tail]
    omega
  unfold SeqScanExecutor.nextTuple
  rw [hscan]
  cases rest with
  | nil =>
    obtain ⟨_, hnext⟩ := scanAt_nil ex.fh_ scan hsat
    simp only [hnext]
    exact SeqScanExecutor.scan_loop_spec env ex hpres hok _ _ scan ex1 a1 a2 a3 hsat hfuel
  | cons rid more =>
    obtain ⟨_, _, s1, hnext, hat1⟩ := scanAt_next ex.fh_ hpres scan rid more hsat
    simp only [hnext]
    exact SeqScanExecutor.scan_loop_spec env ex hpres hok _ _ s1 ex1 a1 a2 a3 hat1 hfuel

theorem SeqScanExecutor.scan_drain_spec (env : ExecEnv) (ex : SeqScanExecutor)
    (hpres : ex.fh_.pagesPresent)
    (hok : ∀ rid ∈ occupiedRids ex.fh_, ∃ v,
      SeqScanExecutor.eval_conds env (recordAt ex.fh_ rid) ex.fed_conds_ ex.cols_ = .ok v) :
    ∀ (fuel : Nat) (rest : List Rid) (ex1 : SeqScanExecutor),
      SeqScanExecutor.At ex ex1 rest →
      (∀ rid more, rest = rid :: more → ex.satisfies env rid = true) →
      (rest.filter (fun rid => ex.satisfies env rid)).length < fuel →
      SeqScanExecutor.drain env fuel ex1 =
        some (.ok ((rest.filter (fun rid => ex.satisfies env rid)).map (recordAt ex.fh_))) := by
  intro fuel
  induction fuel with
  | zero =>
    intro rest ex1 _ _ h
    omega
  | succ f ih =>
    intro rest ex1 hat hhead hlen
    obtain ⟨ex2, hnext, hat2⟩ := SeqScanExecutor.scan_nextTuple_spec env ex hpres hok ex1 rest hat
    obtain ⟨a1, a2, a3, scan, hscan, hsat, hrid⟩ := hat
    rw [SeqScanExecutor.drain]
    cases rest with
    | nil =>
      obtain ⟨hend, _⟩ := scanAt_nil ex.fh_ scan hsat
      simp [SeqScanExecutor.is_end, hscan, hend]
    | cons rid more =>
      obtain ⟨hend, _, _, _, _⟩ := scanAt_next ex.fh_ hpres scan rid more hsat
      have hmem : rid ∈ occupiedRids ex.fh_ :=
        scanAt_mem ex.fh_ scan _ hsat rid (List.mem_cons_self _ _)
      obtain ⟨rec, hrec, _⟩ := get_record_occupied ex.fh_ rid hmem
      have hr : ex1.rid_ = rid := hrid rid more rfl
      have hs : ex.satisfies env rid = true := hhead rid more rfl
      have hisend : ex1.is_end = false := by simp [SeqScanExecutor.is_end, hscan, hend]
      have hNext : ex1.Next = .ok (recordAt ex.fh_ rid) := by
        simp [SeqScanExecutor.Next, hisend, hr, a1, hrec, recordAt]
      simp only [List.tail_cons] at hat2 hnext
      have hih := ih _ ex2 hat2 (fun r m h => head_dropWhile_not _ _ r m h)
        (by
          rw [filter_dropWhile_eq]
          simp only [List.filter_cons, hs, if_true, List.length_cons] at hlen
          omega)
      rw [filter_dropWhile_eq] at hih
      simp only [hisend, Bool.false_eq_true, if_false, hNext, hnext, hih, List.filter_cons, hs,
        if_true, List.map_cons]

theorem SeqScanExecutor.advanced_spec (env : ExecEnv) (ex : SeqScanExecutor)
    (hpres : ex.fh_.pagesPresent)
    (hok : ∀ rid ∈ occupiedRids ex.fh_, ∃ v,
      SeqScanExecutor.eval_conds env (recordAt ex.fh_ rid) ex.fed_conds_ ex.cols_ = .ok v) :
    ∀ k, ∃ ex1 rest, SeqScanExecutor.advanced env ex k = some (.ok ex1) ∧
      SeqScanExecutor.At ex ex1 rest ∧
      ∀ rid more, rest = rid :: more → ex.satisfies env rid = true := by
  intro k
  induction k with
  | zero =>
    obtain ⟨ex2, h1, h2⟩ := SeqScanExecutor.beginTuple_spec env ex hpres hok
    exact ⟨ex2, _, h1, h2, fun r m h => head_dropWhile_not _ _ r m h⟩
  | succ k ih =>
    obtain ⟨ex1, rest, h1, h2, _⟩ := ih
    obtain ⟨ex2, h3, h4⟩ := SeqScanExecutor.scan_nextTuple_spec env ex hpres hok ex1 rest h2
    refine ⟨ex2, _, ?_, h4, fun r m h => head_dropWhile_not _ _ r m h⟩
    rw [SeqScanExecutor.advanced, h1]
    exact h3

theorem SeqScanExecutor.scan_eval_cond_true_iff (env : ExecEnv) (rec : RmRecord)
    (cond : Condition) (cols : List ColMeta) :
    SeqScanExecutor.eval_cond env (some rec) cond cols = .ok true ↔
      spec_scan_cond env cols rec cond = true := by
  unfold SeqScanExecutor.eval_cond spec_scan_cond SeqScanExecutor.find_col spec_literal_encoding
  cases hl : cols.find? (fun c => c.name = cond.lhs_col.col_name) with
  | none => simp
  | some lcol =>
    simp only []
    by_cases hv : cond.is_rhs_val = true
    · simp only [hv, if_true]
      cases hraw : cond.rhs_val.raw with
      | some raw =>
        by_cases hty : lcol.type = cond.rhs_val.type
        · simp [hty, eval_op_eq_spec]
        · simp [hty]
      | none =>
        cases hi : env.init_raw cond.rhs_val lcol.len with
        | error e => simp
        | ok raw =>
          by_cases hty : lcol.type = cond.rhs_val.type
          · simp [hty, eval_op_eq_spec]
          · simp [hty]
    · simp only [hv, if_false, Bool.false_eq_true]
      cases hr : cols.find? (fun c => c.name = cond.rhs_col.col_name) with
      | none => simp
      | some rcol =>
        by_cases hty : lcol.type = rcol.type
        · simp [hty, eval_op_eq_spec]
        · simp [hty]

theorem SeqScanExecutor.scan_eval_conds_true_iff (env : ExecEnv) (rec : Option RmRecord)
    (cols : List ColMeta) (conds : List Condition) :
    SeqScanExecutor.eval_conds env rec conds cols = .ok true ↔
      ∀ cond ∈ conds, SeqScanExecutor.eval_cond env rec cond cols = .ok true := by
  induction conds with
  | nil => simp [SeqScanExecutor.eval_conds]
  | cons c conds ih =>
    rw [SeqScanExecutor.eval_conds, List.forall_mem_cons, ← ih]
    cases hc : SeqScanExecutor.eval_cond env rec c cols with
    | error e => simp
    | ok v => cases v <;> simp

theorem SeqScanExecutor.scan_satisfies_eq_all (env : ExecEnv) (ex : SeqScanExecutor) (rid : Rid)
    (rec : RmRecord) (hrec : recordAt ex.fh_ rid = some rec) :
    ex.satisfies env rid = spec_scan_conds env ex.cols_ ex.fed_conds_ (recordAt ex.fh_ rid) := by
  have h := SeqScanExecutor.scan_eval_conds_true_iff env (some rec) ex.cols_ ex.fed_conds_
  unfold SeqScanExecutor.satisfies spec_scan_conds
  rw [hrec]
  simp only []
  rw [Bool.eq_iff_iff, List.all_eq_true]
  constructor
  · intro hs cond hcond
    have he : SeqScanExecutor.eval_conds env (some rec) ex.fed_conds_ ex.cols_ = .ok true := by
      cases hv : SeqScanExecutor.eval_conds env (some rec) ex.fed_conds_ ex.cols_ with
      | error e => simp [hv] at hs
      | ok v => cases v <;> simp [hv] at hs ⊢
    exact (SeqScanExecutor.scan_eval_cond_true_iff env rec cond _).1 (h.1 he cond hcond)
  · intro hall
    rw [h.2 (fun cond hcond =>
      (SeqScanExecutor.scan_eval_cond_true_iff env rec cond _).2 (hall cond hcond))]

/-- C11: over a table whose pages below the page count are present and conditions whose
evaluation throws on no live record, `beginTuple` followed by `Next`/`nextTuple` until
`is_end` yields exactly the records of the occupied Rids that satisfy every condition of
the list, as the specification defines it (`spec_scan_conds`: `spec_scan_cond` for each
condition of `conds`: operands resolved in the schema, same declared type, the operator
accepting the outcome of the type-aware comparison), in `RmScan` order (`occupiedRids` is
strictly increasing in page, then slot), each once; the executor's own test of a live
record, `satisfies`, is that conjunction; every occupied Rid holds a record; with no
condition every occupied Rid qualifies; and after `beginTuple` and any number of
`nextTuple` calls the executor is either at the end or its current Rid is occupied, its
record satisfies every condition and is what `Next` returns. -/
theorem seq_scan_yields (env : ExecEnv) (fh : RmFileHandle) (cols : List ColMeta)
    (conds : List Condition) (fuel : Nat)
    (hpres : fh.pagesPresent)
    (hok : ∀ rid ∈ occupiedRids fh, ∃ v,
      SeqScanExecutor.eval_conds env (recordAt fh rid) conds cols = .ok v)
    (hfuel : ((occupiedRids fh).filter
      (fun rid => (SeqScanExecutor.new fh cols conds).satisfies env rid)).length < fuel) :
    SeqScanExecutor.execute env fuel (SeqScanExecutor.new fh cols conds) =
        some (.ok (((occupiedRids fh).filter
          (fun rid => spec_scan_conds env cols conds (recordAt fh rid))).map (recordAt fh))) ∧
      (∀ rid ∈ occupiedRids fh, (SeqScanExecutor.new fh cols conds).satisfies env rid =
        spec_scan_conds env cols conds (recordAt fh rid)) ∧
      SeqScanExecutor.execute env fuel (SeqScanExecutor.new fh cols conds) =
        some (.ok (((occupiedRids fh).filter
          (fun rid => (SeqScanExecutor.new fh cols conds).satisfies env rid)).map
            (recordAt fh))) ∧
      (∀ rid ∈ occupiedRids fh, ∃ rec, fh.get_record rid = .ok (some rec) ∧
        recordAt fh rid = some rec) ∧
      (conds = [] → (occupiedRids fh).filter
        (fun rid => spec_scan_conds env cols conds (recordAt fh rid)) = occupiedRids fh) ∧
      (conds = [] → (occupiedRids fh).filter
        (fun rid => (SeqScanExecutor.new fh cols conds).satisfies env rid) = occupiedRids fh) ∧
      (∀ k, ∃ ex1, SeqScanExecutor.advanced env (SeqScanExecutor.new fh cols conds) k
          = some (.ok ex1) ∧
        (ex1.is_end = false →
          fh.occupied ex1.rid_ ∧
          spec_scan_conds env cols conds (recordAt fh ex1.rid_) = true ∧
          (SeqScanExecutor.new fh cols conds).satisfies env ex1.rid_ = true ∧
          ex1.Next = .ok (recordAt fh ex1.rid_))) ∧
      SeqScanExecutor.execute specEnv 3
          (SeqScanExecutor.new exampleScanFile exampleScanCols [condGeInt2]) =
        some (.ok [some ⟨4, enc4 2⟩, some ⟨4, enc4 3⟩]) := by
  have hsat : ∀ rid ∈ occupiedRids fh, (SeqScanExecutor.new fh cols conds).satisfies env rid =
      spec_scan_conds env cols conds (recordAt fh rid) := by
    intro rid hrid
    obtain ⟨rec, hrec, _⟩ := get_record_occupied fh rid hrid
    exact SeqScanExecutor.scan_satisfies_eq_all env (SeqScanExecutor.new fh cols conds) rid rec
      (by simp [SeqScanExecutor.new, recordAt, hrec])
  have hfilter : (occupiedRids fh).filter
      (fun rid => (SeqScanExecutor.new fh cols conds).satisfies env rid) =
      (occupiedRids fh).filter (fun rid => spec_scan_conds env cols conds (recordAt fh rid)) :=
    List.filter_congr hsat
  have hmain : SeqScanExecutor.execute env fuel (SeqScanExecutor.new fh cols conds) =
      some (.ok (((occupiedRids fh).filter
        (fun rid => (SeqScanExecutor.new fh cols conds).satisfies env rid)).map
          (recordAt fh))) := by
    obtain ⟨ex2, h1, h2⟩ := SeqScanExecutor.beginTuple_spec env
      (SeqScanExecutor.new fh cols conds) hpres hok
    have := SeqScanExecutor.scan_drain_spec env (SeqScanExecutor.new fh cols conds) hpres hok fuel _
      ex2 h2 (fun r m h => head_dropWhile_not _ _ r m h)
      (by rw [filter_dropWhile_eq]; exact hfuel)
    rw [filter_dropWhile_eq] at this
    unfold SeqScanExecutor.execute
    rw [h1]
    exact this
  have hempty : conds = [] → (occupiedRids fh).filter
      (fun rid => (SeqScanExecutor.new fh cols conds).satisfies env rid) = occupiedRids fh := by
    intro hc
    subst hc
    rw [List.filter_eq_self]
    intro rid _
    rfl
  refine ⟨?_, hsat, hmain, ?_, ?_, hempty, ?_, by rfl⟩
  · rw [hmain, hfilter]
  · intro rid hrid
    obtain ⟨rec, hrec, _⟩ := get_record_occupied fh rid hrid
    exact ⟨rec, hrec, by simp [recordAt, hrec]⟩
  · intro hc
    rw [← hfilter]
    exact hempty hc
  · intro k
    obtain ⟨ex1, rest, h1, h2, h3⟩ := SeqScanExecutor.advanced_spec env
      (SeqScanExecutor.new fh cols conds) hpres hok k
    refine ⟨ex1, h1, ?_⟩
    intro hend
    obtain ⟨a1, _, _, scan, hscan, hsat1, hrid⟩ := h2
    cases rest with
    | nil =>
      obtain ⟨he, _⟩ := scanAt_nil _ scan hsat1
      simp [SeqScanExecutor.is_end, hscan, he] at hend
    | cons rid more =>
      have hr : ex1.rid_ = rid := hrid rid more rfl
      have hmem : rid ∈ occupiedRids fh :=
        scanAt_mem _ scan _ hsat1 rid (List.mem_cons_self _ _)
      obtain ⟨rec, hrec, _⟩ := get_record_occupied fh rid hmem
      have a1f : ex1.fh_ = fh := a1
      refine ⟨?_, ?_, ?_, ?_⟩
      · rw [hr]
        exact (mem_occupiedRids fh rid).1 hmem
      · rw [hr, ← hsat rid hmem]
        exact h3 rid more rfl
      · rw [hr]
        exact h3 rid more rfl
      · simp [SeqScanExecutor.Next, hend, hr, a1f, hrec, recordAt]

/-- C11 at the example table holding 1, 2, 3 with the condition `a >= 2`: the run yields
the live records that satisfy the condition, which are 2 and 3. -/
theorem seq_scan_yields_witness :
    SeqScanExecutor.execute specEnv 3
        (SeqScanExecutor.new exampleScanFile exampleScanCols [condGeInt2]) =
      some (.ok (((occupiedRids exampleScanFile).filter
        (fun rid => spec_scan_conds specEnv exampleScanCols [condGeInt2]
          (recordAt exampleScanFile rid))).map (recordAt exampleScanFile))) ∧
      ((occupiedRids exampleScanFile).filter
        (fun rid => spec_scan_conds specEnv exampleScanCols [condGeInt2]
          (recordAt exampleScanFile rid))).map (recordAt exampleScanFile)
        = [some ⟨4, enc4 2⟩, some ⟨4, enc4 3⟩] :=
  ⟨(seq_scan_yields specEnv exampleScanFile exampleScanCols [condGeInt2] 3
    (by
      intro p hp
      have h0 : p = 0 := by
        simp only [exampleScanFile] at hp
        omega
      subst h0
      rfl)
    (by
      intro rid hrid
      have hocc : occupiedRids exampleScanFile = [⟨0, 0⟩, ⟨0, 2⟩, ⟨0, 3⟩] := by rfl
      rw [hocc] at hrid
      simp only [List.mem_cons, List.mem_singleton, List.not_mem_nil, or_false] at hrid
      rcases hrid with h | h | h <;> subst h
      · exact ⟨false, rfl⟩
      · exact ⟨true, rfl⟩
      · exact ⟨true, rfl⟩)
    (by decide)).1, by rfl⟩

theorem SeqScanExecutor.eval_cond_mismatch (env : ExecEnv) (rec : RmRecord)
    (cols : List ColMeta) (c : Condition) (tl tr : ColType)
    (hty : SeqScanExecutor.operand_types env cols c = some (tl, tr)) (hne : tl ≠ tr) :
    SeqScanExecutor.eval_cond env (some rec) c cols = .error (.IncompatibleTypeError tl tr) := by
  unfold SeqScanExecutor.operand_types at hty
  unfold SeqScanExecutor.eval_cond
  cases hl : SeqScanExecutor.find_col cols c.lhs_col with
  | error e => simp [hl] at hty
  | ok lc =>
    simp only [hl] at hty ⊢
    by_cases hv : c.is_rhs_val = true
    · simp only [hv, if_true] at hty ⊢
      cases hraw : c.rhs_val.raw with
      | some raw =>
        simp only [hraw, Option.some.injEq, Prod.mk.injEq] at hty ⊢
        obtain ⟨h1, h2⟩ := hty
        simp [h1, h2, hne]
      | none =>
        simp only [hraw] at hty ⊢
        cases hi : env.init_raw c.rhs_val lc.len with
        | error e => simp [hi] at hty
        | ok raw =>
          simp only [hi, Option.some.injEq, Prod.mk.injEq] at hty ⊢
          obtain ⟨h1, h2⟩ := hty
          simp [h1, h2, hne]
    · simp only [hv, if_false, Bool.false_eq_true] at hty ⊢
      cases hr : SeqScanExecutor.find_col cols c.rhs_col with
      | error e => simp [hr] at hty
      | ok rc =>
        simp only [hr, Option.some.injEq, Prod.mk.injEq] at hty ⊢
        obtain ⟨h1, h2⟩ := hty
        simp [h1, h2, hne]

theorem SeqScanExecutor.eval_conds_append (env : ExecEnv) (rec : Option RmRecord)
    (cols : List ColMeta) (pre rest : List Condition)
    (hpre : SeqScanExecutor.eval_conds env rec pre cols = .ok true) :
    SeqScanExecutor.eval_conds env rec (pre ++ rest) cols
      = SeqScanExecutor.eval_conds env rec rest cols := by
  induction pre with
  | nil => rfl
  | cons c pre ih =>
    simp only [SeqScanExecutor.eval_conds, List.cons_append] at hpre ⊢
    cases hc : SeqScanExecutor.eval_cond env rec c cols with
    | error e => simp [hc] at hpre
    | ok v =>
      cases v with
      | false => simp [hc] at hpre
      | true =>
        simp only [hc] at hpre ⊢
        exact ih hpre

theorem SeqScanExecutor.eval_cond_error_indep (env : ExecEnv) (rec rec1 : RmRecord)
    (cols : List ColMeta) (c : Condition) (e : ExecError)
    (h : SeqScanExecutor.eval_cond env (some rec) c cols = .error e) :
    SeqScanExecutor.eval_cond env (some rec1) c cols = .error e := by
  unfold SeqScanExecutor.eval_cond at h ⊢
  cases hl : SeqScanExecutor.find_col cols c.lhs_col with
  | error e1 =>
    simp only [hl] at h ⊢
    exact h
  | ok lc =>
    simp only [hl] at h ⊢
    by_cases hv : c.is_rhs_val = true
    · simp only [hv, if_true] at h ⊢
      cases hraw : c.rhs_val.raw with
      | some raw =>
        simp only [hraw] at h ⊢
        by_cases hty : lc.type ≠ c.rhs_val.type
        · rw [if_pos hty] at h ⊢
          exact h
        · rw [if_neg hty] at h
          cases h
      | none =>
        simp only [hraw] at h ⊢
        cases hi : env.init_raw c.rhs_val lc.len with
        | error e1 =>
          simp only [hi] at h ⊢
          exact h
        | ok raw =>
          simp only [hi] at h ⊢
          by_cases hty : lc.type ≠ c.rhs_val.type
          · rw [if_pos hty] at h ⊢
            exact h
          · rw [if_neg hty] at h
            cases h
    · simp only [hv, if_false, Bool.false_eq_true] at h ⊢
      cases hr : SeqScanExecutor.find_col cols c.rhs_col with
      | error e1 =>
        simp only [hr] at h ⊢
        exact h
      | ok rc =>
        simp only [hr] at h ⊢
        by_cases hty : lc.type ≠ rc.type
        · rw [if_pos hty] at h ⊢
          exact h
        · rw [if_neg hty] at h
          cases h

theorem SeqScanExecutor.eval_conds_no_throw (env : ExecEnv) (rec rec1 : RmRecord)
    (cols : List ColMeta) (pre : List Condition)
    (hpre : SeqScanExecutor.eval_conds env (some rec) pre cols = .ok true) :
    ∃ v, SeqScanExecutor.eval_conds env (some rec1) pre cols = .ok v := by
  induction pre with
  | nil => exact ⟨true, rfl⟩
  | cons c pre ih =>
    simp only [SeqScanExecutor.eval_conds] at hpre ⊢
    cases hc : SeqScanExecutor.eval_cond env (some rec) c cols with
    | error e => simp [hc] at hpre
    | ok v =>
      cases v with
      | false => simp [hc] at hpre
      | true =>
        simp only [hc] at hpre
        cases hc1 : SeqScanExecutor.eval_cond env (some rec1) c cols with
        | error e =>
          rw [SeqScanExecutor.eval_cond_error_indep env rec1 rec cols c e hc1] at hc
          cases hc
        | ok v1 =>
          cases v1 with
          | false => exact ⟨false, rfl⟩
          | true => exact ih hpre

theorem SeqScanExecutor.eval_conds_append_false (env : ExecEnv) (rec : Option RmRecord)
    (cols : List ColMeta) (pre rest : List Condition)
    (hpre : SeqScanExecutor.eval_conds env rec pre cols = .ok false) :
    SeqScanExecutor.eval_conds env rec (pre ++ rest) cols = .ok false := by
  induction pre with
  | nil =>
    simp only [SeqScanExecutor.eval_conds] at hpre
    cases hpre
  | cons c pre ih =>
    simp only [SeqScanExecutor.eval_conds, List.cons_append] at hpre ⊢
    cases hc : SeqScanExecutor.eval_cond env rec c cols with
    | error e => simp [hc] at hpre
    | ok v =>
      cases v with
      | false => rfl
      | true =>
        simp only [hc] at hpre ⊢
        exact ih hpre

theorem SeqScanExecutor.scan_loop_throws (env : ExecEnv) (ex : SeqScanExecutor)
    (hpres : ex.fh_.pagesPresent) (e : ExecError)
    (hall : ∀ rid ∈ occupiedRids ex.fh_,
      SeqScanExecutor.eval_conds env (recordAt ex.fh_ rid) ex.fed_conds_ ex.cols_ = .ok false ∨
      SeqScanExecutor.eval_conds env (recordAt ex.fh_ rid) ex.fed_conds_ ex.cols_ = .error e) :
    ∀ (rest : List Rid) (fuel : Nat) (scan : RmScan) (ex1 : SeqScanExecutor),
      ex1.fh_ = ex.fh_ → ex1.cols_ = ex.cols_ → ex1.fed_conds_ = ex.fed_conds_ →
      ScanAt ex.fh_ scan rest → rest.length < fuel →
      (∃ rid ∈ rest,
        SeqScanExecutor.eval_conds env (recordAt ex.fh_ rid) ex.fed_conds_ ex.cols_ = .error e) →
      SeqScanExecutor.scan_loop env fuel ex1 scan = some (.error (.exec e)) := by
  intro rest
  induction rest with
  | nil =>
    intro fuel scan ex1 _ _ _ _ _ hex
    obtain ⟨rid, hrid, _⟩ := hex
    simp at hrid
  | cons rid more ih =>
    intro fuel scan ex1 a1 a2 a3 hat hfuel hex
    obtain ⟨f, rfl⟩ : ∃ f, fuel = f + 1 := ⟨fuel - 1, by simp at hfuel; omega⟩
    obtain ⟨hend, hrid, s1, hnext, hat1⟩ := scanAt_next ex.fh_ hpres scan rid more hat
    have hmem : rid ∈ occupiedRids ex.fh_ :=
      scanAt_mem ex.fh_ scan _ hat rid (List.mem_cons_self _ _)
    obtain ⟨rec, hrec, _⟩ := get_record_occupied ex.fh_ rid hmem
    have hrat : recordAt ex.fh_ rid = some rec := by simp [recordAt, hrec]
    have hrec1 : ex1.fh_.get_record rid = .ok (some rec) := by rw [a1]; exact hrec
    have heq : SeqScanExecutor.eval_conds env (some rec) ex1.fed_conds_ ex1.cols_
        = SeqScanExecutor.eval_conds env (recordAt ex.fh_ rid) ex.fed_conds_ ex.cols_ := by
      rw [a2, a3, hrat]
    rw [SeqScanExecutor.scan_loop]
    simp only [hend, Bool.not_false, if_true, hrid, hrec1, heq]
    rcases hall rid hmem with hv | hv
    · have hex1 : ∃ q ∈ more,
          SeqScanExecutor.eval_conds env (recordAt ex.fh_ q) ex.fed_conds_ ex.cols_
            = .error e := by
        obtain ⟨q, hq, hqe⟩ := hex
        rcases List.mem_cons.1 hq with h | h
        · subst h
          rw [hv] at hqe
          cases hqe
        · exact ⟨q, h, hqe⟩
      simp only [hv, hnext]
      exact ih f s1 { ex1 with rid_ := rid } a1 a2 a3 hat1 (by simp at hfuel; omega) hex1
    · simp only [hv]

/-- C18, refuted as stated: the type check is made only when the mismatching condition is
evaluated on a record. The condition `a >= 'x'` compares the integer column `a` with a
character literal, yet (1) on a table with no live record the scan with that condition
ends normally with no output, and (2) on the table holding 1, 2, 3 the scan with the
conditions `a >= 5, a >= 'x'` also ends normally with no output, because no record passes
`a >= 5` and the evaluation of the conjunction stops at the first false condition. -/
theorem seq_scan_mismatch_not_reached :
    SeqScanExecutor.operand_types specEnv exampleScanCols condGeStr
        = some (.TYPE_INT, .TYPE_STRING) ∧
      SeqScanExecutor.execute specEnv 1
        (SeqScanExecutor.new (fileOfBitmaps 4 [[false, false]]) exampleScanCols [condGeStr])
        = some (.ok []) ∧
      occupiedRids exampleScanFile = [⟨0, 0⟩, ⟨0, 2⟩, ⟨0, 3⟩] ∧
      SeqScanExecutor.execute specEnv 1
        (SeqScanExecutor.new exampleScanFile exampleScanCols [condGeInt5, condGeStr])
        = some (.ok []) := by
  refine ⟨by rfl, by rfl, by rfl, by rfl⟩

/-- C18, amended: if the condition list holds a condition whose two operands resolve to
different declared types and some live record of the table satisfies every condition that
precedes it in the list (`spec_scan_conds` on the conditions before it; any live record, when
it is the first condition), then `beginTuple` throws `IncompatibleTypeError` and so does
the whole run. -/
theorem seq_scan_type_mismatch_fails (env : ExecEnv) (fh : RmFileHandle)
    (cols : List ColMeta) (pre post : List Condition) (c : Condition) (tl tr : ColType)
    (r : Rid) (fuel : Nat)
    (hpres : fh.pagesPresent)
    (hr : r ∈ occupiedRids fh)
    (hsat : spec_scan_conds env cols pre (recordAt fh r) = true)
    (hty : SeqScanExecutor.operand_types env cols c = some (tl, tr)) (hne : tl ≠ tr) :
    SeqScanExecutor.beginTuple env (SeqScanExecutor.new fh cols (pre ++ c :: post))
        = some (.error (.exec (.IncompatibleTypeError tl tr))) ∧
      SeqScanExecutor.execute env fuel (SeqScanExecutor.new fh cols (pre ++ c :: post))
        = some (.error (.exec (.IncompatibleTypeError tl tr))) := by
  have hthrow : ∀ rec : RmRecord,
      SeqScanExecutor.eval_conds env (some rec) pre cols = .ok true →
      SeqScanExecutor.eval_conds env (some rec) (pre ++ c :: post) cols
        = .error (.IncompatibleTypeError tl tr) := by
    intro rec h
    rw [SeqScanExecutor.eval_conds_append env _ cols pre _ h, SeqScanExecutor.eval_conds,
      SeqScanExecutor.eval_cond_mismatch env rec cols c tl tr hty hne]
  obtain ⟨rec0, hrec0, _⟩ := get_record_occupied fh r hr
  have hrat0 : recordAt fh r = some rec0 := by simp [recordAt, hrec0]
  have hpre : SeqScanExecutor.eval_conds env (some rec0) pre cols = .ok true := by
    rw [hrat0] at hsat
    simp only [spec_scan_conds, List.all_eq_true] at hsat
    exact (SeqScanExecutor.scan_eval_conds_true_iff env (some rec0) cols pre).2
      (fun cond hcond => (SeqScanExecutor.scan_eval_cond_true_iff env rec0 cond cols).2
        (hsat cond hcond))
  have hall : ∀ rid ∈ occupiedRids fh,
      SeqScanExecutor.eval_conds env (recordAt fh rid) (pre ++ c :: post) cols = .ok false ∨
      SeqScanExecutor.eval_conds env (recordAt fh rid) (pre ++ c :: post) cols
        = .error (.IncompatibleTypeError tl tr) := by
    intro rid hrid
    obtain ⟨rec, hrec, _⟩ := get_record_occupied fh rid hrid
    have hrat : recordAt fh rid = some rec := by simp [recordAt, hrec]
    rw [hrat]
    obtain ⟨v, hv⟩ := SeqScanExecutor.eval_conds_no_throw env rec0 rec cols pre hpre
    cases v with
    | false => exact Or.inl (SeqScanExecutor.eval_conds_append_false env _ cols pre _ hv)
    | true => exact Or.inr (hthrow rec hv)
  have hbegin : SeqScanExecutor.beginTuple env (SeqScanExecutor.new fh cols (pre ++ c :: post))
      = some (.error (.exec (.IncompatibleTypeError tl tr))) := by
    obtain ⟨s, hnew, hat⟩ := scanAt_new fh hpres
    unfold SeqScanExecutor.beginTuple
    have hfh : (SeqScanExecutor.new fh cols (pre ++ c :: post)).fh_ = fh := rfl
    rw [hfh, hnew]
    exact SeqScanExecutor.scan_loop_throws env (SeqScanExecutor.new fh cols (pre ++ c :: post))
      hpres _ hall _ _ s _ rfl rfl rfl hat
      (by
        show (occupiedRids fh).length < (occupiedRids fh).length + 1
        omega)
      ⟨r, hr, by
        show SeqScanExecutor.eval_conds env (recordAt fh r) (pre ++ c :: post) cols = _
        rw [hrat0]
        exact hthrow rec0 hpre⟩
  refine ⟨hbegin, ?_⟩
  unfold SeqScanExecutor.execute
  rw [hbegin]

/-- C18 (amended) at the example table holding 1, 2, 3 with the conditions
`a >= 2, a >= 'x'`: the first live record, 1, is rejected by `a >= 2`; the record 2 at Rid
(0,2) passes it and the run throws. -/
theorem seq_scan_type_mismatch_fails_witness :
    SeqScanExecutor.execute specEnv 3
        (SeqScanExecutor.new exampleScanFile exampleScanCols ([condGeInt2] ++ condGeStr :: []))
      = some (.error (.exec (.IncompatibleTypeError .TYPE_INT .TYPE_STRING))) :=
  (seq_scan_type_mismatch_fails specEnv exampleScanFile exampleScanCols [condGeInt2] []
    condGeStr .TYPE_INT .TYPE_STRING ⟨0, 2⟩ 3
    (by
      intro p hp
      have h0 : p = 0 := by
        simp only [exampleScanFile] at hp
        omega
      subst h0
      rfl)
    (by
      have hocc : occupiedRids exampleScanFile = [⟨0, 0⟩, ⟨0, 2⟩, ⟨0, 3⟩] := by rfl
      rw [hocc]
      simp)
    rfl rfl (by decide)).2

/-! ## Projection -/

theorem get?_findIdx_of_find? (p : ColMeta → Bool) (l : List ColMeta) (c : ColMeta)
    (h : l.find? p = some c) : l.get? (l.findIdx p) = some c := by
  induction l with
  | nil => simp at h
  | cons a l ih =>
    rw [List.findIdx_cons]
    by_cases ha : p a = true
    · simp only [List.find?_cons, ha, Option.some.injEq] at h
      subst h
      simp [ha]
    · simp only [Bool.not_eq_true] at ha
      simp only [List.find?_cons, ha] at h
      simp only [ha, cond_false, List.get?_cons_succ]
      exact ih h

theorem get_col_idx_spec (prev_cols : List ColMeta) (k : TabCol) (c : ColMeta)
    (h : get_col prev_cols k = .ok c) : prev_cols.get? (get_col_idx prev_cols k) = some c := by
  unfold get_col at h
  unfold get_col_idx
  cases hf : prev_cols.find?
      (fun col => decide (col.tab_name = k.tab_name ∧ col.name = k.col_name)) with
  | none =>
    rw [hf] at h
    cases h
  | some c1 =>
    rw [hf] at h
    cases h
    exact get?_findIdx_of_find? _ _ _ hf

theorem selectedCols_cons (prev_cols : List ColMeta) (k : TabCol) (sel : List TabCol)
    (c : ColMeta) (h : get_col prev_cols k = .ok c) :
    selectedCols prev_cols (k :: sel) = c :: selectedCols prev_cols sel := by
  simp [selectedCols, List.filterMap_cons, h]

theorem ProjectionExecutor.build_spec (prev_cols : List ColMeta) :
    ∀ (sel : List TabCol) (off : Nat) (idxs : List Nat) (cols : List ColMeta),
      (∀ k ∈ sel, ∃ c, get_col prev_cols k = .ok c) →
      ProjectionExecutor.build prev_cols sel off idxs cols =
        .ok (off + colsLen (selectedCols prev_cols sel),
          idxs ++ sel.map (get_col_idx prev_cols),
          cols ++ packCols off (selectedCols prev_cols sel)) := by
  intro sel
  induction sel with
  | nil =>
    intro off idxs cols _
    simp [ProjectionExecutor.build, selectedCols, colsLen, packCols]
  | cons k sel ih =>
    intro off idxs cols hsel
    obtain ⟨c, hc⟩ := hsel k (List.mem_cons_self _ _)
    rw [ProjectionExecutor.build]
    simp only [hc]
    rw [ih _ _ _ (fun k1 h1 => hsel k1 (List.mem_cons_of_mem _ h1)),
      selectedCols_cons prev_cols k sel c hc]
    simp [colsLen, packCols, Nat.add_assoc]

theorem colBytes_length (data : List Byte) (c : ColMeta)
    (h : c.offset + c.len ≤ data.length) : (colBytes data c).length = c.len := by
  simp only [colBytes, List.length_take, List.length_drop]
  omega

theorem ProjectionExecutor.copy_loop_spec (prev_cols : List ColMeta) (data : List Byte) :
    ∀ (sel : List TabCol) (w : List Byte) (off : Nat),
      (∀ k ∈ sel, ∃ c, get_col prev_cols k = .ok c) → w.length = off →
      (∀ c ∈ selectedCols prev_cols sel, c.offset + c.len ≤ data.length) →
      ProjectionExecutor.copy_loop prev_cols data (sel.map (get_col_idx prev_cols))
          (packCols off (selectedCols prev_cols sel))
          (w ++ List.replicate (colsLen (selectedCols prev_cols sel)) 0) =
        w ++ (selectedCols prev_cols sel).flatMap (colBytes data) := by
  intro sel
  induction sel with
  | nil =>
    intro w off _ _ _
    simp [selectedCols, ProjectionExecutor.copy_loop, packCols, colsLen]
  | cons k sel ih =>
    intro w off hsel hw hin
    obtain ⟨c, hc⟩ := hsel k (List.mem_cons_self _ _)
    rw [selectedCols_cons prev_cols k sel c hc] at hin ⊢
    have hlen := colBytes_length data c (hin c (List.mem_cons_self _ _))
    simp only [List.map_cons, packCols, ProjectionExecutor.copy_loop,
      get_col_idx_spec prev_cols k c hc]
    have hstep : memcpy_at (w ++ List.replicate (colsLen (c :: selectedCols prev_cols sel)) 0)
        off (List.drop c.offset data) c.len =
        (w ++ colBytes data c) ++ List.replicate (colsLen (selectedCols prev_cols sel)) 0 := by
      subst hw
      have e : colsLen (c :: selectedCols prev_cols sel)
          = c.len + colsLen (selectedCols prev_cols sel) := by
        simp [colsLen]
      rw [e]
      unfold memcpy_at memcpy colBytes
      rw [List.take_left, List.drop_left, List.drop_replicate, Nat.add_sub_cancel_left,
        List.append_assoc]
    rw [hstep, ih (w ++ colBytes data c) (off + c.len)
      (fun k1 h1 => hsel k1 (List.mem_cons_of_mem _ h1))
      (by rw [List.length_append, hw, hlen])
      (fun c1 h1 => hin c1 (List.mem_cons_of_mem _ h1))]
    simp [List.flatMap_cons]

theorem packCols_length (off : Nat) (cs : List ColMeta) : (packCols off cs).length = cs.length := by
  induction cs generalizing off with
  | nil => rfl
  | cons c cs ih => simp [packCols, ih]

theorem packCols_get? (cs : List ColMeta) :
    ∀ (off i : Nat) (c : ColMeta), cs.get? i = some c →
      (packCols off cs).get? i = some { c with offset := off + colsLen (cs.take i) } := by
  induction cs with
  | nil =>
    intro off i c h
    simp at h
  | cons d cs ih =>
    intro off i c h
    cases i with
    | zero =>
      simp only [List.get?_cons_zero, Option.some.injEq] at h
      subst h
      simp [packCols, colsLen]
    | succ i =>
      simp only [List.get?_cons_succ] at h
      simp only [packCols, List.get?_cons_succ, ih (off + d.len) i c h, List.take_succ_cons]
      simp [colsLen, Nat.add_assoc]

theorem flatMap_segment (data : List Byte) (cs : List ColMeta) :
    ∀ (i : Nat) (c : ColMeta), cs.get? i = some c →
      (∀ d ∈ cs, d.offset + d.len ≤ data.length) →
      ((cs.flatMap (colBytes data)).drop (colsLen (cs.take i))).take c.len = colBytes data c := by
  induction cs with
  | nil =>
    intro i c h
    simp at h
  | cons d cs ih =>
    intro i c h hin
    have hd := colBytes_length data d (hin d (List.mem_cons_self _ _))
    cases i with
    | zero =>
      simp only [List.get?_cons_zero, Option.some.injEq] at h
      subst h
      simp only [List.take_zero, colsLen, List.map_nil, List.sum_nil, List.drop_zero,
        List.flatMap_cons]
      rw [List.take_append_of_le_length (by omega), List.take_of_length_le (by omega)]
    | succ i =>
      simp only [List.get?_cons_succ] at h
      have hsum : colsLen (List.take (i + 1) (d :: cs)) = (colBytes data d).length
          + colsLen (List.take i cs) := by
        simp [colsLen, hd]
      rw [hsum, List.flatMap_cons, List.drop_append]
      exact ih i c h (fun d1 h1 => hin d1 (List.mem_cons_of_mem _ h1))

theorem selectedCols_length (prev_cols : List ColMeta) (sel : List TabCol)
    (hsel : ∀ k ∈ sel, ∃ c, get_col prev_cols k = .ok c) :
    (selectedCols prev_cols sel).length = sel.length := by
  induction sel with
  | nil => rfl
  | cons k sel ih =>
    obtain ⟨c, hc⟩ := hsel k (List.mem_cons_self _ _)
    rw [selectedCols_cons prev_cols k sel c hc, List.length_cons, List.length_cons,
      ih (fun k1 h1 => hsel k1 (List.mem_cons_of_mem _ h1))]

theorem flatMap_colBytes_length (data : List Byte) (cs : List ColMeta)
    (hin : ∀ c ∈ cs, c.offset + c.len ≤ data.length) :
    (cs.flatMap (colBytes data)).length = colsLen cs := by
  induction cs with
  | nil => rfl
  | cons c cs ih =>
    rw [List.flatMap_cons, List.length_append,
      colBytes_length data c (hin c (List.mem_cons_self _ _)),
      ih (fun c1 h1 => hin c1 (List.mem_cons_of_mem _ h1))]
    simp [colsLen]

/-- C12: when every requested column is in the child's schema, the constructor succeeds;
output column `i` is the child column it resolves to with its offset replaced by the sum of
the lengths of the output columns before it, and `len_` is the sum of all selected lengths.
For a child tuple that contains every selected column, `Next` returns a record of `len_`
bytes that is the concatenation of the selected columns' bytes in request order, so its
bytes `[offset_i, offset_i + len_i)` are the child's bytes of column `k_i`. For the schema
`(c1, c2, c3)` the projection on `[c2, c1]` yields `c2`'s bytes followed by `c1`'s. -/
theorem projection_packs_columns (prev : ChildExecutor) (sel_cols : List TabCol)
    (rec : RmRecord)
    (hsel : ∀ k ∈ sel_cols, ∃ c, get_col prev.cols k = .ok c)
    (hrec : prev.Next = some rec)
    (hin : ∀ c ∈ selectedCols prev.cols sel_cols, c.offset + c.len ≤ rec.data.length) :
    (∃ ex out, ProjectionExecutor.new prev sel_cols = .ok ex ∧
      ex.cols_.length = sel_cols.length ∧
      (∀ i c, (selectedCols prev.cols sel_cols).get? i = some c →
        ex.cols_.get? i
          = some { c with offset := colsLen ((selectedCols prev.cols sel_cols).take i) }) ∧
      ex.len_ = colsLen (selectedCols prev.cols sel_cols) ∧
      ex.Next = some out ∧ out.size = ex.len_ ∧ out.data.length = ex.len_ ∧
      out.data = (selectedCols prev.cols sel_cols).flatMap (colBytes rec.data) ∧
      (∀ i c, (selectedCols prev.cols sel_cols).get? i = some c →
        (out.data.drop (colsLen ((selectedCols prev.cols sel_cols).take i))).take c.len
          = colBytes rec.data c)) ∧
      (ProjectionExecutor.new exampleProjChild [⟨"t", "c2"⟩, ⟨"t", "c1"⟩]).map
          (fun ex => (ex.cols_, ex.Next)) =
        .ok ([⟨"t", "c2", .TYPE_STRING, 2, 0⟩, ⟨"t", "c1", .TYPE_INT, 4, 2⟩],
          some ⟨2 + 4, [65, 66] ++ enc4 1⟩) := by
  refine ⟨?_, by rfl⟩
  have hnew : ProjectionExecutor.new prev sel_cols =
      .ok { prev_ := prev
            cols_ := packCols 0 (selectedCols prev.cols sel_cols)
            len_ := colsLen (selectedCols prev.cols sel_cols)
            sel_idxs_ := sel_cols.map (get_col_idx prev.cols) } := by
    unfold ProjectionExecutor.new
    rw [ProjectionExecutor.build_spec prev.cols sel_cols 0 [] [] hsel]
    simp
  have hcopy := ProjectionExecutor.copy_loop_spec prev.cols rec.data sel_cols [] 0 hsel rfl hin
  simp only [List.nil_append] at hcopy
  refine ⟨_, ⟨colsLen (selectedCols prev.cols sel_cols),
    (selectedCols prev.cols sel_cols).flatMap (colBytes rec.data)⟩, hnew, ?_, ?_, rfl, ?_, rfl,
    ?_, rfl, ?_⟩
  · simp only
    rw [packCols_length, selectedCols_length prev.cols sel_cols hsel]
  · intro i c hc
    simp only
    rw [packCols_get? _ 0 i c hc, Nat.zero_add]
  · simp only [ProjectionExecutor.Next, hrec, hcopy]
  · exact flatMap_colBytes_length rec.data _ hin
  · intro i c hc
    exact flatMap_segment rec.data _ i c hc hin

/-- C12 at the example child `(c1, c2, c3)` with the request `[c2, c1]`. -/
theorem projection_packs_columns_witness :
    ∃ ex out, ProjectionExecutor.new exampleProjChild [⟨"t", "c2"⟩, ⟨"t", "c1"⟩] = .ok ex ∧
      ex.Next = some out ∧
      out.data = (selectedCols exampleProjChild.cols [⟨"t", "c2"⟩, ⟨"t", "c1"⟩]).flatMap
        (colBytes (enc4 1 ++ [65, 66] ++ enc4 9)) := by
  obtain ⟨ex, out, h1, _, _, _, h5, _, _, h8, _⟩ :=
    (projection_packs_columns exampleProjChild [⟨"t", "c2"⟩, ⟨"t", "c1"⟩]
      ⟨10, enc4 1 ++ [65, 66] ++ enc4 9⟩
      (by
        intro k hk
        simp only [List.mem_cons, List.mem_singleton, List.not_mem_nil, or_false] at hk
        rcases hk with h | h <;> subst h
        · exact ⟨⟨"t", "c2", .TYPE_STRING, 2, 4⟩, rfl⟩
        · exact ⟨⟨"t", "c1", .TYPE_INT, 4, 0⟩, rfl⟩)
      rfl
      (by
        intro c hc
        have hs : selectedCols exampleProjChild.cols [⟨"t", "c2"⟩, ⟨"t", "c1"⟩]
            = [⟨"t", "c2", .TYPE_STRING, 2, 4⟩, ⟨"t", "c1", .TYPE_INT, 4, 0⟩] := by rfl
        rw [hs] at hc
        simp only [List.mem_cons, List.mem_singleton, List.not_mem_nil, or_false] at hc
        rcases hc with h | h <;> subst h <;> decide)).1
  exact ⟨ex, out, h1, h5, h8⟩

/-! ## Update -/

theorem RmFileHandle.get_record_some (fh : RmFileHandle) (rid : Rid) (old : RmRecord)
    (h : fh.get_record rid = .ok (some old)) :
    ∃ pg, 0 ≤ rid.page_no ∧ rid.page_no < fh.file_hdr_.num_pages ∧
      fh.pages rid.page_no.toNat = some pg ∧ pg.bitmap rid.slot_no = true ∧
      old = ⟨fh.file_hdr_.record_size,
        memcpy (List.replicate fh.file_hdr_.record_size 0) (pg.slots rid.slot_no)
          fh.file_hdr_.record_size⟩ := by
  unfold RmFileHandle.get_record at h
  cases hf : fh.fetch_page_handle rid.page_no with
  | error e => simp [hf] at h
  | ok ph =>
    obtain ⟨_, b, c, d⟩ := fh.fetch_page_handle_ok _ ph hf
    simp only [hf] at h
    cases hbit : ph.page.bitmap rid.slot_no with
    | false => simp [Bitmap.is_set, hbit] at h
    | true =>
      simp only [Bitmap.is_set, hbit, Bool.not_true, Bool.false_eq_true, if_false,
        Except.ok.injEq, Option.some.injEq, RmPageHandle.get_slot] at h
      exact ⟨ph.page, b, c, d, hbit, h.symm⟩

theorem RmFileHandle.get_record_congr (fh fh1 : RmFileHandle) (rid : Rid)
    (hhdr : fh1.file_hdr_ = fh.file_hdr_)
    (hpage : 0 ≤ rid.page_no →
      match fh.pages rid.page_no.toNat, fh1.pages rid.page_no.toNat with
      | some pg, some pg1 =>
        pg1.bitmap rid.slot_no = pg.bitmap rid.slot_no ∧ pg1.slots rid.slot_no = pg.slots rid.slot_no
      | none, none => True
      | _, _ => False) :
    fh1.get_record rid = fh.get_record rid := by
  unfold RmFileHandle.get_record RmFileHandle.fetch_page_handle RmFileHandle.fetch_page
  rw [hhdr]
  by_cases h1 : rid.page_no ≥ fh.file_hdr_.num_pages
  · simp [h1]
  · by_cases h2 : rid.page_no < 0
    · simp [h1, h2]
    · have hp := hpage (by omega)
      simp only [h1, h2, if_false]
      cases ha : fh.pages rid.page_no.toNat with
      | none =>
        cases hb : fh1.pages rid.page_no.toNat with
        | none => rfl
        | some pg1 => simp [ha, hb] at hp
      | some pg =>
        cases hb : fh1.pages rid.page_no.toNat with
        | none => simp [ha, hb] at hp
        | some pg1 =>
          simp only [ha, hb] at hp
          simp [Bitmap.is_set, RmPageHandle.get_slot, hp.1, hp.2]

theorem SameLayout.refl (fh : RmFileHandle) : SameLayout fh fh :=
  ⟨rfl, fun _ => ⟨fun h => h, fun pg h => ⟨pg, h, rfl, rfl⟩⟩⟩

theorem SameLayout.trans (fh fh1 fh2 : RmFileHandle) (h1 : SameLayout fh fh1)
    (h2 : SameLayout fh1 fh2) : SameLayout fh fh2 := by
  refine ⟨h2.1.trans h1.1, fun k => ⟨fun h => (h2.2 k).1 ((h1.2 k).1 h), ?_⟩⟩
  intro pg hpg
  obtain ⟨pg1, a1, a2, a3⟩ := (h1.2 k).2 pg hpg
  obtain ⟨pg2, b1, b2, b3⟩ := (h2.2 k).2 pg1 a1
  exact ⟨pg2, b1, b2.trans a2, b3.trans a3⟩

theorem RmFileHandle.update_record_effect (fh : RmFileHandle) (rid : Rid) (b : List Byte)
    (old : RmRecord) (hold : fh.get_record rid = .ok (some old))
    (hb : b.length = fh.file_hdr_.record_size) :
    (fh.update_record rid b).1 = .ok () ∧
      SameLayout fh (fh.update_record rid b).2 ∧
      (fh.update_record rid b).2.get_record rid = .ok (some ⟨fh.file_hdr_.record_size, b⟩) ∧
      ∀ r, r ≠ rid → (fh.update_record rid b).2.get_record r = fh.get_record r := by
  obtain ⟨pg, hp0, hp1, hpg, hbit, _⟩ := fh.get_record_some rid old hold
  obtain ⟨fh1, hfh1, hh, hpp⟩ : ∃ fh1, fh.update_record rid b = (.ok (), fh1) ∧
      fh1.file_hdr_ = fh.file_hdr_ ∧
      ∀ k, fh1.pages k =
        if k = rid.page_no.toNat then
          some
            { page_hdr := pg.page_hdr
              bitmap := pg.bitmap
              slots := fun i =>
                if i = rid.slot_no then
                  memcpy (pg.slots rid.slot_no) b fh.file_hdr_.record_size
                else pg.slots i }
        else fh.pages k :=
    ⟨_, fh.update_record_ok rid b pg hp0 hp1 hpg hbit, rfl, fun _ => rfl⟩
  rw [hfh1]
  refine ⟨rfl, ⟨hh, ?_⟩, ?_, ?_⟩
  · intro k
    rw [hpp k]
    by_cases hk : k = rid.page_no.toNat
    · subst hk
      refine ⟨fun h => ?_, fun pg0 h => ?_⟩
      · rw [hpg] at h
        cases h
      · rw [hpg] at h
        cases h
        exact ⟨_, if_pos rfl, rfl, rfl⟩
    · refine ⟨fun h => ?_, fun pg0 h => ⟨pg0, ?_, rfl, rfl⟩⟩
      · simp [hk, h]
      · simp [hk, h]
  · show fh1.get_record rid = _
    rw [RmFileHandle.get_record_of_page fh1 rid _ hp0 (by rw [hh]; exact hp1)
      ((hpp _).trans (if_pos rfl))]
    simp [hbit, hh, memcpy_read_back _ b _ hb]
  · intro r hr
    show fh1.get_record r = _
    apply RmFileHandle.get_record_congr fh fh1 r hh
    intro hr0
    rw [hpp]
    by_cases hk : r.page_no.toNat = rid.page_no.toNat
    · have hpn : r.page_no = rid.page_no := by omega
      have hsl : r.slot_no ≠ rid.slot_no := by
        intro hs
        apply hr
        cases r
        cases rid
        simp only at hpn hs
        rw [hpn, hs]
      rw [hk, hpg]
      simp [hsl]
    · cases hq : fh.pages r.page_no.toNat with
      | none => simp [hk]
      | some pg0 => simp [hk]

theorem memcpy_at_length (dst src : List Byte) (off n : Nat) (h : off + n ≤ dst.length)
    (hs : src.length = n) : (memcpy_at dst off src n).length = dst.length := by
  simp only [memcpy_at, memcpy, List.length_append, List.length_take, List.length_drop]
  omega

theorem memcpy_at_inside (dst src : List Byte) (off n i : Nat) (h : off + n ≤ dst.length)
    (hs : src.length = n) (hi : i < n) : (memcpy_at dst off src n)[off + i]? = src[i]? := by
  unfold memcpy_at memcpy
  rw [List.getElem?_append_right
    (by simp only [List.length_take, List.length_append, List.length_drop]; omega)]
  have e : off + i - (List.take off dst).length = i := by
    simp only [List.length_take]
    omega
  rw [e, List.getElem?_append_left
    (by simp only [List.length_take, List.length_append, List.length_drop]; omega),
    List.getElem?_take_of_lt hi]

theorem memcpy_at_outside (dst src : List Byte) (off n i : Nat) (h : off + n ≤ dst.length)
    (hs : src.length = n) (hi : i < off ∨ off + n ≤ i) :
    (memcpy_at dst off src n)[i]? = dst[i]? := by
  unfold memcpy_at memcpy
  rcases hi with hi | hi
  · rw [List.getElem?_append_left
      (by simp only [List.length_take, List.length_append, List.length_drop]; omega),
      List.getElem?_take_of_lt hi]
  · rw [List.getElem?_append_right
      (by simp only [List.length_take, List.length_append, List.length_drop]; omega),
      List.getElem?_append_right
      (by simp only [List.length_take, List.length_append, List.length_drop]; omega)]
    simp only [List.length_take, List.getElem?_drop]
    congr 1
    omega

theorem writeCols_length (ws : List (ColMeta × List Byte)) :
    ∀ d : List Byte, (∀ w ∈ ws, w.2.length = w.1.len ∧ w.1.offset + w.1.len ≤ d.length) →
      (writeCols ws d).length = d.length := by
  induction ws with
  | nil =>
    intro d _
    rfl
  | cons a ws ih =>
    intro d hv
    obtain ⟨h1, h2⟩ := hv a (List.mem_cons_self _ _)
    have hl := memcpy_at_length d a.2 a.1.offset a.1.len h2 h1
    have := ih (memcpy_at d a.1.offset a.2 a.1.len) (fun w hw => by
      rw [hl]
      exact hv w (List.mem_cons_of_mem _ hw))
    simp only [writeCols, List.foldl_cons] at this ⊢
    rw [this, hl]

theorem writeCols_outside (ws : List (ColMeta × List Byte)) (i : Nat) :
    ∀ d : List Byte, (∀ w ∈ ws, w.2.length = w.1.len ∧ w.1.offset + w.1.len ≤ d.length) →
      (∀ w ∈ ws, i < w.1.offset ∨ w.1.offset + w.1.len ≤ i) →
      (writeCols ws d)[i]? = d[i]? := by
  induction ws with
  | nil =>
    intro d _ _
    rfl
  | cons a ws ih =>
    intro d hv hout
    obtain ⟨h1, h2⟩ := hv a (List.mem_cons_self _ _)
    have hl := memcpy_at_length d a.2 a.1.offset a.1.len h2 h1
    have := ih (memcpy_at d a.1.offset a.2 a.1.len) (fun w hw => by
      rw [hl]
      exact hv w (List.mem_cons_of_mem _ hw)) (fun w hw => hout w (List.mem_cons_of_mem _ hw))
    simp only [writeCols, List.foldl_cons] at this ⊢
    rw [this, memcpy_at_outside d a.2 a.1.offset a.1.len i h2 h1
      (hout a (List.mem_cons_self _ _))]

theorem writeCols_inside (ws : List (ColMeta × List Byte)) :
    ∀ d : List Byte, (∀ w ∈ ws, w.2.length = w.1.len ∧ w.1.offset + w.1.len ≤ d.length) →
      ws.Pairwise (fun a b =>
        a.1.offset + a.1.len ≤ b.1.offset ∨ b.1.offset + b.1.len ≤ a.1.offset) →
      ∀ w ∈ ws, ∀ i, i < w.1.len → (writeCols ws d)[w.1.offset + i]? = w.2[i]? := by
  induction ws with
  | nil =>
    intro d _ _ w hw
    simp at hw
  | cons a ws ih =>
    intro d hv hp w hw i hi
    obtain ⟨h1, h2⟩ := hv a (List.mem_cons_self _ _)
    have hl := memcpy_at_length d a.2 a.1.offset a.1.len h2 h1
    have hv1 : ∀ w ∈ ws, w.2.length = w.1.len ∧
        w.1.offset + w.1.len ≤ (memcpy_at d a.1.offset a.2 a.1.len).length := fun w hw => by
      rw [hl]
      exact hv w (List.mem_cons_of_mem _ hw)
    obtain ⟨hpa, hpr⟩ := List.pairwise_cons.1 hp
    have hstep : writeCols (a :: ws) d = writeCols ws (memcpy_at d a.1.offset a.2 a.1.len) := by
      simp [writeCols]
    rw [hstep]
    rcases List.mem_cons.1 hw with hwa | hwr
    · subst hwa
      rw [writeCols_outside ws (w.1.offset + i) _ hv1 (fun b hb => by
        rcases hpa b hb with h | h
        · exact Or.inl (by omega)
        · exact Or.inr (by omega)),
        memcpy_at_inside d w.2 w.1.offset w.1.len i h2 h1 hi]
    · exact ih _ hv1 hpr w hwr i hi

theorem UpdateExecutor.apply_set_clauses_eq (env : ExecEnv) (tab : TabMeta)
    (cs : List SetClause) :
    ∀ d : List Byte, (∀ sc ∈ cs, ∃ w, resolveClause env tab sc = some w) →
      UpdateExecutor.apply_set_clauses env tab cs d
        = .ok (writeCols (cs.filterMap (resolveClause env tab)) d) := by
  induction cs with
  | nil =>
    intro d _
    rfl
  | cons sc cs ih =>
    intro d hall
    obtain ⟨w, hw⟩ := hall sc (List.mem_cons_self _ _)
    have hrest := fun d1 => ih d1 (fun sc1 h1 => hall sc1 (List.mem_cons_of_mem _ h1))
    rw [List.filterMap_cons, hw]
    unfold resolveClause at hw
    rw [UpdateExecutor.apply_set_clauses]
    cases hc : tab.get_col sc.lhs.col_name with
    | error e => simp [hc] at hw
    | ok col =>
      simp only [hc] at hw ⊢
      by_cases hty : col.type ≠ sc.rhs.type
      · simp [hty] at hw
      · simp only [hty, if_false] at hw ⊢
        cases hi : env.init_raw { sc.rhs with raw := none } col.len with
        | error e => simp [hi] at hw
        | ok raw =>
          simp only [hi, Option.some.injEq] at hw ⊢
          subst hw
          rw [hrest]
          simp [writeCols]

theorem UpdateExecutor.apply_set_clauses_fails (env : ExecEnv) (tab : TabMeta)
    (cs : List SetClause) (hmis : ∃ sc ∈ cs, resolveClause env tab sc = none) :
    ∀ d : List Byte, ∃ e, UpdateExecutor.apply_set_clauses env tab cs d = .error e := by
  induction cs with
  | nil =>
    obtain ⟨sc, hsc, _⟩ := hmis
    simp at hsc
  | cons c cs ih =>
    intro d
    rw [UpdateExecutor.apply_set_clauses]
    cases hc : tab.get_col c.lhs.col_name with
    | error e => exact ⟨e, rfl⟩
    | ok col1 =>
      by_cases hty : col1.type ≠ c.rhs.type
      · exact ⟨_, if_pos hty⟩
      · simp only [hty, if_false]
        cases hi : env.init_raw { c.rhs with raw := none } col1.len with
        | error e => exact ⟨e, rfl⟩
        | ok raw =>
          obtain ⟨sc, hsc, hnone⟩ := hmis
          rcases List.mem_cons.1 hsc with h | h
          · subst h
            simp [resolveClause, hc, hty, hi] at hnone
          · exact ih ⟨sc, h, hnone⟩ _

theorem UpdateExecutor.apply_set_clauses_mismatch (env : ExecEnv) (tab : TabMeta)
    (cs : List SetClause)
    (hwf : ∀ c ∈ cs, ∃ col, tab.get_col c.lhs.col_name = .ok col ∧
      (col.type = c.rhs.type →
        ∃ raw, env.init_raw { c.rhs with raw := none } col.len = .ok raw))
    (hmis : ∃ sc ∈ cs, ∃ col, tab.get_col sc.lhs.col_name = .ok col ∧ col.type ≠ sc.rhs.type) :
    ∃ sc ∈ cs, ∃ col, tab.get_col sc.lhs.col_name = .ok col ∧ col.type ≠ sc.rhs.type ∧
      ∀ d : List Byte, UpdateExecutor.apply_set_clauses env tab cs d
        = .error (.IncompatibleTypeError col.type sc.rhs.type) := by
  induction cs with
  | nil =>
    obtain ⟨sc, hsc, _⟩ := hmis
    simp at hsc
  | cons c cs ih =>
    obtain ⟨col1, hc, henc⟩ := hwf c (List.mem_cons_self _ _)
    by_cases hty : col1.type ≠ c.rhs.type
    · refine ⟨c, List.mem_cons_self _ _, col1, hc, hty, fun d => ?_⟩
      rw [UpdateExecutor.apply_set_clauses]
      simp only [hc]
      exact if_pos hty
    · obtain ⟨raw, hi⟩ := henc (not_not.1 hty)
      have hmis1 : ∃ sc ∈ cs, ∃ col, tab.get_col sc.lhs.col_name = .ok col ∧
          col.type ≠ sc.rhs.type := by
        obtain ⟨sc, hsc, col, hcol, hne⟩ := hmis
        rcases List.mem_cons.1 hsc with h | h
        · subst h
          rw [hc] at hcol
          cases hcol
          exact absurd hne hty
        · exact ⟨sc, h, col, hcol, hne⟩
      obtain ⟨sc, hsc, col, hcol, hne, hall⟩ :=
        ih (fun c1 h1 => hwf c1 (List.mem_cons_of_mem _ h1)) hmis1
      refine ⟨sc, List.mem_cons_of_mem _ hsc, col, hcol, hne, fun d => ?_⟩
      rw [UpdateExecutor.apply_set_clauses]
      simp only [hc, hty, if_false, hi]
      exact hall _

theorem UpdateExecutor.apply_set_clauses_first_mismatch (env : ExecEnv) (tab : TabMeta)
    (sc : SetClause) (post : List SetClause) (col : ColMeta)
    (hcol : tab.get_col sc.lhs.col_name = .ok col) (hne : col.type ≠ sc.rhs.type) :
    ∀ (pre : List SetClause) (d : List Byte),
      (∀ c ∈ pre, ∃ w, resolveClause env tab c = some w) →
      UpdateExecutor.apply_set_clauses env tab (pre ++ sc :: post) d
        = .error (.IncompatibleTypeError col.type sc.rhs.type) := by
  intro pre
  induction pre with
  | nil =>
    intro d _
    rw [List.nil_append, UpdateExecutor.apply_set_clauses]
    simp only [hcol]
    exact if_pos hne
  | cons c pre ih =>
    intro d hpre
    obtain ⟨w, hw⟩ := hpre c (List.mem_cons_self _ _)
    rw [List.cons_append, UpdateExecutor.apply_set_clauses]
    unfold resolveClause at hw
    cases hc : tab.get_col c.lhs.col_name with
    | error e => simp [hc] at hw
    | ok col1 =>
      simp only [hc] at hw ⊢
      by_cases hty : col1.type ≠ c.rhs.type
      · simp [hty] at hw
      · simp only [hty, if_false] at hw ⊢
        cases hi : env.init_raw { c.rhs with raw := none } col1.len with
        | error e => simp [hi] at hw
        | ok raw =>
          simp only []
          exact ih _ (fun c1 h1 => hpre c1 (List.mem_cons_of_mem _ h1))

/-- C19, refuted as stated: on the example table the update `SET zz = 5, SET a = 'x'` has a
non-empty list of live target Rids and a clause (`SET a = 'x'`) whose replacement value is a
character literal for the integer column `a`, yet `Next` does not fail with a type-mismatch
error: the clauses are applied in order and the unknown column `zz` of the first clause
throws `ColumnNotFoundError` (the file and the indexes are left unchanged all the same). -/
theorem update_mismatch_after_unknown_column :
    (∃ rid rest old, exampleUnknownColumnUpdate.rids_ = rid :: rest ∧
      exampleUnknownColumnUpdate.fh_.get_record rid = .ok (some old)) ∧
    (∃ sc ∈ exampleUnknownColumnUpdate.set_clauses_, ∃ col,
      exampleUnknownColumnUpdate.tab_.get_col sc.lhs.col_name = .ok col ∧
        col.type ≠ sc.rhs.type) ∧
    UpdateExecutor.Next updEnv exampleUnknownColumnUpdate
      = (.error (.exec (.ColumnNotFoundError "zz")), exampleUnknownColumnUpdate) ∧
    ¬ ∃ tl tr fin, UpdateExecutor.Next updEnv exampleUnknownColumnUpdate
      = (.error (.exec (.IncompatibleTypeError tl tr)), fin) := by
  have hnext : UpdateExecutor.Next updEnv exampleUnknownColumnUpdate
      = (.error (.exec (.ColumnNotFoundError "zz")), exampleUnknownColumnUpdate) := rfl
  refine ⟨⟨⟨0, 0⟩, [], ⟨4, enc4 1⟩, rfl, rfl⟩,
    ⟨⟨⟨"t", "a"⟩, strValue [120]⟩, by simp [exampleUnknownColumnUpdate],
      ⟨"t", "a", .TYPE_INT, 4, 0⟩, rfl, by decide⟩, hnext, ?_⟩
  rintro ⟨tl, tr, fin, h⟩
  rw [hnext] at h
  exact absurd (congrArg Prod.fst h) (fun h1 => by cases h1)

/-- C19, amended: when the list of target Rids is non-empty, its first Rid is live, and
some set clause's replacement value has a declared type different from that of its target
column, `Next` throws while it processes the first Rid and returns the executor as it was:
the heap file and every index are unchanged. The exception is the `IncompatibleTypeError`
of a mismatching clause whenever every clause before that clause can be applied (it names
a known column, its value has the column's declared type and can be encoded), that is,
whenever the mismatching clause is the first clause that cannot be applied. -/
theorem update_type_mismatch_changes_nothing (env : ExecEnv) (ex : UpdateExecutor)
    (rid : Rid) (rest : List Rid) (old : RmRecord)
    (hrids : ex.rids_ = rid :: rest)
    (hlive : ex.fh_.get_record rid = .ok (some old))
    (hmis : ∃ sc ∈ ex.set_clauses_, ∃ col,
      ex.tab_.get_col sc.lhs.col_name = .ok col ∧ col.type ≠ sc.rhs.type) :
    (∃ e, UpdateExecutor.Next env ex = (.error (.exec e), ex)) ∧
    ∀ pre sc post col, ex.set_clauses_ = pre ++ sc :: post →
      (∀ c ∈ pre, ∃ w, resolveClause env ex.tab_ c = some w) →
      ex.tab_.get_col sc.lhs.col_name = .ok col → col.type ≠ sc.rhs.type →
      UpdateExecutor.Next env ex
        = (.error (.exec (.IncompatibleTypeError col.type sc.rhs.type)), ex) := by
  have hnext : ∀ e, UpdateExecutor.apply_set_clauses env ex.tab_ ex.set_clauses_
      (memcpy (List.replicate ex.fh_.file_hdr_.record_size 0) old.data
        ex.fh_.file_hdr_.record_size) = .error e →
      UpdateExecutor.Next env ex = (.error (.exec e), ex) := by
    intro e he
    unfold UpdateExecutor.Next
    rw [hrids, UpdateExecutor.Next_loop]
    unfold UpdateExecutor.update_one
    simp only [hlive, he]
  constructor
  · have hnone : ∃ sc ∈ ex.set_clauses_, resolveClause env ex.tab_ sc = none := by
      obtain ⟨sc, hsc, col, hcol, hne⟩ := hmis
      exact ⟨sc, hsc, by simp [resolveClause, hcol, hne]⟩
    obtain ⟨e, he⟩ := UpdateExecutor.apply_set_clauses_fails env ex.tab_ ex.set_clauses_ hnone
      (memcpy (List.replicate ex.fh_.file_hdr_.record_size 0) old.data
        ex.fh_.file_hdr_.record_size)
    exact ⟨e, hnext e he⟩
  · intro pre sc post col hsplit hpre hcol hne
    apply hnext
    rw [hsplit]
    exact UpdateExecutor.apply_set_clauses_first_mismatch env ex.tab_ sc post col hcol hne
      pre _ hpre

/-- C19 at the example table: `SET a = 'x'` on the integer column `a` throws
`IncompatibleTypeError` and leaves the executor as it was. -/
theorem update_type_mismatch_changes_nothing_witness :
    (∃ e, UpdateExecutor.Next updEnv exampleBadUpdate
      = (.error (.exec e), exampleBadUpdate)) ∧
    UpdateExecutor.Next updEnv exampleBadUpdate
      = (.error (.exec (.IncompatibleTypeError .TYPE_INT .TYPE_STRING)), exampleBadUpdate) :=
  have h := update_type_mismatch_changes_nothing updEnv exampleBadUpdate ⟨0, 0⟩ []
    ⟨4, enc4 1⟩ rfl rfl
    ⟨⟨⟨"t", "a"⟩, strValue [120]⟩, List.mem_cons_self _ _, ⟨"t", "a", .TYPE_INT, 4, 0⟩, rfl,
      by decide⟩
  ⟨h.1, h.2 [] ⟨⟨"t", "a"⟩, strValue [120]⟩ [] ⟨"t", "a", .TYPE_INT, 4, 0⟩ rfl
    (fun c hc => absurd hc (List.not_mem_nil c)) rfl (by decide)⟩

theorem RmFileHandle.update_record_hdr (fh : RmFileHandle) (rid : Rid) (b : List Byte) :
    (fh.update_record rid b).2.file_hdr_ = fh.file_hdr_ := by
  unfold RmFileHandle.update_record
  cases fh.fetch_page_handle rid.page_no with
  | error e => rfl
  | ok ph =>
    simp only []
    split
    · rfl
    · rfl

theorem UpdateExecutor.Next_loop_append (env : ExecEnv) (xs ys : List Rid) :
    ∀ ex : UpdateExecutor, UpdateExecutor.Next_loop env (xs ++ ys) ex =
      match UpdateExecutor.Next_loop env xs ex with
      | (.error e, ex1) => (.error e, ex1)
      | (.ok _, ex1) => UpdateExecutor.Next_loop env ys ex1 := by
  induction xs with
  | nil =>
    intro ex
    rfl
  | cons x xs ih =>
    intro ex
    rw [List.cons_append, UpdateExecutor.Next_loop, UpdateExecutor.Next_loop]
    rcases hu : UpdateExecutor.update_one env ex x with ⟨r, ex1⟩
    cases r with
    | error e => rfl
    | ok u => exact ih ex1

theorem UpdateExecutor.update_one_fields (env : ExecEnv) (ex : UpdateExecutor) (rid : Rid) :
    (UpdateExecutor.update_one env ex rid).2.tab_ = ex.tab_ ∧
      (UpdateExecutor.update_one env ex rid).2.set_clauses_ = ex.set_clauses_ ∧
      (UpdateExecutor.update_one env ex rid).2.fh_.file_hdr_ = ex.fh_.file_hdr_ := by
  unfold UpdateExecutor.update_one
  cases hg : ex.fh_.get_record rid with
  | error e => exact ⟨rfl, rfl, rfl⟩
  | ok o =>
    cases o with
    | none => exact ⟨rfl, rfl, rfl⟩
    | some old =>
      simp only []
      cases ha : UpdateExecutor.apply_set_clauses env ex.tab_ ex.set_clauses_
          (memcpy (List.replicate ex.fh_.file_hdr_.record_size 0) old.data
            ex.fh_.file_hdr_.record_size) with
      | error e => exact ⟨rfl, rfl, rfl⟩
      | ok new_record =>
        simp only []
        have hh := ex.fh_.update_record_hdr rid new_record
        rcases hu : ex.fh_.update_record rid new_record with ⟨r, fh1⟩
        rw [hu] at hh
        cases r with
        | error e => exact ⟨rfl, rfl, hh⟩
        | ok u => exact ⟨rfl, rfl, hh⟩

theorem UpdateExecutor.Next_loop_fields (env : ExecEnv) (rids : List Rid) :
    ∀ ex : UpdateExecutor,
      (UpdateExecutor.Next_loop env rids ex).2.tab_ = ex.tab_ ∧
      (UpdateExecutor.Next_loop env rids ex).2.set_clauses_ = ex.set_clauses_ ∧
      (UpdateExecutor.Next_loop env rids ex).2.fh_.file_hdr_ = ex.fh_.file_hdr_ := by
  induction rids with
  | nil =>
    intro ex
    exact ⟨rfl, rfl, rfl⟩
  | cons rid rids ih =>
    intro ex
    rw [UpdateExecutor.Next_loop]
    have h1 := UpdateExecutor.update_one_fields env ex rid
    rcases hu : UpdateExecutor.update_one env ex rid with ⟨r, ex1⟩
    rw [hu] at h1
    cases r with
    | error e => exact h1
    | ok u =>
      obtain ⟨a, b, c⟩ := ih ex1
      exact ⟨a.trans h1.1, b.trans h1.2.1, c.trans h1.2.2⟩

theorem UpdateExecutor.update_indexes_not_mem (old_data new_data : List Byte) (rid : Rid)
    (n : List String) (idxs : List IndexMeta) :
    ∀ ihs : List String → IxIndexHandle,
      n ∉ idxs.map (fun ix => get_index_name ix.cols) →
      UpdateExecutor.update_indexes old_data new_data rid idxs ihs n = ihs n := by
  induction idxs with
  | nil =>
    intro ihs _
    rfl
  | cons ix idxs ih =>
    intro ihs hn
    rw [List.map_cons, List.mem_cons, not_or] at hn
    rw [UpdateExecutor.update_indexes]
    rw [ih _ hn.2, if_neg hn.1]

theorem UpdateExecutor.update_indexes_mem (old_data new_data : List Byte) (rid : Rid)
    (index : IndexMeta) (idxs : List IndexMeta) :
    ∀ ihs : List String → IxIndexHandle,
      (idxs.map (fun ix => get_index_name ix.cols)).Nodup → index ∈ idxs →
      UpdateExecutor.update_indexes old_data new_data rid idxs ihs (get_index_name index.cols)
        = ((ihs (get_index_name index.cols)).delete_entry
            (UpdateExecutor.index_key index old_data)).insert_entry
            (UpdateExecutor.index_key index new_data) rid := by
  induction idxs with
  | nil =>
    intro ihs _ h
    simp at h
  | cons ix idxs ih =>
    intro ihs hnd hmem
    rw [List.map_cons, List.nodup_cons] at hnd
    rw [UpdateExecutor.update_indexes]
    rcases List.mem_cons.1 hmem with h | h
    · subst h
      rw [UpdateExecutor.update_indexes_not_mem _ _ _ _ _ _ hnd.1, if_pos rfl]
    · have hne : get_index_name index.cols ≠ get_index_name ix.cols := by
        intro he
        exact hnd.1 (he ▸ List.mem_map_of_mem (fun ix => get_index_name ix.cols) h)
      rw [ih _ hnd.2 h, if_neg hne]

/-- C14 fails as stated on a multi-target Update whose targets receive the same key:
`SET a = 2` on the targets (0,0) (where `a = 1`) and (0,2) (where `a = 2`) succeeds and
stores key 2 at (0,0), yet a lookup of key 2 in the index on `a` resolves to (0,2), the
later target, and not to (0,0). -/
theorem update_colliding_keys_lose_entry :
    (UpdateExecutor.Next updEnv exampleCollidingUpdate).1 = .ok none ∧
    (UpdateExecutor.Next updEnv exampleCollidingUpdate).2.fh_.get_record ⟨0, 0⟩
      = .ok (some ⟨4, enc4 2⟩) ∧
    ((UpdateExecutor.Next updEnv exampleCollidingUpdate).2.ihs_
        (get_index_name exampleIndexA.cols)).lookup
      (UpdateExecutor.index_key exampleIndexA (enc4 2)) = some ⟨0, 2⟩ ∧
    ((UpdateExecutor.Next updEnv exampleCollidingUpdate).2.ihs_
        (get_index_name exampleIndexA.cols)).lookup
      (UpdateExecutor.index_key exampleIndexA (enc4 2)) ≠ some ⟨0, 0⟩ :=
  ⟨rfl, rfl, rfl, by decide⟩

theorem memcpy_full (src : List Byte) (n : Nat) (h : src.length = n) :
    memcpy (List.replicate n 0) src n = src := by
  unfold memcpy
  rw [List.take_of_length_le (Nat.le_of_eq h), List.drop_replicate, Nat.sub_self]
  simp

theorem writeCols_congr (ws : List (ColMeta × List Byte)) :
    ∀ d1 d2 : List Byte, d1.length = d2.length →
      (∀ w ∈ ws, w.2.length = w.1.len ∧ w.1.offset + w.1.len ≤ d1.length) →
      (∀ i, (∀ w ∈ ws, i < w.1.offset ∨ w.1.offset + w.1.len ≤ i) → d1[i]? = d2[i]?) →
      writeCols ws d1 = writeCols ws d2 := by
  induction ws with
  | nil =>
    intro d1 d2 _ _ h
    exact List.ext_getElem? (fun i => h i (fun w hw => absurd hw (List.not_mem_nil w)))
  | cons a ws ih =>
    intro d1 d2 hl hv h
    obtain ⟨h1, h2⟩ := hv a (List.mem_cons_self _ _)
    have h2b : a.1.offset + a.1.len ≤ d2.length := hl ▸ h2
    have hl1 := memcpy_at_length d1 a.2 a.1.offset a.1.len h2 h1
    have hl2 := memcpy_at_length d2 a.2 a.1.offset a.1.len h2b h1
    have hstep : ∀ d, writeCols (a :: ws) d = writeCols ws (memcpy_at d a.1.offset a.2 a.1.len) :=
      fun d => by simp [writeCols]
    rw [hstep, hstep]
    apply ih
    · rw [hl1, hl2, hl]
    · intro w hw
      rw [hl1]
      exact hv w (List.mem_cons_of_mem _ hw)
    · intro i hi
      by_cases hc : i < a.1.offset ∨ a.1.offset + a.1.len ≤ i
      · rw [memcpy_at_outside d1 a.2 a.1.offset a.1.len i h2 h1 hc,
          memcpy_at_outside d2 a.2 a.1.offset a.1.len i h2b h1 hc]
        apply h
        intro w hw
        rcases List.mem_cons.1 hw with e | e
        · rw [e]
          exact hc
        · exact hi w e
      · have e : i = a.1.offset + (i - a.1.offset) := by omega
        rw [e, memcpy_at_inside d1 a.2 a.1.offset a.1.len _ h2 h1 (by omega),
          memcpy_at_inside d2 a.2 a.1.offset a.1.len _ h2b h1 (by omega)]

theorem writeCols_idem (ws : List (ColMeta × List Byte)) (d : List Byte)
    (hv : ∀ w ∈ ws, w.2.length = w.1.len ∧ w.1.offset + w.1.len ≤ d.length) :
    writeCols ws (writeCols ws d) = writeCols ws d := by
  have hl := writeCols_length ws d hv
  apply writeCols_congr ws _ _ hl
  · intro w hw
    rw [hl]
    exact hv w hw
  · intro i hi
    exact writeCols_outside ws i d hv hi

theorem UpdateExecutor.Next_loop_effect (env : ExecEnv) (rids : List Rid) :
    ∀ ex : UpdateExecutor,
      (∀ sc ∈ ex.set_clauses_, ∃ w, resolveClause env ex.tab_ sc = some w) →
      (∀ w ∈ ex.set_clauses_.filterMap (resolveClause env ex.tab_),
        w.2.length = w.1.len ∧ w.1.offset + w.1.len ≤ ex.fh_.file_hdr_.record_size) →
      (∀ rid ∈ rids, ∃ old, ex.fh_.get_record rid = .ok (some old) ∧
        old.data.length = ex.fh_.file_hdr_.record_size) →
      ∃ fin, UpdateExecutor.Next_loop env rids ex = (.ok (), fin) ∧
        SameLayout ex.fh_ fin.fh_ ∧
        (∀ r, r ∉ rids → fin.fh_.get_record r = ex.fh_.get_record r) ∧
        (∀ r ∈ rids, ∀ old, ex.fh_.get_record r = .ok (some old) →
          fin.fh_.get_record r = .ok (some ⟨ex.fh_.file_hdr_.record_size,
            writeCols (ex.set_clauses_.filterMap (resolveClause env ex.tab_)) old.data⟩)) := by
  induction rids with
  | nil =>
    intro ex _ _ _
    exact ⟨ex, rfl, SameLayout.refl _, fun _ _ => rfl,
      fun r hr => absurd hr (List.not_mem_nil r)⟩
  | cons rid rest ih =>
    intro ex hres hfit hlive
    obtain ⟨old, hold, holdlen⟩ := hlive rid (List.mem_cons_self _ _)
    have hv : ∀ w ∈ ex.set_clauses_.filterMap (resolveClause env ex.tab_),
        w.2.length = w.1.len ∧ w.1.offset + w.1.len ≤ old.data.length := by
      rw [holdlen]
      exact hfit
    have hlen : (writeCols (ex.set_clauses_.filterMap (resolveClause env ex.tab_))
        old.data).length = ex.fh_.file_hdr_.record_size :=
      (writeCols_length _ _ hv).trans holdlen
    obtain ⟨hu1, hu2, hu3, hu4⟩ := ex.fh_.update_record_effect rid _ old hold hlen
    obtain ⟨ex1, hone, e_tab, e_sc, e_fh⟩ : ∃ ex1,
        UpdateExecutor.update_one env ex rid = (.ok (), ex1) ∧ ex1.tab_ = ex.tab_ ∧
        ex1.set_clauses_ = ex.set_clauses_ ∧
        ex1.fh_ = (ex.fh_.update_record rid
          (writeCols (ex.set_clauses_.filterMap (resolveClause env ex.tab_)) old.data)).2 := by
      unfold UpdateExecutor.update_one
      simp only [hold, memcpy_full _ _ holdlen,
        UpdateExecutor.apply_set_clauses_eq env ex.tab_ ex.set_clauses_ old.data hres]
      rcases hu : ex.fh_.update_record rid
        (writeCols (ex.set_clauses_.filterMap (resolveClause env ex.tab_)) old.data)
        with ⟨r, fh1⟩
      rw [hu] at hu1
      cases r with
      | error e => cases hu1
      | ok u => exact ⟨_, rfl, rfl, rfl, rfl⟩
    rw [← e_fh] at hu2 hu3 hu4
    have e_hdr : ex1.fh_.file_hdr_ = ex.fh_.file_hdr_ := hu2.1
    obtain ⟨fin, hfin, hlay, hframe, htargets⟩ := ih ex1
      (by rw [e_tab, e_sc]; exact hres)
      (by rw [e_tab, e_sc, e_hdr]; exact hfit)
      (by
        intro r hr
        by_cases hne : r = rid
        · rw [hne, e_hdr]
          exact ⟨_, hu3, hlen⟩
        · rw [hu4 r hne, e_hdr]
          exact hlive r (List.mem_cons_of_mem _ hr))
    rw [e_tab, e_sc, e_hdr] at htargets
    refine ⟨fin, ?_, SameLayout.trans _ _ _ hu2 hlay, ?_, ?_⟩
    · rw [UpdateExecutor.Next_loop, hone]
      exact hfin
    · intro r hr
      rw [List.mem_cons, not_or] at hr
      rw [hframe r hr.2, hu4 r hr.1]
    · intro r hr o ho
      by_cases hrest : r ∈ rest
      · by_cases hne : r = rid
        · subst hne
          rw [hold] at ho
          cases ho
          rw [htargets r hrest _ hu3, writeCols_idem _ _ hv]
        · exact htargets r hrest o ((hu4 r hne).trans ho)
      · have hne : r = rid := by
          rcases List.mem_cons.1 hr with h | h
          · exact h
          · exact absurd h hrest
        subst hne
        rw [hold] at ho
        cases ho
        rw [hframe r hrest]
        exact hu3

theorem resolveClause_eq_some (env : ExecEnv) (tab : TabMeta) (sc : SetClause)
    (col : ColMeta) (raw : RmRecord) (hcol : tab.get_col sc.lhs.col_name = .ok col)
    (hty : col.type = sc.rhs.type)
    (hraw : env.init_raw { sc.rhs with raw := none } col.len = .ok raw) :
    resolveClause env tab sc = some (col, raw.data) := by
  unfold resolveClause
  simp only [hcol, hty, hraw, ne_eq, not_true_eq_false, if_false]

theorem resolveClause_some_col (env : ExecEnv) (tab : TabMeta) (sc : SetClause)
    (w : ColMeta × List Byte) (h : resolveClause env tab sc = some w) :
    tab.get_col sc.lhs.col_name = .ok w.1 := by
  unfold resolveClause at h
  cases hc : tab.get_col sc.lhs.col_name with
  | error e => simp [hc] at h
  | ok col =>
    simp only [hc] at h
    by_cases hty : col.type ≠ sc.rhs.type
    · simp [hty] at h
    · simp only [hty, if_false] at h
      cases hi : env.init_raw { sc.rhs with raw := none } col.len with
      | error e => simp [hi] at h
      | ok raw =>
        simp only [hi, Option.some.injEq] at h
        rw [← h]

/-- C13: when every set clause names a known column of matching type whose replacement
value encodes to the column's width inside the record, and every target Rid holds a live
record of the file's record size, `Next` succeeds; the file keeps its header, its pages and
on every page the page header (record count) and the occupancy bitmap; records at Rids
outside the target list read as before; and at each target Rid the stored record is the
pre-image with the clauses' encodings written at their columns: same size, every byte
outside the assigned columns unchanged, and, the assigned columns being pairwise disjoint,
each assigned column's byte range holding the encoding of its replacement value. -/
theorem update_rewrites_assigned_columns (env : ExecEnv) (ex : UpdateExecutor)
    (hwf : ∀ sc ∈ ex.set_clauses_, ∃ col raw,
      ex.tab_.get_col sc.lhs.col_name = .ok col ∧ col.type = sc.rhs.type ∧
      env.init_raw { sc.rhs with raw := none } col.len = .ok raw ∧
      raw.data.length = col.len ∧ col.offset + col.len ≤ ex.fh_.file_hdr_.record_size)
    (hlive : ∀ rid ∈ ex.rids_, ∃ old, ex.fh_.get_record rid = .ok (some old) ∧
      old.data.length = ex.fh_.file_hdr_.record_size) :
    ∃ fin, UpdateExecutor.Next env ex = (.ok none, fin) ∧
      SameLayout ex.fh_ fin.fh_ ∧
      (∀ r, r ∉ ex.rids_ → fin.fh_.get_record r = ex.fh_.get_record r) ∧
      ∀ rid ∈ ex.rids_, ∃ old new,
        ex.fh_.get_record rid = .ok (some old) ∧
        fin.fh_.get_record rid = .ok (some new) ∧
        new.size = old.size ∧ new.data.length = old.data.length ∧
        new.data = writeCols (ex.set_clauses_.filterMap (resolveClause env ex.tab_)) old.data ∧
        (∀ i, (∀ sc ∈ ex.set_clauses_, ∀ col, ex.tab_.get_col sc.lhs.col_name = .ok col →
            i < col.offset ∨ col.offset + col.len ≤ i) → new.data[i]? = old.data[i]?) ∧
        (ex.set_clauses_.Pairwise (fun a b => ∀ ca cb,
            ex.tab_.get_col a.lhs.col_name = .ok ca →
            ex.tab_.get_col b.lhs.col_name = .ok cb →
            ca.offset + ca.len ≤ cb.offset ∨ cb.offset + cb.len ≤ ca.offset) →
          ∀ sc ∈ ex.set_clauses_, ∀ col raw,
            ex.tab_.get_col sc.lhs.col_name = .ok col →
            env.init_raw { sc.rhs with raw := none } col.len = .ok raw →
            ∀ i, i < col.len → new.data[col.offset + i]? = raw.data[i]?) := by
  have hres : ∀ sc ∈ ex.set_clauses_, ∃ w, resolveClause env ex.tab_ sc = some w := by
    intro sc hsc
    obtain ⟨col, raw, h1, h2, h3, _, _⟩ := hwf sc hsc
    exact ⟨_, resolveClause_eq_some env ex.tab_ sc col raw h1 h2 h3⟩
  have hfit : ∀ w ∈ ex.set_clauses_.filterMap (resolveClause env ex.tab_),
      w.2.length = w.1.len ∧ w.1.offset + w.1.len ≤ ex.fh_.file_hdr_.record_size := by
    intro w hw
    obtain ⟨sc, hsc, hw1⟩ := List.mem_filterMap.1 hw
    obtain ⟨col, raw, h1, h2, h3, h4, h5⟩ := hwf sc hsc
    rw [resolveClause_eq_some env ex.tab_ sc col raw h1 h2 h3] at hw1
    cases hw1
    exact ⟨h4, h5⟩
  obtain ⟨fin, hfin, hlay, hframe, htargets⟩ :=
    UpdateExecutor.Next_loop_effect env ex.rids_ ex hres hfit hlive
  refine ⟨fin, ?_, hlay, hframe, ?_⟩
  · unfold UpdateExecutor.Next
    rw [hfin]
  · intro rid hrid
    obtain ⟨old, hold, holdlen⟩ := hlive rid hrid
    have hv : ∀ w ∈ ex.set_clauses_.filterMap (resolveClause env ex.tab_),
        w.2.length = w.1.len ∧ w.1.offset + w.1.len ≤ old.data.length := by
      rw [holdlen]
      exact hfit
    obtain ⟨pg, _, _, _, _, hrec⟩ := ex.fh_.get_record_some rid old hold
    refine ⟨old, _, hold, htargets rid hrid old hold, ?_, writeCols_length _ _ hv, rfl, ?_, ?_⟩
    · rw [hrec]
    · intro i hi
      apply writeCols_outside _ i _ hv
      intro w hw
      obtain ⟨sc, hsc, hw1⟩ := List.mem_filterMap.1 hw
      exact hi sc hsc w.1 (resolveClause_some_col env ex.tab_ sc w hw1)
    · intro hdisj sc hsc col raw hcol hraw i hi
      obtain ⟨col1, raw1, h1, h2, h3, _, _⟩ := hwf sc hsc
      rw [hcol] at h1
      cases h1
      have hmem : (col, raw.data) ∈ ex.set_clauses_.filterMap (resolveClause env ex.tab_) :=
        List.mem_filterMap.2 ⟨sc, hsc, resolveClause_eq_some env ex.tab_ sc col raw hcol h2 hraw⟩
      have hp : (ex.set_clauses_.filterMap (resolveClause env ex.tab_)).Pairwise
          (fun a b => a.1.offset + a.1.len ≤ b.1.offset ∨ b.1.offset + b.1.len ≤ a.1.offset) := by
        rw [List.pairwise_filterMap]
        refine hdisj.imp ?_
        intro a b hab wa hwa wb hwb
        exact hab wa.1 wb.1 (resolveClause_some_col env ex.tab_ a wa hwa)
          (resolveClause_some_col env ex.tab_ b wb hwb)
      exact writeCols_inside _ _ hv hp (col, raw.data) hmem i hi

/-- C13 at the example table: `SET a = 99` on the target (0,0) succeeds, stores the
encoding of 99 at (0,0) and leaves the row at (0,2) as it was. -/
theorem update_rewrites_assigned_columns_witness :
    ∃ fin, UpdateExecutor.Next updEnv (exampleUpdate [⟨0, 0⟩]) = (.ok none, fin) ∧
      SameLayout exampleScanFile fin.fh_ ∧
      fin.fh_.get_record ⟨0, 2⟩ = .ok (some ⟨4, enc4 2⟩) ∧
      ∃ new, fin.fh_.get_record ⟨0, 0⟩ = .ok (some new) ∧ new.data = enc4 99 := by
  obtain ⟨fin, h1, h2, h3, h4⟩ :=
    update_rewrites_assigned_columns updEnv (exampleUpdate [⟨0, 0⟩])
      (fun sc hsc => by
        rw [List.mem_singleton.1 hsc]
        exact ⟨⟨"t", "a", .TYPE_INT, 4, 0⟩, ⟨4, enc4 99⟩, rfl, rfl, rfl, rfl, by decide⟩)
      (fun rid hrid => by
        rw [List.mem_singleton.1 hrid]
        exact ⟨⟨4, enc4 1⟩, rfl, rfl⟩)
  obtain ⟨old, new, h5, h6, _, _, h7, _, _⟩ := h4 ⟨0, 0⟩ (List.mem_cons_self _ _)
  have e : old = ⟨4, enc4 1⟩ := by
    have h : (exampleUpdate [⟨0, 0⟩]).fh_.get_record ⟨0, 0⟩ = .ok (some ⟨4, enc4 1⟩) := rfl
    rw [h] at h5
    cases h5
    rfl
  subst e
  exact ⟨fin, h1, h2, (h3 ⟨0, 2⟩ (by decide)).trans rfl, new, h6, h7⟩

/-! ## Replacer and scanner: reachable states and fresh scanners -/

theorem LRUReplacer.pin_list_filter (r : LRUReplacer) (f : frame_id_t) (hinv : r.Inv) :
    (r.pin f).LRUlist_ = r.LRUlist_.filter (fun k => k ≠ f) ∧
      ∀ k, k ≠ f → (r.pin f).LRUhash_ k = r.LRUhash_ k := by
  obtain ⟨hnd, hin, hout⟩ := hinv
  constructor
  · unfold LRUReplacer.pin
    cases hf : r.LRUhash_ f with
    | none =>
      have hnot : f ∉ r.LRUlist_ := by
        intro h
        rw [hin f h] at hf
        simp at hf
      simp only
      rw [List.filter_eq_self.2]
      intro a ha
      simp only [ne_eq, decide_not, Bool.not_eq_true', decide_eq_false_iff_not]
      intro h
      subst h
      exact hnot ha
    | some it =>
      obtain ⟨hit, _⟩ := hout f it hf
      rw [hit]
      simp only
      rw [hnd.erase_eq_filter]
      congr 1
      funext k
      by_cases hk : k = f <;> simp [hk]
  · intro k hk
    unfold LRUReplacer.pin
    cases hf : r.LRUhash_ f with
    | none => rfl
    | some it => simp [LRUReplacer.hash_erase, hk]

/-- C25: every state reached from the empty replacer (of any capacity) by a sequence of
`pin`, `unpin` and `victim` calls has a list without repeated frame, a map whose keys are
exactly the frames of the list, and every key mapped to the node of its own frame; hence
`pin(f)`, which erases the node the map gives for `f`, removes `f` from the list and
nothing else, and leaves every other key of the map as it was. -/
theorem replacer_reachable_invariant (ops : List ReplacerOp) (c : Nat) :
    ∃ vs r, LRUReplacer.run ops (LRUReplacer.new c) = some (vs, r) ∧
      r.LRUlist_.Nodup ∧
      (∀ k, (r.LRUhash_ k).isSome = true ↔ k ∈ r.LRUlist_) ∧
      (∀ k it, r.LRUhash_ k = some it → it = k) ∧
      (∀ f, (r.pin f).LRUlist_ = r.LRUlist_.filter (fun k => k ≠ f) ∧
        ∀ k, k ≠ f → (r.pin f).LRUhash_ k = r.LRUhash_ k) := by
  obtain ⟨vs, r, hrun, hinv⟩ := LRUReplacer.run_inv ops (LRUReplacer.new c)
    (LRUReplacer.inv_new c)
  refine ⟨vs, r, hrun, hinv.1, ?_, ?_, fun f => LRUReplacer.pin_list_filter r f hinv⟩
  · intro k
    constructor
    · intro h
      cases hk : r.LRUhash_ k with
      | none => simp [hk] at h
      | some it => exact (hinv.2.2 k it hk).2
    · intro h
      rw [hinv.2.1 k h]
      rfl
  · intro k it h
    exact (hinv.2.2 k it h).1

/-- C26: on a replacer that satisfies the representation invariant, `unpin(f)` of a frame
`f` that is in the list returns the state unchanged: the list (hence the eviction position
of `f`), the map and the capacity are as before. On an empty replacer of capacity at least
2, after `unpin(1)`, `unpin(2)`, `unpin(1)` the next `victim()` returns 1. -/
theorem unpin_tracked_is_noop (r : LRUReplacer) (f : frame_id_t) (hinv : r.Inv)
    (htracked : f ∈ r.LRUlist_) :
    r.unpin f = some r ∧
      (∀ r0 : LRUReplacer, (r0.LRUhash_ f).isSome = true → r0.unpin f = some r0) ∧
      ∀ c, 2 ≤ c →
        (LRUReplacer.run [.unpin 1, .unpin 2, .unpin 1, .victim]
          (LRUReplacer.new c)).map Prod.fst = some [some 1] := by
  refine ⟨?_, ?_, ?_⟩
  · unfold LRUReplacer.unpin
    rw [hinv.2.1 f htracked]
    rfl
  · intro r0 h0
    unfold LRUReplacer.unpin
    cases hf : r0.LRUhash_ f with
    | none => simp [hf] at h0
    | some it => rfl
  · intro c hc
    have e1 : (LRUReplacer.new c).unpin 1 =
        some ⟨[1], fun k => if k = 1 then some 1 else none, c⟩ :=
      LRUReplacer.unpin_room (LRUReplacer.new c) 1 rfl
        (by simp only [LRUReplacer.new, List.length_nil]; omega)
    have e2 : LRUReplacer.unpin ⟨[1], fun k => if k = 1 then some 1 else none, c⟩ 2 =
        some ⟨[2, 1], fun k => if k = 2 then some 2 else if k = 1 then some 1 else none, c⟩ :=
      LRUReplacer.unpin_room ⟨[1], fun k => if k = 1 then some 1 else none, c⟩ 2 rfl
        (by simp only [List.length_cons, List.length_nil]; omega)
    have e3 : LRUReplacer.unpin
        ⟨[2, 1], fun k => if k = 2 then some 2 else if k = 1 then some 1 else none, c⟩ 1 =
        some ⟨[2, 1], fun k => if k = 2 then some 2 else if k = 1 then some 1 else none, c⟩ :=
      rfl
    simp only [LRUReplacer.run]
    rw [e1]
    simp only
    rw [e2]
    simp only
    rw [e3]
    simp [LRUReplacer.victim]

/-- C26 at the replacer with list `[2, 1]` (front first): `unpin(1)` changes nothing, so
frame 1 is still the tail. -/
theorem unpin_tracked_is_noop_witness :
    LRUReplacer.unpin
        ⟨[2, 1], fun k => if k = 2 then some 2 else if k = 1 then some 1 else none, 2⟩ 1 =
      some ⟨[2, 1], fun k => if k = 2 then some 2 else if k = 1 then some 1 else none, 2⟩ :=
  (unpin_tracked_is_noop
    ⟨[2, 1], fun k => if k = 2 then some 2 else if k = 1 then some 1 else none, 2⟩ 1
    ⟨by decide, fun k hk => by
        rcases List.mem_cons.1 hk with h | h
        · subst h
          rfl
        · rw [List.mem_singleton.1 h]
          rfl,
      fun k it h => by
        by_cases h2 : k = 2
        · subst h2
          cases h
          exact ⟨rfl, by decide⟩
        · by_cases h1 : k = 1
          · subst h1
            cases h
            exact ⟨rfl, by decide⟩
          · simp [h2, h1] at h⟩
    (by decide)).1

theorem RmScan.next_loop_end_page :
    ∀ (fuel : Nat) (s s1 : RmScan),
      s.rid_.page_no ≤ s.file_handle_.file_hdr_.num_pages →
      RmScan.next_loop fuel s = some (.ok s1) → s1.is_end = true →
      s1.rid_.page_no = s1.file_handle_.file_hdr_.num_pages := by
  intro fuel
  induction fuel with
  | zero =>
    intro s s1 _ h
    simp [RmScan.next_loop] at h
  | succ fuel ih =>
    intro s s1 hle h hend
    unfold RmScan.next_loop at h
    by_cases hlt : s.rid_.page_no < s.file_handle_.file_hdr_.num_pages
    · rw [if_pos hlt] at h
      cases hf : s.file_handle_.fetch_page_handle s.rid_.page_no with
      | error e =>
        rw [hf] at h
        cases h
      | ok ph =>
        rw [hf] at h
        simp only at h
        by_cases hs : Bitmap.next_bit true ph.page.bitmap
            s.file_handle_.file_hdr_.num_records_per_page s.rid_.slot_no
            < s.file_handle_.file_hdr_.num_records_per_page
        · rw [if_pos hs] at h
          cases h
          simp only [RmScan.is_end, decide_eq_true_eq] at hend
          omega
        · rw [if_neg hs] at h
          exact ih _ s1 (by simp only; omega) h hend
    · rw [if_neg hlt] at h
      cases h
      omega

/-- C24: over a file with a non-negative page count whose pages below the page count are
all present, the constructor returns a scanner over that file which is at its end exactly
when no slot of the file is occupied, its page number then being the page count, and which
is otherwise positioned at an occupied Rid that precedes every other occupied Rid in
page-then-slot order. -/
theorem fresh_scanner_position (fh : RmFileHandle) (hpres : fh.pagesPresent)
    (hp : 0 ≤ fh.file_hdr_.num_pages) :
    ∃ s, RmScan.new fh = some (.ok s) ∧ s.file_handle_ = fh ∧
      (s.is_end = true ↔ ∀ rid, ¬ fh.occupied rid) ∧
      (s.is_end = true → s.rid_.page_no = fh.file_hdr_.num_pages) ∧
      (s.is_end = false →
        fh.occupied s.rid ∧ ∀ r, fh.occupied r → r = s.rid ∨ Rid.lt s.rid r) := by
  obtain ⟨s, hnew, hfh, _, hat⟩ := scanAt_new fh hpres
  have hpage : s.is_end = true → s.rid_.page_no = fh.file_hdr_.num_pages := by
    intro hend
    have h := RmScan.next_loop_end_page _ ⟨fh, ⟨RM_FIRST_RECORD_PAGE, -1⟩⟩ s
      (by simpa [RM_FIRST_RECORD_PAGE] using hp) hnew hend
    rw [hfh] at h
    exact h
  refine ⟨s, hnew, hfh, ?_, hpage, ?_⟩
  · cases hocc : occupiedRids fh with
    | nil =>
      rw [hocc] at hat
      constructor
      · intro _ rid hrid
        have := (mem_occupiedRids fh rid).2 hrid
        rw [hocc] at this
        exact absurd this (List.not_mem_nil rid)
      · intro _
        exact hat
    | cons rid more =>
      rw [hocc] at hat
      obtain ⟨hrid, p, hp1, hp2, _⟩ := hat
      constructor
      · intro hend
        simp only [RmScan.is_end, decide_eq_true_eq] at hend
        rw [hfh, hrid, hp1] at hend
        omega
      · intro hnone
        exact absurd ((mem_occupiedRids fh rid).1 (by rw [hocc]; exact List.mem_cons_self _ _))
          (hnone rid)
  · intro hend
    cases hocc : occupiedRids fh with
    | nil =>
      rw [hocc] at hat
      rw [hat] at hend
      cases hend
    | cons rid more =>
      rw [hocc] at hat
      obtain ⟨hrid, _⟩ := hat
      have hsorted : (rid :: more).Pairwise Rid.lt := by
        rw [← hocc]
        exact ridsOfPages_sorted fh _ _
      refine ⟨?_, ?_⟩
      · show fh.occupied s.rid_
        rw [hrid]
        exact (mem_occupiedRids fh rid).1 (by rw [hocc]; exact List.mem_cons_self _ _)
      · intro r hr
        have hmem := (mem_occupiedRids fh r).2 hr
        rw [hocc] at hmem
        show r = s.rid_ ∨ Rid.lt s.rid_ r
        rw [hrid]
        rcases List.mem_cons.1 hmem with h | h
        · exact Or.inl h
        · exact Or.inr ((List.pairwise_cons.1 hsorted).1 r h)

/-- C24 on the file with bitmaps `[0,0,1,1]` on page 0 and `[0,1]` on page 1: the fresh
scanner stands at (0,2). -/
theorem fresh_scanner_position_witness :
    ∃ s, RmScan.new (fileOfBitmaps 4 [[false, false, true, true], [false, true]])
        = some (.ok s) ∧
      s.file_handle_ = fileOfBitmaps 4 [[false, false, true, true], [false, true]] ∧
      s.rid = ⟨0, 2⟩ := by
  obtain ⟨s, h1, h2, _, _, _⟩ :=
    fresh_scanner_position (fileOfBitmaps 4 [[false, false, true, true], [false, true]])
      (by
        intro p hp
        have h2 : p = 0 ∨ p = 1 := by
          simp only [fileOfBitmaps, List.length_cons, List.length_nil] at hp
          omega
        rcases h2 with h | h <;> subst h <;> rfl)
      (by decide)
  have e : RmScan.new (fileOfBitmaps 4 [[false, false, true, true], [false, true]])
      = some (.ok ⟨fileOfBitmaps 4 [[false, false, true, true], [false, true]], ⟨0, 2⟩⟩) := rfl
  rw [e] at h1
  cases h1
  exact ⟨_, e, rfl, rfl⟩

/-! ## Heap file invariants -/

theorem Bitmap.first_bit_found (bm : Int → Bool) (n : Int)
    (h : Bitmap.first_bit false bm n ≠ -1) :
    0 ≤ Bitmap.first_bit false bm n ∧ Bitmap.first_bit false bm n < n ∧
      bm (Bitmap.first_bit false bm n) = false := by
  unfold Bitmap.first_bit at h ⊢
  cases hs : Bitmap.search false bm n.toNat 0 with
  | none => simp [hs] at h
  | some j =>
    obtain ⟨h1, h2, h3, _⟩ := Bitmap.search_some false bm n.toNat 0 j hs
    simp only
    exact ⟨h1, by omega, h3⟩

theorem Bitmap.first_bit_none (bm : Int → Bool) (n : Int)
    (h : Bitmap.first_bit false bm n = -1) :
    ∀ m, 0 ≤ m → m < n → bm m = true := by
  unfold Bitmap.first_bit at h
  cases hs : Bitmap.search false bm n.toNat 0 with
  | none =>
    intro m h0 h1
    have := Bitmap.search_none false bm n.toNat 0 hs m h0 (by omega)
    simpa using this
  | some j =>
    obtain ⟨h1, _, _, _⟩ := Bitmap.search_some false bm n.toNat 0 j hs
    simp only [hs] at h
    omega

theorem setSlots_length_le (bm : Int → Bool) (k : Nat) :
    ∀ i, (setSlots bm k i).length ≤ k := by
  induction k with
  | zero =>
    intro i
    simp [setSlots]
  | succ k ih =>
    intro i
    unfold setSlots
    have := ih (i + 1)
    split
    · simp only [List.length_cons]
      omega
    · omega

theorem setSlots_length_lt (bm : Int → Bool) (k : Nat) :
    ∀ i, (setSlots bm k i).length < k ↔ ∃ m, i ≤ m ∧ m < i + k ∧ bm m = false := by
  induction k with
  | zero =>
    intro i
    simp only [setSlots, List.length_nil, lt_self_iff_false, false_iff]
    rintro ⟨m, h1, h2, _⟩
    omega
  | succ k ih =>
    intro i
    unfold setSlots
    have hle := setSlots_length_le bm k (i + 1)
    by_cases hb : bm i = true
    · rw [if_pos hb]
      simp only [List.length_cons, Nat.add_lt_add_iff_right]
      rw [ih (i + 1)]
      constructor
      · rintro ⟨m, h1, h2, h3⟩
        exact ⟨m, by omega, by push_cast; omega, h3⟩
      · rintro ⟨m, h1, h2, h3⟩
        have hne : m ≠ i := by
          intro e
          rw [e, hb] at h3
          cases h3
        exact ⟨m, by omega, by push_cast at h2; omega, h3⟩
    · rw [if_neg hb]
      constructor
      · intro _
        exact ⟨i, le_refl _, by push_cast; omega, by simpa using hb⟩
      · intro _
        omega

theorem setSlots_length_set (bm : Int → Bool) (j : Int) (hj : bm j = false) (k : Nat) :
    ∀ i, (setSlots (Bitmap.set bm j) k i).length =
      (setSlots bm k i).length + (if i ≤ j ∧ j < i + k then 1 else 0) := by
  induction k with
  | zero =>
    intro i
    have : ¬ (i ≤ j ∧ j < i + ((0 : Nat) : Int)) := by omega
    rw [if_neg this]
    rfl
  | succ k ih =>
    intro i
    unfold setSlots
    have ih1 := ih (i + 1)
    by_cases hij : i = j
    · subst hij
      have h1 : Bitmap.set bm i i = true := by simp [Bitmap.set]
      have h2 : ¬ (i + 1 ≤ i ∧ i < i + 1 + (k : Int)) := by omega
      have h3 : i ≤ i ∧ i < i + ((k + 1 : Nat) : Int) := by push_cast; omega
      rw [if_neg h2] at ih1
      rw [if_pos h1, if_neg (by rw [hj]; simp), if_pos h3]
      simp only [List.length_cons]
      omega
    · have h1 : Bitmap.set bm j i = bm i := by simp [Bitmap.set, hij]
      have h2 : (i + 1 ≤ j ∧ j < i + 1 + (k : Int)) ↔ (i ≤ j ∧ j < i + ((k + 1 : Nat) : Int)) := by
        push_cast
        omega
      rw [h1]
      simp only [h2] at ih1
      by_cases hb : bm i = true
      · rw [if_pos hb, if_pos hb]
        simp only [List.length_cons]
        omega
      · rw [if_neg hb, if_neg hb]
        exact ih1

theorem setSlots_length_reset (bm : Int → Bool) (j : Int) (hj : bm j = true) (k : Nat) :
    ∀ i, (setSlots (Bitmap.reset bm j) k i).length + (if i ≤ j ∧ j < i + k then 1 else 0) =
      (setSlots bm k i).length := by
  induction k with
  | zero =>
    intro i
    have : ¬ (i ≤ j ∧ j < i + ((0 : Nat) : Int)) := by omega
    simp [setSlots, this]
  | succ k ih =>
    intro i
    unfold setSlots
    have ih1 := ih (i + 1)
    by_cases hij : i = j
    · subst hij
      have h1 : Bitmap.reset bm i i = false := by simp [Bitmap.reset]
      have h2 : ¬ (i + 1 ≤ i ∧ i < i + 1 + (k : Int)) := by omega
      have h3 : i ≤ i ∧ i < i + ((k + 1 : Nat) : Int) := by push_cast; omega
      rw [if_neg h2] at ih1
      rw [if_neg (by rw [h1]; simp), if_pos hj, if_pos h3]
      simp only [List.length_cons]
      omega
    · have h1 : Bitmap.reset bm j i = bm i := by simp [Bitmap.reset, hij]
      have h2 : (i + 1 ≤ j ∧ j < i + 1 + (k : Int)) ↔ (i ≤ j ∧ j < i + ((k + 1 : Nat) : Int)) := by
        push_cast
        omega
      rw [h1]
      simp only [h2] at ih1
      by_cases hb : bm i = true
      · rw [if_pos hb, if_pos hb]
        simp only [List.length_cons]
        omega
      · rw [if_neg hb, if_neg hb]
        exact ih1

theorem Bitmap.count_set (bm : Int → Bool) (n j : Int) (h0 : 0 ≤ j) (h1 : j < n)
    (hj : bm j = false) :
    Bitmap.count (Bitmap.set bm j) n = Bitmap.count bm n + 1 := by
  unfold Bitmap.count
  rw [setSlots_length_set bm j hj, if_pos ⟨h0, by omega⟩]

theorem Bitmap.count_reset (bm : Int → Bool) (n j : Int) (h0 : 0 ≤ j) (h1 : j < n)
    (hj : bm j = true) :
    Bitmap.count (Bitmap.reset bm j) n + 1 = Bitmap.count bm n := by
  unfold Bitmap.count
  have := setSlots_length_reset bm j hj n.toNat 0
  rw [if_pos ⟨h0, by omega⟩] at this
  exact this

theorem Bitmap.count_lt (bm : Int → Bool) (n : Int) :
    (Bitmap.count bm n : Int) < n ↔ ∃ i, 0 ≤ i ∧ i < n ∧ bm i = false := by
  unfold Bitmap.count
  have hle := setSlots_length_le bm n.toNat 0
  have h := setSlots_length_lt bm n.toNat 0
  constructor
  · intro hlt
    obtain ⟨m, h1, h2, h3⟩ := h.1 (by omega)
    exact ⟨m, h1, by omega, h3⟩
  · rintro ⟨m, h1, h2, h3⟩
    have := h.2 ⟨m, h1, by omega, h3⟩
    omega

theorem Bitmap.count_le (bm : Int → Bool) (n : Int) (hn : 0 ≤ n) :
    (Bitmap.count bm n : Int) ≤ n := by
  unfold Bitmap.count
  have hle := setSlots_length_le bm n.toNat 0
  omega

theorem Bitmap.count_empty (n : Int) : Bitmap.count (fun _ => false) n = 0 := by
  unfold Bitmap.count
  generalize n.toNat = k
  generalize (0 : Int) = i
  induction k generalizing i with
  | zero => rfl
  | succ k ih =>
    unfold setSlots
    simp [ih]

theorem RmFileHandle.create_page_handle_new (fh : RmFileHandle)
    (hfree : fh.file_hdr_.first_free_page_no = -1) (hp : 0 ≤ fh.file_hdr_.num_pages) :
    ∃ fh1, fh.create_page_handle =
        (.ok ⟨fh.file_hdr_.num_pages,
          ⟨⟨-1, 0⟩, fun _ => false, fun _ => List.replicate fh.file_hdr_.record_size 0⟩⟩, fh1) ∧
      fh1.file_hdr_.num_pages = fh.file_hdr_.num_pages + 1 ∧
      fh1.file_hdr_.first_free_page_no = fh.file_hdr_.num_pages ∧
      fh1.file_hdr_.num_records_per_page = fh.file_hdr_.num_records_per_page ∧
      fh1.file_hdr_.record_size = fh.file_hdr_.record_size ∧
      ∀ k, fh1.pages k =
        if k = fh.file_hdr_.num_pages.toNat then
          some ⟨⟨-1, 0⟩, fun _ => false, fun _ => List.replicate fh.file_hdr_.record_size 0⟩
        else fh.pages k := by
  have hn : ¬ fh.file_hdr_.num_pages < 0 := by omega
  unfold RmFileHandle.create_page_handle RmFileHandle.create_new_page_handle
    RmFileHandle.new_page
  rw [if_pos hfree]
  simp only [hn, if_false, hfree]
  exact ⟨_, rfl, rfl, rfl, rfl, rfl, fun k => rfl⟩

theorem RmFileHandle.create_page_handle_fail (fh fh1 : RmFileHandle) (e : RmError)
    (h : fh.create_page_handle = (.error e, fh1)) : fh1 = fh := by
  unfold RmFileHandle.create_page_handle at h
  by_cases hfree : fh.file_hdr_.first_free_page_no = -1
  · rw [if_pos hfree] at h
    unfold RmFileHandle.create_new_page_handle RmFileHandle.new_page at h
    by_cases hp : fh.file_hdr_.num_pages < 0
    · simp only [hp, if_true] at h
      exact (congrArg Prod.snd h).symm
    · simp only [hp, if_false] at h
      exact absurd (congrArg Prod.fst h) (fun h1 => by cases h1)
  · rw [if_neg hfree] at h
    exact (congrArg Prod.snd h).symm

theorem RmFileHandle.create_page_handle_old (fh fh1 : RmFileHandle) (ph : RmPageHandle)
    (hfree : fh.file_hdr_.first_free_page_no ≠ -1)
    (h : fh.create_page_handle = (.ok ph, fh1)) :
    fh1 = fh ∧ ph.page_no = fh.file_hdr_.first_free_page_no ∧ 0 ≤ ph.page_no ∧
      ph.page_no < fh.file_hdr_.num_pages ∧ fh.pages ph.page_no.toNat = some ph.page := by
  unfold RmFileHandle.create_page_handle at h
  rw [if_neg hfree] at h
  have h1 : fh.fetch_page_handle fh.file_hdr_.first_free_page_no = .ok ph :=
    congrArg Prod.fst h
  obtain ⟨a, b, c, d⟩ := fh.fetch_page_handle_ok _ ph h1
  refine ⟨(congrArg Prod.snd h).symm, a, ?_, ?_, ?_⟩
  · rw [a]
    exact b
  · rw [a]
    exact c
  · rw [a]
    exact d

theorem RmFileHandle.insert_record_of_fail (fh fh1 : RmFileHandle) (buf : List Byte)
    (e : RmError) (h : fh.create_page_handle = (.error e, fh1)) :
    fh.insert_record buf = (.error e, fh1) := by
  unfold RmFileHandle.insert_record
  rw [h]

theorem RmFileHandle.insert_record_of_full (fh fh1 : RmFileHandle) (buf : List Byte)
    (ph : RmPageHandle) (h : fh.create_page_handle = (.ok ph, fh1))
    (hj : Bitmap.first_bit false ph.page.bitmap fh1.file_hdr_.num_records_per_page = -1) :
    fh.insert_record buf = (.error (.InternalError "No free slot found in page"), fh1) := by
  unfold RmFileHandle.insert_record
  rw [h]
  simp only
  rw [if_pos hj]

theorem RmFileHandle.insert_record_of_slot (fh fh1 : RmFileHandle) (buf : List Byte)
    (ph : RmPageHandle) (h : fh.create_page_handle = (.ok ph, fh1))
    (hj : Bitmap.first_bit false ph.page.bitmap fh1.file_hdr_.num_records_per_page ≠ -1) :
    ∃ fh3, fh.insert_record buf =
        (.ok ⟨ph.page_no,
          Bitmap.first_bit false ph.page.bitmap fh1.file_hdr_.num_records_per_page⟩, fh3) ∧
      fh3.file_hdr_.num_pages = fh1.file_hdr_.num_pages ∧
      fh3.file_hdr_.num_records_per_page = fh1.file_hdr_.num_records_per_page ∧
      fh3.file_hdr_.record_size = fh1.file_hdr_.record_size ∧
      fh3.file_hdr_.first_free_page_no =
        (if ph.page.page_hdr.num_records + 1 = fh1.file_hdr_.num_records_per_page then
          ph.page.page_hdr.next_free_page_no
        else fh1.file_hdr_.first_free_page_no) ∧
      ∀ k, fh3.pages k =
        if k = ph.page_no.toNat then
          some
            { page_hdr := ⟨ph.page.page_hdr.next_free_page_no, ph.page.page_hdr.num_records + 1⟩
              bitmap := Bitmap.set ph.page.bitmap
                (Bitmap.first_bit false ph.page.bitmap fh1.file_hdr_.num_records_per_page)
              slots := fun i =>
                if i = Bitmap.first_bit false ph.page.bitmap
                    fh1.file_hdr_.num_records_per_page then
                  memcpy (ph.page.slots i) buf fh1.file_hdr_.record_size
                else ph.page.slots i }
        else fh1.pages k := by
  unfold RmFileHandle.insert_record
  rw [h]
  simp only
  rw [if_neg hj]
  by_cases hfull : ph.page.page_hdr.num_records + 1 = fh1.file_hdr_.num_records_per_page
  · refine ⟨_, rfl, ?_, ?_, ?_, ?_, ?_⟩
    · simp only [RmFileHandle.put_page, hfull, if_true]
    · simp only [RmFileHandle.put_page, hfull, if_true]
    · simp only [RmFileHandle.put_page, hfull, if_true]
    · simp only [RmFileHandle.put_page, hfull, if_true]
    · intro k
      simp only [RmFileHandle.put_page, hfull, if_true, RmPageHandle.get_slot]
      by_cases hk : k = ph.page_no.toNat
      · simp only [hk, if_true]
        congr 2
        funext i
        by_cases hi : i = Bitmap.first_bit false ph.page.bitmap
            fh1.file_hdr_.num_records_per_page
        · simp only [hi, if_true]
        · simp only [hi, if_false]
      · simp only [hk, if_false]
  · refine ⟨_, rfl, ?_, ?_, ?_, ?_, ?_⟩
    · simp only [RmFileHandle.put_page, hfull, if_false]
    · simp only [RmFileHandle.put_page, hfull, if_false]
    · simp only [RmFileHandle.put_page, hfull, if_false]
    · simp only [RmFileHandle.put_page, hfull, if_false]
    · intro k
      simp only [RmFileHandle.put_page, hfull, if_false, RmPageHandle.get_slot]
      by_cases hk : k = ph.page_no.toNat
      · simp only [hk, if_true]
        congr 2
        funext i
        by_cases hi : i = Bitmap.first_bit false ph.page.bitmap
            fh1.file_hdr_.num_records_per_page
        · simp only [hi, if_true]
        · simp only [hi, if_false]
      · simp only [hk, if_false]

theorem RmFileHandle.delete_record_cases (fh : RmFileHandle) (rid : Rid) :
    (∃ e, fh.delete_record rid = (.error e, fh)) ∨
    ∃ pg fh1, 0 ≤ rid.page_no ∧ rid.page_no < fh.file_hdr_.num_pages ∧
      fh.pages rid.page_no.toNat = some pg ∧ pg.bitmap rid.slot_no = true ∧
      fh.delete_record rid = (.ok (), fh1) ∧
      fh1.file_hdr_.num_pages = fh.file_hdr_.num_pages ∧
      fh1.file_hdr_.num_records_per_page = fh.file_hdr_.num_records_per_page ∧
      fh1.file_hdr_.record_size = fh.file_hdr_.record_size ∧
      fh1.file_hdr_.first_free_page_no =
        (if pg.page_hdr.num_records - 1 = fh.file_hdr_.num_records_per_page - 1 then
          rid.page_no
        else fh.file_hdr_.first_free_page_no) ∧
      ∀ k, fh1.pages k =
        if k = rid.page_no.toNat then
          some
            { page_hdr :=
                ⟨if pg.page_hdr.num_records - 1 = fh.file_hdr_.num_records_per_page - 1 then
                    fh.file_hdr_.first_free_page_no
                  else pg.page_hdr.next_free_page_no,
                  pg.page_hdr.num_records - 1⟩
              bitmap := Bitmap.reset pg.bitmap rid.slot_no
              slots := pg.slots }
        else fh.pages k := by
  unfold RmFileHandle.delete_record
  cases hf : fh.fetch_page_handle rid.page_no with
  | error e => exact Or.inl ⟨e, rfl⟩
  | ok ph =>
    obtain ⟨a, b, c, d⟩ := fh.fetch_page_handle_ok _ ph hf
    simp only
    by_cases hbit : ph.page.bitmap rid.slot_no = true
    · right
      have hb : (!Bitmap.is_set ph.page.bitmap rid.slot_no) = false := by
        simp [Bitmap.is_set, hbit]
      rw [hb]
      simp only [Bool.false_eq_true, if_false]
      simp only [RmFileHandle.put_page]
      by_cases hfull : ph.page.page_hdr.num_records - 1
          = fh.file_hdr_.num_records_per_page - 1
      · rw [if_pos hfull]
        refine ⟨ph.page, _, b, c, d, hbit, rfl, ?_, ?_, ?_, ?_, ?_⟩
        · simp only [RmFileHandle.release_page_handle, RmFileHandle.put_page]
        · simp only [RmFileHandle.release_page_handle, RmFileHandle.put_page]
        · simp only [RmFileHandle.release_page_handle, RmFileHandle.put_page]
        · simp only [RmFileHandle.release_page_handle, RmFileHandle.put_page, hfull, if_true, a]
        · intro k
          simp only [RmFileHandle.release_page_handle, RmFileHandle.put_page, hfull, if_true, a]
          by_cases hk : k = rid.page_no.toNat
          · simp only [hk, if_true]
          · simp only [hk, if_false]
      · rw [if_neg hfull]
        refine ⟨ph.page, _, b, c, d, hbit, rfl, rfl, rfl, rfl, ?_, ?_⟩
        · simp only [hfull, if_false]
        · intro k
          simp only [hfull, if_false, a]
    · left
      have hb : (!Bitmap.is_set ph.page.bitmap rid.slot_no) = true := by
        simp [Bitmap.is_set, hbit]
      rw [hb]
      exact ⟨_, rfl⟩

theorem RmFileHandle.update_record_cases (fh : RmFileHandle) (rid : Rid) (buf : List Byte) :
    (∃ e, fh.update_record rid buf = (.error e, fh)) ∨
    ∃ pg fh1, 0 ≤ rid.page_no ∧ rid.page_no < fh.file_hdr_.num_pages ∧
      fh.pages rid.page_no.toNat = some pg ∧ pg.bitmap rid.slot_no = true ∧
      fh.update_record rid buf = (.ok (), fh1) ∧
      fh1.file_hdr_ = fh.file_hdr_ ∧
      ∀ k, fh1.pages k =
        if k = rid.page_no.toNat then
          some
            { page_hdr := pg.page_hdr
              bitmap := pg.bitmap
              slots := fun i =>
                if i = rid.slot_no then
                  memcpy (pg.slots rid.slot_no) buf fh.file_hdr_.record_size
                else pg.slots i }
        else fh.pages k := by
  cases hf : fh.fetch_page_handle rid.page_no with
  | error e =>
    left
    unfold RmFileHandle.update_record
    rw [hf]
    exact ⟨e, rfl⟩
  | ok ph =>
    obtain ⟨a, b, c, d⟩ := fh.fetch_page_handle_ok _ ph hf
    by_cases hbit : ph.page.bitmap rid.slot_no = true
    · right
      exact ⟨ph.page, _, b, c, d, hbit, fh.update_record_ok rid buf ph.page b c d hbit, rfl,
        fun k => rfl⟩
    · left
      unfold RmFileHandle.update_record
      rw [hf]
      have hb : (!Bitmap.is_set ph.page.bitmap rid.slot_no) = true := by
        simp [Bitmap.is_set, hbit]
      simp only
      rw [hb]
      exact ⟨_, rfl⟩

theorem Rid.eq_iff (a b : Rid) : a = b ↔ a.page_no = b.page_no ∧ a.slot_no = b.slot_no := by
  cases a
  cases b
  simp

theorem RmFileHandle.create_page_handle_pagesOk (fh fh1 : RmFileHandle) (ph : RmPageHandle)
    (hok : fh.PagesOk) (h : fh.create_page_handle = (.ok ph, fh1)) :
    fh1.PagesOk ∧ 0 ≤ ph.page_no ∧ ph.page_no < fh1.file_hdr_.num_pages ∧
      fh1.pages ph.page_no.toNat = some ph.page ∧
      fh1.file_hdr_.num_records_per_page = fh.file_hdr_.num_records_per_page ∧
      ∀ p i, fh1.bitAt p i ↔ fh.bitAt p i := by
  obtain ⟨hp, hex, hpg⟩ := hok
  by_cases hfree : fh.file_hdr_.first_free_page_no = -1
  · obtain ⟨fh2, h2, a1, a2, a3, a4, a5⟩ := fh.create_page_handle_new hfree hp
    rw [h2] at h
    have e1 : ph = ⟨fh.file_hdr_.num_pages,
        ⟨⟨-1, 0⟩, fun _ => false, fun _ => List.replicate fh.file_hdr_.record_size 0⟩⟩ := by
      cases h
      rfl
    have e2 : fh1 = fh2 := (congrArg Prod.snd h).symm
    subst e1 e2
    have hnone : fh.pages fh.file_hdr_.num_pages.toNat = none := by
      cases hq : fh.pages fh.file_hdr_.num_pages.toNat with
      | none => rfl
      | some pg =>
        have := (hex fh.file_hdr_.num_pages.toNat).1 (by rw [hq]; rfl)
        omega
    refine ⟨⟨by omega, ?_, ?_⟩, hp, by simp only; omega, ?_, a3, ?_⟩
    · intro k
      rw [a5 k, a1]
      by_cases hk : k = fh.file_hdr_.num_pages.toNat
      · rw [if_pos hk]
        simp only [Option.isSome_some, true_iff]
        omega
      · rw [if_neg hk, hex k]
        omega
    · intro k pg hk
      rw [a5 k] at hk
      rw [a3]
      by_cases hkk : k = fh.file_hdr_.num_pages.toNat
      · rw [if_pos hkk] at hk
        cases hk
        refine ⟨?_, ?_⟩
        · simp only [Bitmap.count_empty]
          rfl
        · intro i hi
          cases hi
      · rw [if_neg hkk] at hk
        exact hpg k pg hk
    · simp only
      rw [a5, if_pos rfl]
    · intro p i
      unfold RmFileHandle.bitAt
      rw [a5 p]
      by_cases hkk : p = fh.file_hdr_.num_pages.toNat
      · rw [if_pos hkk, hkk, hnone]
        simp
      · rw [if_neg hkk]
  · obtain ⟨e, a1, a2, a3, a4⟩ := fh.create_page_handle_old fh1 ph hfree h
    subst e
    exact ⟨⟨hp, hex, hpg⟩, a2, a3, a4, rfl, fun _ _ => Iff.rfl⟩

theorem RmFileHandle.insert_record_pagesOk (fh : RmFileHandle) (buf : List Byte)
    (hok : fh.PagesOk) :
    (fh.insert_record buf).2.PagesOk ∧
      (fh.insert_record buf).2.file_hdr_.num_records_per_page
        = fh.file_hdr_.num_records_per_page ∧
      match (fh.insert_record buf).1 with
      | .ok rid =>
        0 ≤ rid.page_no ∧ ¬ fh.bitAt rid.page_no.toNat rid.slot_no ∧
          ∀ p i, (fh.insert_record buf).2.bitAt p i ↔
            (fh.bitAt p i ∨ (p = rid.page_no.toNat ∧ i = rid.slot_no))
      | .error _ => ∀ p i, (fh.insert_record buf).2.bitAt p i ↔ fh.bitAt p i := by
  rcases hc : fh.create_page_handle with ⟨r, fh1⟩
  cases r with
  | error e =>
    have e1 := fh.create_page_handle_fail fh1 e hc
    subst e1
    rw [fh1.insert_record_of_fail fh1 buf e hc]
    exact ⟨hok, rfl, fun _ _ => Iff.rfl⟩
  | ok ph =>
    obtain ⟨hok1, b0, b1, b2, b3, b4⟩ := fh.create_page_handle_pagesOk fh1 ph hok hc
    by_cases hj : Bitmap.first_bit false ph.page.bitmap fh1.file_hdr_.num_records_per_page = -1
    · rw [fh.insert_record_of_full fh1 buf ph hc hj]
      exact ⟨hok1, b3, b4⟩
    · obtain ⟨fh3, h3, c1, c2, c3, c4, c5⟩ := fh.insert_record_of_slot fh1 buf ph hc hj
      obtain ⟨j0, j1, j2⟩ := Bitmap.first_bit_found _ _ hj
      generalize Bitmap.first_bit false ph.page.bitmap fh1.file_hdr_.num_records_per_page = j
        at h3 c5 j0 j1 j2
      rw [h3]
      obtain ⟨hp, hex, hpg⟩ := hok1
      obtain ⟨q1, q2⟩ := hpg _ _ b2
      refine ⟨⟨by show 0 ≤ fh3.file_hdr_.num_pages; omega, ?_, ?_⟩, c2.trans b3, b0, ?_, ?_⟩
      · intro k
        rw [c5 k, c1]
        by_cases hk : k = ph.page_no.toNat
        · rw [if_pos hk]
          simp only [Option.isSome_some, true_iff]
          omega
        · rw [if_neg hk, hex k]
      · intro k pg hk
        rw [c5 k] at hk
        rw [c2]
        by_cases hkk : k = ph.page_no.toNat
        · rw [if_pos hkk] at hk
          cases hk
          refine ⟨?_, ?_⟩
          · simp only
            rw [Bitmap.count_set _ _ _ j0 j1 j2, q1]
            push_cast
            rfl
          · intro i hi
            simp only [Bitmap.set] at hi
            by_cases hij : i = j
            · rw [hij]
              exact ⟨j0, j1⟩
            · rw [if_neg hij] at hi
              exact q2 i hi
        · rw [if_neg hkk] at hk
          exact hpg k pg hk
      · intro hbit
        obtain ⟨pg, e1, e2⟩ := (b4 _ _).2 hbit
        rw [b2] at e1
        cases e1
        rw [j2] at e2
        cases e2
      · intro p i
        rw [← b4 p i]
        unfold RmFileHandle.bitAt
        rw [c5 p]
        by_cases hkk : p = ph.page_no.toNat
        · rw [if_pos hkk, hkk, b2]
          simp only [Option.some.injEq, exists_eq_left', Bitmap.set, true_and]
          by_cases hij : i = j
          · simp [hij]
          · simp [hij]
        · rw [if_neg hkk]
          simp [hkk]

theorem RmFileHandle.delete_record_pagesOk (fh : RmFileHandle) (rid : Rid)
    (hok : fh.PagesOk) :
    (fh.delete_record rid).2.PagesOk ∧
      (fh.delete_record rid).2.file_hdr_.num_records_per_page
        = fh.file_hdr_.num_records_per_page ∧
      match (fh.delete_record rid).1 with
      | .ok _ =>
        0 ≤ rid.page_no ∧ fh.bitAt rid.page_no.toNat rid.slot_no ∧
          ∀ p i, (fh.delete_record rid).2.bitAt p i ↔
            (fh.bitAt p i ∧ ¬ (p = rid.page_no.toNat ∧ i = rid.slot_no))
      | .error _ => (fh.delete_record rid).2 = fh := by
  rcases fh.delete_record_cases rid with ⟨e, he⟩ | ⟨pg, fh1, h0, h1, h2, h3, hd, c1, c2, c3, c4, c5⟩
  · rw [he]
    exact ⟨hok, rfl, rfl⟩
  · rw [hd]
    obtain ⟨hp, hex, hpg⟩ := hok
    obtain ⟨q1, q2⟩ := hpg _ _ h2
    obtain ⟨s0, s1⟩ := q2 _ h3
    refine ⟨⟨by show 0 ≤ fh1.file_hdr_.num_pages; omega, ?_, ?_⟩, c2, h0, ⟨pg, h2, h3⟩, ?_⟩
    · intro k
      rw [c5 k, c1]
      by_cases hk : k = rid.page_no.toNat
      · rw [if_pos hk]
        simp only [Option.isSome_some, true_iff]
        omega
      · rw [if_neg hk, hex k]
    · intro k pg1 hk
      rw [c5 k] at hk
      rw [c2]
      by_cases hkk : k = rid.page_no.toNat
      · rw [if_pos hkk] at hk
        cases hk
        refine ⟨?_, ?_⟩
        · simp only
          have := Bitmap.count_reset pg.bitmap fh.file_hdr_.num_records_per_page rid.slot_no
            s0 s1 h3
          omega
        · intro i hi
          simp only [Bitmap.reset] at hi
          by_cases hij : i = rid.slot_no
          · rw [if_pos hij] at hi
            cases hi
          · rw [if_neg hij] at hi
            exact q2 i hi
      · rw [if_neg hkk] at hk
        exact hpg k pg1 hk
    · intro p i
      unfold RmFileHandle.bitAt
      rw [c5 p]
      by_cases hkk : p = rid.page_no.toNat
      · rw [if_pos hkk, hkk, h2]
        simp only [Option.some.injEq, exists_eq_left', Bitmap.reset, true_and]
        by_cases hij : i = rid.slot_no
        · simp [hij]
        · simp [hij]
      · rw [if_neg hkk]
        simp [hkk]

theorem RmFileHandle.update_record_pagesOk (fh : RmFileHandle) (rid : Rid) (buf : List Byte)
    (hok : fh.PagesOk) :
    (fh.update_record rid buf).2.PagesOk ∧
      (fh.update_record rid buf).2.file_hdr_ = fh.file_hdr_ ∧
      ∀ p i, (fh.update_record rid buf).2.bitAt p i ↔ fh.bitAt p i := by
  rcases fh.update_record_cases rid buf with ⟨e, he⟩ | ⟨pg, fh1, h0, h1, h2, h3, hd, c1, c5⟩
  · rw [he]
    exact ⟨hok, rfl, fun _ _ => Iff.rfl⟩
  · rw [hd]
    obtain ⟨hp, hex, hpg⟩ := hok
    obtain ⟨q1, q2⟩ := hpg _ _ h2
    refine ⟨⟨by rw [c1]; exact hp, ?_, ?_⟩, c1, ?_⟩
    · intro k
      rw [c5 k, c1]
      by_cases hk : k = rid.page_no.toNat
      · rw [if_pos hk]
        simp only [Option.isSome_some, true_iff]
        omega
      · rw [if_neg hk, hex k]
    · intro k pg1 hk
      rw [c5 k] at hk
      rw [c1]
      by_cases hkk : k = rid.page_no.toNat
      · rw [if_pos hkk] at hk
        cases hk
        exact ⟨q1, q2⟩
      · rw [if_neg hkk] at hk
        exact hpg k pg1 hk
    · intro p i
      unfold RmFileHandle.bitAt
      rw [c5 p]
      by_cases hkk : p = rid.page_no.toNat
      · rw [if_pos hkk, hkk, h2]
        simp
      · rw [if_neg hkk]

theorem RmFileHandle.step_pagesOk (fh : RmFileHandle) (op : RmOp) (hok : fh.PagesOk) :
    (fh.step op).PagesOk ∧
      (fh.step op).file_hdr_.num_records_per_page = fh.file_hdr_.num_records_per_page := by
  cases op with
  | insert buf => exact ⟨(fh.insert_record_pagesOk buf hok).1, (fh.insert_record_pagesOk buf hok).2.1⟩
  | delete rid => exact ⟨(fh.delete_record_pagesOk rid hok).1, (fh.delete_record_pagesOk rid hok).2.1⟩
  | update rid buf =>
    exact ⟨(fh.update_record_pagesOk rid buf hok).1,
      congrArg RmFileHdr.num_records_per_page (fh.update_record_pagesOk rid buf hok).2.1⟩

theorem RmFileHandle.stepLive_spec (fh : RmFileHandle) (live : List Rid) (op : RmOp)
    (hok : fh.PagesOk)
    (hl : ∀ rid : Rid, rid ∈ live ↔ 0 ≤ rid.page_no ∧ fh.bitAt rid.page_no.toNat rid.slot_no) :
    ∀ rid : Rid, rid ∈ fh.stepLive live op ↔
      0 ≤ rid.page_no ∧ (fh.step op).bitAt rid.page_no.toNat rid.slot_no := by
  intro rid
  cases op with
  | insert buf =>
    have h := (fh.insert_record_pagesOk buf hok).2.2
    show rid ∈ (match (fh.insert_record buf).1 with
      | .ok rid0 => rid0 :: live
      | .error _ => live) ↔ 0 ≤ rid.page_no ∧
        (fh.insert_record buf).2.bitAt rid.page_no.toNat rid.slot_no
    cases hr : (fh.insert_record buf).1 with
    | error e =>
      rw [hr] at h
      simp only
      rw [hl rid, h]
    | ok rid0 =>
      rw [hr] at h
      obtain ⟨h0, _, h2⟩ := h
      simp only
      rw [List.mem_cons, hl rid, h2, Rid.eq_iff]
      constructor
      · rintro (⟨e1, e2⟩ | ⟨a, b⟩)
        · exact ⟨by omega, Or.inr ⟨by rw [e1], e2⟩⟩
        · exact ⟨a, Or.inl b⟩
      · rintro ⟨a, b | ⟨e1, e2⟩⟩
        · exact Or.inr ⟨a, b⟩
        · exact Or.inl ⟨by omega, e2⟩
  | delete rid0 =>
    have h := (fh.delete_record_pagesOk rid0 hok).2.2
    show rid ∈ (match (fh.delete_record rid0).1 with
      | .ok _ => live.filter (fun r => r ≠ rid0)
      | .error _ => live) ↔ 0 ≤ rid.page_no ∧
        (fh.delete_record rid0).2.bitAt rid.page_no.toNat rid.slot_no
    cases hr : (fh.delete_record rid0).1 with
    | error e =>
      rw [hr] at h
      simp only
      rw [hl rid, h]
    | ok u =>
      rw [hr] at h
      obtain ⟨h0, _, h2⟩ := h
      simp only
      rw [List.mem_filter, hl rid, h2]
      simp only [ne_eq, decide_not, Bool.not_eq_true', decide_eq_false_iff_not, Rid.eq_iff]
      constructor
      · rintro ⟨⟨a, b⟩, c⟩
        exact ⟨a, b, fun ⟨e1, e2⟩ => c ⟨by omega, e2⟩⟩
      · rintro ⟨a, b, c⟩
        exact ⟨⟨a, b⟩, fun ⟨e1, e2⟩ => c ⟨by rw [e1], e2⟩⟩
  | update rid0 buf =>
    have h := (fh.update_record_pagesOk rid0 buf hok).2.2
    show rid ∈ live ↔ 0 ≤ rid.page_no ∧
        (fh.update_record rid0 buf).2.bitAt rid.page_no.toNat rid.slot_no
    rw [hl rid, h]

theorem RmFileHandle.run_pagesOk (ops : List RmOp) :
    ∀ fh : RmFileHandle, fh.PagesOk →
      (RmFileHandle.run ops fh).PagesOk ∧
        (RmFileHandle.run ops fh).file_hdr_.num_records_per_page
          = fh.file_hdr_.num_records_per_page := by
  induction ops with
  | nil =>
    intro fh hok
    exact ⟨hok, rfl⟩
  | cons op ops ih =>
    intro fh hok
    obtain ⟨h1, h2⟩ := fh.step_pagesOk op hok
    obtain ⟨h3, h4⟩ := ih (fh.step op) h1
    exact ⟨h3, h4.trans h2⟩

theorem RmFileHandle.runLive_spec (ops : List RmOp) :
    ∀ (fh : RmFileHandle) (live : List Rid), fh.PagesOk →
      (∀ rid : Rid, rid ∈ live ↔ 0 ≤ rid.page_no ∧ fh.bitAt rid.page_no.toNat rid.slot_no) →
      ∀ rid : Rid, rid ∈ RmFileHandle.runLive ops fh live ↔
        0 ≤ rid.page_no ∧ (RmFileHandle.run ops fh).bitAt rid.page_no.toNat rid.slot_no := by
  induction ops with
  | nil =>
    intro fh live _ hl
    exact hl
  | cons op ops ih =>
    intro fh live hok hl
    exact ih (fh.step op) (fh.stepLive live op) (fh.step_pagesOk op hok).1
      (fh.stepLive_spec live op hok hl)

theorem RmFileHandle.create_pagesOk (record_size : Nat) (n : Int) (bitmap_size : Nat) :
    (RmFileHandle.create record_size n bitmap_size).PagesOk := by
  refine ⟨le_refl _, ?_, ?_⟩
  · intro p
    simp only [RmFileHandle.create, Option.isSome_none, Bool.false_eq_true, false_iff]
    omega
  · intro p pg h
    cases h

theorem RmFileHandle.get_record_iff_bitAt (fh : RmFileHandle) (hok : fh.PagesOk) (rid : Rid) :
    (∃ rec, fh.get_record rid = .ok (some rec)) ↔
      0 ≤ rid.page_no ∧ fh.bitAt rid.page_no.toNat rid.slot_no := by
  constructor
  · rintro ⟨rec, h⟩
    obtain ⟨pg, h0, _, h2, h3, _⟩ := fh.get_record_some rid rec h
    exact ⟨h0, pg, h2, h3⟩
  · rintro ⟨h0, pg, h2, h3⟩
    have h1 : rid.page_no < fh.file_hdr_.num_pages := by
      have := (hok.2.1 rid.page_no.toNat).1 (by rw [h2]; rfl)
      omega
    rw [fh.get_record_of_page rid pg h0 h1 h2, if_pos h3]
    exact ⟨_, rfl⟩

/-- C21: in the file reached from a newly created file by any sequence of `insert_record`,
`delete_record` and `update_record` calls, returning or throwing, on every page
`num_records` is the number of set bits of the page's bitmap, every set bit belongs to a
slot of the page, the bit of a slot is set exactly when its Rid was returned by an insert
and not deleted since, and these are exactly the Rids at which `get_record` returns a
record. -/
theorem reachable_count_and_bits (ops : List RmOp) (record_size : Nat) (n : Int)
    (bitmap_size : Nat) :
    (∀ (p : Nat) (pg : RmPage),
      (RmFileHandle.run ops (RmFileHandle.create record_size n bitmap_size)).pages p = some pg →
      pg.page_hdr.num_records = (Bitmap.count pg.bitmap n : Int) ∧
      (∀ i, pg.bitmap i = true → 0 ≤ i ∧ i < n) ∧
      ∀ i, pg.bitmap i = true ↔
        (⟨(p : Int), i⟩ : Rid) ∈
          RmFileHandle.runLive ops (RmFileHandle.create record_size n bitmap_size) []) ∧
    ∀ rid : Rid,
      rid ∈ RmFileHandle.runLive ops (RmFileHandle.create record_size n bitmap_size) [] ↔
        ∃ rec, (RmFileHandle.run ops
          (RmFileHandle.create record_size n bitmap_size)).get_record rid = .ok (some rec) := by
  have hc := RmFileHandle.create_pagesOk record_size n bitmap_size
  obtain ⟨hok, hn⟩ := RmFileHandle.run_pagesOk ops _ hc
  have hlive := RmFileHandle.runLive_spec ops (RmFileHandle.create record_size n bitmap_size) []
    hc (by
      intro rid
      simp only [List.not_mem_nil, false_iff, not_and]
      rintro _ ⟨pg, h, _⟩
      cases h)
  have hn1 : (RmFileHandle.run ops
      (RmFileHandle.create record_size n bitmap_size)).file_hdr_.num_records_per_page = n := hn
  constructor
  · intro p pg hpg
    obtain ⟨q1, q2⟩ := hok.2.2 p pg hpg
    rw [hn1] at q1 q2
    refine ⟨q1, q2, ?_⟩
    intro i
    rw [hlive]
    simp only [Int.toNat_ofNat, Int.ofNat_zero_le, true_and, RmFileHandle.bitAt, hpg,
      Option.some.injEq, exists_eq_left']
  · intro rid
    rw [hlive, RmFileHandle.get_record_iff_bitAt _ hok]

theorem RmFileHandle.fetch_page_nonneg (fh : RmFileHandle) (p : Int) (h : 0 ≤ p) :
    fh.fetch_page p = fh.pages p.toNat := by
  unfold RmFileHandle.fetch_page
  rw [if_neg (by omega)]

theorem RmFileHandle.isChain_congr (fh fh1 : RmFileHandle) (chain : List Int) :
    ∀ s, fh.IsChain s chain →
      (∀ q ∈ chain, ∀ pg, fh.fetch_page q = some pg →
        ∃ pg1, fh1.fetch_page q = some pg1 ∧
          pg1.page_hdr.next_free_page_no = pg.page_hdr.next_free_page_no) →
      fh1.IsChain s chain := by
  induction chain with
  | nil =>
    intro s h _
    exact h
  | cons p rest ih =>
    intro s h hag
    obtain ⟨h1, h2, pg, h3, h4⟩ := h
    obtain ⟨pg1, h5, h6⟩ := hag p (List.mem_cons_self _ _) pg h3
    refine ⟨h1, h2, pg1, h5, ?_⟩
    rw [h6]
    exact ih _ h4 (fun q hq => hag q (List.mem_cons_of_mem _ hq))

theorem RmFileHandle.hasFreeSlot_iff (fh : RmFileHandle) (hok : fh.PagesOk) (p : Int) :
    fh.hasFreeSlot p ↔
      0 ≤ p ∧ p < fh.file_hdr_.num_pages ∧
        ∃ pg, fh.pages p.toNat = some pg ∧
          pg.page_hdr.num_records < fh.file_hdr_.num_records_per_page := by
  unfold RmFileHandle.hasFreeSlot
  constructor
  · rintro ⟨h0, h1, pg, h2, h3⟩
    refine ⟨h0, h1, pg, h2, ?_⟩
    rw [(hok.2.2 _ pg h2).1]
    exact (Bitmap.count_lt _ _).2 h3
  · rintro ⟨h0, h1, pg, h2, h3⟩
    refine ⟨h0, h1, pg, h2, ?_⟩
    rw [(hok.2.2 _ pg h2).1] at h3
    exact (Bitmap.count_lt _ _).1 h3

theorem RmFileHandle.isChain_free_chain (fh : RmFileHandle) (chain : List Int) :
    ∀ (s : Int) (fuel : Nat), fh.IsChain s chain → chain.length < fuel →
      fh.free_chain fuel s = some chain := by
  induction chain with
  | nil =>
    intro s fuel h hf
    cases fuel with
    | zero => omega
    | succ fuel =>
      have hs : s = -1 := h
      unfold RmFileHandle.free_chain
      rw [if_pos hs]
  | cons p rest ih =>
    intro s fuel h hf
    obtain ⟨h1, h2, pg, h3, h4⟩ := h
    cases fuel with
    | zero => omega
    | succ fuel =>
      unfold RmFileHandle.free_chain
      rw [h1, if_neg h2, h3]
      simp only
      rw [ih _ fuel h4 (by simp only [List.length_cons] at hf; omega)]

theorem nodup_range_length (chain : List Int) (N : Int) (hnd : chain.Nodup)
    (hr : ∀ p ∈ chain, 0 ≤ p ∧ p < N) : chain.length ≤ N.toNat := by
  have hsub : chain ⊆ (List.range N.toNat).map (fun k : Nat => (k : Int)) := by
    intro p hp
    obtain ⟨h0, h1⟩ := hr p hp
    rw [List.mem_map]
    exact ⟨p.toNat, List.mem_range.2 (by omega), by omega⟩
  have := (hnd.subperm hsub).length_le
  simpa using this

theorem RmFileHandle.freeOk_free_list (fh : RmFileHandle) (chain : List Int)
    (hfree : fh.FreeOk chain) : fh.free_list = some chain := by
  obtain ⟨h1, h2, h3⟩ := hfree
  unfold RmFileHandle.free_list
  apply fh.isChain_free_chain chain _ _ h1
  have := nodup_range_length chain fh.file_hdr_.num_pages h2
    (fun p hp => ⟨((h3 p).1 hp).1, ((h3 p).1 hp).2.1⟩)
  omega

theorem RmFileHandle.freeOk_mem (fh : RmFileHandle) (chain : List Int) (hok : fh.PagesOk)
    (hfree : fh.FreeOk chain) (q : Int) :
    q ∈ chain ↔ 0 ≤ q ∧ ∃ pg, fh.pages q.toNat = some pg ∧
      pg.page_hdr.num_records < fh.file_hdr_.num_records_per_page := by
  rw [hfree.2.2 q]
  constructor
  · rintro ⟨h0, _, h2⟩
    exact ⟨h0, h2⟩
  · rintro ⟨h0, pg, h2, h3⟩
    have := (hok.2.1 q.toNat).1 (by rw [h2]; rfl)
    exact ⟨h0, by omega, pg, h2, h3⟩

theorem RmFileHandle.freeOk_intro (fh : RmFileHandle) (chain : List Int) (hok : fh.PagesOk)
    (hch : fh.IsChain fh.file_hdr_.first_free_page_no chain) (hnd : chain.Nodup)
    (hm : ∀ q : Int, q ∈ chain ↔ 0 ≤ q ∧ ∃ pg, fh.pages q.toNat = some pg ∧
      pg.page_hdr.num_records < fh.file_hdr_.num_records_per_page) :
    fh.FreeOk chain := by
  refine ⟨hch, hnd, fun q => ?_⟩
  rw [hm q]
  constructor
  · rintro ⟨h0, pg, h2, h3⟩
    have := (hok.2.1 q.toNat).1 (by rw [h2]; rfl)
    exact ⟨h0, by omega, pg, h2, h3⟩
  · rintro ⟨h0, _, h2⟩
    exact ⟨h0, h2⟩

theorem RmFileHandle.freeOk_keep (fh fh1 : RmFileHandle) (chain : List Int) (P : Int)
    (pg pg1 : RmPage) (hok : fh.PagesOk) (hok1 : fh1.PagesOk)
    (hn : fh1.file_hdr_.num_records_per_page = fh.file_hdr_.num_records_per_page)
    (hpages : ∀ k, fh1.pages k = if k = P.toNat then some pg1 else fh.pages k)
    (hfree : fh.FreeOk chain)
    (hpg : fh.pages P.toNat = some pg)
    (hnext : pg1.page_hdr.next_free_page_no = pg.page_hdr.next_free_page_no)
    (hs : fh1.file_hdr_.first_free_page_no = fh.file_hdr_.first_free_page_no)
    (hlt : pg1.page_hdr.num_records < fh.file_hdr_.num_records_per_page ↔
      pg.page_hdr.num_records < fh.file_hdr_.num_records_per_page) :
    fh1.FreeOk chain := by
  have hm := fh.freeOk_mem chain hok hfree
  apply fh1.freeOk_intro chain hok1
  · rw [hs]
    apply fh.isChain_congr fh1 chain _ hfree.1
    intro q hq pgq hfq
    have h0 := ((hm q).1 hq).1
    rw [fh.fetch_page_nonneg q h0] at hfq
    rw [fh1.fetch_page_nonneg q h0, hpages]
    by_cases hk : q.toNat = P.toNat
    · rw [if_pos hk]
      rw [hk, hpg] at hfq
      cases hfq
      exact ⟨pg1, rfl, hnext⟩
    · rw [if_neg hk]
      exact ⟨pgq, hfq, rfl⟩
  · exact hfree.2.1
  · intro q
    rw [hm q, hpages, hn]
    by_cases hk : q.toNat = P.toNat
    · rw [if_pos hk, hk, hpg]
      simp only [Option.some.injEq, exists_eq_left', hlt]
    · rw [if_neg hk]

theorem RmFileHandle.freeOk_pop (fh fh1 : RmFileHandle) (rest : List Int) (P : Int)
    (pg pg1 : RmPage) (hok : fh.PagesOk) (hok1 : fh1.PagesOk)
    (hn : fh1.file_hdr_.num_records_per_page = fh.file_hdr_.num_records_per_page)
    (hP : 0 ≤ P)
    (hpages : ∀ k, fh1.pages k = if k = P.toNat then some pg1 else fh.pages k)
    (hfree : fh.FreeOk (P :: rest))
    (hpg : fh.pages P.toNat = some pg)
    (hs : fh1.file_hdr_.first_free_page_no = pg.page_hdr.next_free_page_no)
    (hfull : ¬ pg1.page_hdr.num_records < fh.file_hdr_.num_records_per_page) :
    fh1.FreeOk rest := by
  have hm := fh.freeOk_mem _ hok hfree
  obtain ⟨hch, hnd, _⟩ := hfree
  obtain ⟨hnot, hnd1⟩ := List.nodup_cons.1 hnd
  obtain ⟨_, _, pg0, h3, h4⟩ := hch
  rw [fh.fetch_page_nonneg P hP, hpg] at h3
  cases h3
  have hne : ∀ q ∈ rest, q.toNat ≠ P.toNat := by
    intro q hq he
    have h0 := ((hm q).1 (List.mem_cons_of_mem _ hq)).1
    have : q = P := by omega
    rw [this] at hq
    exact hnot hq
  apply fh1.freeOk_intro rest hok1
  · rw [hs]
    apply fh.isChain_congr fh1 rest _ h4
    intro q hq pgq hfq
    have h0 := ((hm q).1 (List.mem_cons_of_mem _ hq)).1
    rw [fh.fetch_page_nonneg q h0] at hfq
    rw [fh1.fetch_page_nonneg q h0, hpages, if_neg (hne q hq)]
    exact ⟨pgq, hfq, rfl⟩
  · exact hnd1
  · intro q
    rw [hpages, hn]
    by_cases hk : q.toNat = P.toNat
    · rw [if_pos hk]
      constructor
      · intro hq
        exact absurd hk (hne q hq)
      · rintro ⟨_, pg2, h2, h3⟩
        cases h2
        exact absurd h3 hfull
    · rw [if_neg hk, ← hm q, List.mem_cons]
      constructor
      · exact Or.inr
      · rintro (h | h)
        · rw [h] at hk
          exact absurd rfl hk
        · exact h

theorem RmFileHandle.freeOk_push (fh fh1 : RmFileHandle) (chain : List Int) (P : Int)
    (pg1 : RmPage) (hok : fh.PagesOk) (hok1 : fh1.PagesOk)
    (hn : fh1.file_hdr_.num_records_per_page = fh.file_hdr_.num_records_per_page)
    (hP : 0 ≤ P)
    (hpages : ∀ k, fh1.pages k = if k = P.toNat then some pg1 else fh.pages k)
    (hfree : fh.FreeOk chain)
    (hnot : P ∉ chain)
    (hnext : pg1.page_hdr.next_free_page_no = fh.file_hdr_.first_free_page_no)
    (hs : fh1.file_hdr_.first_free_page_no = P)
    (hlt : pg1.page_hdr.num_records < fh.file_hdr_.num_records_per_page) :
    fh1.FreeOk (P :: chain) := by
  have hm := fh.freeOk_mem _ hok hfree
  obtain ⟨hch, hnd, _⟩ := hfree
  have hne : ∀ q ∈ chain, q.toNat ≠ P.toNat := by
    intro q hq he
    have h0 := ((hm q).1 hq).1
    have : q = P := by omega
    rw [this] at hq
    exact hnot hq
  apply fh1.freeOk_intro _ hok1
  · refine ⟨hs, by omega, pg1, ?_, ?_⟩
    · rw [fh1.fetch_page_nonneg P hP, hpages, if_pos rfl]
    · rw [hnext]
      apply fh.isChain_congr fh1 chain _ hch
      intro q hq pgq hfq
      have h0 := ((hm q).1 hq).1
      rw [fh.fetch_page_nonneg q h0] at hfq
      rw [fh1.fetch_page_nonneg q h0, hpages, if_neg (hne q hq)]
      exact ⟨pgq, hfq, rfl⟩
  · exact List.nodup_cons.2 ⟨hnot, hnd⟩
  · intro q
    rw [hpages, hn, List.mem_cons]
    by_cases hk : q.toNat = P.toNat
    · rw [if_pos hk]
      constructor
      · rintro (h | h)
        · exact ⟨by omega, pg1, rfl, hlt⟩
        · exact absurd hk (hne q h)
      · rintro ⟨h0, _⟩
        exact Or.inl (by omega)
    · rw [if_neg hk, ← hm q]
      constructor
      · rintro (h | h)
        · rw [h] at hk
          exact absurd rfl hk
        · exact h
      · exact Or.inr

theorem RmFileHandle.create_page_handle_freeOk (fh : RmFileHandle) (chain : List Int)
    (hok : fh.PagesOk) (hn : 0 < fh.file_hdr_.num_records_per_page)
    (hfree : fh.FreeOk chain) :
    ∃ ph fh1 rest, fh.create_page_handle = (.ok ph, fh1) ∧ fh1.PagesOk ∧
      fh1.file_hdr_.num_records_per_page = fh.file_hdr_.num_records_per_page ∧
      0 ≤ ph.page_no ∧ fh1.pages ph.page_no.toNat = some ph.page ∧
      fh1.FreeOk (ph.page_no :: rest) ∧
      ((chain = [] ∧ rest = [] ∧ ph.page_no = fh.file_hdr_.num_pages) ∨
        chain = ph.page_no :: rest) := by
  cases chain with
  | nil =>
    have hff : fh.file_hdr_.first_free_page_no = -1 := hfree.1
    obtain ⟨fh1, hc, a1, a2, a3, a4, a5⟩ := fh.create_page_handle_new hff hok.1
    obtain ⟨hok1, b0, _, b2, b3, _⟩ := fh.create_page_handle_pagesOk fh1 _ hok hc
    refine ⟨_, fh1, [], hc, hok1, b3, b0, b2, ?_, Or.inl ⟨rfl, rfl, rfl⟩⟩
    exact fh.freeOk_push fh1 [] fh.file_hdr_.num_pages _ hok hok1 b3 hok.1 a5 hfree
      (List.not_mem_nil _) hff.symm a2 hn
  | cons p rest =>
    obtain ⟨e1, e2, pg, e3, _⟩ := hfree.1
    obtain ⟨h0, h1, _⟩ := (hfree.2.2 p).1 (List.mem_cons_self _ _)
    rw [fh.fetch_page_nonneg p h0] at e3
    have hc : fh.create_page_handle = (.ok ⟨p, pg⟩, fh) := by
      unfold RmFileHandle.create_page_handle
      rw [if_neg (by rw [e1]; exact e2), e1, fh.fetch_page_handle_eq_ok p pg h0 h1 e3]
    exact ⟨_, fh, rest, hc, hok, rfl, h0, e3, hfree, Or.inr rfl⟩

theorem RmFileHandle.insert_record_freeOk (fh : RmFileHandle) (buf : List Byte)
    (chain : List Int) (hok : fh.PagesOk) (hn : 0 < fh.file_hdr_.num_records_per_page)
    (hfree : fh.FreeOk chain) :
    ∃ rid fh3 chain3, fh.insert_record buf = (.ok rid, fh3) ∧ 0 ≤ rid.page_no ∧
      fh3.FreeOk chain3 ∧
      (rid.page_no ∈ chain3 →
        chain3 = if rid.page_no ∈ chain then chain else rid.page_no :: chain) ∧
      (rid.page_no ∉ chain3 → chain3 = chain.filter (fun q => q ≠ rid.page_no)) ∧
      (rid.page_no ∈ chain ∨ rid.page_no = fh.file_hdr_.num_pages) := by
  obtain ⟨ph, fh1, rest, hc, hok1, hn1, hP, hpg, hfree1, hrel⟩ :=
    fh.create_page_handle_freeOk chain hok hn hfree
  obtain ⟨_, pg0, hpg0, hlt⟩ := (fh1.freeOk_mem _ hok1 hfree1 ph.page_no).1
    (List.mem_cons_self _ _)
  rw [hpg] at hpg0
  cases hpg0
  have hj : Bitmap.first_bit false ph.page.bitmap fh1.file_hdr_.num_records_per_page ≠ -1 := by
    intro h
    rw [(hok1.2.2 _ _ hpg).1] at hlt
    obtain ⟨i, i0, i1, i2⟩ := (Bitmap.count_lt _ _).1 hlt
    have := Bitmap.first_bit_none _ _ h i i0 i1
    rw [i2] at this
    cases this
  obtain ⟨fh3, h3, c1, c2, c3, c4, c5⟩ := fh.insert_record_of_slot fh1 buf ph hc hj
  have hok3 : fh3.PagesOk := by
    have := (fh.insert_record_pagesOk buf hok).1
    rw [h3] at this
    exact this
  have hnot : ph.page_no ∉ rest := (List.nodup_cons.1 hfree1.2.1).1
  have hwhere : ph.page_no ∈ chain ∨ ph.page_no = fh.file_hdr_.num_pages := by
    rcases hrel with ⟨_, _, e3⟩ | e1
    · exact Or.inr e3
    · rw [e1]
      exact Or.inl (List.mem_cons_self _ _)
  by_cases hfull : ph.page.page_hdr.num_records + 1 = fh1.file_hdr_.num_records_per_page
  · rw [if_pos hfull] at c4
    refine ⟨_, fh3, rest, h3, hP, ?_, fun h => absurd h hnot, fun _ => ?_, hwhere⟩
    · exact fh1.freeOk_pop fh3 rest ph.page_no ph.page _ hok1 hok3 c2 hP c5 hfree1 hpg c4
        (by simp only; omega)
    · rcases hrel with ⟨e1, e2, _⟩ | e1
      · rw [e1, e2]
        rfl
      · rw [e1, List.filter_cons_of_neg (by simp)]
        symm
        rw [List.filter_eq_self]
        intro q hq
        simp only [ne_eq, decide_not, Bool.not_eq_true', decide_eq_false_iff_not]
        intro e
        rw [e] at hq
        exact hnot hq
  · rw [if_neg hfull] at c4
    refine ⟨_, fh3, ph.page_no :: rest, h3, hP, ?_, fun _ => ?_,
      fun h => absurd (List.mem_cons_self _ _) h, hwhere⟩
    · exact fh1.freeOk_keep fh3 _ ph.page_no ph.page _ hok1 hok3 c2 c5 hfree1 hpg rfl c4
        (by simp only; constructor <;> intro _ <;> omega)
    · rcases hrel with ⟨e1, e2, _⟩ | e1
      · rw [e1, e2, if_neg (List.not_mem_nil _)]
      · rw [e1, if_pos (List.mem_cons_self _ _)]

theorem RmFileHandle.delete_record_freeOk (fh : RmFileHandle) (rid : Rid)
    (chain : List Int) (hok : fh.PagesOk) (hfree : fh.FreeOk chain) :
    (∀ e, (fh.delete_record rid).1 = .error e → (fh.delete_record rid).2 = fh) ∧
    ((fh.delete_record rid).1 = .ok () →
      ∃ chain1, (fh.delete_record rid).2.FreeOk chain1 ∧
        (rid.page_no ∈ chain → chain1 = chain) ∧
        (rid.page_no ∉ chain → chain1 = rid.page_no :: chain)) := by
  have hok1 := (fh.delete_record_pagesOk rid hok).1
  rcases fh.delete_record_cases rid with ⟨e, he⟩ | ⟨pg, fh1, h0, h1, h2, h3, hd, c1, c2, c3, c4, c5⟩
  · rw [he]
    exact ⟨fun _ _ => rfl, fun h => by cases h⟩
  · rw [hd] at hok1 ⊢
    refine ⟨fun e h => (by cases h), fun _ => ?_⟩
    obtain ⟨q1, q2⟩ := hok.2.2 _ _ h2
    obtain ⟨s0, s1⟩ := q2 _ h3
    have hle := Bitmap.count_le pg.bitmap fh.file_hdr_.num_records_per_page (by omega)
    have hm := fh.freeOk_mem chain hok hfree rid.page_no
    by_cases hfull : pg.page_hdr.num_records - 1 = fh.file_hdr_.num_records_per_page - 1
    · rw [if_pos hfull] at c4
      simp only [hfull, if_true] at c5
      have hnot : rid.page_no ∉ chain := by
        intro h
        obtain ⟨_, pg0, e0, hlt⟩ := hm.1 h
        rw [h2] at e0
        cases e0
        omega
      refine ⟨rid.page_no :: chain, ?_, fun h => absurd h hnot, fun _ => rfl⟩
      exact fh.freeOk_push fh1 chain rid.page_no _ hok hok1 c2 h0 c5 hfree hnot rfl c4
        (by simp only; omega)
    · rw [if_neg hfull] at c4
      simp only [hfull, if_false] at c5
      have hin : rid.page_no ∈ chain := hm.2 ⟨h0, pg, h2, by omega⟩
      refine ⟨chain, ?_, fun _ => rfl, fun h => absurd hin h⟩
      exact fh.freeOk_keep fh1 chain rid.page_no pg _ hok hok1 c2 c5 hfree h2 rfl c4
        (by simp only; constructor <;> intro _ <;> omega)

theorem RmFileHandle.update_record_freeOk (fh : RmFileHandle) (rid : Rid) (buf : List Byte)
    (chain : List Int) (hok : fh.PagesOk) (hfree : fh.FreeOk chain) :
    (fh.update_record rid buf).2.FreeOk chain := by
  have hok1 := (fh.update_record_pagesOk rid buf hok).1
  rcases fh.update_record_cases rid buf with ⟨e, he⟩ | ⟨pg, fh1, h0, h1, h2, h3, hd, c1, c5⟩
  · rw [he]
    exact hfree
  · rw [hd] at hok1 ⊢
    exact fh.freeOk_keep fh1 chain rid.page_no pg _ hok hok1
      (congrArg RmFileHdr.num_records_per_page c1) c5 hfree h2 rfl
      (congrArg RmFileHdr.first_free_page_no c1) Iff.rfl

theorem RmFileHandle.step_freeOk (fh : RmFileHandle) (op : RmOp) (chain : List Int)
    (hok : fh.PagesOk) (hn : 0 < fh.file_hdr_.num_records_per_page)
    (hfree : fh.FreeOk chain) : ∃ chain1, (fh.step op).FreeOk chain1 := by
  cases op with
  | insert buf =>
    obtain ⟨rid, fh3, chain3, h3, _, hf, _⟩ := fh.insert_record_freeOk buf chain hok hn hfree
    refine ⟨chain3, ?_⟩
    show (fh.insert_record buf).2.FreeOk chain3
    rw [h3]
    exact hf
  | delete rid =>
    obtain ⟨h1, h2⟩ := fh.delete_record_freeOk rid chain hok hfree
    show ∃ chain1, (fh.delete_record rid).2.FreeOk chain1
    cases hr : (fh.delete_record rid).1 with
    | error e =>
      rw [h1 e hr]
      exact ⟨chain, hfree⟩
    | ok u =>
      obtain ⟨chain1, hf, _⟩ := h2 hr
      exact ⟨chain1, hf⟩
  | update rid buf => exact ⟨chain, fh.update_record_freeOk rid buf chain hok hfree⟩

theorem RmFileHandle.run_freeOk (ops : List RmOp) :
    ∀ (fh : RmFileHandle) (chain : List Int), fh.PagesOk →
      0 < fh.file_hdr_.num_records_per_page → fh.FreeOk chain →
      ∃ chain1, (RmFileHandle.run ops fh).FreeOk chain1 := by
  induction ops with
  | nil =>
    intro fh chain _ _ hfree
    exact ⟨chain, hfree⟩
  | cons op ops ih =>
    intro fh chain hok hn hfree
    obtain ⟨chain1, hf1⟩ := fh.step_freeOk op chain hok hn hfree
    obtain ⟨hok1, hn1⟩ := fh.step_pagesOk op hok
    exact ih (fh.step op) chain1 hok1 (by rw [hn1]; exact hn) hf1

theorem RmFileHandle.create_freeOk (record_size : Nat) (n : Int) (bitmap_size : Nat) :
    (RmFileHandle.create record_size n bitmap_size).FreeOk [] := by
  refine ⟨rfl, List.nodup_nil, ?_⟩
  intro p
  simp only [List.not_mem_nil, false_iff, not_and, not_exists]
  intro _ _ pg h
  cases h

/-- C22: in the file reached from a newly created file with at least one slot per page by
any sequence of `insert_record`, `delete_record` and `update_record` calls, the chain from
the header's `first_free_page_no` along the `next_free_page_no` links reaches the sentinel,
has no repeated page and holds exactly the pages with an unset bit among their slots. One
more call changes the chain as follows: an `insert_record` returns, and either the page of
the returned Rid has no free slot left and that page alone leaves the chain, or it still
has one and the chain is as before (with that page at the head when it was newly
allocated); a returning `delete_record` puts the page of its Rid at the head when that page
had no free slot, and leaves the chain as it was otherwise; a throwing `delete_record` and
every `update_record` leave it as it was. -/
theorem reachable_free_list (ops : List RmOp) (record_size : Nat) (n : Int)
    (bitmap_size : Nat) (hn : 0 < n) :
    ∃ chain,
      (RmFileHandle.run ops (RmFileHandle.create record_size n bitmap_size)).free_list
        = some chain ∧
      chain.Nodup ∧
      (∀ p, p ∈ chain ↔
        (RmFileHandle.run ops (RmFileHandle.create record_size n bitmap_size)).hasFreeSlot p) ∧
      (∀ buf, ∃ rid fh1 chain1,
        (RmFileHandle.run ops (RmFileHandle.create record_size n bitmap_size)).insert_record buf
          = (.ok rid, fh1) ∧
        fh1.free_list = some chain1 ∧
        (fh1.hasFreeSlot rid.page_no →
          chain1 = if rid.page_no ∈ chain then chain else rid.page_no :: chain) ∧
        (¬ fh1.hasFreeSlot rid.page_no → chain1 = chain.filter (fun q => q ≠ rid.page_no)) ∧
        (rid.page_no ∈ chain ∨
          rid.page_no = (RmFileHandle.run ops
            (RmFileHandle.create record_size n bitmap_size)).file_hdr_.num_pages)) ∧
      (∀ rid,
        ((RmFileHandle.run ops
          (RmFileHandle.create record_size n bitmap_size)).delete_record rid).1 = .ok () →
        ∃ chain1,
          ((RmFileHandle.run ops
            (RmFileHandle.create record_size n bitmap_size)).delete_record rid).2.free_list
            = some chain1 ∧
          ((RmFileHandle.run ops
              (RmFileHandle.create record_size n bitmap_size)).hasFreeSlot rid.page_no →
            chain1 = chain) ∧
          (¬ (RmFileHandle.run ops
              (RmFileHandle.create record_size n bitmap_size)).hasFreeSlot rid.page_no →
            chain1 = rid.page_no :: chain)) ∧
      (∀ rid e,
        ((RmFileHandle.run ops
          (RmFileHandle.create record_size n bitmap_size)).delete_record rid).1 = .error e →
        ((RmFileHandle.run ops
          (RmFileHandle.create record_size n bitmap_size)).delete_record rid).2.free_list
          = some chain) ∧
      ∀ rid buf,
        ((RmFileHandle.run ops
          (RmFileHandle.create record_size n bitmap_size)).update_record rid buf).2.free_list
          = some chain := by
  have hc := RmFileHandle.create_pagesOk record_size n bitmap_size
  obtain ⟨hok, hn0⟩ := RmFileHandle.run_pagesOk ops _ hc
  obtain ⟨chain, hfree⟩ := RmFileHandle.run_freeOk ops _ [] hc hn
    (RmFileHandle.create_freeOk record_size n bitmap_size)
  generalize RmFileHandle.run ops (RmFileHandle.create record_size n bitmap_size) = fh
    at hok hn0 hfree ⊢
  have hn1 : 0 < fh.file_hdr_.num_records_per_page := by
    rw [hn0]
    exact hn
  have hmem : ∀ (f : RmFileHandle) (c : List Int), f.PagesOk → f.FreeOk c →
      ∀ p, p ∈ c ↔ f.hasFreeSlot p := by
    intro f c h1 h2 p
    rw [f.hasFreeSlot_iff h1 p]
    exact h2.2.2 p
  refine ⟨chain, fh.freeOk_free_list chain hfree, hfree.2.1, hmem fh chain hok hfree,
    ?_, ?_, ?_, ?_⟩
  · intro buf
    obtain ⟨rid, fh3, chain3, h3, _, hf3, i1, i2, i3⟩ :=
      fh.insert_record_freeOk buf chain hok hn1 hfree
    have hok3 : fh3.PagesOk := by
      have := (fh.insert_record_pagesOk buf hok).1
      rw [h3] at this
      exact this
    refine ⟨rid, fh3, chain3, h3, fh3.freeOk_free_list chain3 hf3, ?_, ?_, i3⟩
    · intro h
      exact i1 ((hmem fh3 chain3 hok3 hf3 _).2 h)
    · intro h
      exact i2 (fun hin => h ((hmem fh3 chain3 hok3 hf3 _).1 hin))
  · intro rid hr
    obtain ⟨chain1, hf1, i1, i2⟩ := (fh.delete_record_freeOk rid chain hok hfree).2 hr
    refine ⟨chain1, RmFileHandle.freeOk_free_list _ chain1 hf1, ?_, ?_⟩
    · intro h
      exact i1 ((hmem fh chain hok hfree _).2 h)
    · intro h
      exact i2 (fun hin => h ((hmem fh chain hok hfree _).1 hin))
  · intro rid e hr
    rw [(fh.delete_record_freeOk rid chain hok hfree).1 e hr]
    exact fh.freeOk_free_list chain hfree
  · intro rid buf
    exact RmFileHandle.freeOk_free_list _ chain (fh.update_record_freeOk rid buf chain hok hfree)

/-- C22 on the example history over pages of two slots: page 0 left the chain when the
second insert filled it, page 1 entered it when it was allocated, and the delete at (0,0)
put page 0 back at the head: the chain is 0, 1. -/
theorem reachable_free_list_witness :
    (RmFileHandle.run exampleHistory (RmFileHandle.create 4 2 1)).free_list = some [0, 1] ∧
      ∀ p, p ∈ [(0 : Int), 1] ↔
        (RmFileHandle.run exampleHistory (RmFileHandle.create 4 2 1)).hasFreeSlot p := by
  obtain ⟨chain, h1, _, h3, _⟩ := reachable_free_list exampleHistory 4 2 1 (by decide)
  have e : (RmFileHandle.run exampleHistory (RmFileHandle.create 4 2 1)).free_list
      = some [0, 1] := rfl
  rw [e] at h1
  cases h1
  exact ⟨e, h3⟩

theorem RmFileHandle.create_page_handle_error (fh fh1 : RmFileHandle) (e : RmError)
    (h : fh.create_page_handle = (.error e, fh1)) :
    e = .InternalError "Failed to create new page" ∨ ∃ p, e = .PageNotExistError p := by
  unfold RmFileHandle.create_page_handle at h
  by_cases hfree : fh.file_hdr_.first_free_page_no = -1
  · rw [if_pos hfree] at h
    unfold RmFileHandle.create_new_page_handle RmFileHandle.new_page at h
    by_cases hp : fh.file_hdr_.num_pages < 0
    · simp only [hp, if_true] at h
      left
      have := congrArg Prod.fst h
      cases this
      rfl
    · simp only [hp, if_false] at h
      exact absurd (congrArg Prod.fst h) (fun h1 => by cases h1)
  · rw [if_neg hfree] at h
    right
    have h1 : fh.fetch_page_handle fh.file_hdr_.first_free_page_no = .error e :=
      congrArg Prod.fst h
    unfold RmFileHandle.fetch_page_handle at h1
    split at h1
    · cases h1
      exact ⟨_, rfl⟩
    · split at h1
      · cases h1
        exact ⟨_, rfl⟩
      · cases h1

theorem RmFileHandle.create_page_handle_has_slot (fh fh1 : RmFileHandle) (ph : RmPageHandle)
    (hn : 0 < fh.file_hdr_.num_records_per_page)
    (hhead : ∀ pg, fh.file_hdr_.first_free_page_no ≠ -1 →
      fh.fetch_page fh.file_hdr_.first_free_page_no = some pg →
      ∃ i, 0 ≤ i ∧ i < fh.file_hdr_.num_records_per_page ∧ pg.bitmap i = false)
    (hc : fh.create_page_handle = (.ok ph, fh1)) :
    Bitmap.first_bit false ph.page.bitmap fh1.file_hdr_.num_records_per_page ≠ -1 := by
  intro hj
  by_cases hfree : fh.file_hdr_.first_free_page_no = -1
  · by_cases hp : 0 ≤ fh.file_hdr_.num_pages
    · obtain ⟨fh2, h2, _, _, a3, _, _⟩ := fh.create_page_handle_new hfree hp
      rw [h2] at hc
      have e1 : ph = ⟨fh.file_hdr_.num_pages,
          ⟨⟨-1, 0⟩, fun _ => false, fun _ => List.replicate fh.file_hdr_.record_size 0⟩⟩ := by
        cases hc
        rfl
      have e2 : fh1 = fh2 := (congrArg Prod.snd hc).symm
      subst e1 e2
      have := Bitmap.first_bit_none _ _ hj 0 (le_refl _) (by rw [a3]; exact hn)
      cases this
    · unfold RmFileHandle.create_page_handle at hc
      rw [if_pos hfree] at hc
      unfold RmFileHandle.create_new_page_handle RmFileHandle.new_page at hc
      have hp1 : fh.file_hdr_.num_pages < 0 := by omega
      simp only [hp1, if_true] at hc
      exact absurd (congrArg Prod.fst hc) (fun h1 => by cases h1)
  · obtain ⟨e, a1, a2, _, a4⟩ := fh.create_page_handle_old fh1 ph hfree hc
    subst e
    obtain ⟨i, i0, i1, i2⟩ := hhead ph.page hfree (by
      rw [← a1, fh1.fetch_page_nonneg _ a2]
      exact a4)
    have := Bitmap.first_bit_none _ _ hj i i0 i1
    rw [i2] at this
    cases this

/-- C27: on a file with at least one slot per page in which the page at the head of the
free-page list, when there is one, has an unset bit among its slots, the bitmap search of
`insert_record` on the page handed out by `create_page_handle` finds a free slot, so
`insert_record` does not throw "No free slot found in page". In every file reached from a
newly created one by `insert_record`, `delete_record` and `update_record` calls,
`insert_record` returns a Rid. -/
theorem insert_finds_free_slot (fh : RmFileHandle) (buf : List Byte)
    (hn : 0 < fh.file_hdr_.num_records_per_page)
    (hhead : ∀ pg, fh.file_hdr_.first_free_page_no ≠ -1 →
      fh.fetch_page fh.file_hdr_.first_free_page_no = some pg →
      ∃ i, 0 ≤ i ∧ i < fh.file_hdr_.num_records_per_page ∧ pg.bitmap i = false) :
    (∀ ph fh1, fh.create_page_handle = (.ok ph, fh1) →
      Bitmap.first_bit false ph.page.bitmap fh1.file_hdr_.num_records_per_page ≠ -1 ∧
      (fh.insert_record buf).1 = .ok ⟨ph.page_no,
        Bitmap.first_bit false ph.page.bitmap fh1.file_hdr_.num_records_per_page⟩) ∧
    (fh.insert_record buf).1 ≠ .error (.InternalError "No free slot found in page") ∧
    ∀ (ops : List RmOp) (record_size : Nat) (n : Int) (bitmap_size : Nat), 0 < n →
      ∃ rid, ((RmFileHandle.run ops
        (RmFileHandle.create record_size n bitmap_size)).insert_record buf).1 = .ok rid := by
  refine ⟨?_, ?_, ?_⟩
  · intro ph fh1 hc
    have hj := fh.create_page_handle_has_slot fh1 ph hn hhead hc
    obtain ⟨fh3, h3, _⟩ := fh.insert_record_of_slot fh1 buf ph hc hj
    exact ⟨hj, by rw [h3]⟩
  · rcases hc : fh.create_page_handle with ⟨r, fh1⟩
    cases r with
    | error e =>
      rw [fh.insert_record_of_fail fh1 buf e hc]
      rcases fh.create_page_handle_error fh1 e hc with h | ⟨p, h⟩
      · rw [h]
        simp
      · rw [h]
        simp
    | ok ph =>
      have hj := fh.create_page_handle_has_slot fh1 ph hn hhead hc
      obtain ⟨fh3, h3, _⟩ := fh.insert_record_of_slot fh1 buf ph hc hj
      rw [h3]
      simp
  · intro ops record_size n bitmap_size hn0
    have hc := RmFileHandle.create_pagesOk record_size n bitmap_size
    obtain ⟨hok, hn1⟩ := RmFileHandle.run_pagesOk ops _ hc
    obtain ⟨chain, hfree⟩ := RmFileHandle.run_freeOk ops _ [] hc hn0
      (RmFileHandle.create_freeOk record_size n bitmap_size)
    obtain ⟨rid, fh3, _, h3, _⟩ := RmFileHandle.insert_record_freeOk _ buf chain hok
      (by rw [hn1]; exact hn0) hfree
    exact ⟨rid, by rw [h3]⟩

/-- C27 on the file after the example history: the head of the free-page list is page 0,
whose slot 0 is free, and `insert_record` returns (0,0). -/
theorem insert_finds_free_slot_witness :
    ((RmFileHandle.run exampleHistory (RmFileHandle.create 4 2 1)).insert_record
      [7, 0, 0, 0]).1 = .ok ⟨0, 0⟩ :=
  ((insert_finds_free_slot (RmFileHandle.run exampleHistory (RmFileHandle.create 4 2 1))
    [7, 0, 0, 0] (by decide)
    (fun pg _ hpg => ⟨0, le_refl _, by decide, by
      have h0 : Option.map (fun q : RmPage => q.bitmap 0)
          ((RmFileHandle.run exampleHistory (RmFileHandle.create 4 2 1)).fetch_page
            (RmFileHandle.run exampleHistory
              (RmFileHandle.create 4 2 1)).file_hdr_.first_free_page_no) = some false := rfl
      rw [hpg] at h0
      exact Option.some.inj h0⟩)).1 _ _ rfl).2

/-! ## Update executor: effect order and idempotence -/

theorem UpdateExecutor.ready_of_wf (env : ExecEnv) (ex : UpdateExecutor)
    (hwf : ∀ sc ∈ ex.set_clauses_, ∃ col raw,
      ex.tab_.get_col sc.lhs.col_name = .ok col ∧ col.type = sc.rhs.type ∧
      env.init_raw { sc.rhs with raw := none } col.len = .ok raw ∧
      raw.data.length = col.len ∧ col.offset + col.len ≤ ex.fh_.file_hdr_.record_size)
    (hlive : ∀ rid ∈ ex.rids_, ∃ old, ex.fh_.get_record rid = .ok (some old) ∧
      old.data.length = ex.fh_.file_hdr_.record_size) :
    UpdateExecutor.Ready env ex ex.rids_ := by
  refine ⟨?_, ?_, hlive⟩
  · intro sc hsc
    obtain ⟨col, raw, h1, h2, h3, _, _⟩ := hwf sc hsc
    exact ⟨_, resolveClause_eq_some env ex.tab_ sc col raw h1 h2 h3⟩
  · intro w hw
    obtain ⟨sc, hsc, hw1⟩ := List.mem_filterMap.1 hw
    obtain ⟨col, raw, h1, h2, h3, h4, h5⟩ := hwf sc hsc
    rw [resolveClause_eq_some env ex.tab_ sc col raw h1 h2 h3] at hw1
    cases hw1
    exact ⟨h4, h5⟩

theorem UpdateExecutor.post_length (env : ExecEnv) (ex : UpdateExecutor) (rids : List Rid)
    (hready : UpdateExecutor.Ready env ex rids) (d : List Byte)
    (hd : d.length = ex.fh_.file_hdr_.record_size) :
    (UpdateExecutor.post env ex d).length = ex.fh_.file_hdr_.record_size :=
  (writeCols_length _ d (by rw [hd]; exact hready.2.1)).trans hd

theorem UpdateExecutor.post_idem (env : ExecEnv) (ex : UpdateExecutor) (rids : List Rid)
    (hready : UpdateExecutor.Ready env ex rids) (d : List Byte)
    (hd : d.length = ex.fh_.file_hdr_.record_size) :
    UpdateExecutor.post env ex (UpdateExecutor.post env ex d) = UpdateExecutor.post env ex d :=
  writeCols_idem _ d (by rw [hd]; exact hready.2.1)

theorem UpdateExecutor.ready_step (env : ExecEnv) (ex : UpdateExecutor) (rid : Rid)
    (rest : List Rid) (hready : UpdateExecutor.Ready env ex (rid :: rest)) :
    ∃ old ex1, ex.fh_.get_record rid = .ok (some old) ∧
      old.data.length = ex.fh_.file_hdr_.record_size ∧
      UpdateExecutor.update_one env ex rid = (.ok (), ex1) ∧
      ex1.tab_ = ex.tab_ ∧ ex1.set_clauses_ = ex.set_clauses_ ∧
      ex1.ihs_ = UpdateExecutor.update_indexes old.data (UpdateExecutor.post env ex old.data)
        rid ex.tab_.indexes ex.ihs_ ∧
      ex1.fh_.file_hdr_ = ex.fh_.file_hdr_ ∧ SameLayout ex.fh_ ex1.fh_ ∧
      ex1.fh_.get_record rid = .ok (some ⟨ex.fh_.file_hdr_.record_size,
        UpdateExecutor.post env ex old.data⟩) ∧
      (∀ r, r ≠ rid → ex1.fh_.get_record r = ex.fh_.get_record r) ∧
      (∀ d, UpdateExecutor.post env ex1 d = UpdateExecutor.post env ex d) ∧
      UpdateExecutor.Ready env ex1 rest := by
  obtain ⟨hres, hfit, hlive⟩ := hready
  obtain ⟨old, hold, holdlen⟩ := hlive rid (List.mem_cons_self _ _)
  have hlen := UpdateExecutor.post_length env ex _ ⟨hres, hfit, hlive⟩ old.data holdlen
  unfold UpdateExecutor.post at hlen
  obtain ⟨hu1, hu2, hu3, hu4⟩ := ex.fh_.update_record_effect rid _ old hold hlen
  obtain ⟨ex1, hone, e_tab, e_sc, e_ihs, e_fh⟩ : ∃ ex1,
      UpdateExecutor.update_one env ex rid = (.ok (), ex1) ∧ ex1.tab_ = ex.tab_ ∧
      ex1.set_clauses_ = ex.set_clauses_ ∧
      ex1.ihs_ = UpdateExecutor.update_indexes old.data
        (writeCols (ex.set_clauses_.filterMap (resolveClause env ex.tab_)) old.data)
        rid ex.tab_.indexes ex.ihs_ ∧
      ex1.fh_ = (ex.fh_.update_record rid
        (writeCols (ex.set_clauses_.filterMap (resolveClause env ex.tab_)) old.data)).2 := by
    unfold UpdateExecutor.update_one
    simp only [hold, memcpy_full _ _ holdlen,
      UpdateExecutor.apply_set_clauses_eq env ex.tab_ ex.set_clauses_ old.data hres]
    rcases hu : ex.fh_.update_record rid
      (writeCols (ex.set_clauses_.filterMap (resolveClause env ex.tab_)) old.data)
      with ⟨r, fh1⟩
    rw [hu] at hu1
    cases r with
    | error e => cases hu1
    | ok u => exact ⟨_, rfl, rfl, rfl, rfl, rfl⟩
  rw [← e_fh] at hu2 hu3 hu4
  have e_hdr : ex1.fh_.file_hdr_ = ex.fh_.file_hdr_ := hu2.1
  have e_post : ∀ d, UpdateExecutor.post env ex1 d = UpdateExecutor.post env ex d := by
    intro d
    unfold UpdateExecutor.post
    rw [e_tab, e_sc]
  refine ⟨old, ex1, hold, holdlen, hone, e_tab, e_sc, e_ihs, e_hdr, hu2, hu3, hu4, e_post,
    ?_, ?_, ?_⟩
  · rw [e_tab, e_sc]
    exact hres
  · rw [e_tab, e_sc, e_hdr]
    exact hfit
  · intro r hr
    by_cases hne : r = rid
    · rw [hne, e_hdr]
      exact ⟨_, hu3, hlen⟩
    · rw [hu4 r hne, e_hdr]
      exact hlive r (List.mem_cons_of_mem _ hr)

theorem UpdateExecutor.update_indexes_logged_eq (old_data new_data : List Byte) (rid : Rid)
    (idxs : List IndexMeta) :
    ∀ (ihs : List String → IxIndexHandle) (log : List UpdateEffect),
      UpdateExecutor.update_indexes_logged old_data new_data rid idxs ihs log =
        (UpdateExecutor.update_indexes old_data new_data rid idxs ihs,
          log ++ idxs.flatMap (fun index =>
            [UpdateEffect.index_delete (get_index_name index.cols)
                (UpdateExecutor.index_key index old_data),
              UpdateEffect.index_insert (get_index_name index.cols)
                (UpdateExecutor.index_key index new_data) rid])) := by
  induction idxs with
  | nil =>
    intro ihs log
    simp [UpdateExecutor.update_indexes_logged, UpdateExecutor.update_indexes]
  | cons index rest ih =>
    intro ihs log
    rw [UpdateExecutor.update_indexes_logged, UpdateExecutor.update_indexes]
    rw [ih]
    simp [List.flatMap_cons, List.append_assoc]

theorem UpdateExecutor.update_one_logged_erase (env : ExecEnv) (ex : UpdateExecutor)
    (rid : Rid) (log : List UpdateEffect) :
    (UpdateExecutor.update_one_logged env ex rid log).1 = (UpdateExecutor.update_one env ex rid).1 ∧
      (UpdateExecutor.update_one_logged env ex rid log).2.1
        = (UpdateExecutor.update_one env ex rid).2 := by
  unfold UpdateExecutor.update_one_logged UpdateExecutor.update_one
  cases hg : ex.fh_.get_record rid with
  | error e => exact ⟨rfl, rfl⟩
  | ok o =>
    cases o with
    | none => exact ⟨rfl, rfl⟩
    | some old =>
      simp only []
      cases ha : UpdateExecutor.apply_set_clauses env ex.tab_ ex.set_clauses_
          (memcpy (List.replicate ex.fh_.file_hdr_.record_size 0) old.data
            ex.fh_.file_hdr_.record_size) with
      | error e => exact ⟨rfl, rfl⟩
      | ok new_record =>
        simp only [UpdateExecutor.update_indexes_logged_eq]
        rcases hu : ex.fh_.update_record rid new_record with ⟨r, fh1⟩
        cases r with
        | error e => exact ⟨rfl, rfl⟩
        | ok u => exact ⟨rfl, rfl⟩

theorem UpdateExecutor.update_one_logged_log (env : ExecEnv) (ex ex1 : UpdateExecutor)
    (rid : Rid) (log : List UpdateEffect) (old : RmRecord) (new_record : List Byte)
    (hold : ex.fh_.get_record rid = .ok (some old))
    (hnew : UpdateExecutor.apply_set_clauses env ex.tab_ ex.set_clauses_
      (memcpy (List.replicate ex.fh_.file_hdr_.record_size 0) old.data
        ex.fh_.file_hdr_.record_size) = .ok new_record)
    (hone : UpdateExecutor.update_one env ex rid = (.ok (), ex1)) :
    UpdateExecutor.update_one_logged env ex rid log =
      (.ok (), ex1, log ++ updateEffects ex.tab_ rid old.data new_record) := by
  unfold UpdateExecutor.update_one at hone
  unfold UpdateExecutor.update_one_logged
  simp only [hold, hnew, UpdateExecutor.update_indexes_logged_eq] at hone ⊢
  rcases hu : ex.fh_.update_record rid new_record with ⟨r, fh1⟩
  rw [hu] at hone
  cases r with
  | error e => exact absurd (congrArg Prod.fst hone) (fun h => by cases h)
  | ok u =>
    simp only [Prod.mk.injEq, true_and] at hone
    subst hone
    simp [updateEffects, List.append_assoc]

theorem UpdateExecutor.Next_loop_logged_spec (env : ExecEnv) (rids : List Rid) :
    ∀ (ex : UpdateExecutor) (log : List UpdateEffect), UpdateExecutor.Ready env ex rids →
      ∃ fin olds,
        UpdateExecutor.Next_loop_logged env rids ex log =
          (.ok (), fin, log ++ (rids.zip olds).flatMap (fun p =>
            updateEffects ex.tab_ p.1 p.2.data (UpdateExecutor.post env ex p.2.data))) ∧
        UpdateExecutor.Next_loop env rids ex = (.ok (), fin) ∧
        olds.length = rids.length ∧
        (∀ p ∈ rids.zip olds, ∃ old0, ex.fh_.get_record p.1 = .ok (some old0) ∧
          (p.2 = old0 ∨
            p.2 = ⟨ex.fh_.file_hdr_.record_size, UpdateExecutor.post env ex old0.data⟩)) ∧
        (rids.Nodup → ∀ p ∈ rids.zip olds, ex.fh_.get_record p.1 = .ok (some p.2)) := by
  induction rids with
  | nil =>
    intro ex log _
    refine ⟨ex, [], ?_, rfl, rfl, ?_, ?_⟩
    · simp [UpdateExecutor.Next_loop_logged]
    · intro p hp
      simp at hp
    · intro _ p hp
      simp at hp
  | cons rid rest ih =>
    intro ex log hready
    obtain ⟨old, ex1, hold, holdlen, hone, e_tab, e_sc, _, e_hdr, _, hget, hother, e_post,
      hready1⟩ := UpdateExecutor.ready_step env ex rid rest hready
    have hnew : UpdateExecutor.apply_set_clauses env ex.tab_ ex.set_clauses_
        (memcpy (List.replicate ex.fh_.file_hdr_.record_size 0) old.data
          ex.fh_.file_hdr_.record_size) = .ok (UpdateExecutor.post env ex old.data) := by
      rw [memcpy_full _ _ holdlen,
        UpdateExecutor.apply_set_clauses_eq env ex.tab_ ex.set_clauses_ old.data hready.1]
      rfl
    have hlogged := UpdateExecutor.update_one_logged_log env ex ex1 rid log old _ hold hnew hone
    obtain ⟨fin, olds, h1, h2, h3, h4, h5⟩ := ih ex1
      (log ++ updateEffects ex.tab_ rid old.data (UpdateExecutor.post env ex old.data)) hready1
    have hfun : (fun p : Rid × RmRecord =>
        updateEffects ex1.tab_ p.1 p.2.data (UpdateExecutor.post env ex1 p.2.data)) =
        (fun p : Rid × RmRecord =>
          updateEffects ex.tab_ p.1 p.2.data (UpdateExecutor.post env ex p.2.data)) := by
      funext p
      rw [e_tab, e_post]
    rw [hfun] at h1
    refine ⟨fin, old :: olds, ?_, ?_, ?_, ?_, ?_⟩
    · rw [UpdateExecutor.Next_loop_logged, hlogged]
      simp only
      rw [h1, List.zip_cons_cons, List.flatMap_cons, List.append_assoc]
    · rw [UpdateExecutor.Next_loop, hone]
      exact h2
    · simp only [List.length_cons, h3]
    · intro p hp
      rw [List.zip_cons_cons, List.mem_cons] at hp
      rcases hp with hp | hp
      · rw [hp]
        exact ⟨old, hold, Or.inl rfl⟩
      · obtain ⟨o0, g1, g2⟩ := h4 p hp
        rw [e_hdr] at g2
        by_cases hne : p.1 = rid
        · rw [hne, hget] at g1
          cases g1
          refine ⟨old, by rw [hne]; exact hold, Or.inr ?_⟩
          rcases g2 with g2 | g2
          · exact g2
          · rw [g2, e_post]
            simp only
            rw [UpdateExecutor.post_idem env ex _ hready old.data holdlen]
        · rw [hother p.1 hne] at g1
          refine ⟨o0, g1, ?_⟩
          rw [e_post] at g2
          exact g2
    · intro hnd p hp
      obtain ⟨hnot, hnd1⟩ := List.nodup_cons.1 hnd
      rw [List.zip_cons_cons, List.mem_cons] at hp
      rcases hp with hp | hp
      · rw [hp]
        exact hold
      · have hmem : p.1 ∈ rest := (List.of_mem_zip (show (p.1, p.2) ∈ rest.zip olds from hp)).1
        have hne : p.1 ≠ rid := by
          intro e
          rw [e] at hmem
          exact hnot hmem
        rw [← hother p.1 hne]
        exact h5 hnd1 p hp

theorem UpdateExecutor.Next_logged_erase (env : ExecEnv) (ex : UpdateExecutor) :
    (UpdateExecutor.Next_logged env ex).1 = (UpdateExecutor.Next env ex).1 ∧
      (UpdateExecutor.Next_logged env ex).2.1 = (UpdateExecutor.Next env ex).2 := by
  have hloop : ∀ (rids : List Rid) (ex0 : UpdateExecutor) (log : List UpdateEffect),
      (UpdateExecutor.Next_loop_logged env rids ex0 log).1
        = (UpdateExecutor.Next_loop env rids ex0).1 ∧
      (UpdateExecutor.Next_loop_logged env rids ex0 log).2.1
        = (UpdateExecutor.Next_loop env rids ex0).2 := by
    intro rids
    induction rids with
    | nil =>
      intro ex0 log
      exact ⟨rfl, rfl⟩
    | cons rid rest ih =>
      intro ex0 log
      rw [UpdateExecutor.Next_loop_logged, UpdateExecutor.Next_loop]
      obtain ⟨a, b⟩ := UpdateExecutor.update_one_logged_erase env ex0 rid log
      rcases h1 : UpdateExecutor.update_one_logged env ex0 rid log with ⟨r1, ex1, log1⟩
      rcases h2 : UpdateExecutor.update_one env ex0 rid with ⟨r2, ex2⟩
      rw [h1, h2] at a b
      simp only at a b
      subst a b
      cases r1 with
      | error e => exact ⟨rfl, rfl⟩
      | ok u => exact ih ex1 log1
  unfold UpdateExecutor.Next_logged UpdateExecutor.Next
  obtain ⟨a, b⟩ := hloop ex.rids_ ex []
  rcases h1 : UpdateExecutor.Next_loop_logged env ex.rids_ ex [] with ⟨r1, ex1, log1⟩
  rcases h2 : UpdateExecutor.Next_loop env ex.rids_ ex with ⟨r2, ex2⟩
  rw [h1, h2] at a b
  simp only at a b
  subst a b
  cases r1 with
  | error e => exact ⟨rfl, rfl⟩
  | ok u => exact ⟨rfl, rfl⟩

/-- C23: when every set clause is applicable and every target Rid holds a live record,
the effects of `Next` on the heap file and on the index handles are, for the target Rids
in list order, one after the other: the read of the Rid, then for each declared index in
declaration order the `delete_entry` of the key of the record read followed by the
`insert_entry` of the key of its post-image at that Rid, and last the `update_record` of
the Rid with the post-image. The record read at a Rid is the one the file held before
`Next` (or its post-image, when the Rid occurred earlier in the list). The logged run
returns what `Next` returns and leaves the state `Next` leaves. -/
theorem update_effect_order (env : ExecEnv) (ex : UpdateExecutor)
    (hwf : ∀ sc ∈ ex.set_clauses_, ∃ col raw,
      ex.tab_.get_col sc.lhs.col_name = .ok col ∧ col.type = sc.rhs.type ∧
      env.init_raw { sc.rhs with raw := none } col.len = .ok raw ∧
      raw.data.length = col.len ∧ col.offset + col.len ≤ ex.fh_.file_hdr_.record_size)
    (hlive : ∀ rid ∈ ex.rids_, ∃ old, ex.fh_.get_record rid = .ok (some old) ∧
      old.data.length = ex.fh_.file_hdr_.record_size) :
    ∃ olds : List RmRecord, olds.length = ex.rids_.length ∧
      (UpdateExecutor.Next_logged env ex).1 = .ok none ∧
      (UpdateExecutor.Next_logged env ex).2.2 =
        (ex.rids_.zip olds).flatMap (fun p =>
          updateEffects ex.tab_ p.1 p.2.data (UpdateExecutor.post env ex p.2.data)) ∧
      (∀ p ∈ ex.rids_.zip olds, ∃ old0, ex.fh_.get_record p.1 = .ok (some old0) ∧
        (p.2 = old0 ∨
          p.2 = ⟨ex.fh_.file_hdr_.record_size, UpdateExecutor.post env ex old0.data⟩)) ∧
      (ex.rids_.Nodup → ∀ p ∈ ex.rids_.zip olds, ex.fh_.get_record p.1 = .ok (some p.2)) ∧
      (UpdateExecutor.Next_logged env ex).1 = (UpdateExecutor.Next env ex).1 ∧
      (UpdateExecutor.Next_logged env ex).2.1 = (UpdateExecutor.Next env ex).2 := by
  obtain ⟨fin, olds, h1, _, h3, h4, h5⟩ := UpdateExecutor.Next_loop_logged_spec env ex.rids_ ex []
    (UpdateExecutor.ready_of_wf env ex hwf hlive)
  obtain ⟨e1, e2⟩ := UpdateExecutor.Next_logged_erase env ex
  refine ⟨olds, h3, ?_, ?_, h4, h5, e1, e2⟩
  · unfold UpdateExecutor.Next_logged
    rw [h1]
  · unfold UpdateExecutor.Next_logged
    rw [h1]
    simp

/-- C23 at the example table: `SET a = 99` on the targets (0,0) and (0,2), with the index
on `a`. -/
theorem update_effect_order_witness :
    (UpdateExecutor.Next_logged updEnv (exampleUpdate [⟨0, 0⟩, ⟨0, 2⟩])).2.2 =
      [.heap_read ⟨0, 0⟩, .index_delete ["a"] (enc4 1), .index_insert ["a"] (enc4 99) ⟨0, 0⟩,
        .heap_update ⟨0, 0⟩ (enc4 99),
        .heap_read ⟨0, 2⟩, .index_delete ["a"] (enc4 2), .index_insert ["a"] (enc4 99) ⟨0, 2⟩,
        .heap_update ⟨0, 2⟩ (enc4 99)] ∧
    ∃ olds : List RmRecord, olds.length = 2 ∧
      (UpdateExecutor.Next_logged updEnv (exampleUpdate [⟨0, 0⟩, ⟨0, 2⟩])).2.2 =
        (([⟨0, 0⟩, ⟨0, 2⟩] : List Rid).zip olds).flatMap (fun p =>
          updateEffects exampleTab p.1 p.2.data
            (UpdateExecutor.post updEnv (exampleUpdate [⟨0, 0⟩, ⟨0, 2⟩]) p.2.data)) := by
  obtain ⟨olds, h1, _, h3, _⟩ := update_effect_order updEnv (exampleUpdate [⟨0, 0⟩, ⟨0, 2⟩])
    (fun sc hsc => by
      rw [List.mem_singleton.1 hsc]
      exact ⟨⟨"t", "a", .TYPE_INT, 4, 0⟩, ⟨4, enc4 99⟩, rfl, rfl, rfl, rfl, by decide⟩)
    (fun rid hrid => by
      rcases List.mem_cons.1 hrid with h | h
      · rw [h]
        exact ⟨⟨4, enc4 1⟩, rfl, rfl⟩
      · rw [List.mem_singleton.1 h]
        exact ⟨⟨4, enc4 2⟩, rfl, rfl⟩)
  exact ⟨rfl, olds, h1, h3⟩

theorem UpdateExecutor.key_loop_spec (data : List Byte) (cols : List ColMeta) :
    ∀ (off : Nat) (key : List Byte), (∀ c ∈ cols, c.offset + c.len ≤ data.length) →
      off ≤ key.length →
      UpdateExecutor.key_loop data cols off key =
        key.take off ++ cols.flatMap (colBytes data) ++ key.drop (off + colsLen cols) := by
  induction cols with
  | nil =>
    intro off key _ _
    simp [UpdateExecutor.key_loop, colsLen]
  | cons c cs ih =>
    intro off key hin hoff
    have hc := colBytes_length data c (hin c (List.mem_cons_self _ _))
    have hkey : memcpy_at key off (data.drop c.offset) c.len =
        (key.take off ++ colBytes data c) ++ key.drop (off + c.len) := by
      unfold memcpy_at memcpy colBytes
      rw [List.drop_drop, List.append_assoc]
    have hlen : (key.take off ++ colBytes data c).length = off + c.len := by
      rw [List.length_append, List.length_take, hc, Nat.min_eq_left hoff]
    rw [UpdateExecutor.key_loop, hkey,
      ih (off + c.len) _ (fun d hd => hin d (List.mem_cons_of_mem _ hd))
        (by rw [List.length_append, hlen]; omega),
      List.take_left' hlen]
    have hdrop : ((key.take off ++ colBytes data c) ++ key.drop (off + c.len)).drop
        (off + c.len + colsLen cs) = key.drop (off + colsLen (c :: cs)) := by
      rw [← hlen, List.drop_append, List.drop_drop, hlen]
      congr 1
      simp only [colsLen, List.map_cons, List.sum_cons]
      omega
    rw [hdrop, List.flatMap_cons]
    simp only [List.append_assoc]

theorem UpdateExecutor.index_key_eq (index : IndexMeta) (data : List Byte)
    (hin : ∀ c ∈ index.cols.take index.col_num, c.offset + c.len ≤ data.length) :
    UpdateExecutor.index_key index data =
      (index.cols.take index.col_num).flatMap (colBytes data) ++
        (List.replicate index.col_tot_len 0).drop (colsLen (index.cols.take index.col_num)) := by
  unfold UpdateExecutor.index_key
  rw [UpdateExecutor.key_loop_spec data _ 0 _ hin (Nat.zero_le _)]
  simp

theorem flatMap_colBytes_inj (d1 d2 : List Byte) (cs : List ColMeta)
    (h1 : ∀ c ∈ cs, c.offset + c.len ≤ d1.length)
    (h2 : ∀ c ∈ cs, c.offset + c.len ≤ d2.length) :
    cs.flatMap (colBytes d1) = cs.flatMap (colBytes d2) ↔
      ∀ c ∈ cs, colBytes d1 c = colBytes d2 c := by
  induction cs with
  | nil => simp
  | cons c cs ih =>
    have l1 := colBytes_length d1 c (h1 c (List.mem_cons_self _ _))
    have l2 := colBytes_length d2 c (h2 c (List.mem_cons_self _ _))
    have ih1 := ih (fun d hd => h1 d (List.mem_cons_of_mem _ hd))
      (fun d hd => h2 d (List.mem_cons_of_mem _ hd))
    rw [List.flatMap_cons, List.flatMap_cons]
    constructor
    · intro h
      obtain ⟨a, b⟩ := List.append_inj h (by rw [l1, l2])
      intro d hd
      rcases List.mem_cons.1 hd with e | e
      · rw [e]
        exact a
      · exact ih1.1 b d e
    · intro h
      rw [h c (List.mem_cons_self _ _), ih1.2 (fun d hd => h d (List.mem_cons_of_mem _ hd))]

theorem UpdateExecutor.index_key_eq_iff (index : IndexMeta) (d1 d2 : List Byte)
    (h1 : ∀ c ∈ index.cols.take index.col_num, c.offset + c.len ≤ d1.length)
    (h2 : ∀ c ∈ index.cols.take index.col_num, c.offset + c.len ≤ d2.length) :
    UpdateExecutor.index_key index d1 = UpdateExecutor.index_key index d2 ↔
      ∀ c ∈ index.cols.take index.col_num, colBytes d1 c = colBytes d2 c := by
  rw [UpdateExecutor.index_key_eq index d1 h1, UpdateExecutor.index_key_eq index d2 h2,
    List.append_left_inj, flatMap_colBytes_inj d1 d2 _ h1 h2]

theorem colBytes_eq_iff (d1 d2 : List Byte) (c : ColMeta) :
    colBytes d1 c = colBytes d2 c ↔
      ∀ i, i < c.len → d1[c.offset + i]? = d2[c.offset + i]? := by
  unfold colBytes
  constructor
  · intro h i hi
    have := congrArg (fun l : List Byte => l[i]?) h
    simp only [List.getElem?_take, hi, if_true, List.getElem?_drop] at this
    exact this
  · intro h
    apply List.ext_getElem?
    intro i
    simp only [List.getElem?_take, List.getElem?_drop]
    by_cases hi : i < c.len
    · simp only [hi, if_true]
      exact h i hi
    · simp only [hi, if_false]

theorem writeCols_getElem?_congr (ws : List (ColMeta × List Byte)) (i : Nat) :
    ∀ d1 d2 : List Byte, d1.length = d2.length →
      (∀ w ∈ ws, w.2.length = w.1.len ∧ w.1.offset + w.1.len ≤ d1.length) →
      d1[i]? = d2[i]? → (writeCols ws d1)[i]? = (writeCols ws d2)[i]? := by
  induction ws with
  | nil =>
    intro d1 d2 _ _ h
    exact h
  | cons a ws ih =>
    intro d1 d2 hl hv h
    obtain ⟨h1, h2⟩ := hv a (List.mem_cons_self _ _)
    have h2b : a.1.offset + a.1.len ≤ d2.length := hl ▸ h2
    have hl1 := memcpy_at_length d1 a.2 a.1.offset a.1.len h2 h1
    have hl2 := memcpy_at_length d2 a.2 a.1.offset a.1.len h2b h1
    have hstep : ∀ d, writeCols (a :: ws) d = writeCols ws (memcpy_at d a.1.offset a.2 a.1.len) :=
      fun d => by simp [writeCols]
    rw [hstep, hstep]
    apply ih
    · rw [hl1, hl2, hl]
    · intro w hw
      rw [hl1]
      exact hv w (List.mem_cons_of_mem _ hw)
    · by_cases hc : i < a.1.offset ∨ a.1.offset + a.1.len ≤ i
      · rw [memcpy_at_outside d1 a.2 a.1.offset a.1.len i h2 h1 hc,
          memcpy_at_outside d2 a.2 a.1.offset a.1.len i h2b h1 hc]
        exact h
      · have e : i = a.1.offset + (i - a.1.offset) := by omega
        rw [e, memcpy_at_inside d1 a.2 a.1.offset a.1.len _ h2 h1 (by omega),
          memcpy_at_inside d2 a.2 a.1.offset a.1.len _ h2b h1 (by omega)]

theorem UpdateExecutor.post_key_stable (env : ExecEnv) (ex : UpdateExecutor) (rids : List Rid)
    (hready : UpdateExecutor.Ready env ex rids) (index : IndexMeta)
    (hkey : ∀ c ∈ index.cols.take index.col_num,
      c.offset + c.len ≤ ex.fh_.file_hdr_.record_size)
    (x y : List Byte) (hx : x.length = ex.fh_.file_hdr_.record_size)
    (hy : y.length = ex.fh_.file_hdr_.record_size)
    (h : UpdateExecutor.index_key index x
      = UpdateExecutor.index_key index (UpdateExecutor.post env ex y)) :
    UpdateExecutor.index_key index (UpdateExecutor.post env ex x)
      = UpdateExecutor.index_key index (UpdateExecutor.post env ex y) := by
  have lx := UpdateExecutor.post_length env ex rids hready x hx
  have ly := UpdateExecutor.post_length env ex rids hready y hy
  have hidem := UpdateExecutor.post_idem env ex rids hready y hy
  rw [UpdateExecutor.index_key_eq_iff index _ _ (by rw [hx]; exact hkey)
    (by rw [ly]; exact hkey)] at h
  rw [UpdateExecutor.index_key_eq_iff index _ _ (by rw [lx]; exact hkey)
    (by rw [ly]; exact hkey)]
  intro c hc
  rw [colBytes_eq_iff]
  intro i hi
  have hp := (colBytes_eq_iff _ _ c).1 (h c hc) i hi
  have := writeCols_getElem?_congr (ex.set_clauses_.filterMap (resolveClause env ex.tab_))
    (c.offset + i) x (UpdateExecutor.post env ex y) (by rw [hx, ly])
    (by rw [hx]; exact hready.2.1) hp
  unfold UpdateExecutor.post at this hidem ⊢
  rw [this, hidem]

theorem exists_last_of_exists {α : Type} (p : α → Prop) (l : List α) (h : ∃ x ∈ l, p x) :
    ∃ pre x suf, l = pre ++ x :: suf ∧ p x ∧ ∀ y ∈ suf, ¬ p y := by
  induction l with
  | nil =>
    obtain ⟨x, hx, _⟩ := h
    simp at hx
  | cons a l ih =>
    by_cases h1 : ∃ x ∈ l, p x
    · obtain ⟨pre, x, suf, e, hp, hs⟩ := ih h1
      exact ⟨a :: pre, x, suf, by rw [e]; rfl, hp, hs⟩
    · obtain ⟨x, hx, hp⟩ := h
      rcases List.mem_cons.1 hx with e | e
      · rw [e] at hp
        exact ⟨[], a, l, rfl, hp, fun y hy hpy => h1 ⟨y, hy, hpy⟩⟩
      · exact absurd ⟨x, e, hp⟩ h1

theorem IxIndexHandle.lookup_delete_insert (ih : IxIndexHandle) (a b K : List Byte)
    (rid : Rid) :
    ((ih.delete_entry a).insert_entry b rid).lookup K =
      if K = b then some rid else if K = a then none else ih.lookup K := rfl

theorem UpdateExecutor.ready_step_lookup (env : ExecEnv) (ex ex1 : UpdateExecutor)
    (rid : Rid) (old : RmRecord) (index : IndexMeta)
    (hnames : (ex.tab_.indexes.map (fun ix => get_index_name ix.cols)).Nodup)
    (hindex : index ∈ ex.tab_.indexes)
    (e_ihs : ex1.ihs_ = UpdateExecutor.update_indexes old.data
      (UpdateExecutor.post env ex old.data) rid ex.tab_.indexes ex.ihs_) (K : List Byte) :
    (ex1.ihs_ (get_index_name index.cols)).lookup K =
      if K = UpdateExecutor.index_key index (UpdateExecutor.post env ex old.data) then some rid
      else if K = UpdateExecutor.index_key index old.data then none
      else (ex.ihs_ (get_index_name index.cols)).lookup K := by
  rw [e_ihs, UpdateExecutor.update_indexes_mem _ _ _ _ _ _ hnames hindex,
    IxIndexHandle.lookup_delete_insert]

theorem UpdateExecutor.Next_loop_lookup_untouched (env : ExecEnv) (index : IndexMeta)
    (K : List Byte) (rids : List Rid) :
    ∀ ex fin : UpdateExecutor, UpdateExecutor.Ready env ex rids →
      (ex.tab_.indexes.map (fun ix => get_index_name ix.cols)).Nodup →
      index ∈ ex.tab_.indexes →
      UpdateExecutor.Next_loop env rids ex = (.ok (), fin) →
      (∀ r ∈ rids, ∀ old, ex.fh_.get_record r = .ok (some old) →
        UpdateExecutor.index_key index old.data ≠ K ∧
        UpdateExecutor.index_key index (UpdateExecutor.post env ex old.data) ≠ K) →
      (fin.ihs_ (get_index_name index.cols)).lookup K
        = (ex.ihs_ (get_index_name index.cols)).lookup K := by
  induction rids with
  | nil =>
    intro ex fin _ _ _ hrun _
    have : fin = ex := (congrArg Prod.snd hrun).symm
    rw [this]
  | cons rid rest ih =>
    intro ex fin hready hnames hindex hrun hun
    obtain ⟨old, ex1, hold, holdlen, hone, e_tab, _, e_ihs, _, _, hget, hother, e_post,
      hready1⟩ := UpdateExecutor.ready_step env ex rid rest hready
    rw [UpdateExecutor.Next_loop, hone] at hrun
    obtain ⟨ha, hb⟩ := hun rid (List.mem_cons_self _ _) old hold
    rw [ih ex1 fin hready1 (by rw [e_tab]; exact hnames) (by rw [e_tab]; exact hindex) hrun,
      UpdateExecutor.ready_step_lookup env ex ex1 rid old index hnames hindex e_ihs K,
      if_neg (fun e => hb e.symm), if_neg (fun e => ha e.symm)]
    intro r hr old1 hold1
    rw [e_post]
    by_cases hne : r = rid
    · rw [hne, hget] at hold1
      cases hold1
      simp only
      rw [UpdateExecutor.post_idem env ex _ hready old.data holdlen]
      exact ⟨hb, hb⟩
    · rw [hother r hne] at hold1
      exact hun r (List.mem_cons_of_mem _ hr) old1 hold1

theorem UpdateExecutor.Next_loop_lookup_last (env : ExecEnv) (index : IndexMeta)
    (K : List Byte) (r : Rid) (suf : List Rid) (pre : List Rid) :
    ∀ ex fin : UpdateExecutor, UpdateExecutor.Ready env ex (pre ++ r :: suf) →
      (ex.tab_.indexes.map (fun ix => get_index_name ix.cols)).Nodup →
      index ∈ ex.tab_.indexes →
      (∀ c ∈ index.cols.take index.col_num,
        c.offset + c.len ≤ ex.fh_.file_hdr_.record_size) →
      UpdateExecutor.Next_loop env (pre ++ r :: suf) ex = (.ok (), fin) →
      (∀ old, ex.fh_.get_record r = .ok (some old) →
        UpdateExecutor.index_key index (UpdateExecutor.post env ex old.data) = K) →
      (∀ q ∈ suf, ∀ old, ex.fh_.get_record q = .ok (some old) →
        UpdateExecutor.index_key index (UpdateExecutor.post env ex old.data) ≠ K) →
      (fin.ihs_ (get_index_name index.cols)).lookup K = some r := by
  induction pre with
  | nil =>
    intro ex fin hready hnames hindex hkey hrun hr hsuf
    rw [List.nil_append] at hready hrun
    obtain ⟨old, ex1, hold, holdlen, hone, e_tab, _, e_ihs, _, _, hget, hother, e_post,
      hready1⟩ := UpdateExecutor.ready_step env ex r suf hready
    rw [UpdateExecutor.Next_loop, hone] at hrun
    have hK := hr old hold
    have hnot : r ∉ suf := fun h => hsuf r h old hold hK
    rw [UpdateExecutor.Next_loop_lookup_untouched env index K suf ex1 fin hready1
        (by rw [e_tab]; exact hnames) (by rw [e_tab]; exact hindex) hrun,
      UpdateExecutor.ready_step_lookup env ex ex1 r old index hnames hindex e_ihs K,
      if_pos hK.symm]
    intro q hq old1 hold1
    have hne : q ≠ r := by
      intro e
      rw [e] at hq
      exact hnot hq
    rw [hother q hne] at hold1
    rw [e_post]
    have hpost := hsuf q hq old1 hold1
    refine ⟨?_, hpost⟩
    intro hk
    obtain ⟨old2, g1, g2⟩ := hready.2.2 q (List.mem_cons_of_mem _ hq)
    rw [hold1] at g1
    cases g1
    apply hpost
    rw [← hK]
    exact UpdateExecutor.post_key_stable env ex _ hready index hkey old1.data old.data g2
      holdlen (by rw [hk, hK])
  | cons p pre ih =>
    intro ex fin hready hnames hindex hkey hrun hr hsuf
    rw [List.cons_append] at hready hrun
    obtain ⟨old, ex1, hold, holdlen, hone, e_tab, _, _, e_hdr, _, hget, hother, e_post,
      hready1⟩ := UpdateExecutor.ready_step env ex p (pre ++ r :: suf) hready
    rw [UpdateExecutor.Next_loop, hone] at hrun
    have htrans : ∀ q old1, ex1.fh_.get_record q = .ok (some old1) →
        ∃ old0, ex.fh_.get_record q = .ok (some old0) ∧
          UpdateExecutor.post env ex old1.data = UpdateExecutor.post env ex old0.data := by
      intro q old1 h1
      by_cases hne : q = p
      · rw [hne, hget] at h1
        cases h1
        exact ⟨old, by rw [hne]; exact hold,
          UpdateExecutor.post_idem env ex _ hready old.data holdlen⟩
      · rw [hother q hne] at h1
        exact ⟨old1, h1, rfl⟩
    apply ih ex1 fin hready1 (by rw [e_tab]; exact hnames) (by rw [e_tab]; exact hindex)
      (by rw [e_hdr]; exact hkey) hrun
    · intro old1 h1
      obtain ⟨old0, g1, g2⟩ := htrans r old1 h1
      rw [e_post, g2]
      exact hr old0 g1
    · intro q hq old1 h1
      obtain ⟨old0, g1, g2⟩ := htrans q old1 h1
      rw [e_post, g2]
      exact hsuf q hq old0 g1

theorem UpdateExecutor.Next_loop_ihs_other (env : ExecEnv) (nm : List String)
    (rids : List Rid) :
    ∀ ex fin : UpdateExecutor, UpdateExecutor.Ready env ex rids →
      nm ∉ ex.tab_.indexes.map (fun ix => get_index_name ix.cols) →
      UpdateExecutor.Next_loop env rids ex = (.ok (), fin) → fin.ihs_ nm = ex.ihs_ nm := by
  induction rids with
  | nil =>
    intro ex fin _ _ hrun
    have : fin = ex := (congrArg Prod.snd hrun).symm
    rw [this]
  | cons rid rest ih =>
    intro ex fin hready hnot hrun
    obtain ⟨old, ex1, _, _, hone, e_tab, _, e_ihs, _, _, _, _, _, hready1⟩ :=
      UpdateExecutor.ready_step env ex rid rest hready
    rw [UpdateExecutor.Next_loop, hone] at hrun
    rw [ih ex1 fin hready1 (by rw [e_tab]; exact hnot) hrun, e_ihs,
      UpdateExecutor.update_indexes_not_mem _ _ _ _ _ _ hnot]

theorem UpdateExecutor.update_one_rids (env : ExecEnv) (ex : UpdateExecutor) (rid : Rid) :
    (UpdateExecutor.update_one env ex rid).2.rids_ = ex.rids_ := by
  unfold UpdateExecutor.update_one
  cases hg : ex.fh_.get_record rid with
  | error e => rfl
  | ok o =>
    cases o with
    | none => rfl
    | some old =>
      simp only []
      cases ha : UpdateExecutor.apply_set_clauses env ex.tab_ ex.set_clauses_
          (memcpy (List.replicate ex.fh_.file_hdr_.record_size 0) old.data
            ex.fh_.file_hdr_.record_size) with
      | error e => rfl
      | ok new_record =>
        simp only []
        rcases hu : ex.fh_.update_record rid new_record with ⟨r, fh1⟩
        cases r with
        | error e => rfl
        | ok u => rfl

theorem UpdateExecutor.Next_loop_rids (env : ExecEnv) (rids : List Rid) :
    ∀ ex : UpdateExecutor, (UpdateExecutor.Next_loop env rids ex).2.rids_ = ex.rids_ := by
  induction rids with
  | nil =>
    intro ex
    rfl
  | cons rid rids ih =>
    intro ex
    rw [UpdateExecutor.Next_loop]
    have h1 := UpdateExecutor.update_one_rids env ex rid
    rcases hu : UpdateExecutor.update_one env ex rid with ⟨r, ex1⟩
    rw [hu] at h1
    cases r with
    | error e => exact h1
    | ok u => exact (ih ex1).trans h1

/-- C28: when every set clause is applicable, every target Rid holds a live record of the
record size, the declared indexes have distinct names and their key columns lie inside the
record, `Next` succeeds, `Next` run again on the state it left succeeds as well, and the
second run changes nothing that can be observed: the file keeps its header, pages, record
counts and bitmaps, `get_record` returns at every Rid what it returned after the first run,
and every lookup in every index handle resolves as after the first run. -/
theorem update_is_idempotent (env : ExecEnv) (ex : UpdateExecutor)
    (hwf : ∀ sc ∈ ex.set_clauses_, ∃ col raw,
      ex.tab_.get_col sc.lhs.col_name = .ok col ∧ col.type = sc.rhs.type ∧
      env.init_raw { sc.rhs with raw := none } col.len = .ok raw ∧
      raw.data.length = col.len ∧ col.offset + col.len ≤ ex.fh_.file_hdr_.record_size)
    (hlive : ∀ rid ∈ ex.rids_, ∃ old, ex.fh_.get_record rid = .ok (some old) ∧
      old.data.length = ex.fh_.file_hdr_.record_size)
    (hnames : (ex.tab_.indexes.map (fun ix => get_index_name ix.cols)).Nodup)
    (hkey : ∀ index ∈ ex.tab_.indexes, ∀ c ∈ index.cols.take index.col_num,
      c.offset + c.len ≤ ex.fh_.file_hdr_.record_size) :
    ∃ fin1 fin2, UpdateExecutor.Next env ex = (.ok none, fin1) ∧
      UpdateExecutor.Next env fin1 = (.ok none, fin2) ∧
      SameLayout fin1.fh_ fin2.fh_ ∧
      (∀ rid, fin2.fh_.get_record rid = fin1.fh_.get_record rid) ∧
      ∀ nm K, (fin2.ihs_ nm).lookup K = (fin1.ihs_ nm).lookup K := by
  have hready := UpdateExecutor.ready_of_wf env ex hwf hlive
  obtain ⟨fin1, hrun1, _, _, htar1⟩ :=
    UpdateExecutor.Next_loop_effect env ex.rids_ ex hready.1 hready.2.1 hready.2.2
  have hf := UpdateExecutor.Next_loop_fields env ex.rids_ ex
  have hr := UpdateExecutor.Next_loop_rids env ex.rids_ ex
  rw [hrun1] at hf hr
  obtain ⟨e_tab, e_sc, e_hdr⟩ : fin1.tab_ = ex.tab_ ∧ fin1.set_clauses_ = ex.set_clauses_ ∧
    fin1.fh_.file_hdr_ = ex.fh_.file_hdr_ := hf
  have e_rids : fin1.rids_ = ex.rids_ := hr
  have e_post : ∀ d, UpdateExecutor.post env fin1 d = UpdateExecutor.post env ex d := by
    intro d
    unfold UpdateExecutor.post
    rw [e_tab, e_sc]
  have hrec1 : ∀ r ∈ ex.rids_, ∀ old, ex.fh_.get_record r = .ok (some old) →
      fin1.fh_.get_record r = .ok (some ⟨ex.fh_.file_hdr_.record_size,
        UpdateExecutor.post env ex old.data⟩) := htar1
  have hready1 : UpdateExecutor.Ready env fin1 ex.rids_ := by
    refine ⟨by rw [e_tab, e_sc]; exact hready.1, by rw [e_tab, e_sc, e_hdr]; exact hready.2.1,
      ?_⟩
    intro r hr
    obtain ⟨old, ho, hl⟩ := hlive r hr
    exact ⟨_, hrec1 r hr old ho, by
      rw [e_hdr]
      exact UpdateExecutor.post_length env ex _ hready old.data hl⟩
  obtain ⟨fin2, hrun2, hlay2, hframe2, htar2⟩ :=
    UpdateExecutor.Next_loop_effect env ex.rids_ fin1 hready1.1 hready1.2.1 hready1.2.2
  have hrec2 : ∀ r ∈ ex.rids_, ∀ old1, fin1.fh_.get_record r = .ok (some old1) →
      fin2.fh_.get_record r = .ok (some ⟨fin1.fh_.file_hdr_.record_size,
        UpdateExecutor.post env fin1 old1.data⟩) := htar2
  refine ⟨fin1, fin2, ?_, ?_, hlay2, ?_, ?_⟩
  · unfold UpdateExecutor.Next
    rw [hrun1]
  · unfold UpdateExecutor.Next
    rw [e_rids, hrun2]
  · intro rid
    by_cases hr : rid ∈ ex.rids_
    · obtain ⟨old, ho, hl⟩ := hlive rid hr
      rw [hrec2 rid hr _ (hrec1 rid hr old ho), hrec1 rid hr old ho, e_hdr, e_post]
      rw [UpdateExecutor.post_idem env ex _ hready old.data hl]
    · exact hframe2 rid hr
  · intro nm K
    by_cases hn : nm ∈ ex.tab_.indexes.map (fun ix => get_index_name ix.cols)
    · obtain ⟨index, hindex, hnm⟩ := List.mem_map.1 hn
      rw [← hnm]
      have hpost1 : ∀ r ∈ ex.rids_, ∀ old1, fin1.fh_.get_record r = .ok (some old1) →
          ∃ old, ex.fh_.get_record r = .ok (some old) ∧
            old.data.length = ex.fh_.file_hdr_.record_size ∧
            old1.data = UpdateExecutor.post env ex old.data := by
        intro r hr old1 h1
        obtain ⟨old, ho, hl⟩ := hlive r hr
        rw [hrec1 r hr old ho] at h1
        cases h1
        exact ⟨old, ho, hl, rfl⟩
      by_cases hex : ∃ r ∈ ex.rids_, ∃ old, ex.fh_.get_record r = .ok (some old) ∧
          UpdateExecutor.index_key index (UpdateExecutor.post env ex old.data) = K
      · obtain ⟨pre, r, suf, hsplit, ⟨old, ho, hK⟩, hsuf⟩ :=
          exists_last_of_exists (fun r => ∃ old, ex.fh_.get_record r = .ok (some old) ∧
            UpdateExecutor.index_key index (UpdateExecutor.post env ex old.data) = K)
            ex.rids_ hex
        have hmem : ∀ q ∈ suf, q ∈ ex.rids_ := by
          intro q hq
          rw [hsplit]
          simp [hq]
        have hrmem : r ∈ ex.rids_ := by
          rw [hsplit]
          simp
        rw [hsplit] at hrun1 hrun2 hready hready1
        rw [UpdateExecutor.Next_loop_lookup_last env index K r suf pre ex fin1 hready hnames
            hindex (hkey index hindex) hrun1
            (fun old0 h0 => by
              rw [ho] at h0
              cases h0
              exact hK)
            (fun q hq old0 h0 hk => hsuf q hq ⟨old0, h0, hk⟩),
          UpdateExecutor.Next_loop_lookup_last env index K r suf pre fin1 fin2 hready1
            (by rw [e_tab]; exact hnames) (by rw [e_tab]; exact hindex)
            (by rw [e_hdr]; exact hkey index hindex) hrun2
            (fun old1 h1 => by
              obtain ⟨old0, g0, gl, g1⟩ := hpost1 r hrmem old1 h1
              rw [ho] at g0
              cases g0
              rw [e_post, g1, UpdateExecutor.post_idem env ex _
                (UpdateExecutor.ready_of_wf env ex hwf hlive) old.data gl]
              exact hK)
            (fun q hq old1 h1 hk => by
              obtain ⟨old0, g0, gl, g1⟩ := hpost1 q (hmem q hq) old1 h1
              rw [e_post, g1, UpdateExecutor.post_idem env ex _
                (UpdateExecutor.ready_of_wf env ex hwf hlive) old0.data gl] at hk
              exact hsuf q hq ⟨old0, g0, hk⟩)]
      · apply UpdateExecutor.Next_loop_lookup_untouched env index K ex.rids_ fin1 fin2 hready1
          (by rw [e_tab]; exact hnames) (by rw [e_tab]; exact hindex) hrun2
        intro r hr old1 h1
        obtain ⟨old0, g0, gl, g1⟩ := hpost1 r hr old1 h1
        rw [e_post, g1, UpdateExecutor.post_idem env ex _ hready old0.data gl]
        have : UpdateExecutor.index_key index (UpdateExecutor.post env ex old0.data) ≠ K :=
          fun hk => hex ⟨r, hr, old0, g0, hk⟩
        exact ⟨this, this⟩
    · have h2 := UpdateExecutor.Next_loop_ihs_other env nm ex.rids_ fin1 fin2 hready1
        (by rw [e_tab]; exact hn) hrun2
      rw [h2]

/-- C28 at the example table: `SET a = 99` on the targets (0,0) and (0,2), run twice. -/
theorem update_is_idempotent_witness :
    ∃ fin1 fin2,
      UpdateExecutor.Next updEnv (exampleUpdate [⟨0, 0⟩, ⟨0, 2⟩]) = (.ok none, fin1) ∧
      UpdateExecutor.Next updEnv fin1 = (.ok none, fin2) ∧
      SameLayout fin1.fh_ fin2.fh_ ∧
      (∀ rid, fin2.fh_.get_record rid = fin1.fh_.get_record rid) ∧
      ∀ nm K, (fin2.ihs_ nm).lookup K = (fin1.ihs_ nm).lookup K :=
  update_is_idempotent updEnv (exampleUpdate [⟨0, 0⟩, ⟨0, 2⟩])
    (fun sc hsc => by
      rw [List.mem_singleton.1 hsc]
      exact ⟨⟨"t", "a", .TYPE_INT, 4, 0⟩, ⟨4, enc4 99⟩, rfl, rfl, rfl, rfl, by decide⟩)
    (fun rid hrid => by
      rcases List.mem_cons.1 hrid with h | h
      · rw [h]
        exact ⟨⟨4, enc4 1⟩, rfl, rfl⟩
      · rw [List.mem_singleton.1 h]
        exact ⟨⟨4, enc4 2⟩, rfl, rfl⟩)
    (by decide)
    (fun index hindex c hc => by
      rw [List.mem_singleton.1 hindex] at hc
      rw [List.mem_singleton.1 hc]
      decide)

/-! ## Update executor: index maintenance for every target -/

theorem exists_first_of_mem {α : Type} (a : α) (l : List α) (h : a ∈ l) :
    ∃ pre suf, l = pre ++ a :: suf ∧ a ∉ pre := by
  induction l with
  | nil => simp at h
  | cons b l ih =>
    by_cases hb : b = a
    · exact ⟨[], l, by rw [hb]; rfl, List.not_mem_nil a⟩
    · rcases List.mem_cons.1 h with e | e
      · exact absurd e.symm hb
      · obtain ⟨pre, suf, hl, hn⟩ := ih e
        refine ⟨b :: pre, suf, by rw [hl]; rfl, ?_⟩
        intro hm
        rcases List.mem_cons.1 hm with e1 | e1
        · exact hb e1.symm
        · exact hn e1

theorem UpdateExecutor.Next_loop_lookup_none (env : ExecEnv) (index : IndexMeta)
    (K : List Byte) (rids : List Rid) :
    ∀ ex fin : UpdateExecutor, UpdateExecutor.Ready env ex rids →
      (ex.tab_.indexes.map (fun ix => get_index_name ix.cols)).Nodup →
      index ∈ ex.tab_.indexes →
      UpdateExecutor.Next_loop env rids ex = (.ok (), fin) →
      (∀ q ∈ rids, ∀ old, ex.fh_.get_record q = .ok (some old) →
        UpdateExecutor.index_key index (UpdateExecutor.post env ex old.data) ≠ K) →
      (ex.ihs_ (get_index_name index.cols)).lookup K = none →
      (fin.ihs_ (get_index_name index.cols)).lookup K = none := by
  induction rids with
  | nil =>
    intro ex fin _ _ _ hrun _ hnone
    have : fin = ex := (congrArg Prod.snd hrun).symm
    rw [this]
    exact hnone
  | cons rid rest ih =>
    intro ex fin hready hnames hindex hrun hun hnone
    obtain ⟨old, ex1, hold, holdlen, hone, e_tab, _, e_ihs, _, _, hget, hother, e_post,
      hready1⟩ := UpdateExecutor.ready_step env ex rid rest hready
    rw [UpdateExecutor.Next_loop, hone] at hrun
    have hb := hun rid (List.mem_cons_self _ _) old hold
    apply ih ex1 fin hready1 (by rw [e_tab]; exact hnames) (by rw [e_tab]; exact hindex) hrun
    · intro q hq old1 hold1
      rw [e_post]
      by_cases hne : q = rid
      · rw [hne, hget] at hold1
        cases hold1
        simp only
        rw [UpdateExecutor.post_idem env ex _ hready old.data holdlen]
        exact hb
      · rw [hother q hne] at hold1
        exact hun q (List.mem_cons_of_mem _ hq) old1 hold1
    · rw [UpdateExecutor.ready_step_lookup env ex ex1 rid old index hnames hindex e_ihs K,
        if_neg (fun e => hb e.symm), hnone]
      simp

theorem UpdateExecutor.Next_loop_lookup_deleted (env : ExecEnv) (index : IndexMeta)
    (K : List Byte) (r : Rid) (suf : List Rid) (pre : List Rid) :
    ∀ ex fin : UpdateExecutor, UpdateExecutor.Ready env ex (pre ++ r :: suf) →
      (ex.tab_.indexes.map (fun ix => get_index_name ix.cols)).Nodup →
      index ∈ ex.tab_.indexes →
      UpdateExecutor.Next_loop env (pre ++ r :: suf) ex = (.ok (), fin) →
      r ∉ pre →
      (∀ old, ex.fh_.get_record r = .ok (some old) →
        UpdateExecutor.index_key index old.data = K) →
      (∀ q ∈ pre ++ r :: suf, ∀ old, ex.fh_.get_record q = .ok (some old) →
        UpdateExecutor.index_key index (UpdateExecutor.post env ex old.data) ≠ K) →
      (fin.ihs_ (get_index_name index.cols)).lookup K = none := by
  induction pre with
  | nil =>
    intro ex fin hready hnames hindex hrun _ hr hun
    rw [List.nil_append] at hready hrun hun
    obtain ⟨old, ex1, hold, holdlen, hone, e_tab, _, e_ihs, _, _, hget, hother, e_post,
      hready1⟩ := UpdateExecutor.ready_step env ex r suf hready
    rw [UpdateExecutor.Next_loop, hone] at hrun
    have hb := hun r (List.mem_cons_self _ _) old hold
    apply UpdateExecutor.Next_loop_lookup_none env index K suf ex1 fin hready1
      (by rw [e_tab]; exact hnames) (by rw [e_tab]; exact hindex) hrun
    · intro q hq old1 hold1
      rw [e_post]
      by_cases hne : q = r
      · rw [hne, hget] at hold1
        cases hold1
        simp only
        rw [UpdateExecutor.post_idem env ex _ hready old.data holdlen]
        exact hb
      · rw [hother q hne] at hold1
        exact hun q (List.mem_cons_of_mem _ hq) old1 hold1
    · rw [UpdateExecutor.ready_step_lookup env ex ex1 r old index hnames hindex e_ihs K,
        if_neg (fun e => hb e.symm), if_pos (hr old hold).symm]
  | cons p pre ih =>
    intro ex fin hready hnames hindex hrun hnot hr hun
    rw [List.cons_append] at hready hrun hun
    obtain ⟨old, ex1, hold, holdlen, hone, e_tab, _, _, _, _, hget, hother, e_post,
      hready1⟩ := UpdateExecutor.ready_step env ex p (pre ++ r :: suf) hready
    rw [UpdateExecutor.Next_loop, hone] at hrun
    have hrp : r ≠ p := fun e => hnot (by rw [e]; exact List.mem_cons_self _ _)
    apply ih ex1 fin hready1 (by rw [e_tab]; exact hnames) (by rw [e_tab]; exact hindex) hrun
      (fun h => hnot (List.mem_cons_of_mem _ h))
    · intro old1 h1
      rw [hother r hrp] at h1
      exact hr old1 h1
    · intro q hq old1 h1
      rw [e_post]
      by_cases hne : q = p
      · rw [hne, hget] at h1
        cases h1
        simp only
        rw [UpdateExecutor.post_idem env ex _ hready old.data holdlen]
        exact hun p (List.mem_cons_self _ _) old hold
      · rw [hother q hne] at h1
        exact hun q (List.mem_cons_of_mem _ hq) old1 h1

/-- C14, amended: when every set clause is applicable, every target Rid holds a live record
of the record size, the declared indexes have distinct names and the key columns of the
index lie inside the record, `Next` succeeds and, for every declared index and every target
Rid `rid` with pre-image `old` and post-image `post old` (the record stored at `rid`
afterwards): a lookup of the pre-image key resolves to nothing whenever the two keys
differ; a lookup of the post-image key resolves to `rid` whenever no different target
processed after `rid` has the same post-image key; and this restriction cannot be dropped,
since a target processed after the last occurrence of `rid` with the same post-image key
takes the entry over. The post-image key is the concatenation of the key columns' bytes of
the post-image, in key-column order (followed by zero bytes when the declared key length
exceeds the key columns' total length). -/
theorem update_maintains_index (env : ExecEnv) (ex : UpdateExecutor) (index : IndexMeta)
    (rid : Rid)
    (hwf : ∀ sc ∈ ex.set_clauses_, ∃ col raw,
      ex.tab_.get_col sc.lhs.col_name = .ok col ∧ col.type = sc.rhs.type ∧
      env.init_raw { sc.rhs with raw := none } col.len = .ok raw ∧
      raw.data.length = col.len ∧ col.offset + col.len ≤ ex.fh_.file_hdr_.record_size)
    (hlive : ∀ rid ∈ ex.rids_, ∃ old, ex.fh_.get_record rid = .ok (some old) ∧
      old.data.length = ex.fh_.file_hdr_.record_size)
    (hnames : (ex.tab_.indexes.map (fun ix => get_index_name ix.cols)).Nodup)
    (hindex : index ∈ ex.tab_.indexes)
    (hkey : ∀ c ∈ index.cols.take index.col_num,
      c.offset + c.len ≤ ex.fh_.file_hdr_.record_size)
    (hrid : rid ∈ ex.rids_) :
    ∃ fin old, UpdateExecutor.Next env ex = (.ok none, fin) ∧
      ex.fh_.get_record rid = .ok (some old) ∧
      fin.fh_.get_record rid = .ok (some ⟨ex.fh_.file_hdr_.record_size,
        UpdateExecutor.post env ex old.data⟩) ∧
      (UpdateExecutor.index_key index old.data
          ≠ UpdateExecutor.index_key index (UpdateExecutor.post env ex old.data) →
        (fin.ihs_ (get_index_name index.cols)).lookup
          (UpdateExecutor.index_key index old.data) = none) ∧
      (∀ pre suf, ex.rids_ = pre ++ rid :: suf →
        (∀ q ∈ suf, q ≠ rid → ∀ oq, ex.fh_.get_record q = .ok (some oq) →
          UpdateExecutor.index_key index (UpdateExecutor.post env ex oq.data)
            ≠ UpdateExecutor.index_key index (UpdateExecutor.post env ex old.data)) →
        (fin.ihs_ (get_index_name index.cols)).lookup
          (UpdateExecutor.index_key index (UpdateExecutor.post env ex old.data)) = some rid) ∧
      (∀ pre suf, ex.rids_ = pre ++ rid :: suf → rid ∉ suf →
        (∃ q ∈ suf, ∃ oq, ex.fh_.get_record q = .ok (some oq) ∧
          UpdateExecutor.index_key index (UpdateExecutor.post env ex oq.data)
            = UpdateExecutor.index_key index (UpdateExecutor.post env ex old.data)) →
        (fin.ihs_ (get_index_name index.cols)).lookup
          (UpdateExecutor.index_key index (UpdateExecutor.post env ex old.data)) ≠ some rid) ∧
      UpdateExecutor.index_key index (UpdateExecutor.post env ex old.data) =
        (index.cols.take index.col_num).flatMap (colBytes (UpdateExecutor.post env ex old.data))
          ++ (List.replicate index.col_tot_len 0).drop
            (colsLen (index.cols.take index.col_num)) := by
  have hready := UpdateExecutor.ready_of_wf env ex hwf hlive
  obtain ⟨fin, hrun, _, _, htar⟩ :=
    UpdateExecutor.Next_loop_effect env ex.rids_ ex hready.1 hready.2.1 hready.2.2
  obtain ⟨old, hold, holdlen⟩ := hlive rid hrid
  refine ⟨fin, old, ?_, hold, htar rid hrid old hold, ?_, ?_, ?_,
    UpdateExecutor.index_key_eq index _ (by
      rw [UpdateExecutor.post_length env ex _ hready old.data holdlen]
      exact hkey)⟩
  · unfold UpdateExecutor.Next
    rw [hrun]
  · intro hne
    obtain ⟨pre, suf, hsplit, hnot⟩ := exists_first_of_mem rid ex.rids_ hrid
    have hun : ∀ q ∈ pre ++ rid :: suf, ∀ oq, ex.fh_.get_record q = .ok (some oq) →
        UpdateExecutor.index_key index (UpdateExecutor.post env ex oq.data)
          ≠ UpdateExecutor.index_key index old.data := by
      intro q hq oq hoq hk
      obtain ⟨oq1, g1, g2⟩ := hlive q (by rw [hsplit]; exact hq)
      rw [hoq] at g1
      cases g1
      have := UpdateExecutor.post_key_stable env ex _ hready index hkey old.data oq.data
        holdlen g2 hk.symm
      exact hne (hk.symm.trans this.symm)
    rw [hsplit] at hrun hready
    exact UpdateExecutor.Next_loop_lookup_deleted env index _ rid suf pre ex fin hready hnames
      hindex hrun hnot
      (fun old0 h0 => by
        rw [hold] at h0
        cases h0
        rfl)
      hun
  · intro pre suf hsplit hsuf
    obtain ⟨pre1, suf1, hsplit1, hsub⟩ : ∃ pre1 suf1, ex.rids_ = pre1 ++ rid :: suf1 ∧
        ∀ q ∈ suf1, q ∈ suf ∧ q ≠ rid := by
      by_cases hin : rid ∈ suf
      · obtain ⟨s1, x, s2, hs, hx, hs2⟩ :=
          exists_last_of_exists (fun x => x = rid) suf ⟨rid, hin, rfl⟩
        subst hx
        refine ⟨pre ++ x :: s1, s2, by rw [hsplit, hs]; simp, ?_⟩
        intro q hq
        exact ⟨by rw [hs]; simp [hq], hs2 q hq⟩
      · exact ⟨pre, suf, hsplit, fun q hq => ⟨hq, fun e => hin (e ▸ hq)⟩⟩
    rw [hsplit1] at hrun hready
    exact UpdateExecutor.Next_loop_lookup_last env index _ rid suf1 pre1 ex fin hready hnames
      hindex hkey hrun
      (fun old0 h0 => by
        rw [hold] at h0
        cases h0
        rfl)
      (fun q hq oq hoq => hsuf q (hsub q hq).1 (hsub q hq).2 oq hoq)
  · intro pre suf hsplit hnot hex
    obtain ⟨s1, q, s2, hs, ⟨oq, hoq, hk⟩, hs2⟩ :=
      exists_last_of_exists (fun q => ∃ oq, ex.fh_.get_record q = .ok (some oq) ∧
        UpdateExecutor.index_key index (UpdateExecutor.post env ex oq.data)
          = UpdateExecutor.index_key index (UpdateExecutor.post env ex old.data)) suf
        (by
          obtain ⟨q, hq, oq, h1, h2⟩ := hex
          exact ⟨q, hq, oq, h1, h2⟩)
    have hqs : q ∈ suf := by rw [hs]; simp
    have hqr : q ≠ rid := fun e => hnot (e ▸ hqs)
    have hsplit2 : ex.rids_ = (pre ++ rid :: s1) ++ q :: s2 := by rw [hsplit, hs]; simp
    rw [hsplit2] at hrun hready
    rw [UpdateExecutor.Next_loop_lookup_last env index _ q s2 (pre ++ rid :: s1) ex fin hready
      hnames hindex hkey hrun
      (fun old0 h0 => by
        rw [hoq] at h0
        cases h0
        exact hk)
      (fun p hp op hop hpk => hs2 p hp ⟨op, hop, hpk⟩)]
    intro e
    cases e
    exact hqr rfl

/-- C14 (amended) at two examples. On the table `T(a, b)` holding (1,10) and (2,20) with an
index on `(a, b)`, `SET a = 99` on both rows leaves the key (99,10) resolving to the first
target (0,0) and the key (1,10) resolving to nothing. On the example of the specification,
`SET a = 99` on the row (0,0) where `a = 1`, indexed on `a`, leaves key 99 resolving to
(0,0) and key 1 resolving to nothing. -/
theorem update_maintains_index_witness :
    (((UpdateExecutor.Next updEnv exampleUpdateAB).2.ihs_
          (get_index_name exampleIndexAB.cols)).lookup (enc4 99 ++ enc4 10) = some ⟨0, 0⟩ ∧
      ((UpdateExecutor.Next updEnv exampleUpdateAB).2.ihs_
          (get_index_name exampleIndexAB.cols)).lookup (enc4 1 ++ enc4 10) = none) ∧
    (((UpdateExecutor.Next updEnv (exampleUpdate [⟨0, 0⟩])).2.ihs_
          (get_index_name exampleIndexA.cols)).lookup (enc4 99) = some ⟨0, 0⟩ ∧
      ((UpdateExecutor.Next updEnv (exampleUpdate [⟨0, 0⟩])).2.ihs_
          (get_index_name exampleIndexA.cols)).lookup (enc4 1) = none) := by
  constructor
  · obtain ⟨fin, old, h1, h2, _, h4, h5, _⟩ :=
      update_maintains_index updEnv exampleUpdateAB exampleIndexAB ⟨0, 0⟩
        (fun sc hsc => by
          rw [List.mem_singleton.1 hsc]
          exact ⟨⟨"t", "a", .TYPE_INT, 4, 0⟩, ⟨4, enc4 99⟩, rfl, rfl, rfl, rfl, by decide⟩)
        (fun rid hrid => by
          rcases List.mem_cons.1 hrid with h | h
          · rw [h]
            exact ⟨⟨8, enc4 1 ++ enc4 10⟩, rfl, rfl⟩
          · rw [List.mem_singleton.1 h]
            exact ⟨⟨8, enc4 2 ++ enc4 20⟩, rfl, rfl⟩)
        (by decide) (List.mem_cons_self _ _) (by decide) (List.mem_cons_self _ _)
    have e1 : fin = (UpdateExecutor.Next updEnv exampleUpdateAB).2 := by rw [h1]
    have e2 : old = ⟨8, enc4 1 ++ enc4 10⟩ := by
      have h : exampleUpdateAB.fh_.get_record ⟨0, 0⟩ = .ok (some ⟨8, enc4 1 ++ enc4 10⟩) := rfl
      rw [h] at h2
      cases h2
      rfl
    subst e1 e2
    refine ⟨h5 [] [⟨0, 1⟩] rfl ?_, h4 (by decide)⟩
    intro q hq _ oq hoq
    rw [List.mem_singleton.1 hq] at hoq
    have h : exampleUpdateAB.fh_.get_record ⟨0, 1⟩ = .ok (some ⟨8, enc4 2 ++ enc4 20⟩) := rfl
    rw [h] at hoq
    cases hoq
    decide
  · obtain ⟨fin, old, h1, h2, _, h4, h5, _⟩ :=
      update_maintains_index updEnv (exampleUpdate [⟨0, 0⟩]) exampleIndexA ⟨0, 0⟩
        (fun sc hsc => by
          rw [List.mem_singleton.1 hsc]
          exact ⟨⟨"t", "a", .TYPE_INT, 4, 0⟩, ⟨4, enc4 99⟩, rfl, rfl, rfl, rfl, by decide⟩)
        (fun rid hrid => by
          rw [List.mem_singleton.1 hrid]
          exact ⟨⟨4, enc4 1⟩, rfl, rfl⟩)
        (by decide) (List.mem_cons_self _ _) (by decide) (List.mem_cons_self _ _)
    have e1 : fin = (UpdateExecutor.Next updEnv (exampleUpdate [⟨0, 0⟩])).2 := by rw [h1]
    have e2 : old = ⟨4, enc4 1⟩ := by
      have h : (exampleUpdate [⟨0, 0⟩]).fh_.get_record ⟨0, 0⟩ = .ok (some ⟨4, enc4 1⟩) := rfl
      rw [h] at h2
      cases h2
      rfl
    subst e1 e2
    exact ⟨h5 [] [] rfl (fun q hq => absurd hq (List.not_mem_nil q)), h4 (by decide)⟩

end Rucbase
